import Mathlib

/-!
# Qpid broker queue engine: message-group allocator and queue operations

A shallow embedding of `qpid/cpp/src/qpid/broker/Queue.cpp`, followed by one of the sender
side of `qpid/messaging/amqp/SenderContext.cpp`.

Conventions of the embedding.

* The embedded build is the one with assertions enabled (`NDEBUG` undefined), so the
  `#else` branches of the `#ifdef NDEBUG` blocks are the ones transcribed.  A failed
  `assert`, and an operation the C++ standard leaves undefined (`front()` of an empty list,
  dereferencing `end()`), make the embedded function return `none`.
* `uint32_t` counters are naturals reduced modulo `2^32` where the code increments them.
* A `std::map` is a list of key/value pairs kept in key order; a `GroupState*` stored in
  `freeGroups` is represented by the key of the node it points to in `messageGroups`
  (map nodes do not move until they are erased).
-/

namespace Qpid

/-- Number of values of a `uint32_t`. -/
def UINT32_SIZE : Nat := 4294967296

/-- Values held by a `framing::FieldTable`; only `str` answers `convertsTo<std::string>()`. -/
inductive FieldValue where
  | str (s : String)
  | int (i : Int)
  deriving DecidableEq, Repr

/-- Modelled from the spec: `broker::Message` (its class is not part of the sources at hand),
reduced to the accessors `Queue.cpp` calls.  `id` stands for the address of the shared
message object; `headers` is `getApplicationHeaders()` (`none` for a null table);
`expired` is `hasExpired()`; `durable` is the persistence of the message as published;
`contentReleasable` is `checkContentReleasable()`; `immediate` is `isImmediate()`;
`contentLoaded` is `isContentLoaded()`; `publisher` is `getPublisher()` (`none` for a null
connection token); `trace` is the list of trace identities the message carries. -/
structure Message where
  id : Nat
  headers : Option (List (String × FieldValue)) := none
  expired : Bool := false
  durable : Bool := false
  contentReleasable : Bool := false
  immediate : Bool := false
  contentLoaded : Bool := true
  publisher : Option Nat := none
  trace : List String := []
  deriving DecidableEq, Repr

/-- The `(position, payload)` pair of `QueuedMessage` (the queue back-pointer is implicit).
Modelled from the spec: `framing::SequenceNumber`, the type of `position` (declared in
`qpid/framing/SequenceNumber.h`, which is not part of the sources at hand), is the
"monotonically increasing per-queue sequence number" of the data model, taken as a natural
number with its usual order. -/
structure QueuedMessage where
  payload : Message
  position : Nat
  deriving DecidableEq, Repr

/-! ## `std::map` as a key-ordered association list -/

/-- Lexicographic `<` on lists of character codes. -/
def codesLt : List Nat → List Nat → Bool
  | _, [] => false
  | [], _ :: _ => true
  | a :: as, b :: bs => if a < b then true else if b < a then false else codesLt as bs

/-- The strict order `std::less<Key>` of a map's key type. -/
class KeyOrder (κ : Type) where
  lt : κ → κ → Bool

instance : KeyOrder Nat := ⟨fun a b => decide (a < b)⟩

/-- The order of `std::string::operator<`: lexicographic on the characters. -/
instance : KeyOrder String :=
  ⟨fun a b => codesLt (a.data.map Char.toNat) (b.data.map Char.toNat)⟩

namespace StdMap

variable {κ ν : Type}

/-- The value stored under `k` (`find`), if any. -/
def find [DecidableEq κ] : List (κ × ν) → κ → Option ν
  | [], _ => none
  | (k', v) :: rest, k => if k' = k then some v else find rest k

/-- Removal of the node stored under `k` (`erase`). -/
def erase [DecidableEq κ] : List (κ × ν) → κ → List (κ × ν)
  | [], _ => []
  | (k', v) :: rest, k => if k' = k then erase rest k else (k', v) :: erase rest k

/-- Assignment through `operator[]`: overwrite the node under `k`, or insert it in key order. -/
def put [DecidableEq κ] [KeyOrder κ] : List (κ × ν) → κ → ν → List (κ × ν)
  | [], k, v => [(k, v)]
  | (k', v') :: rest, k, v =>
    if k' = k then (k, v) :: rest
    else if KeyOrder.lt k k' then (k, v) :: (k', v') :: rest
    else (k', v') :: put rest k v

/-- The call `insert(value_type(k, v))` followed by `assert(unique)`. -/
def insertUnique [DecidableEq κ] [KeyOrder κ]
    (m : List (κ × ν)) (k : κ) (v : ν) : Option (List (κ × ν)) :=
  match find m k with
  | some _ => none
  | none => some (put m k v)

end StdMap

/-- Modelled from the spec: `broker::Consumer` (its class is not part of the sources at
hand), reduced to what `Queue.cpp` reads and writes: `getName()`, the `position` cursor,
`preAcquires()`, the `filter` and `accept` tests on a message, `getSession()`
(`none` for a null session token), and the messages handed to `deliver(msg)`, oldest
first. -/
structure Consumer where
  name : String
  position : Nat := 0
  preAcquires : Bool := true
  filter : Message → Bool := fun _ => true
  accept : Message → Bool := fun _ => true
  session : Option Nat := none
  delivered : List QueuedMessage := []

/-! ## Messages container -/

/-- Modelled from the spec: the `Messages` container (the `MessageDeque` and `MessageMap`
classes are not part of the sources at hand).  `items` holds the queued messages in
container order.  `key = none` is the insertion-ordered Deque variant; `key = some k` is the
last-value MessageMap variant keyed by header `k`. -/
structure Messages where
  key : Option String := none
  items : List QueuedMessage := []
  deriving DecidableEq, Repr

namespace Messages

/-- The container operation `empty()`. -/
def empty (ms : Messages) : Bool := ms.items.isEmpty

/-- The container operation `size()`. -/
def size (ms : Messages) : Nat := ms.items.length

/-- The container operation `front()`. -/
def front (ms : Messages) : Option QueuedMessage := ms.items.head?

/-- The container operation `find(position)`. -/
def find (ms : Messages) (pos : Nat) : Option QueuedMessage :=
  ms.items.find? (fun qm => decide (qm.position = pos))

/-- The container operation `next(afterPosition)`: first message with position greater than
the given one. -/
def next (ms : Messages) (pos : Nat) : Option QueuedMessage :=
  ms.items.find? (fun qm => decide (pos < qm.position))

/-- The container operation `remove(position)`: the message found at the position and the
container without it. -/
def remove (ms : Messages) (pos : Nat) : Option (QueuedMessage × Messages) :=
  match ms.find pos with
  | none => none
  | some qm => some (qm, { ms with items := ms.items.erase qm })

/-- Key of a message in the last-value variant: the string held by header `k` (empty when
the header is missing or not a string). -/
def keyOf (k : String) (qm : QueuedMessage) : String :=
  match qm.payload.headers with
  | none => ""
  | some headers =>
    match StdMap.find headers k with
    | some (FieldValue.str v) => v
    | _ => ""

/-- The container operation `push(qm)`: the container with `qm` appended, and the message it
displaced, if any.  The Deque never displaces; the last-value variant displaces the message
already held under the key of `qm`. -/
def push (ms : Messages) (qm : QueuedMessage) : Messages × Option QueuedMessage :=
  match ms.key with
  | none => ({ ms with items := ms.items ++ [qm] }, none)
  | some k =>
    match ms.items.find? (fun x => decide (keyOf k x = keyOf k qm)) with
    | none => ({ ms with items := ms.items ++ [qm] }, none)
    | some old => ({ ms with items := ms.items.erase old ++ [qm] }, some old)

/-- Insertion of `qm` in front of the first message with a greater position. -/
def insertByPosition (qm : QueuedMessage) : List QueuedMessage → List QueuedMessage
  | [] => [qm]
  | x :: rest =>
    if qm.position < x.position then qm :: x :: rest else x :: insertByPosition qm rest

/-- The container operation `reinsert(qm)`: restore a message preserving position order. -/
def reinsert (ms : Messages) (qm : QueuedMessage) : Messages :=
  { ms with items := insertByPosition qm ms.items }

/-- The messages are held in strictly increasing position order. -/
def Sorted (ms : Messages) : Prop :=
  ms.items.Pairwise (fun a b => a.position < b.position)

/-- The container operation `pop()`: the head and the container left. -/
def pop (ms : Messages) : Option (QueuedMessage × Messages) :=
  match ms.items with
  | [] => none
  | qm :: rest => some (qm, { ms with items := rest })

/-- The pass of `removeIf` over the messages: the predicate is a function object with state
`σ` (the collector it fills), called once on every message, in container order; the result
is the messages kept and the state of the predicate after the pass. -/
def removeIfLoop {σ : Type} (pred : σ → QueuedMessage → Bool × σ) :
    σ → List QueuedMessage → List QueuedMessage × σ
  | s, [] => ([], s)
  | s, qm :: rest =>
    let r := pred s qm
    let t := removeIfLoop pred r.2 rest
    if r.1 then t else (qm :: t.1, t.2)

/-- The container operation `removeIf(predicate)`: "pass in order, remove matches". -/
def removeIf {σ : Type} (ms : Messages) (pred : σ → QueuedMessage → Bool × σ) (s : σ) :
    Messages × σ :=
  ({ ms with items := (removeIfLoop pred s ms.items).1 }, (removeIfLoop pred s ms.items).2)

end Messages

/-! ## MessageGroupManager -/

/-- `MessageGroupManager::GroupState`. -/
structure GroupState where
  group : String := ""
  owner : String := ""
  acquired : Nat := 0
  members : List Nat := []
  deriving DecidableEq, Repr

/-- `GroupState::owned()`. -/
def GroupState.owned (st : GroupState) : Bool := !(st.owner == "")

/-- State of a `MessageGroupManager`. -/
structure MessageGroupManager where
  groupIdHeader : String
  messageGroups : List (String × GroupState) := []
  freeGroups : List (Nat × String) := []
  consumers : List (String × Nat) := []
  deriving DecidableEq, Repr

namespace MessageGroupManager

/-- `MessageGroupManager::qpidMessageGroupDefault`. -/
def qpidMessageGroupDefault : String := "qpid.no_group"

/-- `MessageGroupManager::getGroupId`. -/
def getGroupId (m : MessageGroupManager) (qm : QueuedMessage) : String :=
  match qm.payload.headers with
  | none => qpidMessageGroupDefault
  | some headers =>
    match StdMap.find headers m.groupIdHeader with
    | some (FieldValue.str s) => s
    | _ => qpidMessageGroupDefault

/-- Write-back of a `GroupState&` obtained from `messageGroups`. -/
def setGroup (m : MessageGroupManager) (g : String) (st : GroupState) : MessageGroupManager :=
  { m with messageGroups := StdMap.put m.messageGroups g st }

/-- Value read by `consumers[name]` (a missing entry is created with value 0). -/
def consumerCount (m : MessageGroupManager) (name : String) : Nat :=
  (StdMap.find m.consumers name).getD 0

/-- `MessageGroupManager::unFree` for the group stored under key `g` with state `st`. -/
def unFree (m : MessageGroupManager) (g : String) (st : GroupState) :
    Option MessageGroupManager :=
  match st.members.head? with
  | none => none
  | some front =>
    match StdMap.find m.freeGroups front with
    | none => none
    | some g' =>
      if g' = g then some { m with freeGroups := StdMap.erase m.freeGroups front } else none

/-- `MessageGroupManager::own`. -/
def own (m : MessageGroupManager) (g : String) (st : GroupState) (owner : String) :
    Option MessageGroupManager :=
  let st1 := { st with owner := owner }
  let m1 := m.setGroup g st1
  let m2 := { m1 with
    consumers := StdMap.put m1.consumers owner ((m1.consumerCount owner + 1) % UINT32_SIZE) }
  m2.unFree g st1

/-- `MessageGroupManager::disown`. -/
def disown (m : MessageGroupManager) (g : String) (st : GroupState) :
    Option MessageGroupManager :=
  if m.consumerCount st.owner = 0 then none
  else
    let m1 := { m with
      consumers := StdMap.put m.consumers st.owner (m.consumerCount st.owner - 1) }
    let st1 := { st with owner := "" }
    let m2 := m1.setGroup g st1
    match st1.members.head? with
    | none => none
    | some front =>
      match StdMap.insertUnique m2.freeGroups front g with
      | none => none
      | some fg => some { m2 with freeGroups := fg }

/-- `MessageGroupManager::enqueued`. -/
def enqueued (m : MessageGroupManager) (qm : QueuedMessage) : Option MessageGroupManager :=
  let group := m.getGroupId qm
  let st0 := (StdMap.find m.messageGroups group).getD {}
  let st1 := { st0 with members := st0.members ++ [qm.position] }
  if st1.members.length = 1 then
    let st2 := { st1 with group := group }
    match StdMap.insertUnique m.freeGroups qm.position group with
    | none => none
    | some fg => some { (m.setGroup group st2) with freeGroups := fg }
  else some (m.setGroup group st1)

/-- `MessageGroupManager::acquired`. -/
def acquired (m : MessageGroupManager) (qm : QueuedMessage) : Option MessageGroupManager :=
  let group := m.getGroupId qm
  match StdMap.find m.messageGroups group with
  | none => none
  | some st => some (m.setGroup group { st with acquired := (st.acquired + 1) % UINT32_SIZE })

/-- `MessageGroupManager::requeued`. -/
def requeued (m : MessageGroupManager) (qm : QueuedMessage) : Option MessageGroupManager :=
  let group := m.getGroupId qm
  match StdMap.find m.messageGroups group with
  | none => none
  | some st =>
    if st.acquired = 0 then none
    else
      let st1 := { st with acquired := st.acquired - 1 }
      let m1 := m.setGroup group st1
      if st1.acquired = 0 && st1.owned then m1.disown group st1 else some m1

/-- `MessageGroupManager::dequeued`. -/
def dequeued (m : MessageGroupManager) (qm : QueuedMessage) : Option MessageGroupManager :=
  let group := m.getGroupId qm
  match StdMap.find m.messageGroups group with
  | none => none
  | some st =>
    if st.members.length = 0 then none
    else
      let st1 := { st with members := st.members.erase qm.position }
      if st1.acquired = 0 then none
      else
        let st2 := { st1 with acquired := st1.acquired - 1 }
        let m1 := m.setGroup group st2
        if st2.members.length = 0 then
          if !st2.owned then
            match m1.unFree group st2 with
            | none => none
            | some m2 => some { m2 with messageGroups := StdMap.erase m2.messageGroups group }
          else some { m1 with messageGroups := StdMap.erase m1.messageGroups group }
        else if st2.acquired = 0 && st2.owned then m1.disown group st2
        else some m1

/-- `MessageGroupManager::consumerAdded`. -/
def consumerAdded (m : MessageGroupManager) (name : String) : Option MessageGroupManager :=
  match StdMap.find m.consumers name with
  | some _ => none
  | none => some { m with consumers := StdMap.put m.consumers name 0 }

/-- The `for` loop of `MessageGroupManager::consumerRemoved` over the keys of the nodes of
`messageGroups` still to be visited, with the local `count`; `gs->second` is read from the
current state. -/
def consumerRemovedLoop (name : String) :
    List String → Nat → MessageGroupManager → Option MessageGroupManager
  | [], _, m => some m
  | g :: rest, count, m =>
    if count = 0 then some m
    else
      match StdMap.find m.messageGroups g with
      | none => none
      | some st =>
        if st.owner = name then
          match m.disown g st with
          | none => none
          | some m1 => consumerRemovedLoop name rest (count - 1) m1
        else consumerRemovedLoop name rest count m

/-- `MessageGroupManager::consumerRemoved`. -/
def consumerRemoved (m : MessageGroupManager) (name : String) : Option MessageGroupManager :=
  match StdMap.find m.consumers name with
  | none => none
  | some count =>
    match consumerRemovedLoop name (m.messageGroups.map Prod.fst) count m with
    | none => none
    | some m1 => some { m1 with consumers := StdMap.erase m1.consumers name }

/-- `MessageGroupManager::acquireMessage`: the returned flag and the state left behind. -/
def acquireMessage (m : MessageGroupManager) (consumer : String) (qm : QueuedMessage) :
    Option (Bool × MessageGroupManager) :=
  let group := m.getGroupId qm
  match StdMap.find m.messageGroups group with
  | none => none
  | some st =>
    if !st.owned then
      match m.own group st consumer with
      | none => none
      | some m1 => some (true, m1)
    else some (decide (st.owner = consumer), m)

/-- The `do ... while (messages.next(next.position, next))` loop of
`MessageGroupManager::nextConsumableMessage`, run for at most `fuel` iterations.  The result
is `none` when an assertion fails (a visited message whose group is unknown) or when the
bound is used up, which the bound given by `nextConsumableMessage` never is
(`nextConsumableWalk_bound`); `some none` is the `return false` after the loop. -/
def nextConsumableWalk (m : MessageGroupManager) (messages : Messages) (consumer : String) :
    Nat → QueuedMessage → Option (Option QueuedMessage)
  | 0, _ => none
  | fuel + 1, next =>
    match StdMap.find m.messageGroups (m.getGroupId next) with
    | none => none
    | some st =>
      if !st.owned || decide (st.owner = consumer) then some (some next)
      else
        match messages.next next.position with
        | none => some none
        | some next1 => nextConsumableWalk m messages consumer fuel next1

/-- The message with which `MessageGroupManager::nextConsumableMessage` enters its loop:
`none` for a failed assertion, `some (none, _)` for an early `return false`.  The manager
returned carries the entry `consumers[c->getName()]` the lookup may have created. -/
def nextConsumableCandidate (m : MessageGroupManager) (messages : Messages) (c : Consumer) :
    Option (Option QueuedMessage × MessageGroupManager) :=
  if messages.empty then some (none, m)
  else
    match m.freeGroups.head? with
    | some (nextFree, _) =>
      if nextFree < c.position then
        match messages.find nextFree with
        | none => none
        | some next => some (some next, m)
      else some (messages.next c.position, m)
    | none =>
      let m1 : MessageGroupManager :=
        match StdMap.find m.consumers c.name with
        | some _ => m
        | none => { m with consumers := StdMap.put m.consumers c.name 0 }
      if m1.consumerCount c.name = 0 then some (none, m1)
      else some (messages.next c.position, m1)

/-- `MessageGroupManager::nextConsumableMessage`: `some (some qm, _)` is `return true` with
`next = qm`, `some (none, _)` is `return false`, `none` is a failed assertion. -/
def nextConsumableMessage (m : MessageGroupManager) (messages : Messages) (c : Consumer) :
    Option (Option QueuedMessage × MessageGroupManager) :=
  match m.nextConsumableCandidate messages c with
  | none => none
  | some (none, m1) => some (none, m1)
  | some (some next, m1) =>
    match nextConsumableWalk m1 messages c.name messages.size next with
    | none => none
    | some r => some (r, m1)

/-- The test of the loop of `nextConsumableMessage` on `qm`: its group exists and is unowned
or owned by `consumer`. -/
def consumable (m : MessageGroupManager) (consumer : String) (qm : QueuedMessage) : Bool :=
  match StdMap.find m.messageGroups (m.getGroupId qm) with
  | none => false
  | some st => !st.owned || decide (st.owner = consumer)

/-- The calls a queue makes on its group manager. -/
inductive Event where
  | enqueued (qm : QueuedMessage)
  | acquired (qm : QueuedMessage)
  | requeued (qm : QueuedMessage)
  | dequeued (qm : QueuedMessage)
  | consumerAdded (name : String)
  | consumerRemoved (name : String)
  | acquireMessage (consumer : String) (qm : QueuedMessage)
  deriving DecidableEq, Repr

/-- State after one call; `none` when the call fails an assertion. -/
def step (m : MessageGroupManager) : Event → Option MessageGroupManager
  | .enqueued qm => m.enqueued qm
  | .acquired qm => m.acquired qm
  | .requeued qm => m.requeued qm
  | .dequeued qm => m.dequeued qm
  | .consumerAdded name => m.consumerAdded name
  | .consumerRemoved name => m.consumerRemoved name
  | .acquireMessage consumer qm => (m.acquireMessage consumer qm).map Prod.snd

/-- State after a sequence of calls, all of which pass their assertions. -/
def run (m : MessageGroupManager) : List Event → Option MessageGroupManager
  | [] => some m
  | e :: es =>
    match m.step e with
    | none => none
    | some m1 => run m1 es

/-- Owner string of group `g`, if the group exists. -/
def ownerOf (m : MessageGroupManager) (g : String) : Option String :=
  (StdMap.find m.messageGroups g).map GroupState.owner

/-- Count of outstanding acquired messages of group `g` (0 for a group that does not exist). -/
def acquiredOf (m : MessageGroupManager) (g : String) : Nat :=
  ((StdMap.find m.messageGroups g).map GroupState.acquired).getD 0

/-- Number of `GroupState`s whose owner is `c`. -/
def ownedCount (m : MessageGroupManager) (c : String) : Nat :=
  (m.messageGroups.filter (fun e => decide (e.2.owner = c))).length

/-- Whether the call `e`, taking the manager from `m` to `m1`, releases group `g` from its
owner `c`: the consumer `c` is removed, or a message of `g` is requeued or dequeued and `g`
is left with no outstanding acquired message. -/
def releases (g c : String) (e : Event) (m m1 : MessageGroupManager) : Bool :=
  match e with
  | .consumerRemoved name => decide (name = c)
  | .requeued qm => decide (m.getGroupId qm = g) && decide (m1.acquiredOf g = 0)
  | .dequeued qm => decide (m.getGroupId qm = g) && decide (m1.acquiredOf g = 0)
  | _ => false

/-- Whether some call of the sequence, run from `m`, releases group `g` from `c`. -/
def releasedDuring (g c : String) : MessageGroupManager → List Event → Bool
  | _, [] => false
  | m, e :: es =>
    match m.step e with
    | none => false
    | some m1 => releases g c e m m1 || releasedDuring g c m1 es

/-- The manager of a queue configured with `qpid.group_header_key = header`, before any
call. -/
def initial (header : String) : MessageGroupManager := { groupIdHeader := header }

/-- A queued message at `position` whose header `"g"` names `group`. -/
def sample (position : Nat) (group : String) : QueuedMessage :=
  { payload := { id := position, headers := some [("g", FieldValue.str group)] },
    position := position }

end MessageGroupManager

/-! ## Message filters of purge and move -/

/-- Type tags of the scalar values of a `qpid::types::Variant`. -/
inductive ScalarType where
  | VAR_VOID | VAR_BOOL
  | VAR_UINT8 | VAR_UINT16 | VAR_UINT32 | VAR_UINT64
  | VAR_INT8 | VAR_INT16 | VAR_INT32 | VAR_INT64
  | VAR_FLOAT | VAR_DOUBLE | VAR_STRING | VAR_UUID
  deriving DecidableEq, Repr

/-- Modelled from the spec: `qpid::types::Variant` (its class is not part of the sources at
hand): a map (`VAR_MAP`), a list (`VAR_LIST`), or a scalar, known by its type tag and by the
string `asString()` converts it to. -/
inductive Variant where
  | scalar (type : ScalarType) (text : String)
  | list (items : List Variant)
  | map (entries : List (String × Variant))

/-- Modelled from the spec: `Variant::asString()`; `none` stands for the InvalidConversion
raised on a map or a list. -/
def Variant.asString : Variant → Option String
  | .scalar _ text => some text
  | .list _ => none
  | .map _ => none

/-- The filters of purge and move: the base class `MessageFilter`, which matches every
message, and `HeaderMatchFilter`. -/
inductive MessageFilter where
  | all
  | headerMatch (header value : String)
  deriving DecidableEq, Repr

namespace MessageFilter

/-- `MessageFilter::typeKey`. -/
def typeKey : String := "filter_type"

/-- `MessageFilter::paramsKey`. -/
def paramsKey : String := "filter_params"

/-- `HeaderMatchFilter::typeKey`. -/
def headerMatchTypeKey : String := "header_match_str"

/-- `HeaderMatchFilter::headerKey`. -/
def headerKey : String := "header_key"

/-- `HeaderMatchFilter::valueKey`. -/
def valueKey : String := "header_value"

/-- The virtual `match(const QueuedMessage&)`: `MessageFilter::match` returns true;
`HeaderMatchFilter::match` wants application headers, the header present, convertible to a
string and equal to the value. -/
def isMatch : MessageFilter → QueuedMessage → Bool
  | .all, _ => true
  | .headerMatch header value, msg =>
    match msg.payload.headers with
    | none => false
    | some headers =>
      match StdMap.find headers header with
      | some (FieldValue.str h) => h == value
      | _ => false

/-- `MessageFilter::create(filter)`; `none` when an `asString()` raises. -/
def create (filter : Option (List (String × Variant))) : Option MessageFilter :=
  match filter with
  | none => some .all
  | some f =>
    match StdMap.find f typeKey with
    | none => some .all
    | some t =>
      match t.asString with
      | none => none
      | some type =>
        if type == headerMatchTypeKey then
          match StdMap.find f paramsKey with
          | some (.map params) =>
            match StdMap.find params headerKey, StdMap.find params valueKey with
            | some k, some v =>
              match k.asString with
              | none => none
              | some header =>
                match v.asString with
                | none => none
                | some value => some (.headerMatch header value)
            | _, _ => some .all
          | _ => some .all
        else some .all

end MessageFilter

/-- The function object `Collector` handed to `removeIf`: `matched` is its deque `matches`,
the messages matched so far under a cap of `maxMatches` (no cap when 0). -/
structure Collector where
  maxMatches : Nat
  filter : MessageFilter
  matched : List QueuedMessage := []
  deriving DecidableEq, Repr

/-- `Collector::operator()`: whether the message is removed, and the collector afterwards. -/
def Collector.call (c : Collector) (qm : QueuedMessage) : Bool × Collector :=
  if c.maxMatches == 0 || decide (c.matched.length < c.maxMatches) then
    if c.filter.isMatch qm then (true, { c with matched := c.matched ++ [qm] })
    else (false, c)
  else (false, c)

/-- `collect_if_expired(expired, message)`. -/
def collect_if_expired (expired : List QueuedMessage) (message : QueuedMessage) :
    Bool × List QueuedMessage :=
  if message.payload.expired then (true, expired ++ [message]) else (false, expired)

/-- Modelled from the spec: an `Exchange` given as the destination of a purge (the class is
not part of the sources at hand), as the queue purged sees it.  It is known by its name;
"the Exchange resolves bindings and calls `Queue.deliver`": `routesHere msg` tells whether
the bindings of the exchange, or of its alternate when none of its own matches, resolve for
`msg` to the queue that is purged, so that routing `msg` calls `deliver(msg)` on that
queue, once.  What the exchange does to other queues is not part of the model. -/
structure Exchange where
  name : String
  routesHere : Message → Bool := fun _ => false

/-- `qpid::sys::TIME_SEC`: nanoseconds in a second. -/
def TIME_SEC : Nat := 1000000000

/-- Conversion of an integer to a 32-bit `int` (two's complement wrap-around). -/
def toInt32 (i : Int) : Int := (i + 2147483648) % 4294967296 - 2147483648

/-! ## Queue -/

/-- The callbacks of `QueueObserver`. -/
inductive Notification where
  | enqueued (qm : QueuedMessage)
  | dequeued (qm : QueuedMessage)
  | acquired (qm : QueuedMessage)
  | requeued (qm : QueuedMessage)
  | consumerAdded (name : String)
  | consumerRemoved (name : String)
  deriving DecidableEq, Repr

/-- Modelled from the spec: a registered `QueueObserver` other than the group manager (the
class is not part of the sources at hand).  `seen` lists the callbacks invoked on it, oldest
first; `throws` tells whether its callbacks raise a `std::exception`. -/
structure QueueObserver where
  seen : List Notification := []
  throws : Bool := false
  deriving DecidableEq, Repr

/-- The observer after the callbacks `ns` have been invoked on it. -/
def QueueObserver.deliver (o : QueueObserver) (ns : List Notification) : QueueObserver :=
  { o with seen := o.seen ++ ns }

/-- One callback: the observer afterwards and whether the call raised. -/
def QueueObserver.call (o : QueueObserver) (n : Notification) : QueueObserver × Bool :=
  (o.deliver [n], o.throws)

/-- The observer with its callbacks returning normally. -/
def QueueObserver.calm (o : QueueObserver) : QueueObserver := { o with throws := false }

/-- The calls `Queue.cpp` makes on its `QueuePolicy`. -/
inductive PolicyCall where
  | tryEnqueue (msg : Message)
  | getPendingDequeues
  | enqueued (qm : QueuedMessage)
  | dequeued (qm : QueuedMessage)
  | recoverEnqueued (msg : Message)
  | enqueueAborted (msg : Message)
  deriving DecidableEq, Repr

/-- Modelled from the spec: `QueuePolicy` (the class is not part of the sources at hand).
The policy is known by the calls made on it so far (`calls`, oldest first) and by what it
answers after a given history: `isEnqueuedAfter` is the "truth oracle" `isEnqueued(qm)`,
`rejectsAfter` tells whether `tryEnqueue(msg)` raises ResourceLimitExceeded, and
`pendingAfter` is the list handed out by `getPendingDequeues`. -/
structure QueuePolicy where
  calls : List PolicyCall := []
  isEnqueuedAfter : List PolicyCall → QueuedMessage → Bool := fun _ _ => true
  rejectsAfter : List PolicyCall → Message → Bool := fun _ _ => false
  pendingAfter : List PolicyCall → List QueuedMessage := fun _ => []

/-- The policy after one more call. -/
def QueuePolicy.record (p : QueuePolicy) (call : PolicyCall) : QueuePolicy :=
  { p with calls := p.calls ++ [call] }

/-- The calls `Queue.cpp` makes on its `MessageStore`, by message id. -/
inductive StoreCall where
  | enqueue (id : Nat)
  | dequeue (id : Nat)
  | flush
  | destroy
  deriving DecidableEq, Repr

/-- Exceptions a queue operation lets through to its caller. -/
inductive QueueError where
  | ResourceLocked
  | ResourceDeleted
  | ResourceLimitExceeded
  | InvalidConversion
  deriving DecidableEq, Repr

/-- State of a `Queue`.  `hasStore` is `store != 0` and `storeCalls` the calls made on the
store; `owner` and `exclusive` are ownership tokens (`none` for null); `allocator = none` is
the default `MessageAllocator`, `some mgr` a `MessageGroupManager`, which is then also one of
the observers; `observers` are the other observers; `listeners` are the consumers waiting in
`QueueListeners` and `woken` those notified so far; `forced` and `syncList` hold the ids of
the messages for which `isForcedPersistent()` and `isStoredOnQueue(this)` answer true;
`releaseBlocked` and `released` hold the ids of the messages on which `blockContentRelease()`
and `releaseContent(store)` were called; `nextMessageId` is the address the next
`new Message` gets; `deferDelivery` is the cluster hook `Broker::deferDelivery`; `routed`
lists the messages routed to the alternate exchange; `warnings` counts the warnings logged
for callbacks that raised; `hasBroker` is `broker != 0`; `unbound` tells whether
`unbind` was called on the bindings; `registered` tells whether the `QueueRegistry` of the
broker holds the queue; `autoDeleteTaskPending` is `autoDeleteTask != 0`,
`autoDeleteTaskTime` the fire time (in nanoseconds) of the last task created and
`autoDeleteTaskCancelled` whether `cancel()` was called on it; `rerouted` lists the messages
handed to the destination exchange of a purge, with the name of the exchange (whether or
not the exchange routes them back to this queue);
`alternateUsersReleased` counts the calls of `decAlternateUsers()` on the alternate exchange;
`alternateExchangeName` is the name of the alternate exchange a recovered queue was stored
with (empty for none).
Modelled from the spec: `QueueListeners` (not part of the sources at hand) is the "wake set
of consumers awaiting messages": `populate` hands the whole set over for notification and
empties it, `snapshot` hands it over and keeps it, `removeListener` takes one consumer out. -/
structure Queue where
  name : String := ""
  autodelete : Bool := false
  hasStore : Bool := false
  storeCalls : List StoreCall := []
  owner : Option Nat := none
  consumerCount : Nat := 0
  exclusive : Option Nat := none
  noLocal : Bool := false
  persistLastNode : Bool := false
  inLastNodeFailure : Bool := false
  traceId : String := ""
  traceExclude : List String := []
  messages : Messages := {}
  policy : Option QueuePolicy := none
  observers : List QueueObserver := []
  allocator : Option MessageGroupManager := none
  listeners : List String := []
  woken : List String := []
  sequence : Nat := 0
  insertSeqNo : Bool := false
  seqNoKey : String := ""
  pendingDequeues : List QueuedMessage := []
  dequeueSincePurge : Nat := 0
  deleted : Bool := false
  autoDeleteTimeout : Nat := 0
  autoDeleteTaskPending : Bool := false
  autoDeleteTaskCancelled : Bool := false
  hasAlternateExchange : Bool := false
  routed : List Message := []
  forced : List Nat := []
  syncList : List Nat := []
  releaseBlocked : List Nat := []
  released : List Nat := []
  nextMessageId : Nat := 0
  deferDelivery : Message → Bool := fun _ => false
  warnings : Nat := 0
  hasBroker : Bool := true
  unbound : Bool := false
  registered : Bool := true
  autoDeleteTaskTime : Nat := 0
  rerouted : List (String × Message) := []
  alternateUsersReleased : Nat := 0
  alternateExchangeName : String := ""

/-- How a queue operation ends: it returns `value` leaving the queue `q`; or an exception
reaches the caller, `q` being the queue at that point; or an assertion fails. -/
inductive Outcome (α : Type) where
  | ok (value : α) (q : Queue)
  | raised (e : QueueError) (q : Queue)
  | aborted

/-- The queue an operation leaves behind, whether it returned or raised. -/
def Outcome.state? {α : Type} : Outcome α → Option Queue
  | .ok _ q => some q
  | .raised _ q => some q
  | .aborted => none

/-- The exception an operation raised, if it did. -/
def Outcome.error? {α : Type} : Outcome α → Option QueueError
  | .raised e _ => some e
  | _ => none

/-- The value an operation returned, if it did. -/
def Outcome.value? {α : Type} : Outcome α → Option α
  | .ok v _ => some v
  | _ => none

/-- A call on the message store, with the number of times the calling thread holds
`messageLock`, the lock of the queue whose operation is running, when the call is made.
The mutex is re-entrant: `purge` holds it while it calls `dequeue`, which takes it again. -/
structure StoreAccess where
  call : StoreCall
  locks : Nat
  deriving DecidableEq, Repr

/-- The outcome of an operation that raises no exception: it returns, or an assertion
fails. -/
def Outcome.returned {α : Type} : Option (α × Queue) → Outcome α
  | some r => .ok r.1 r.2
  | none => .aborted

/-- `Queue::ConsumeCode`. -/
inductive ConsumeCode where
  | NO_MESSAGES
  | CANT_CONSUME
  | CONSUMED
  deriving DecidableEq, Repr

namespace Queue

/-- The callback of the group manager matching a notification. -/
def managerCallback (mgr : MessageGroupManager) : Notification → Option MessageGroupManager
  | .enqueued qm => mgr.enqueued qm
  | .dequeued qm => mgr.dequeued qm
  | .acquired qm => mgr.acquired qm
  | .requeued qm => mgr.requeued qm
  | .consumerAdded name => mgr.consumerAdded name
  | .consumerRemoved name => mgr.consumerRemoved name

/-- The loop `for (i = observers.begin(); ...) try { (*i)->callback(...) } catch (...)`:
every observer is called; an exception is logged and swallowed.  `none` when the group
manager fails an assertion. -/
def notifyObservers (q : Queue) (n : Notification) : Option Queue :=
  let observers := q.observers.map (fun o => (o.call n).1)
  let warnings := q.warnings + (q.observers.filter (fun o => (o.call n).2)).length
  match q.allocator with
  | none => some { q with observers := observers, warnings := warnings }
  | some mgr =>
    match managerCallback mgr n with
    | none => none
    | some mgr1 =>
      some { q with observers := observers, warnings := warnings, allocator := some mgr1 }

/-- Modelled from the spec: `Message::isForcedPersistent()` (the `Message` class is not part
of the sources at hand), answered from the forced bits the queue model keeps. -/
def isForcedPersistent (q : Queue) (msg : Message) : Bool := decide (msg.id ∈ q.forced)

/-- Modelled from the spec: `Message::isPersistent()`: durable as published, or forced
persistent. -/
def isPersistent (q : Queue) (msg : Message) : Bool := msg.durable || q.isForcedPersistent msg

/-- Modelled from the spec: `Message::isStoredOnQueue(shared_from_this())`: this queue is in
the sync list of the message. -/
def isStoredOnQueue (q : Queue) (msg : Message) : Bool := decide (msg.id ∈ q.syncList)

/-- Modelled from the spec: `Message::forcePersistent()`: the forced bit is set only for a
message that is not persistent already. -/
def forcePersistent (q : Queue) (msg : Message) : Queue :=
  if msg.durable then q else { q with forced := msg.id :: q.forced }

/-- `Queue::isEnqueued`. -/
def isEnqueued (q : Queue) (qm : QueuedMessage) : Bool :=
  match q.policy with
  | none => true
  | some p => p.isEnqueuedAfter p.calls qm

/-- `Queue::enqueued`. -/
def enqueued (q : Queue) (qm : QueuedMessage) : Option Queue :=
  match q.notifyObservers (.enqueued qm) with
  | none => none
  | some q1 =>
    some { q1 with
      policy := q1.policy.map (fun (p : QueuePolicy) => p.record (.enqueued qm)) }

/-- `Queue::acquired`. -/
def acquired (q : Queue) (qm : QueuedMessage) : Option Queue :=
  q.notifyObservers (.acquired qm)

/-- `Queue::dequeued`. -/
def dequeued (q : Queue) (qm : QueuedMessage) : Option Queue :=
  { q with policy := q.policy.map (fun (p : QueuePolicy) => p.record (.dequeued qm)) }.notifyObservers
    (.dequeued qm)

/-- `Queue::dequeue(ctxt, msg)`; `ctxt` tells whether a transaction context is given.  The
usage barrier is acquired when the queue is not deleted and released on return. -/
def dequeue (q : Queue) (ctxt : Bool) (qm : QueuedMessage) : Option (Bool × Queue) :=
  if q.deleted then some (false, q)
  else if !q.isEnqueued qm then some (false, q)
  else
    match (if ctxt then some q else q.dequeued qm) with
    | none => none
    | some q1 =>
      let fp := q1.isForcedPersistent qm.payload
      if (!fp || (fp && q1.isStoredOnQueue qm.payload))
          && ((q1.isPersistent qm.payload || qm.payload.contentReleasable) && q1.hasStore) then
        some (true, { q1 with storeCalls := q1.storeCalls ++ [.dequeue qm.payload.id] })
      else some (false, q1)

/-- The `for_each(dequeues..., Queue::dequeue(0, _1))` loops. -/
def dequeueAll : Queue → List QueuedMessage → Option Queue
  | q, [] => some q
  | q, qm :: rest =>
    match q.dequeue false qm with
    | none => none
    | some (_, q1) => dequeueAll q1 rest

/-- The block `if (policy.get() && !suppressPolicyCheck) { ... }` of `Queue::enqueue`:
`tryEnqueue`, which may raise, then the pending dequeues of the policy. -/
def enqueuePolicy (q : Queue) (msg : Message) (suppressPolicyCheck : Bool) : Outcome Unit :=
  match q.policy with
  | none => .ok () q
  | some p =>
    if suppressPolicyCheck then .ok () q
    else if p.rejectsAfter p.calls msg then
      .raised .ResourceLimitExceeded { q with policy := some (p.record (.tryEnqueue msg)) }
    else
      let p1 := p.record (.tryEnqueue msg)
      let dequeues := p1.pendingAfter p1.calls
      let p2 := p1.record .getPendingDequeues
      match dequeueAll { q with policy := some p2 } dequeues with
      | none => .aborted
      | some q1 => .ok () q1

/-- The rest of `Queue::enqueue`, after the policy block: forced persistence in last-node
failure, the traced copy, and the store.  The result is the flag returned and the message
`msg` refers to afterwards (the traced copy when the queue has a trace identity). -/
def enqueueStore (q : Queue) (msg : Message) : (Bool × Message) × Queue :=
  let q2 := if q.inLastNodeFailure && q.persistLastNode then q.forcePersistent msg else q
  let traced : Bool := decide (q2.traceId ≠ "")
  let msg1 : Message :=
    if traced then { msg with id := q2.nextMessageId, trace := msg.trace ++ [q2.traceId] }
    else msg
  let q3 := if traced then { q2 with nextMessageId := q2.nextMessageId + 1 } else q2
  if (q3.isPersistent msg1 || msg1.contentReleasable) && q3.hasStore then
    ((true, msg1),
      { q3 with syncList := msg1.id :: q3.syncList,
                storeCalls := q3.storeCalls ++ [.enqueue msg1.id] })
  else if !q3.hasStore then
    ((false, msg1), { q3 with releaseBlocked := msg1.id :: q3.releaseBlocked })
  else ((false, msg1), q3)

/-- `Queue::enqueue(ctxt, msg, suppressPolicyCheck)`.  The usage barrier is acquired when the
queue is not deleted and released on return. -/
def enqueue (q : Queue) (msg : Message) (suppressPolicyCheck : Bool := false) :
    Outcome (Bool × Message) :=
  if q.deleted then .ok (false, msg) q
  else
    match q.enqueuePolicy msg suppressPolicyCheck with
    | .aborted => .aborted
    | .raised e q1 => .raised e q1
    | .ok _ q1 => .ok (q1.enqueueStore msg).1 (q1.enqueueStore msg).2

/-- `Queue::acquire(position, msg)`: the message removed (`none` for `return false`). -/
def acquire (q : Queue) (position : Nat) : Option (Option QueuedMessage × Queue) :=
  match q.messages.remove position with
  | none => some (none, q)
  | some (qm, rest) =>
    match { q with messages := rest }.acquired qm with
    | none => none
    | some q1 =>
      some (some qm, { q1 with dequeueSincePurge := (q1.dequeueSincePurge + 1) % UINT32_SIZE })

/-- The message `msg` after `getOrInsertHeaders().setInt64(key, value)`. -/
def setInt64 (msg : Message) (key : String) (value : Int) : Message :=
  { msg with headers := some (StdMap.put (msg.headers.getD []) key (FieldValue.int value)) }

/-- The body of `Queue::push` once `qm` has been built with the incremented sequence
number. -/
def pushQueued (q : Queue) (qm : QueuedMessage) (isRecovery : Bool) : Option Queue :=
  let pushed := q.messages.push qm
  match { q with sequence := qm.position, messages := pushed.1, listeners := [] }.enqueued qm
  with
  | none => none
  | some q1 =>
    let q2 := { q1 with woken := q1.woken ++ q.listeners }
    match pushed.2 with
    | none => some q2
    | some removed =>
      match q2.acquired removed with
      | none => none
      | some q3 =>
        if isRecovery then some { q3 with pendingDequeues := q3.pendingDequeues ++ [removed] }
        else (q3.dequeue false removed).map Prod.snd

/-- `Queue::push(msg, isRecovery)`. -/
def push (q : Queue) (msg : Message) (isRecovery : Bool := false) : Option Queue :=
  let sequence := q.sequence + 1
  let msg1 := if q.insertSeqNo then setInt64 msg q.seqNoKey sequence else msg
  q.pushQueued { payload := msg1, position := sequence } isRecovery

/-- `isLocalTo(token, msg)`: the token is set and answers `isLocal(msg->getPublisher())`,
modelled from the spec as "publisher identity matches" the token. -/
def isLocalTo (token : Option Nat) (msg : Message) : Bool :=
  match token with
  | none => false
  | some t => decide (msg.publisher = some t)

/-- `Queue::isLocal`. -/
def isLocal (q : Queue) (msg : Message) : Bool :=
  q.noLocal && (isLocalTo q.owner msg || isLocalTo q.exclusive msg)

/-- `Queue::isExcluded`; `msg->isExcluded(traceExclude)` is modelled from the spec: the
message carries one of the excluded trace identities. -/
def isExcluded (q : Queue) (msg : Message) : Bool :=
  decide (q.traceExclude.length ≠ 0) && msg.trace.any (fun t => decide (t ∈ q.traceExclude))

/-- `Queue::deliver`. -/
def deliver (q : Queue) (msg : Message) : Outcome Unit :=
  if q.deferDelivery msg then .ok () q
  else if msg.immediate && q.consumerCount == 0 then
    if q.hasAlternateExchange then .ok () { q with routed := q.routed ++ [msg] } else .ok () q
  else if q.isLocal msg then .ok () q
  else if q.isExcluded msg then .ok () q
  else
    match q.enqueue msg with
    | .aborted => .aborted
    | .raised e q1 => .raised e q1
    | .ok r q1 =>
      match q1.push r.2 with
      | none => .aborted
      | some q2 => .ok () q2

/-- `Queue::process`. -/
def process (q : Queue) (msg : Message) : Option Queue := q.push msg

/-- `Queue::recover`. -/
def recover (q : Queue) (msg : Message) : Option Queue :=
  let q0 := { q with policy := q.policy.map (fun (p : QueuePolicy) => p.record (.recoverEnqueued msg)) }
  match q0.push msg true with
  | none => none
  | some q1 =>
    some (if q1.hasStore then
      if !msg.contentLoaded || msg.contentReleasable then
        { q1 with syncList := msg.id :: q1.syncList, released := msg.id :: q1.released }
      else { q1 with syncList := msg.id :: q1.syncList }
    else q1)

/-- `Queue::find`. -/
def find (q : Queue) (pos : Nat) : Option QueuedMessage := q.messages.find pos

/-- The block `if (inLastNodeFailure && persistLastNode && !isStoredOnQueue) { ... }` of
`Queue::requeue`. -/
def requeueForce (q : Queue) (qm : QueuedMessage) : Outcome Unit :=
  if q.inLastNodeFailure && q.persistLastNode && !q.isStoredOnQueue qm.payload then
    let q2 := q.forcePersistent qm.payload
    if q2.isForcedPersistent qm.payload then
      match q2.enqueue qm.payload with
      | .aborted => .aborted
      | .raised e q3 => .raised e q3
      | .ok _ q3 => .ok () q3
    else .ok () q2
  else .ok () q

/-- `Queue::requeue`. -/
def requeue (q : Queue) (qm : QueuedMessage) : Outcome Unit :=
  if !q.isEnqueued qm then .ok () q
  else
    match requeueForce { q with messages := q.messages.reinsert qm, listeners := [] } qm with
    | .aborted => .aborted
    | .raised e q3 => .raised e q3
    | .ok _ q3 =>
      match q3.notifyObservers (.requeued qm) with
      | none => .aborted
      | some q4 => .ok () { q4 with woken := q4.woken ++ q.listeners }

/-- `allocator->nextConsumableMessage(c, msg, locker)`. -/
def nextConsumableMessage (q : Queue) (c : Consumer) : Option (Option QueuedMessage × Queue) :=
  match q.allocator with
  | none => some (q.messages.front, q)
  | some mgr =>
    match mgr.nextConsumableMessage q.messages c with
    | none => none
    | some r => some (r.1, { q with allocator := some r.2 })

/-- `allocator->nextBrowsableMessage(c, msg, locker)`; the group manager uses the default. -/
def nextBrowsableMessage (q : Queue) (c : Consumer) : Option QueuedMessage :=
  if !q.messages.empty then q.messages.next c.position else none

/-- `allocator->acquireMessage(consumer, msg, locker)`. -/
def allocatorAcquire (q : Queue) (consumer : String) (qm : QueuedMessage) :
    Option (Bool × Queue) :=
  match q.allocator with
  | none => some (true, q)
  | some mgr =>
    match mgr.acquireMessage consumer qm with
    | none => none
    | some r => some (r.1, { q with allocator := some r.2 })

/-- Modelled from the spec: `listeners.addListener(c)` (`QueueListeners` is not part of the
sources at hand): the consumer joins the wake set unless it is in it already. -/
def addListener (q : Queue) (c : Consumer) : Queue :=
  if c.name ∈ q.listeners then q else { q with listeners := q.listeners ++ [c.name] }

/-- The `while (true)` loop of `Queue::consumeNextMessage`, run for at most `fuel`
iterations: the code returned, the message handed out, the consumer and the queue
afterwards.  `none` when an assertion fails or the bound is used up, which the bound given
by `consumeNextMessage` never is (`dispatch_loops_bound`). -/
def consumeLoop : Nat → Queue → Consumer →
    Option (ConsumeCode × Option QueuedMessage × Consumer × Queue)
  | 0, _, _ => none
  | fuel + 1, q, c =>
    match q.nextConsumableMessage c with
    | none => none
    | some (none, q1) => some (.NO_MESSAGES, none, c, q1.addListener c)
    | some (some msg, q1) =>
      if msg.payload.expired then
        match q1.acquire msg.position with
        | none => none
        | some (removed, q2) =>
          match q2.dequeue false (removed.getD msg) with
          | none => none
          | some (_, q3) => consumeLoop fuel q3 { c with position := msg.position }
      else if c.filter msg.payload then
        if c.accept msg.payload then
          match q1.allocatorAcquire c.name msg with
          | none => none
          | some (false, _) => none
          | some (true, q2) =>
            match q2.acquire msg.position with
            | none => none
            | some (none, _) => none
            | some (some m, q3) => some (.CONSUMED, some m, { c with position := m.position }, q3)
        else some (.CANT_CONSUME, none, c, q1)
      else some (.CANT_CONSUME, none, { c with position := msg.position }, q1)

/-- `Queue::consumeNextMessage`: every iteration but the last removes a message, so the loop
runs at most once more than there are messages. -/
def consumeNextMessage (q : Queue) (c : Consumer) :
    Option (ConsumeCode × Option QueuedMessage × Consumer × Queue) :=
  consumeLoop (q.messages.size + 1) q c

/-- The `while (true)` loop of `Queue::browseNextMessage`, run for at most `fuel` iterations:
the flag returned, the message handed out, the consumer and the queue afterwards.  `none`
when the bound is used up, which the bound given by `browseNextMessage` never is
(`dispatch_loops_bound`). -/
def browseLoop : Nat → Queue → Consumer → Option (Bool × Option QueuedMessage × Consumer × Queue)
  | 0, _, _ => none
  | fuel + 1, q, c =>
    match q.nextBrowsableMessage c with
    | none => some (false, none, c, q.addListener c)
    | some msg =>
      if c.filter msg.payload && !msg.payload.expired then
        if c.accept msg.payload then some (true, some msg, { c with position := msg.position }, q)
        else some (false, none, c, q)
      else browseLoop fuel q { c with position := msg.position }

/-- `Queue::browseNextMessage`: every iteration but the last moves the cursor to a further
message, so the loop runs at most once more than there are messages. -/
def browseNextMessage (q : Queue) (c : Consumer) :
    Option (Bool × Option QueuedMessage × Consumer × Queue) :=
  browseLoop (q.messages.size + 1) q c

/-- The part of `Queue::consume` that follows the two checks, under the consumer lock: the
exclusive session is recorded when requested, `consumerCount` is incremented and a pending
auto-delete task is cancelled. -/
def registerConsumer (q : Queue) (c : Consumer) (requestExclusive : Bool) : Queue :=
  let q1 := if requestExclusive then { q with exclusive := c.session } else q
  let q2 := { q1 with consumerCount := (q1.consumerCount + 1) % UINT32_SIZE }
  if decide (q2.autoDeleteTimeout ≠ 0) && q2.autoDeleteTaskPending then
    { q2 with autoDeleteTaskCancelled := true }
  else q2

/-- `Queue::consume`. -/
def consume (q : Queue) (c : Consumer) (requestExclusive : Bool := false) : Outcome Unit :=
  if q.exclusive.isSome then .raised .ResourceLocked q
  else if requestExclusive && decide (q.consumerCount ≠ 0) then .raised .ResourceLocked q
  else
    match (q.registerConsumer c requestExclusive).notifyObservers (.consumerAdded c.name) with
    | none => .aborted
    | some q4 => .ok () q4

/-- The calls that push a message on a queue. -/
inductive PushCall where
  | push (msg : Message) (isRecovery : Bool)
  | deliver (msg : Message)
  | process (msg : Message)
  | recover (msg : Message)

/-- The queue a pushing call leaves behind, whether it returned or raised; `none` when an
assertion fails. -/
def pushCall (q : Queue) : PushCall → Option Queue
  | .push msg isRecovery => q.push msg isRecovery
  | .deliver msg => (q.deliver msg).state?
  | .process msg => q.process msg
  | .recover msg => q.recover msg

/-- The queue after a sequence of pushing calls. -/
def pushCalls (q : Queue) : List PushCall → Option Queue
  | [] => some q
  | call :: rest =>
    match q.pushCall call with
    | none => none
    | some q1 => pushCalls q1 rest

/-- The positions passed to the `enqueued` callback among the notifications `ns`, in order. -/
def enqueuedPositions : List Notification → List Nat
  | [] => []
  | .enqueued qm :: rest => qm.position :: enqueuedPositions rest
  | _ :: rest => enqueuedPositions rest

/-- The queue `q1` is reached from `q` by calls that made the callbacks `delta` on every
observer, the `enqueued` callbacks among them carrying exactly the positions that follow
`q.sequence`, up to `q1.sequence`. -/
def PushFrame (q q1 : Queue) (delta : List Notification) : Prop :=
  q1.observers = q.observers.map (fun o => o.deliver delta) ∧
  q.sequence ≤ q1.sequence ∧
  enqueuedPositions delta = List.range' (q.sequence + 1) (q1.sequence - q.sequence)

/-- The notifications `delta` hold no `enqueued` callback. -/
def NoEnqueued (delta : List Notification) : Prop := enqueuedPositions delta = []

/-- The notifications `delta` are all `dequeued` callbacks. -/
def OnlyDequeued (delta : List Notification) : Prop :=
  ∀ n ∈ delta, ∃ qm, n = Notification.dequeued qm

/-- The queue `q1` differs from `q` by the callbacks `delta` made, in this order, on every
observer, and possibly in the state of its collaborators (allocator, policy, store, shared
message flags, wake-ups); the fields listed here are the same. -/
def Frame (q q1 : Queue) (delta : List Notification) : Prop :=
  q1.observers = q.observers.map (fun o => o.deliver delta) ∧
  q1.messages = q.messages ∧
  q1.sequence = q.sequence ∧
  q1.consumerCount = q.consumerCount ∧
  q1.exclusive = q.exclusive ∧
  q1.deleted = q.deleted ∧
  q1.insertSeqNo = q.insertSeqNo ∧
  q1.seqNoKey = q.seqNoKey

/-- `Queue::notifyListener`: the waiting consumers are notified when the queue holds a
message. -/
def notifyListener (q : Queue) : Queue :=
  if q.messages.size ≠ 0 then { q with listeners := [], woken := q.woken ++ q.listeners }
  else q

/-- `Queue::getNextMessage`: how the call ends, with the flag returned and the message handed
out in `m`, and the consumer afterwards.  `checkNotDeleted()` raises before anything else is
done. -/
def getNextMessage (q : Queue) (c : Consumer) :
    Outcome (Bool × Option QueuedMessage) × Consumer :=
  if q.deleted then (.raised .ResourceDeleted q, c)
  else if c.preAcquires then
    match q.consumeNextMessage c with
    | none => (.aborted, c)
    | some (.CONSUMED, m, c1, q1) => (.ok (true, m) q1, c1)
    | some (.CANT_CONSUME, _, c1, q1) => (.ok (false, none) q1.notifyListener, c1)
    | some (.NO_MESSAGES, _, c1, q1) => (.ok (false, none) q1, c1)
  else
    match q.browseNextMessage c with
    | none => (.aborted, c)
    | some (r, m, c1, q1) => (.ok (r, m) q1, c1)

/-- `Queue::dispatch`: the message found is handed to `c->deliver(msg)`. -/
def dispatch (q : Queue) (c : Consumer) : Outcome Bool × Consumer :=
  match q.getNextMessage c with
  | (.aborted, c1) => (.aborted, c1)
  | (.raised e q1, c1) => (.raised e q1, c1)
  | (.ok (r, msg) q1, c1) =>
    if r then (.ok true q1, { c1 with delivered := c1.delivered ++ msg.toList })
    else (.ok false q1, c1)

/-- `Queue::removeListener`: the consumer leaves the wake set; the others are notified when
the queue holds a message. -/
def removeListener (q : Queue) (c : Consumer) : Queue :=
  { q with listeners := q.listeners.erase c.name }.notifyListener

/-- `Queue::cancel`; `consumerCount--` is a `uint32_t` decrement. -/
def cancel (q : Queue) (c : Consumer) : Option Queue :=
  let q1 := q.removeListener c
  { q1 with consumerCount := (q1.consumerCount + (UINT32_SIZE - 1)) % UINT32_SIZE,
            exclusive := none }.notifyObservers (.consumerRemoved c.name)

/-- `Queue::dequeueCommitted`. -/
def dequeueCommitted (q : Queue) (qm : QueuedMessage) : Option Queue := q.dequeued qm

/-- `Queue::pop`. -/
def pop (q : Queue) : Option Queue :=
  match q.messages.pop with
  | none => some q
  | some (msg, rest) =>
    match { q with messages := rest }.acquired msg with
    | none => none
    | some q1 => some { q1 with dequeueSincePurge := (q1.dequeueSincePurge + 1) % UINT32_SIZE }

/-- `Queue::popAndDequeue`. -/
def popAndDequeue (q : Queue) : Option Queue :=
  match q.messages.front with
  | none => some q
  | some msg =>
    match q.pop with
    | none => none
    | some q1 => (q1.dequeue false msg).map Prod.snd

/-- The loop `for (i = expired.begin(); ...) { acquired(*i); dequeue(0, *i); }` of
`purgeExpired`. -/
def purgeLoop : Queue → List QueuedMessage → Option Queue
  | q, [] => some q
  | q, qm :: rest =>
    match q.acquired qm with
    | none => none
    | some q1 =>
      match q1.dequeue false qm with
      | none => none
      | some (_, q2) => purgeLoop q2 rest

/-- Modelled from the spec: `dest->routeWithAlternate(dmsg)` as the queue purged sees it (the
classes `Exchange` and `DeliverableMessage` are not part of the sources at hand).  The
message is recorded as handed to the exchange; when the bindings resolve to this queue,
`DeliverableMessage::deliverTo` calls `deliver(msg)` on it, and an exception of `deliver`
passes through the exchange to the caller. -/
def routeWithAlternate (q : Queue) (ex : Exchange) (msg : Message) : Outcome Unit :=
  let q1 := { q with rerouted := q.rerouted ++ [(ex.name, msg)] }
  if ex.routesHere msg then q1.deliver msg else .ok () q1

/-- The loop of `Queue::purge` over the messages collected: `acquired(*qmsg)`,
`dequeue(0, *qmsg)`, then `dest->routeWithAlternate(dmsg)` when a destination exchange is
given.  An exception raised while re-routing ends the loop. -/
def rerouteLoop (dest : Option Exchange) : Queue → List QueuedMessage → Outcome Unit
  | q, [] => .ok () q
  | q, qm :: rest =>
    match q.acquired qm with
    | none => .aborted
    | some q1 =>
      match q1.dequeue false qm with
      | none => .aborted
      | some (_, q2) =>
        match dest with
        | none => rerouteLoop dest q2 rest
        | some ex =>
          match q2.routeWithAlternate ex qm.payload with
          | .aborted => .aborted
          | .raised e q3 => .raised e q3
          | .ok _ q3 => rerouteLoop dest q3 rest

/-- The test `seconds == 0 || count / seconds < 1` of `Queue::purgeExpired`, `count` being
the `uint32_t` counter read into an `int` and `seconds` the whole seconds of `lapse`
(nanoseconds) stored into an `int`; `/` rounds towards zero. -/
def expiryPassDue (q : Queue) (lapse : Int) : Bool :=
  let count := toInt32 q.dequeueSincePurge
  let seconds := toInt32 (Int.tdiv lapse TIME_SEC)
  decide (seconds = 0) || decide (Int.tdiv count seconds < 1)

/-- `Queue::purgeExpired(lapse)`.  `none` also for the division `INT_MIN / -1`, which C++
leaves undefined. -/
def purgeExpired (q : Queue) (lapse : Int) : Option Queue :=
  let count := toInt32 q.dequeueSincePurge
  let q0 := { q with dequeueSincePurge := ((q.dequeueSincePurge - count) % UINT32_SIZE).toNat }
  let seconds := toInt32 (Int.tdiv lapse TIME_SEC)
  if decide (seconds = -1) && decide (count = -2147483648) then none
  else if q.expiryPassDue lapse then
    let r := q0.messages.removeIf collect_if_expired []
    purgeLoop { q0 with messages := r.1 } r.2
  else some q0

/-- `Queue::purge(purge_request, dest, filter)`: the count returned is a `uint32_t`. -/
def purge (q : Queue) (purge_request : Nat) (dest : Option Exchange)
    (filter : Option (List (String × Variant))) : Outcome Nat :=
  match MessageFilter.create filter with
  | none => .raised .InvalidConversion q
  | some mf =>
    let r := q.messages.removeIf Collector.call { maxMatches := purge_request, filter := mf }
    match rerouteLoop dest { q with messages := r.1 } r.2.matched with
    | .aborted => .aborted
    | .raised e q1 => .raised e q1
    | .ok _ q1 => .ok (r.2.matched.length % UINT32_SIZE) q1

/-- `Queue::canAutoDelete`. -/
def canAutoDelete (q : Queue) : Bool :=
  q.autodelete && decide (q.consumerCount = 0) && q.owner.isNone

/-- `Queue::notifyDeleted`: the listeners are snapshot and all notified; the flag is set. -/
def notifyDeleted (q : Queue) : Queue :=
  { q with deleted := true, woken := q.woken ++ q.listeners }

/-- The loop `while (!messages->empty()) { alternateExchange->routeWithAlternate(front);
popAndDequeue(); }` of `Queue::destroyed`, run for at most `fuel` iterations. -/
def drainLoop : Nat → Queue → Option Queue
  | 0, _ => none
  | fuel + 1, q =>
    match q.messages.front with
    | none => some q
    | some msg =>
      match { q with routed := q.routed ++ [msg.payload] }.popAndDequeue with
      | none => none
      | some q1 => drainLoop fuel q1

/-- `Queue::destroyed`.  Every iteration of the drain removes the front message, so it runs
at most as many times as there are messages.  `none` also when `broker` is null, which the
first statement dereferences. -/
def destroyed (q : Queue) : Option Queue :=
  if !q.hasBroker then none
  else
    let q0 := { q with unbound := true }
    match (if q0.hasAlternateExchange then
        (drainLoop (q0.messages.size + 1) q0).map (fun (q1 : Queue) =>
          { q1 with alternateUsersReleased := q1.alternateUsersReleased + 1 })
      else some q0) with
    | none => none
    | some q1 =>
      let q2 :=
        if q1.hasStore then
          { q1 with deleted := true, storeCalls := q1.storeCalls ++ [.flush, .destroy],
                    hasStore := false }
        else q1
      some { q2 with autoDeleteTaskPending := false }.notifyDeleted

/-- `tryAutoDeleteImpl(broker, queue)`.  Modelled from the spec: `QueueRegistry::destroyIf`
(not part of the sources at hand) takes the queue out of the registry and answers true when
the test holds ("delete immediately if the condition holds"). -/
def tryAutoDeleteImpl (q : Queue) : Option Queue :=
  if q.canAutoDelete then { q with registered := false }.destroyed else some q

/-- `AutoDeleteTask::fire`. -/
def fireAutoDeleteTask (q : Queue) : Option Queue := q.tryAutoDeleteImpl

/-- `Queue::tryAutoDelete(broker, queue)`, `now` being the time `now()` returns, in
nanoseconds. -/
def tryAutoDelete (q : Queue) (now : Nat) : Option Queue :=
  if decide (q.autoDeleteTimeout ≠ 0) && q.canAutoDelete then
    some { q with autoDeleteTaskPending := true, autoDeleteTaskCancelled := false,
                  autoDeleteTaskTime := now + q.autoDeleteTimeout * TIME_SEC }
  else q.tryAutoDeleteImpl

/-- The calls of the session layer on a queue: `consume` is `consumeNextMessage` for a
consumer, `acquire` is `acquire(position, msg)`, `dequeue` is `dequeue(ctxt, msg)` with or
without a transaction context. -/
inductive Op where
  | push (msg : Message)
  | consume (c : Consumer)
  | acquire (position : Nat)
  | requeue (qm : QueuedMessage)
  | dequeue (ctxt : Bool) (qm : QueuedMessage)
  | dequeueCommitted (qm : QueuedMessage)
  | purge (purge_request : Nat) (dest : Option Exchange)
      (filter : Option (List (String × Variant)))
  | purgeExpired (lapse : Int)

/-- One call of the session layer: the queue it leaves behind (whether it returned or
raised) and the messages the session holds afterwards, `held` being those it held before:
the messages handed out by `consume` and `acquire` and not yet given back by `requeue` or
settled by `dequeue(0, msg)` or `dequeueCommitted`.  `none` when an assertion fails. -/
def applyOp (q : Queue) (held : List QueuedMessage) : Op → Option (Queue × List QueuedMessage)
  | .push msg => (q.push msg).map (fun q1 => (q1, held))
  | .consume c => (q.consumeNextMessage c).map (fun r => (r.2.2.2, r.2.1.toList ++ held))
  | .acquire position => (q.acquire position).map (fun r => (r.2, r.1.toList ++ held))
  | .requeue qm => (q.requeue qm).state?.map (fun q1 => (q1, held.erase qm))
  | .dequeue ctxt qm =>
    (q.dequeue ctxt qm).map (fun r => (r.2, if ctxt then held else held.erase qm))
  | .dequeueCommitted qm => (q.dequeueCommitted qm).map (fun q1 => (q1, held.erase qm))
  | .purge purge_request dest filter =>
    (q.purge purge_request dest filter).state?.map (fun q1 => (q1, held))
  | .purgeExpired lapse => (q.purgeExpired lapse).map (fun q1 => (q1, held))

/-- The session gives back, or settles, only a message it holds. -/
def Op.permitted (held : List QueuedMessage) : Op → Bool
  | .requeue qm => decide (qm ∈ held)
  | .dequeue _ qm => decide (qm ∈ held)
  | .dequeueCommitted qm => decide (qm ∈ held)
  | _ => true

/-- A sequence of calls of the session layer. -/
def runOps (q : Queue) (held : List QueuedMessage) : List Op → Option (Queue × List QueuedMessage)
  | [] => some (q, held)
  | op :: rest =>
    match applyOp q held op with
    | none => none
    | some r => runOps r.1 r.2 rest

/-- Every call of the sequence is permitted when its turn comes. -/
def permittedOps (q : Queue) (held : List QueuedMessage) : List Op → Bool
  | [] => true
  | op :: rest =>
    op.permitted held &&
      match applyOp q held op with
      | none => true
      | some r => permittedOps r.1 r.2 rest

/-- What the callbacks seen so far tell of the positions: `acquired` holds the positions
acquired and neither requeued nor dequeued since, `dequeued` the positions dequeued. -/
structure Ledger where
  acquired : List Nat := []
  dequeued : List Nat := []
  deriving DecidableEq, Repr

/-- One more callback.  `none` when it breaks the order of events of a position: an
`acquired` for a position that is acquired already or was dequeued, or a `dequeued` for a
position that is not acquired. -/
def Ledger.record (l : Ledger) : Notification → Option Ledger
  | .acquired qm =>
    if qm.position ∈ l.acquired ∨ qm.position ∈ l.dequeued then none
    else some { l with acquired := qm.position :: l.acquired }
  | .dequeued qm =>
    if qm.position ∈ l.acquired then
      some { acquired := l.acquired.erase qm.position, dequeued := qm.position :: l.dequeued }
    else none
  | .requeued qm => some { l with acquired := l.acquired.erase qm.position }
  | _ => some l

/-- The callbacks of a list, one after the other. -/
def Ledger.recordAll (l : Ledger) : List Notification → Option Ledger
  | [] => some l
  | n :: rest =>
    match l.record n with
    | none => none
    | some l1 => l1.recordAll rest

/-- In the callbacks `delta`, every `dequeued` of a position follows an `acquired` of it
with no `requeued` or `dequeued` of the position in between, and an `acquired` of a position
follows no `dequeued` of it, and no other `acquired` of it unless a `requeued` lies in
between. -/
def AcquiredBeforeDequeued (delta : List Notification) : Prop :=
  ((Ledger.recordAll {} delta).isSome : Bool) = true

/-- The queue with the callbacks of every observer returning normally. -/
def calm (q : Queue) : Queue := { q with observers := q.observers.map QueueObserver.calm }

/-- The queue `q1` is the queue `q` but for the observers whose callbacks raise and for the
warnings logged: every observer has seen the same callbacks in both. -/
def SameButThrows (q q1 : Queue) : Prop :=
  ∃ obs w, q1 = { q with observers := obs, warnings := w } ∧
    obs.map QueueObserver.calm = q.observers.map QueueObserver.calm

/-- Two calls end alike: both fail an assertion, or both return the same value, or both raise
the same exception, and they leave the same queue but for the observers whose callbacks
raise and the warnings logged. -/
def SameOutcome {α : Type} : Outcome α → Outcome α → Prop
  | .aborted, .aborted => True
  | .ok v q, .ok v1 q1 => v = v1 ∧ SameButThrows q q1
  | .raised e q, .raised e1 q1 => e = e1 ∧ SameButThrows q q1
  | _, _ => False

/-- The messages passed to the `acquired` callback among the notifications `ns`, in order. -/
def acquiredMessages : List Notification → List QueuedMessage
  | [] => []
  | .acquired qm :: rest => qm :: acquiredMessages rest
  | _ :: rest => acquiredMessages rest

/-- The policy of the queue, if any, holds every message as enqueued, whatever the calls made
on it. -/
def KeepsEnqueued (q : Queue) : Prop :=
  ∀ p, q.policy = some p → ∀ calls qm, p.isEnqueuedAfter calls qm = true

/-- The queue `q1` has the policy of `q`, with more calls recorded on it, and the messages
routed to the alternate exchange are the same. -/
def Kept (q q1 : Queue) : Prop :=
  (∃ extra, q1.policy
      = q.policy.map (fun (p : QueuePolicy) => { p with calls := p.calls ++ extra })) ∧
  q1.routed = q.routed

/-- Two calls that raise no exception end alike: both fail an assertion, or both return and
leave the same queue but for the observers whose callbacks raise and the warnings logged. -/
def SameQueue : Option Queue → Option Queue → Prop
  | none, none => True
  | some q, some q1 => SameButThrows q q1
  | _, _ => False

/-- Two calls that raise no exception end alike: both fail an assertion, or both return the
same value and leave the same queue but for the observers whose callbacks raise and the
warnings logged. -/
def SameReturn {α : Type} : Option (α × Queue) → Option (α × Queue) → Prop
  | none, none => True
  | some r, some r1 => r.1 = r1.1 ∧ SameButThrows r.2 r1.2
  | _, _ => False

/-- What ties a queue and a session to the ledger of the callbacks made so far: `items` are
the messages of the container, `seq` the sequence number, `held` the messages the session
holds.  The positions in the container are distinct, at most `seq`, and neither acquired
nor dequeued; the messages held have distinct positions, which are acquired; an acquired
position is at most `seq` and not dequeued, and is listed once; a dequeued position is at
most `seq`. -/
def LedgerInv (items : List QueuedMessage) (seq : Nat) (held : List QueuedMessage)
    (l : Ledger) : Prop :=
  (items.map QueuedMessage.position).Nodup ∧
  (∀ x ∈ items, x.position ≤ seq ∧ x.position ∉ l.acquired ∧ x.position ∉ l.dequeued) ∧
  (∀ x ∈ held, x.position ∈ l.acquired) ∧
  (held.map QueuedMessage.position).Nodup ∧
  (∀ p ∈ l.acquired, p ≤ seq ∧ p ∉ l.dequeued) ∧
  (∀ p ∈ l.dequeued, p ≤ seq) ∧
  l.acquired.Nodup

/-- The queue `q1` is reached from `q` by calls that made, on every observer, callbacks that
take the ledger `l` to `l1` without breaking the order of events of any position. -/
def Traced (q q1 : Queue) (l l1 : Ledger) : Prop :=
  ∃ delta, q1.observers = q.observers.map (fun o => o.deliver delta) ∧
    l.recordAll delta = some l1

/-- The ledger invariant for a queue without policy, `items` standing for the messages of
its container. -/
def SessionInv (q : Queue) (items held : List QueuedMessage) (l : Ledger) : Prop :=
  q.policy = none ∧ LedgerInv items q.sequence held l

/-- `Queue::acquire(msg, consumer)`, the overload that asks the allocator first: the flag
returned and the queue afterwards. -/
def acquireFor (q : Queue) (msg : QueuedMessage) (consumer : String) : Option (Bool × Queue) :=
  match q.allocatorAcquire consumer msg with
  | none => none
  | some (false, q1) => some (false, q1)
  | some (true, q1) =>
    match q1.acquire msg.position with
    | none => none
    | some (none, q2) => some (false, q2)
    | some (some _, q2) => some (true, q2)

/-- The tests of `Queue::deliver` under which the message is not enqueued: the cluster defers
the delivery, or the message is immediate and the queue has no consumer, or it is local, or
it is excluded by its trace. -/
def drops (q : Queue) (msg : Message) : Bool :=
  q.deferDelivery msg || (msg.immediate && q.consumerCount == 0) || q.isLocal msg
    || q.isExcluded msg

/-- The loop of `Queue::move` over the messages collected: `acquired`, `dequeue(0, msg)`,
then `destq->deliver(payload)`.  `destq = none` stands for a destination that is this same
queue, `some d` for another queue, whose state is returned with the outcome. -/
def moveLoop : Queue → Option Queue → List QueuedMessage → Outcome Unit × Option Queue
  | q, destq, [] => (.ok () q, destq)
  | q, destq, qm :: rest =>
    match q.acquired qm with
    | none => (.aborted, destq)
    | some q1 =>
      match q1.dequeue false qm with
      | none => (.aborted, destq)
      | some (_, q2) =>
        match destq with
        | none =>
          match q2.deliver qm.payload with
          | .aborted => (.aborted, none)
          | .raised e q3 => (.raised e q3, none)
          | .ok _ q3 => moveLoop q3 none rest
        | some d =>
          match d.deliver qm.payload with
          | .aborted => (.aborted, some d)
          | .raised e d1 => (.raised e q2, some d1)
          | .ok _ d1 => moveLoop q2 (some d1) rest

/-- `Queue::move(destq, qty, filter)`: the count returned is a `uint32_t`. -/
def move (q : Queue) (destq : Option Queue) (qty : Nat)
    (filter : Option (List (String × Variant))) : Outcome Nat × Option Queue :=
  match MessageFilter.create filter with
  | none => (.raised .InvalidConversion q, destq)
  | some mf =>
    let r := q.messages.removeIf Collector.call { maxMatches := qty, filter := mf }
    match moveLoop { q with messages := r.1 } destq r.2.matched with
    | (.aborted, d) => (.aborted, d)
    | (.raised e q1, d) => (.raised e q1, d)
    | (.ok _ q1, d) => (.ok (r.2.matched.length % UINT32_SIZE) q1, d)

/-- The queue `q1` has the configuration of `q`: no step of a move changes these. -/
def SameSetup (q q1 : Queue) : Prop :=
  q1.policy = q.policy ∧ q1.allocator = q.allocator ∧ q1.deferDelivery = q.deferDelivery ∧
  q1.consumerCount = q.consumerCount ∧ q1.noLocal = q.noLocal ∧ q1.owner = q.owner ∧
  q1.exclusive = q.exclusive ∧ q1.traceExclude = q.traceExclude ∧ q1.traceId = q.traceId ∧
  q1.insertSeqNo = q.insertSeqNo ∧ q1.messages.key = q.messages.key

/-- The message `y` is the message `x` but for what `enqueue` and `push` write when they are
configured to: the identity of the traced copy, the trace and the sequence header. -/
def SameContent (x y : Message) : Prop :=
  { y with id := x.id, trace := x.trace, headers := x.headers } = x

/-- The call `Queue::dequeue(ctxt, msg)` makes on the store, when the caller holds the lock
`locks` times: `dequeue` returns true exactly after `store->dequeue`, and its
`Mutex::ScopedLock` block, which covers the `isEnqueued` test and the `dequeued` callback,
is closed before that call. -/
def dequeueStoreCalls (q : Queue) (ctxt : Bool) (qm : QueuedMessage) (locks : Nat) : List StoreAccess :=
  match q.dequeue ctxt qm with
  | some (true, _) => [⟨.dequeue qm.payload.id, locks⟩]
  | _ => []

/-- The store calls of the `for_each(dequeues..., Queue::dequeue(0, _1))` loops. -/
def dequeueAllStoreCalls : Queue → List QueuedMessage → Nat → List StoreAccess
  | _, [], _ => []
  | q, qm :: rest, locks =>
    q.dequeueStoreCalls false qm locks ++
      match q.dequeue false qm with
      | none => []
      | some (_, q1) => dequeueAllStoreCalls q1 rest locks

/-- The store calls of the block `if (policy.get() && !suppressPolicyCheck) { ... }` of
`Queue::enqueue`: the `Mutex::ScopedLock` block around `tryEnqueue` and `getPendingDequeues`
is closed before the pending dequeues are performed. -/
def enqueuePolicyStoreCalls (q : Queue) (msg : Message) (suppressPolicyCheck : Bool) (locks : Nat) :
    List StoreAccess :=
  match q.policy with
  | none => []
  | some p =>
    if suppressPolicyCheck then []
    else if p.rejectsAfter p.calls msg then []
    else
      let p1 := p.record (.tryEnqueue msg)
      let dequeues := p1.pendingAfter p1.calls
      let p2 := p1.record .getPendingDequeues
      dequeueAllStoreCalls { q with policy := some p2 } dequeues locks

/-- The store calls of `Queue::enqueue(ctxt, msg, suppressPolicyCheck)`: `store->enqueue`,
after which `enqueue` returns true, is made under no lock of `enqueue`. -/
def enqueueStoreCalls (q : Queue) (msg : Message) (suppressPolicyCheck : Bool) (locks : Nat) :
    List StoreAccess :=
  if q.deleted then []
  else
    q.enqueuePolicyStoreCalls msg suppressPolicyCheck locks ++
      match q.enqueuePolicy msg suppressPolicyCheck with
      | .ok _ q1 =>
        if (q1.enqueueStore msg).1.1 then [⟨.enqueue (q1.enqueueStore msg).1.2.id, locks⟩]
        else []
      | _ => []

/-- The store calls of the body of `Queue::push`: the lock block ends after `enqueued(qm)`;
the displaced message is dequeued after it. -/
def pushQueuedStoreCalls (q : Queue) (qm : QueuedMessage) (isRecovery : Bool) (locks : Nat) :
    List StoreAccess :=
  let pushed := q.messages.push qm
  match { q with sequence := qm.position, messages := pushed.1, listeners := [] }.enqueued qm
  with
  | none => []
  | some q1 =>
    let q2 := { q1 with woken := q1.woken ++ q.listeners }
    match pushed.2 with
    | none => []
    | some removed =>
      match q2.acquired removed with
      | none => []
      | some q3 => if isRecovery then [] else q3.dequeueStoreCalls false removed locks

/-- The store calls of `Queue::push(msg, isRecovery)`. -/
def pushStoreCalls (q : Queue) (msg : Message) (isRecovery : Bool) (locks : Nat) : List StoreAccess :=
  let sequence := q.sequence + 1
  let msg1 := if q.insertSeqNo then setInt64 msg q.seqNoKey sequence else msg
  q.pushQueuedStoreCalls { payload := msg1, position := sequence } isRecovery locks

/-- The store calls of `Queue::deliver`, which takes no lock itself. -/
def deliverStoreCalls (q : Queue) (msg : Message) (locks : Nat) : List StoreAccess :=
  if q.drops msg then []
  else
    q.enqueueStoreCalls msg false locks ++
      match q.enqueue msg with
      | .ok r q1 => q1.pushStoreCalls r.2 false locks
      | _ => []

/-- The store calls of the block `if (inLastNodeFailure && persistLastNode && ...) { ... }`
of `Queue::requeue`, through `enqueue(0, payload)`. -/
def requeueForceStoreCalls (q : Queue) (qm : QueuedMessage) (locks : Nat) : List StoreAccess :=
  if q.inLastNodeFailure && q.persistLastNode && !q.isStoredOnQueue qm.payload then
    let q2 := q.forcePersistent qm.payload
    if q2.isForcedPersistent qm.payload then q2.enqueueStoreCalls qm.payload false locks else []
  else []

/-- The store calls of `Queue::requeue`: the block that calls `enqueue(0, payload)` lies
inside the `Mutex::ScopedLock` block of `requeue`. -/
def requeueStoreCalls (q : Queue) (qm : QueuedMessage) (locks : Nat) : List StoreAccess :=
  if !q.isEnqueued qm then []
  else requeueForceStoreCalls { q with messages := q.messages.reinsert qm, listeners := [] } qm (locks + 1)

/-- The store calls of the loop of `Queue::consumeNextMessage`: every iteration runs under a
`Mutex::ScopedLock` declared first in the body of the loop, the `dequeue(0, msg)` of an
expired message included. -/
def consumeLoopStoreCalls : Nat → Queue → Consumer → Nat → List StoreAccess
  | 0, _, _, _ => []
  | fuel + 1, q, c, locks =>
    match q.nextConsumableMessage c with
    | some (some msg, q1) =>
      if msg.payload.expired then
        match q1.acquire msg.position with
        | none => []
        | some (removed, q2) =>
          q2.dequeueStoreCalls false (removed.getD msg) (locks + 1) ++
            match q2.dequeue false (removed.getD msg) with
            | none => []
            | some (_, q3) => consumeLoopStoreCalls fuel q3 { c with position := msg.position } locks
      else []
    | _ => []

/-- The store calls of `Queue::consumeNextMessage`. -/
def consumeNextMessageStoreCalls (q : Queue) (c : Consumer) (locks : Nat) : List StoreAccess :=
  consumeLoopStoreCalls (q.messages.size + 1) q c locks

/-- The store calls of the loop `acquired(*i); dequeue(0, *i);` of `purgeExpired`, `locks`
being the number of times the lock is held where `dequeue` is called. -/
def purgeLoopStoreCalls : Queue → List QueuedMessage → Nat → List StoreAccess
  | _, [], _ => []
  | q, qm :: rest, locks =>
    match q.acquired qm with
    | none => []
    | some q1 =>
      q1.dequeueStoreCalls false qm locks ++
        match q1.dequeue false qm with
        | none => []
        | some (_, q2) => purgeLoopStoreCalls q2 rest locks

/-- The store calls of `dest->routeWithAlternate(dmsg)`: those of `deliver` on this queue,
when the exchange routes the message back to it. -/
def routeWithAlternateStoreCalls (q : Queue) (ex : Exchange) (msg : Message) (locks : Nat) :
    List StoreAccess :=
  if ex.routesHere msg then
    deliverStoreCalls { q with rerouted := q.rerouted ++ [(ex.name, msg)] } msg locks
  else []

/-- The store calls of the loop of `Queue::purge`, `locks` being the number of times the
lock of the queue is held in the loop. -/
def rerouteLoopStoreCalls (dest : Option Exchange) :
    Queue → List QueuedMessage → Nat → List StoreAccess
  | _, [], _ => []
  | q, qm :: rest, locks =>
    match q.acquired qm with
    | none => []
    | some q1 =>
      q1.dequeueStoreCalls false qm locks ++
        match q1.dequeue false qm with
        | none => []
        | some (_, q2) =>
          match dest with
          | none => rerouteLoopStoreCalls dest q2 rest locks
          | some ex =>
            q2.routeWithAlternateStoreCalls ex qm.payload locks ++
              match q2.routeWithAlternate ex qm.payload with
              | .ok _ q3 => rerouteLoopStoreCalls dest q3 rest locks
              | _ => []

/-- The store calls of `Queue::purge`: the `Mutex::ScopedLock` declared before `removeIf`
is held until the function returns, over the loop. -/
def purgeStoreCalls (q : Queue) (purge_request : Nat) (dest : Option Exchange)
    (filter : Option (List (String × Variant))) (locks : Nat) : List StoreAccess :=
  match MessageFilter.create filter with
  | none => []
  | some mf =>
    let r := q.messages.removeIf Collector.call { maxMatches := purge_request, filter := mf }
    rerouteLoopStoreCalls dest { q with messages := r.1 } r.2.matched (locks + 1)

/-- The store calls of `Queue::purgeExpired`: the lock is taken for `removeIf` and for each
`acquired(*i)` in blocks of their own; `dequeue(0, *i)` is called outside them. -/
def purgeExpiredStoreCalls (q : Queue) (lapse : Int) (locks : Nat) : List StoreAccess :=
  let count := toInt32 q.dequeueSincePurge
  let q0 := { q with dequeueSincePurge := ((q.dequeueSincePurge - count) % UINT32_SIZE).toNat }
  let seconds := toInt32 (Int.tdiv lapse TIME_SEC)
  if decide (seconds = -1) && decide (count = -2147483648) then []
  else if q.expiryPassDue lapse then
    let r := q0.messages.removeIf collect_if_expired []
    purgeLoopStoreCalls { q0 with messages := r.1 } r.2 locks
  else []

/-- The store calls of the loop of `Queue::move`, `locks` being the number of times the
lock of the queue moved from is held in the loop. -/
def moveLoopStoreCalls : Queue → Option Queue → List QueuedMessage → Nat → List StoreAccess
  | _, _, [], _ => []
  | q, destq, qm :: rest, locks =>
    match q.acquired qm with
    | none => []
    | some q1 =>
      q1.dequeueStoreCalls false qm locks ++
        match q1.dequeue false qm with
        | none => []
        | some (_, q2) =>
          match destq with
          | none =>
            q2.deliverStoreCalls qm.payload locks ++
              match q2.deliver qm.payload with
              | .ok _ q3 => moveLoopStoreCalls q3 none rest locks
              | _ => []
          | some d =>
            d.deliverStoreCalls qm.payload locks ++
              match d.deliver qm.payload with
              | .ok _ d1 => moveLoopStoreCalls q2 (some d1) rest locks
              | _ => []

/-- The store calls of `Queue::move`: the `Mutex::ScopedLock` declared before `removeIf` is
held until the function returns, over the loop. -/
def moveStoreCalls (q : Queue) (destq : Option Queue) (qty : Nat)
    (filter : Option (List (String × Variant))) (locks : Nat) : List StoreAccess :=
  match MessageFilter.create filter with
  | none => []
  | some mf =>
    let r := q.messages.removeIf Collector.call { maxMatches := qty, filter := mf }
    moveLoopStoreCalls { q with messages := r.1 } destq r.2.matched (locks + 1)

/-- The store calls of the drain loop of `Queue::destroyed`, through `popAndDequeue`. -/
def drainLoopStoreCalls : Nat → Queue → Nat → List StoreAccess
  | 0, _, _ => []
  | fuel + 1, q, locks =>
    match q.messages.front with
    | none => []
    | some msg =>
      match { q with routed := q.routed ++ [msg.payload] }.pop with
      | none => []
      | some q1 =>
        q1.dequeueStoreCalls false msg locks ++
          match q1.dequeue false msg with
          | none => []
          | some (_, q2) => drainLoopStoreCalls fuel q2 locks

/-- The store calls of `Queue::destroyed`: the drain loop runs inside the block of the
alternate exchange, under its `Mutex::ScopedLock`; `flush` and `destroy` follow the
block. -/
def destroyedStoreCalls (q : Queue) (locks : Nat) : List StoreAccess :=
  if !q.hasBroker then []
  else
    let q0 := { q with unbound := true }
    (if q0.hasAlternateExchange then drainLoopStoreCalls (q0.messages.size + 1) q0 (locks + 1)
      else []) ++
      match (if q0.hasAlternateExchange then drainLoop (q0.messages.size + 1) q0
          else some q0) with
      | none => []
      | some q1 => if q1.hasStore then [⟨.flush, locks⟩, ⟨.destroy, locks⟩] else []

/-- The queue `q1` is the queue `q` after the store calls `ios`, and no other. -/
def Stored (q q1 : Queue) (ios : List StoreAccess) : Prop :=
  q1.storeCalls = q.storeCalls ++ ios.map StoreAccess.call

/-- `Queue::recoveryComplete(exchanges)`, `exchanges` being the names of the exchanges the
registry holds.  Modelled from the spec: `ExchangeRegistry::get` (declared in
`ExchangeRegistry.h`, its body is not part of the sources at hand) raises NotFoundException
for a name the registry does not hold, which is caught and logged here.  Then "process any
pending dequeues": `dequeue(0, msg)` for each message of `pendingDequeues`, in order, and the
list is cleared. -/
def recoveryComplete (q : Queue) (exchanges : List String) : Option Queue :=
  let q1 :=
    if decide (q.alternateExchangeName ≠ "") && decide (q.alternateExchangeName ∈ exchanges)
    then { q with hasAlternateExchange := true }
    else q
  (dequeueAll q1 q1.pendingDequeues).map (fun (q2 : Queue) => { q2 with pendingDequeues := [] })

/-- Successive calls of `consumeNextMessage` for one consumer, `n` of them: the code and the
message each call returned, in order, and the consumer and the queue after the last. -/
def consumeRepeatedly : Nat → Queue → Consumer →
    Option (List (ConsumeCode × Option QueuedMessage) × Consumer × Queue)
  | 0, q, c => some ([], c, q)
  | n + 1, q, c =>
    match q.consumeNextMessage c with
    | none => none
    | some (code, m, c1, q1) =>
      (consumeRepeatedly n q1 c1).map (fun r => ((code, m) :: r.1, r.2))

/-- The calls that register and cancel a consumer. -/
inductive ConsumerCall where
  | consume (c : Consumer) (requestExclusive : Bool)
  | cancel (c : Consumer)

/-- A queue with the account of the calls made so far: `active` holds the names of the
consumers for which `consume` returned and that have not been cancelled since, `consumed`
counts the calls of `consume` that returned and `cancelled` the calls of `cancel`. -/
structure ConsumerLog where
  queue : Queue
  active : List String := []
  consumed : Nat := 0
  cancelled : Nat := 0

/-- One call of `consume` or `cancel`.  `none` when an assertion fails, and for a `cancel`
that follows no matching `consume`: the consumer is not among the active ones. -/
def consumerCall (s : ConsumerLog) : ConsumerCall → Option ConsumerLog
  | .consume c requestExclusive =>
    match s.queue.consume c requestExclusive with
    | .aborted => none
    | .raised _ q1 => some { s with queue := q1 }
    | .ok _ q1 =>
      some { s with queue := q1, active := c.name :: s.active, consumed := s.consumed + 1 }
  | .cancel c =>
    if c.name ∈ s.active then
      match s.queue.cancel c with
      | none => none
      | some q1 =>
        some { s with queue := q1, active := s.active.erase c.name,
                      cancelled := s.cancelled + 1 }
    else none

/-- A sequence of calls of `consume` and `cancel`. -/
def consumerCalls (s : ConsumerLog) : List ConsumerCall → Option ConsumerLog
  | [] => some s
  | call :: rest =>
    match consumerCall s call with
    | none => none
    | some s1 => consumerCalls s1 rest

/-- The account of the calls agrees with the queue: `consumerCount` is the number of active
consumers, which is the number of calls of `consume` that returned less the number of calls
of `cancel`, and an exclusive session has no consumer beside it. -/
def Agrees (s : ConsumerLog) : Prop :=
  s.queue.consumerCount = s.active.length ∧ s.consumed = s.cancelled + s.active.length ∧
  (s.queue.exclusive.isSome = true → s.active.length = 1)

end Queue

/-! ## Queue::UsageBarrier -/

/-- `Queue::UsageBarrier`: `deleted` is `parent.deleted`, the one member of the queue the
barrier reads and writes.  Modelled from the spec: `count` (declared in `Queue.h`, which is
not part of the sources at hand) is the "counter" of the barrier, taken as an unsigned
32-bit counter like the other counters of the queue; the constructor sets it to 0. -/
structure UsageBarrier where
  count : Nat := 0
  deleted : Bool := false
  deriving DecidableEq, Repr

namespace UsageBarrier

/-- `UsageBarrier::acquire`: the flag returned and the barrier afterwards. -/
def acquire (b : UsageBarrier) : Bool × UsageBarrier :=
  if b.deleted then (false, b)
  else (true, { b with count := (b.count + 1) % UINT32_SIZE })

/-- `UsageBarrier::release`: the barrier afterwards, and whether `notifyAll` is called on the
monitor (`--count == 0`). -/
def release (b : UsageBarrier) : UsageBarrier × Bool :=
  ({ b with count := (b.count + (UINT32_SIZE - 1)) % UINT32_SIZE },
   decide ((b.count + (UINT32_SIZE - 1)) % UINT32_SIZE = 0))

/-- `UsageBarrier::destroy` up to its loop: the flag is set.  The loop
`while (count) parent.messageLock.wait()` that follows gives the monitor up while it waits,
so the calls of the other threads take place after this point. -/
def destroy (b : UsageBarrier) : UsageBarrier := { b with deleted := true }

/-- The test of the loop of `destroy`: the caller of `destroy` waits while `count` is not 0. -/
def destroyWaits (b : UsageBarrier) : Bool := decide (b.count ≠ 0)

/-- The calls made on a barrier. -/
inductive BarrierCall where
  | acquire
  | release
  | destroy
  deriving DecidableEq, Repr

/-- One call on the barrier, `held` being the number of calls of `acquire` that returned true
and were not followed by their `release` yet.  `none` for a `release` that follows no such
`acquire`. -/
def barrierCall (b : UsageBarrier) (held : Nat) : BarrierCall → Option (UsageBarrier × Nat)
  | .acquire => some (b.acquire.2, if b.acquire.1 then held + 1 else held)
  | .release => if held = 0 then none else some (b.release.1, held - 1)
  | .destroy => some (b.destroy, held)

/-- A sequence of calls on the barrier. -/
def barrierCalls (b : UsageBarrier) (held : Nat) : List BarrierCall → Option (UsageBarrier × Nat)
  | [] => some (b, held)
  | c :: rest =>
    match b.barrierCall held c with
    | none => none
    | some r => barrierCalls r.1 r.2 rest

/-- The flags returned by the calls of `acquire` of a sequence of calls, in order. -/
def acquireResults (b : UsageBarrier) (held : Nat) : List BarrierCall → List Bool
  | [] => []
  | c :: rest =>
    match b.barrierCall held c with
    | none => []
    | some r =>
      (if c = .acquire then [b.acquire.1] else []) ++ acquireResults r.1 r.2 rest

end UsageBarrier

/-! ## SenderContext (outbound AMQP 1.0)

A shallow embedding of `qpid/messaging/amqp/SenderContext.cpp`.  A `std::string` is a
string of characters and a byte buffer a list of byte values.  The proton library
(`pn_link_t`, `pn_delivery_t`), the AMQP encoder, `MessageImpl`, `EncodedMessage` and
`Address` are not part of the sources at hand and are modelled from the spec. -/

/-- Modelled from the spec: `qpid::messaging::Address`, the "target name + optional
subject". -/
structure Address where
  name : String
  subject : String := ""
  deriving DecidableEq, Repr

/-- Modelled from the spec: `EncodedMessage`, "the original encoded bytes" of a message that
was received: `data` is what `getData()` and `getSize()` give, `bareMessage` what
`getBareMessage()` gives (the part of `data` that follows the header and the
annotations). -/
structure EncodedMessage where
  data : List Nat
  bareMessage : List Nat
  deriving DecidableEq, Repr

/-- Modelled from the spec: `MessageImpl`, reduced to what `Delivery::encode` reads itself:
`getSubject()`, `getHeaders()` (a `Variant::Map`, in key order), `getBytes()`,
`getEncoded()` (`none` for a null pointer) and the answer of
`original->hasHeaderChanged(msg)`.  `content` stands for everything else the adapters hand to
the encoder (durable, priority, ttl, redelivered, message id, user id, reply-to,
correlation id, content type). -/
structure MessageImpl where
  subject : String := ""
  headers : List (String × Variant) := []
  bytes : List Nat := []
  encoded : Option EncodedMessage := none
  headerChanged : Bool := false
  content : List Nat := []

/-- The calls of `qpid::amqp::MapHandler` that `ApplicationPropertiesAdapter::handle` makes;
`value` is the string the scalar converts to.  The encoding passed with a string value is
left out, the model of `Variant` not carrying it. -/
inductive MapCall where
  | handleVoid (key : String)
  | handleBool (key value : String)
  | handleUint8 (key value : String)
  | handleUint16 (key value : String)
  | handleUint32 (key value : String)
  | handleUint64 (key value : String)
  | handleInt8 (key value : String)
  | handleInt16 (key value : String)
  | handleInt32 (key value : String)
  | handleInt64 (key value : String)
  | handleFloat (key value : String)
  | handleDouble (key value : String)
  | handleString (key value : String)
  deriving DecidableEq, Repr

/-- The type tag a handler is made for. -/
def MapCall.tag : MapCall → ScalarType
  | .handleVoid _ => .VAR_VOID
  | .handleBool _ _ => .VAR_BOOL
  | .handleUint8 _ _ => .VAR_UINT8
  | .handleUint16 _ _ => .VAR_UINT16
  | .handleUint32 _ _ => .VAR_UINT32
  | .handleUint64 _ _ => .VAR_UINT64
  | .handleInt8 _ _ => .VAR_INT8
  | .handleInt16 _ _ => .VAR_INT16
  | .handleInt32 _ _ => .VAR_INT32
  | .handleInt64 _ _ => .VAR_INT64
  | .handleFloat _ _ => .VAR_FLOAT
  | .handleDouble _ _ => .VAR_DOUBLE
  | .handleString _ _ => .VAR_STRING

/-- The key a handler is called with. -/
def MapCall.key : MapCall → String
  | .handleVoid k => k
  | .handleBool k _ => k
  | .handleUint8 k _ => k
  | .handleUint16 k _ => k
  | .handleUint32 k _ => k
  | .handleUint64 k _ => k
  | .handleInt8 k _ => k
  | .handleInt16 k _ => k
  | .handleInt32 k _ => k
  | .handleInt64 k _ => k
  | .handleFloat k _ => k
  | .handleDouble k _ => k
  | .handleString k _ => k

/-- The value a handler is called with (none for `handleVoid`). -/
def MapCall.value? : MapCall → Option String
  | .handleVoid _ => none
  | .handleBool _ v => some v
  | .handleUint8 _ v => some v
  | .handleUint16 _ v => some v
  | .handleUint32 _ v => some v
  | .handleUint64 _ v => some v
  | .handleInt8 _ v => some v
  | .handleInt16 _ v => some v
  | .handleInt32 _ v => some v
  | .handleInt64 _ v => some v
  | .handleFloat _ v => some v
  | .handleDouble _ v => some v
  | .handleString _ v => some v

/-- The constant `X_AMQP`. -/
def X_AMQP : String := "x-amqp-"

/-- The `for` loop of `startsWith`: `b` runs over the pattern and `a` over the input. -/
def startsWithLoop : List Char → List Char → Bool
  | [], _ => true
  | _ :: _, [] => false
  | b :: bs, a :: as => if a ≠ b then false else startsWithLoop bs as

/-- The function `startsWith(input, pattern)`. -/
def startsWith (input pattern : String) : Bool :=
  if input.length < pattern.length then false
  else startsWithLoop pattern.data input.data

/-- The `switch (i->second.getType())` of `ApplicationPropertiesAdapter::handle`: the call
made for one entry, none for a UUID (a warning is logged) and for a nested map or list (a
warning is logged). -/
def handleEntry (key : String) : Variant → List MapCall
  | .scalar .VAR_VOID _ => [.handleVoid key]
  | .scalar .VAR_BOOL v => [.handleBool key v]
  | .scalar .VAR_UINT8 v => [.handleUint8 key v]
  | .scalar .VAR_UINT16 v => [.handleUint16 key v]
  | .scalar .VAR_UINT32 v => [.handleUint32 key v]
  | .scalar .VAR_UINT64 v => [.handleUint64 key v]
  | .scalar .VAR_INT8 v => [.handleInt8 key v]
  | .scalar .VAR_INT16 v => [.handleInt16 key v]
  | .scalar .VAR_INT32 v => [.handleInt32 key v]
  | .scalar .VAR_INT64 v => [.handleInt64 key v]
  | .scalar .VAR_FLOAT v => [.handleFloat key v]
  | .scalar .VAR_DOUBLE v => [.handleDouble key v]
  | .scalar .VAR_STRING v => [.handleString key v]
  | .scalar .VAR_UUID _ => []
  | .map _ => []
  | .list _ => []

/-- `ApplicationPropertiesAdapter::handle`: the calls made on the handler, in order, for
the headers given in the key order of the map. -/
def ApplicationPropertiesAdapter.handle : List (String × Variant) → List MapCall
  | [] => []
  | (key, value) :: rest =>
    (if !startsWith key X_AMQP then handleEntry key value else [])
      ++ ApplicationPropertiesAdapter.handle rest

/-- Whether an entry of the headers is one the spec has the adapter emit: its key does not
begin with `x-amqp-` and its value is a scalar other than a UUID. -/
def emitted (e : String × Variant) : Bool :=
  !(X_AMQP.data.isPrefixOf e.1.data) &&
    match e.2 with
    | .scalar .VAR_UUID _ => false
    | .scalar _ _ => true
    | _ => false

/-- Modelled from the spec: `qpid::amqp::MessageEncoder`, known by the bytes it writes for
each section.  It reads the message through `HeaderAdapter` and `PropertiesAdapter` (with
the subject of the address); `none` stands for an exception raised on the way (a header
that does not convert to the type asked for). -/
structure MessageEncoder where
  writeHeader : MessageImpl → Option (List Nat)
  writeProperties : MessageImpl → String → Option (List Nat)
  writeApplicationProperties : List MapCall → List Nat
  writeBinary : List Nat → List Nat
  getEncodedSize : MessageImpl → String → List MapCall → List Nat → Option Nat

/-- `changedSubject(msg, address)`. -/
def changedSubject (msg : MessageImpl) (address : Address) : Bool :=
  decide (address.subject.length ≠ 0) && decide (address.subject ≠ msg.subject)

/-- Modelled from the spec: `encoded.resize(n)`: a buffer of `n` bytes; what it holds before
anything is written is not specified and is taken from `junk`. -/
def resize (junk : List Nat) (n : Nat) : List Nat :=
  (junk ++ List.replicate n 0).take n

/-- The buffer after `bytes` have been written from position `pos`. -/
def writeAt (buffer : List Nat) (pos : Nat) (bytes : List Nat) : List Nat :=
  buffer.take pos ++ bytes ++ buffer.drop (pos + bytes.length)

/-- How `Delivery::encode` ends: with the buffer `encoded` filled, with an exception, or
with a write past the end of the buffer, which C++ leaves undefined. -/
inductive Encoded where
  | ok (encoded : List Nat)
  | raised
  | undefined
  deriving DecidableEq, Repr

/-- Modelled from the spec: proton's `pn_delivery_t`, the token of a delivery:
`remoteState` is `pn_delivery_remote_state` (0 while the peer has set none) and `settled`
is `pn_delivery_settled`. -/
structure Token where
  remoteState : Nat := 0
  settled : Bool := false
  deriving DecidableEq, Repr

/-- `SenderContext::Delivery`; `token = none` is the null token of the constructor. -/
structure SenderContext.Delivery where
  id : Int
  token : Option Token := none
  encoded : List Nat := []
  deriving DecidableEq, Repr

/-- The calls made on proton for the sender link, with the id of the delivery: `pn_delivery`,
`pn_link_send`, `pn_link_advance`, `pn_delivery_settle`, `pn_link_close`. -/
inductive LinkCall where
  | delivery (id : Int)
  | send (bytes : List Nat)
  | advance
  | settle (id : Int)
  | close
  deriving DecidableEq, Repr

/-- Modelled from the spec: proton's `pn_link_t` for the sender: the calls made on it so
far, and the credit `pn_link_credit` answers after a given history of calls. -/
structure Link where
  calls : List LinkCall := []
  creditAfter : List LinkCall → Int := fun _ => 0

/-- Exceptions that leave `SenderContext`: `SenderError`, and whatever the encoder or an
adapter raises while a message is encoded. -/
inductive SenderException where
  | SenderError
  | EncodeFailure
  deriving DecidableEq, Repr

/-- State of a `SenderContext`.  The constructor sets `capacity` to 1000 and leaves `nextId`
as it finds it. -/
structure SenderContext where
  name : String
  address : Address
  nextId : Int
  sender : Link := {}
  capacity : Nat := 1000
  deliveries : List SenderContext.Delivery := []

/-- How an operation of `SenderContext` ends: it returns `value`, or an exception reaches
the caller, `s` being the context at that point; or it does what C++ leaves undefined. -/
inductive SenderOutcome (α : Type) where
  | ok (value : α) (s : SenderContext)
  | raised (e : SenderException) (s : SenderContext)
  | undefined

namespace SenderContext

/-- The `else` branch of `Delivery::encode`: header, properties, application properties and
body are written into a buffer of the size computed, which is then trimmed to what was
written.  Modelled from the spec: an encoder raises rather than write past the size it was
given. -/
def Delivery.encodeFull (enc : MessageEncoder) (msg : MessageImpl) (address : Address) :
    Encoded :=
  let applicationProperties := ApplicationPropertiesAdapter.handle msg.headers
  match enc.getEncodedSize msg address.subject applicationProperties msg.bytes,
    enc.writeHeader msg, enc.writeProperties msg address.subject with
  | some size, some header, some properties =>
    let written := header ++ properties
      ++ enc.writeApplicationProperties applicationProperties
      ++ (if msg.bytes.length ≠ 0 then enc.writeBinary msg.bytes else [])
    if size < written.length then .raised else .ok written
  | _, _, _ => .raised

/-- `Delivery::encode`, with the encoder `enc` and the content `junk` of fresh memory: the
buffer `encoded` the delivery is left with.  Modelled from the spec: an encoder raises
rather than write past the size it was given; `memcpy` does not. -/
def Delivery.encode (enc : MessageEncoder) (junk : List Nat) (msg : MessageImpl)
    (address : Address) : Encoded :=
  match msg.encoded with
  | some original =>
    if !changedSubject msg address then
      if msg.headerChanged then
        let buffer := resize junk (16 + original.bareMessage.length)
        match enc.writeHeader msg with
        | none => .raised
        | some header =>
          if buffer.length < header.length then .raised
          else if buffer.length < header.length + original.bareMessage.length then .undefined
          else .ok (writeAt (writeAt buffer 0 header) header.length original.bareMessage)
      else .ok (writeAt (resize junk original.data.length) 0 original.data)
    else Delivery.encodeFull enc msg address
  | none => Delivery.encodeFull enc msg address

/-- `Delivery::send(sender)`: a token is made for the delivery, the buffer is handed to the
link and the link is advanced.  Modelled from the spec: the token `pn_delivery` returns
has no remote state and is not settled. -/
def Delivery.send (d : Delivery) (sender : Link) : Delivery × Link :=
  ({ d with token := some {} },
   { sender with calls := sender.calls ++ [.delivery d.id, .send d.encoded, .advance] })

/-- `Delivery::delivered()`; `none` when the token is null, which proton is not to be
given. -/
def Delivery.delivered (d : Delivery) : Option Bool :=
  match d.token with
  | none => none
  | some token => some (decide (token.remoteState ≠ 0) || token.settled)

/-- `Delivery::settle()`. -/
def Delivery.settle (d : Delivery) (sender : Link) : Link :=
  { sender with calls := sender.calls ++ [.settle d.id] }

/-- `SenderContext::close`. -/
def close (s : SenderContext) : SenderContext :=
  { s with sender := { s.sender with calls := s.sender.calls ++ [.close] } }

/-- `SenderContext::setCapacity`. -/
def setCapacity (s : SenderContext) (c : Nat) : SenderOutcome Unit :=
  if c < s.deliveries.length then .raised .SenderError s
  else .ok () { s with capacity := c }

/-- `SenderContext::getCapacity`. -/
def getCapacity (s : SenderContext) : Nat := s.capacity

/-- The loop of `SenderContext::processUnsettled`: the deliveries left and the link after
the settled ones have been taken from the front. -/
def processUnsettledLoop : List Delivery → Link → Option (List Delivery × Link)
  | [], sender => some ([], sender)
  | d :: rest, sender =>
    match d.delivered with
    | none => none
    | some true => processUnsettledLoop rest (d.settle sender)
    | some false => some (d :: rest, sender)

/-- `SenderContext::processUnsettled`: the count returned is a `uint32_t`. -/
def processUnsettled (s : SenderContext) : Option (Nat × SenderContext) :=
  match processUnsettledLoop s.deliveries s.sender with
  | none => none
  | some (deliveries, sender) =>
    some (deliveries.length % UINT32_SIZE, { s with deliveries := deliveries, sender := sender })

/-- `SenderContext::getUnsettled`. -/
def getUnsettled (s : SenderContext) : Option (Nat × SenderContext) := s.processUnsettled

/-- `SenderContext::settled`. -/
def settled (s : SenderContext) : Option (Bool × SenderContext) :=
  s.processUnsettled.map (fun r => (r.1 == 0, r.2))

/-- `SenderContext::send`, with the encoder `enc` and the content `junk` of fresh memory: the
delivery returned (`none` for the null pointer).  Modelled from the spec: the id is "an
incrementing 32-bit id". -/
def send (s : SenderContext) (enc : MessageEncoder) (junk : List Nat)
    (message : MessageImpl) : SenderOutcome (Option Delivery) :=
  match s.processUnsettled with
  | none => .undefined
  | some (unsettled, s1) =>
    if decide (unsettled < s1.capacity) && decide (s1.sender.creditAfter s1.sender.calls ≠ 0)
    then
      let delivery : Delivery := { id := s1.nextId }
      let s2 := { s1 with deliveries := s1.deliveries ++ [delivery],
                          nextId := toInt32 (s1.nextId + 1) }
      match Delivery.encode enc junk message s2.address with
      | .undefined => .undefined
      | .raised => .raised .EncodeFailure s2
      | .ok encoded =>
        let sent := Delivery.send { delivery with encoded := encoded } s2.sender
        .ok (some sent.1) { s2 with deliveries := s1.deliveries ++ [sent.1], sender := sent.2 }
    else .ok none s1

/-- `SenderContext::SenderContext(session, n, a)`: the link is the one `pn_sender` makes, the
capacity is 1000 and there is no delivery.  The constructor does not initialise `nextId`:
`nextId` stands for whatever the member holds. -/
def construct (n : String) (a : Address) (sender : Link) (nextId : Int) : SenderContext :=
  { name := n, address := a, nextId := nextId, sender := sender, capacity := 1000 }

/-- The calls made on a sender, and what the peer does in between: `remote id token` is the
state proton reports from then on for the delivery `id`, once the peer has acted on it. -/
inductive SenderCall where
  | send (enc : MessageEncoder) (junk : List Nat) (message : MessageImpl)
  | setCapacity (c : Nat)
  | getUnsettled
  | settled
  | processUnsettled
  | remote (id : Int) (token : Token)

/-- The context one call leaves behind, whether it returned or raised; the argument of
`setCapacity` is a `uint32_t`.  `none` when the call does what C++ leaves undefined. -/
def senderCall (s : SenderContext) : SenderCall → Option SenderContext
  | .send enc junk message =>
    match s.send enc junk message with
    | .ok _ s1 => some s1
    | .raised _ s1 => some s1
    | .undefined => none
  | .setCapacity c =>
    match s.setCapacity (c % UINT32_SIZE) with
    | .ok _ s1 => some s1
    | .raised _ s1 => some s1
    | .undefined => none
  | .getUnsettled => s.getUnsettled.map Prod.snd
  | .settled => s.settled.map Prod.snd
  | .processUnsettled => s.processUnsettled.map Prod.snd
  | .remote id token =>
    some { s with deliveries := s.deliveries.map (fun d =>
      if d.id = id ∧ d.token.isSome then { d with token := some token } else d) }

/-- A sequence of calls on a sender. -/
def senderCalls (s : SenderContext) : List SenderCall → Option SenderContext
  | [] => some s
  | c :: rest =>
    match s.senderCall c with
    | none => none
    | some s1 => senderCalls s1 rest

end SenderContext

/-! ## Lemmas on maps -/

namespace StdMap

variable {κ ν : Type} [DecidableEq κ]

theorem find_erase_same (m : List (κ × ν)) (k : κ) : find (erase m k) k = none := by
  induction m with
  | nil => rfl
  | cons e rest ih =>
    obtain ⟨k1, v1⟩ := e
    by_cases h : k1 = k
    · simp [erase, h, ih]
    · simp [erase, find, h, ih]

theorem find_erase_other (m : List (κ × ν)) (k k2 : κ) (hk : k2 ≠ k) :
    find (erase m k) k2 = find m k2 := by
  induction m with
  | nil => rfl
  | cons e rest ih =>
    obtain ⟨k1, v1⟩ := e
    by_cases h : k1 = k
    · subst h
      have h2 : ¬ k1 = k2 := fun h3 => hk h3.symm
      simp only [erase, find, if_pos, if_neg h2, ih]
    · by_cases h2 : k1 = k2
      · subst h2
        simp only [erase, find, if_neg h, if_pos]
      · simp only [erase, find, if_neg h, if_neg h2, ih]

variable [KeyOrder κ]

theorem find_put_same (m : List (κ × ν)) (k : κ) (v : ν) : find (put m k v) k = some v := by
  induction m with
  | nil => simp only [put, find, if_pos]
  | cons e rest ih =>
    obtain ⟨k1, v1⟩ := e
    by_cases h : k1 = k
    · simp only [put, find, if_pos h, if_pos]
    · by_cases h2 : KeyOrder.lt k k1 = true
      · simp only [put, find, if_neg h, if_pos h2, if_pos]
      · simp only [put, find, if_neg h, if_neg h2, ih]

theorem find_put_other (m : List (κ × ν)) (k k2 : κ) (v : ν) (hk : k2 ≠ k) :
    find (put m k v) k2 = find m k2 := by
  have hk' : ¬ k = k2 := fun h => hk h.symm
  induction m with
  | nil => simp only [put, find, if_neg hk']
  | cons e rest ih =>
    obtain ⟨k1, v1⟩ := e
    by_cases h : k1 = k
    · subst h
      simp only [put, find, if_pos, if_neg hk']
    · by_cases h2 : KeyOrder.lt k k1 = true
      · simp only [put, find, if_neg h, if_pos h2, if_neg hk']
      · by_cases h3 : k1 = k2
        · subst h3
          simp only [put, find, if_neg h, if_neg h2, if_pos]
        · simp only [put, find, if_neg h, if_neg h2, if_neg h3, ih]

end StdMap

/-! ## Lemmas on the group manager -/

namespace MessageGroupManager

theorem ownerOf_eq_some {m : MessageGroupManager} {g c : String} :
    m.ownerOf g = some c ↔ ∃ st, StdMap.find m.messageGroups g = some st ∧ st.owner = c := by
  unfold ownerOf
  cases h : StdMap.find m.messageGroups g <;> simp

theorem ownerOf_congr {m m1 : MessageGroupManager} (h : m1.messageGroups = m.messageGroups)
    (g : String) : m1.ownerOf g = m.ownerOf g := by
  unfold ownerOf
  rw [h]

theorem ownerOf_put_same (m m1 : MessageGroupManager) (g : String) (st : GroupState)
    (h : m1.messageGroups = StdMap.put m.messageGroups g st) : m1.ownerOf g = some st.owner := by
  unfold ownerOf
  rw [h, StdMap.find_put_same]
  rfl

theorem ownerOf_put_other (m m1 : MessageGroupManager) (g g2 : String) (st : GroupState)
    (h : m1.messageGroups = StdMap.put m.messageGroups g st) (hg : g2 ≠ g) :
    m1.ownerOf g2 = m.ownerOf g2 := by
  unfold ownerOf
  rw [h, StdMap.find_put_other _ _ _ _ hg]

theorem acquiredOf_put_same (m m1 : MessageGroupManager) (g : String) (st : GroupState)
    (h : m1.messageGroups = StdMap.put m.messageGroups g st) :
    m1.acquiredOf g = st.acquired := by
  unfold acquiredOf
  rw [h, StdMap.find_put_same]
  rfl

theorem unFree_groups {m m1 : MessageGroupManager} {g : String} {st : GroupState}
    (h : m.unFree g st = some m1) :
    m1.messageGroups = m.messageGroups ∧ m1.consumers = m.consumers ∧
      m1.groupIdHeader = m.groupIdHeader := by
  unfold unFree at h
  split at h
  · exact absurd h (by simp)
  · split at h
    · exact absurd h (by simp)
    · split at h
      · cases h
        exact ⟨rfl, rfl, rfl⟩
      · exact absurd h (by simp)

theorem own_groups {m m1 : MessageGroupManager} {g owner : String} {st : GroupState}
    (h : m.own g st owner = some m1) :
    m1.messageGroups = StdMap.put m.messageGroups g { st with owner := owner } := by
  unfold own at h
  have h1 := (unFree_groups h).1
  rw [h1]
  rfl

theorem disown_groups {m m1 : MessageGroupManager} {g : String} {st : GroupState}
    (h : m.disown g st = some m1) :
    m1.messageGroups = StdMap.put m.messageGroups g { st with owner := "" } := by
  unfold disown at h
  split at h
  · exact absurd h (by simp)
  · simp only at h
    split at h
    · exact absurd h (by simp)
    · split at h
      · exact absurd h (by simp)
      · cases h
        rfl

theorem owned_of_ne_empty {st : GroupState} (h : st.owner ≠ "") : st.owned = true := by
  simp [GroupState.owned, h]

theorem ownerOf_after_acquireMessage {m m1 : MessageGroupManager} {c : String}
    {qm : QueuedMessage} (h : m.acquireMessage c qm = some (true, m1)) :
    m1.ownerOf (m.getGroupId qm) = some c := by
  unfold acquireMessage at h
  simp only at h
  split at h
  · exact absurd h (by simp)
  · rename_i st hst
    split at h
    · split at h
      · exact absurd h (by simp)
      · rename_i m2 hown
        simp only [Option.some.injEq, Prod.mk.injEq, true_and] at h
        subst h
        exact ownerOf_put_same m _ _ _ (own_groups hown)
    · simp only [Option.some.injEq, Prod.mk.injEq, decide_eq_true_eq] at h
      obtain ⟨h1, h2⟩ := h
      subst h2
      exact ownerOf_eq_some.mpr ⟨st, hst, h1⟩

theorem acquireMessage_refused {m : MessageGroupManager} {g c c2 : String}
    {qm : QueuedMessage} (hown : m.ownerOf g = some c) (hc : c ≠ "") (hne : c2 ≠ c)
    (hg : m.getGroupId qm = g) : m.acquireMessage c2 qm = some (false, m) := by
  obtain ⟨st, hst, hso⟩ := ownerOf_eq_some.mp hown
  have ho : st.owned = true := owned_of_ne_empty (by rw [hso]; exact hc)
  have hd : decide (st.owner = c2) = false := by
    rw [hso]
    exact decide_eq_false (fun h => hne h.symm)
  unfold acquireMessage
  simp only [hg, hst, ho, hd, Bool.not_true, Bool.false_eq_true, if_false]

theorem consumerRemovedLoop_owner {g c name : String} (hown_ne : name ≠ c) :
    ∀ (keys : List String) (count : Nat) (m m1 : MessageGroupManager),
      m.ownerOf g = some c → consumerRemovedLoop name keys count m = some m1 →
      m1.ownerOf g = some c := by
  intro keys
  induction keys with
  | nil =>
    intro count m m1 hown h
    simp only [consumerRemovedLoop, Option.some.injEq] at h
    subst h
    exact hown
  | cons k rest ih =>
    intro count m m1 hown h
    unfold consumerRemovedLoop at h
    split at h
    · simp only [Option.some.injEq] at h
      subst h
      exact hown
    · split at h
      · exact absurd h (by simp)
      · rename_i st hst
        split at h
        · rename_i hso
          split at h
          · exact absurd h (by simp)
          · rename_i m2 hdis
            have hk : g ≠ k := by
              intro hgk
              subst hgk
              obtain ⟨st2, hst2, hso2⟩ := ownerOf_eq_some.mp hown
              rw [hst] at hst2
              cases hst2
              exact hown_ne (hso.symm.trans hso2)
            have h2 : m2.ownerOf g = some c := by
              rw [ownerOf_put_other m m2 k g _ (disown_groups hdis) hk]
              exact hown
            exact ih _ _ _ h2 h
        · exact ih _ _ _ hown h

theorem owner_after_put {m m1 : MessageGroupManager} {g k c : String} {st : GroupState}
    (h : m1.messageGroups = StdMap.put m.messageGroups k st) (hown : m.ownerOf g = some c)
    (hsame : k = g → st.owner = c) : m1.ownerOf g = some c := by
  by_cases hk : k = g
  · subst hk
    rw [ownerOf_put_same m m1 k st h, hsame rfl]
  · rw [ownerOf_put_other m m1 k g st h (fun h2 => hk h2.symm)]
    exact hown

theorem owner_of_find {m : MessageGroupManager} {g k c : String} (st : GroupState)
    (hown : m.ownerOf g = some c) (hst : StdMap.find m.messageGroups k = some st) :
    k = g → st.owner = c := by
  intro hk
  subst hk
  obtain ⟨st2, hst2, hso2⟩ := ownerOf_eq_some.mp hown
  rw [hst] at hst2
  cases hst2
  exact hso2

theorem enqueued_keeps_owner {m m1 : MessageGroupManager} {g c : String} {qm : QueuedMessage}
    (hown : m.ownerOf g = some c) (h : m.enqueued qm = some m1) : m1.ownerOf g = some c := by
  unfold enqueued at h
  simp only at h
  have hsame : m.getGroupId qm = g →
      ((StdMap.find m.messageGroups (m.getGroupId qm)).getD {}).owner = c := by
    intro hk
    obtain ⟨st2, hst2, hso2⟩ := ownerOf_eq_some.mp hown
    rw [hk, hst2]
    exact hso2
  split at h
  · split at h
    · exact absurd h (by simp)
    · cases h
      exact owner_after_put (m := m) rfl hown hsame
  · cases h
    exact owner_after_put (m := m) rfl hown hsame

theorem acquired_keeps_owner {m m1 : MessageGroupManager} {g c : String} {qm : QueuedMessage}
    (hown : m.ownerOf g = some c) (h : m.acquired qm = some m1) : m1.ownerOf g = some c := by
  unfold acquired at h
  simp only at h
  split at h
  · exact absurd h (by simp)
  · rename_i st hst
    cases h
    exact owner_after_put (m := m) rfl hown (fun hk => owner_of_find st hown hst hk)

theorem requeued_keeps_owner {m m1 : MessageGroupManager} {g c : String} {qm : QueuedMessage}
    (hown : m.ownerOf g = some c) (h : m.requeued qm = some m1)
    (hrel : releases g c (.requeued qm) m m1 = false) : m1.ownerOf g = some c := by
  unfold requeued at h
  simp only at h
  split at h
  · exact absurd h (by simp)
  · rename_i st hst
    split at h
    · exact absurd h (by simp)
    · split at h
      · rename_i hcond
        simp only [Bool.and_eq_true, decide_eq_true_eq] at hcond
        have hput := disown_groups h
        by_cases hk : m.getGroupId qm = g
        · exfalso
          have hacq : m1.acquiredOf g = 0 := by
            rw [← hk, acquiredOf_put_same _ m1 _ _ hput]
            exact hcond.1
          simp [releases, hk, hacq] at hrel
        · have h2 : (m.setGroup (m.getGroupId qm) { st with acquired := st.acquired - 1 }).ownerOf g
              = some c :=
            owner_after_put (m := m) rfl hown (fun h3 => absurd h3 hk)
          exact owner_after_put hput h2 (fun h3 => absurd h3 hk)
      · cases h
        exact owner_after_put (m := m) rfl hown (fun hk => owner_of_find st hown hst hk)

theorem acquiredOf_erase_same (m1 : MessageGroupManager) (l : List (String × GroupState))
    (g : String) (h : m1.messageGroups = StdMap.erase l g) : m1.acquiredOf g = 0 := by
  unfold acquiredOf
  rw [h, StdMap.find_erase_same]
  rfl

theorem ownerOf_erase_other (m1 : MessageGroupManager) (l : List (String × GroupState))
    (g k : String) (h : m1.messageGroups = StdMap.erase l k) (hk : g ≠ k) :
    m1.ownerOf g = (StdMap.find l g).map GroupState.owner := by
  unfold ownerOf
  rw [h, StdMap.find_erase_other _ _ _ hk]

theorem dequeued_keeps_owner {m m1 : MessageGroupManager} {g c : String} {qm : QueuedMessage}
    (hown : m.ownerOf g = some c) (h : m.dequeued qm = some m1)
    (hrel : releases g c (.dequeued qm) m m1 = false) : m1.ownerOf g = some c := by
  unfold dequeued at h
  simp only at h
  split at h
  · exact absurd h (by simp)
  · rename_i st hst
    split at h
    · exact absurd h (by simp)
    · split at h
      · exact absurd h (by simp)
      · by_cases hk : m.getGroupId qm = g
        · -- the dequeued message belongs to `g`
          split at h
          · -- group erased
            exfalso
            have hacq : m1.acquiredOf g = 0 := by
              split at h
              · split at h
                · exact absurd h (by simp)
                · rename_i m2 hun
                  cases h
                  exact acquiredOf_erase_same _ _ _ (by rw [hk])
              · cases h
                exact acquiredOf_erase_same _ _ _ (by rw [hk])
            simp [releases, hk, hacq] at hrel
          · split at h
            · rename_i hcond
              simp only [Bool.and_eq_true, decide_eq_true_eq] at hcond
              exfalso
              have hacq : m1.acquiredOf g = 0 := by
                rw [← hk, acquiredOf_put_same _ m1 _ _ (disown_groups h)]
                exact hcond.1
              simp [releases, hk, hacq] at hrel
            · cases h
              exact owner_after_put (m := m) rfl hown
                (fun hk2 => owner_of_find st hown hst hk2)
        · -- the dequeued message belongs to another group
          have hk2 : g ≠ m.getGroupId qm := fun h3 => hk h3.symm
          have hbase : ∀ st2 : GroupState,
              (m.setGroup (m.getGroupId qm) st2).ownerOf g = some c := fun st2 =>
            owner_after_put (m := m) rfl hown (fun h3 => absurd h3 hk)
          split at h
          · split at h
            · split at h
              · exact absurd h (by simp)
              · rename_i m2 hun
                cases h
                rw [ownerOf_erase_other _ _ g _ rfl hk2, (unFree_groups hun).1]
                exact hbase _
            · cases h
              rw [ownerOf_erase_other _ _ g _ rfl hk2]
              exact hbase _
          · split at h
            · exact owner_after_put (disown_groups h) (hbase _) (fun h3 => absurd h3 hk)
            · cases h
              exact hbase _

theorem acquireMessage_keeps_owner {m m1 : MessageGroupManager} {g c x : String}
    {qm : QueuedMessage} {r : Bool} (hown : m.ownerOf g = some c) (hc : c ≠ "")
    (h : m.acquireMessage x qm = some (r, m1)) : m1.ownerOf g = some c := by
  unfold acquireMessage at h
  simp only at h
  split at h
  · exact absurd h (by simp)
  · rename_i st hst
    split at h
    · rename_i hfree
      split at h
      · exact absurd h (by simp)
      · rename_i m2 hown2
        simp only [Option.some.injEq, Prod.mk.injEq] at h
        obtain ⟨_, h2⟩ := h
        subst h2
        refine owner_after_put (own_groups hown2) hown ?_
        intro hk
        exfalso
        have hso := owner_of_find st hown hst hk
        have ho : st.owned = true := owned_of_ne_empty (by rw [hso]; exact hc)
        simp [ho] at hfree
    · simp only [Option.some.injEq, Prod.mk.injEq] at h
      obtain ⟨_, h2⟩ := h
      subst h2
      exact hown

theorem step_keeps_owner {m m1 : MessageGroupManager} {g c : String} {e : Event}
    (hown : m.ownerOf g = some c) (hc : c ≠ "") (hstep : m.step e = some m1)
    (hrel : releases g c e m m1 = false) : m1.ownerOf g = some c := by
  cases e with
  | enqueued qm => exact enqueued_keeps_owner hown hstep
  | acquired qm => exact acquired_keeps_owner hown hstep
  | requeued qm => exact requeued_keeps_owner hown hstep hrel
  | dequeued qm => exact dequeued_keeps_owner hown hstep hrel
  | consumerAdded name =>
    simp only [step, consumerAdded] at hstep
    split at hstep
    · exact absurd hstep (by simp)
    · cases hstep
      exact hown
  | consumerRemoved name =>
    have hne : name ≠ c := by
      intro h
      simp [releases, h] at hrel
    simp only [step, consumerRemoved] at hstep
    split at hstep
    · exact absurd hstep (by simp)
    · split at hstep
      · exact absurd hstep (by simp)
      · rename_i m2 hloop
        cases hstep
        have h2 : m2.ownerOf g = some c := consumerRemovedLoop_owner hne _ _ _ _ hown hloop
        exact h2
  | acquireMessage x qm =>
    simp only [step] at hstep
    cases hr : m.acquireMessage x qm with
    | none => simp [hr] at hstep
    | some p =>
      obtain ⟨r, m2⟩ := p
      simp only [hr, Option.map_some', Option.some.injEq] at hstep
      subst hstep
      exact acquireMessage_keeps_owner hown hc hr

theorem run_keeps_owner {g c : String} (hc : c ≠ "") :
    ∀ (evs : List Event) (m m1 : MessageGroupManager), m.ownerOf g = some c →
      m.run evs = some m1 → releasedDuring g c m evs = false → m1.ownerOf g = some c := by
  intro evs
  induction evs with
  | nil =>
    intro m m1 hown hrun _
    simp only [run, Option.some.injEq] at hrun
    subst hrun
    exact hown
  | cons e es ih =>
    intro m m1 hown hrun hrel
    unfold run at hrun
    unfold releasedDuring at hrel
    cases hs : m.step e with
    | none => simp [hs] at hrun
    | some m2 =>
      simp only [hs] at hrun hrel
      simp only [Bool.or_eq_false_iff] at hrel
      exact ih m2 m1 (step_keeps_owner hown hc hs hrel.1) hrun hrel.2

/-! ## Group ownership (C1) -/

/-- C1 as stated fails: consumer `c1` acquires message 1 of group `A` (acquireMessage
returns true, then the acquired callback counts it), and is then removed by
`consumerRemoved` while that message is still outstanding (no requeue, no dequeue: the
acquired count of `A` is 1).  The next `acquireMessage` by another consumer `c2` for message 2
of `A` returns true.  Besides, for a consumer whose name is the empty string, the owner
string it leaves reads as "unowned": after its `acquireMessage` has returned true, that of
`c2` fails the assertion of `unFree` instead of returning false. -/
theorem group_taken_while_acquired_outstanding :
    (((initial "g").run [.enqueued (sample 1 "A"), .enqueued (sample 2 "A"),
        .consumerAdded "c1", .consumerAdded "c2"]).bind (fun s0 =>
      (s0.acquireMessage "c1" (sample 1 "A")).bind (fun r1 =>
        (r1.2.run [.acquired (sample 1 "A"), .consumerRemoved "c1"]).bind (fun s2 =>
          (s2.acquireMessage "c2" (sample 2 "A")).map (fun r2 =>
            (r1.1, s2.acquiredOf "A", r2.1)))))
      = some (true, 1, true)) ∧
    (((initial "g").run [.enqueued (sample 1 "A"), .enqueued (sample 2 "A"),
        .consumerAdded "", .consumerAdded "c2"]).bind (fun s0 =>
      (s0.acquireMessage "" (sample 1 "A")).map (fun r1 =>
        (r1.1, (r1.2.acquireMessage "c2" (sample 2 "A")).map Prod.fst)))
      = some (true, none)) := by
  decide

/-- C1 (amended): from any manager state, once `acquireMessage(c, qm)` has returned true for
a consumer `c` with a non-empty name and a message of group `g`, then after every sequence of
manager calls that pass their assertions and in which no call releases `g` from `c` (no
`consumerRemoved(c)`, and no requeued or dequeued message of `g` that leaves `g` without
outstanding acquired messages), `acquireMessage(c2, qm2)` returns false and changes nothing
for every other consumer `c2` and every message `qm2` of `g`. -/
theorem group_ownership_held_until_released (m0 m1 m2 : MessageGroupManager)
    (c c2 : String) (qm qm2 : QueuedMessage) (evs : List Event)
    (hc : c ≠ "")
    (hacq : m0.acquireMessage c qm = some (true, m1))
    (hrun : m1.run evs = some m2)
    (hrel : releasedDuring (m0.getGroupId qm) c m1 evs = false)
    (hne : c2 ≠ c)
    (hg : m2.getGroupId qm2 = m0.getGroupId qm) :
    m2.acquireMessage c2 qm2 = some (false, m2) :=
  acquireMessage_refused
    (run_keeps_owner hc evs m1 m2 (ownerOf_after_acquireMessage hacq) hrun hrel) hc hne hg

/-- The amended C1 at a concrete trace: `c1` acquires message 1 of group `A`, the acquired
callback follows, and `c2` is then refused message 2 of `A`. -/
theorem group_ownership_held_until_released_witness :
    acquireMessage
        { groupIdHeader := "g",
          messageGroups := [("A", { group := "A", members := [1, 2] })],
          freeGroups := [(1, "A")],
          consumers := [("c1", 0), ("c2", 0)] } "c1" (sample 1 "A")
      = some (true,
        { groupIdHeader := "g",
          messageGroups := [("A", { group := "A", owner := "c1", members := [1, 2] })],
          freeGroups := [],
          consumers := [("c1", 1), ("c2", 0)] }) ∧
    acquireMessage
        { groupIdHeader := "g",
          messageGroups :=
            [("A", { group := "A", owner := "c1", acquired := 1, members := [1, 2] })],
          freeGroups := [],
          consumers := [("c1", 1), ("c2", 0)] } "c2" (sample 2 "A")
      = some (false,
        { groupIdHeader := "g",
          messageGroups :=
            [("A", { group := "A", owner := "c1", acquired := 1, members := [1, 2] })],
          freeGroups := [],
          consumers := [("c1", 1), ("c2", 0)] }) :=
  ⟨by decide,
   group_ownership_held_until_released
    { groupIdHeader := "g",
      messageGroups := [("A", { group := "A", members := [1, 2] })],
      freeGroups := [(1, "A")],
      consumers := [("c1", 0), ("c2", 0)] }
    { groupIdHeader := "g",
      messageGroups := [("A", { group := "A", owner := "c1", members := [1, 2] })],
      freeGroups := [],
      consumers := [("c1", 1), ("c2", 0)] }
    { groupIdHeader := "g",
      messageGroups :=
        [("A", { group := "A", owner := "c1", acquired := 1, members := [1, 2] })],
      freeGroups := [],
      consumers := [("c1", 1), ("c2", 0)] }
    "c1" "c2" (sample 1 "A") (sample 2 "A") [.acquired (sample 1 "A")]
    (by decide) (by decide) (by decide) (by decide) (by decide) (by decide)⟩

/-! ## Owner counts and the free list (C2, C3) -/

/-- C2 at its failing input: consumer `c1` takes the single message of group `A` and the
message is dequeued.  `dequeued` erases the group, which `c1` owned, without decrementing
`consumers["c1"]`: the counter is left at 1 while no `GroupState` has owner `c1`. -/
theorem dequeued_last_member_leaves_owner_count :
    ((initial "g").run [.enqueued (sample 1 "A"), .consumerAdded "c1",
        .acquireMessage "c1" (sample 1 "A"), .acquired (sample 1 "A"),
        .dequeued (sample 1 "A")]).map (fun s =>
      (s.consumerCount "c1", s.ownedCount "c1", s.messageGroups))
      = some (1, 0, []) := by
  decide

/-- C3 at its failing input: messages 1 and 2 of group `A` are enqueued, message 1 is acquired
(by expiry or purge, no consumer owns the group) and dequeued.  The group stays unowned with
head member 2, but its `freeGroups` entry is still keyed by position 1. -/
theorem dequeued_head_leaves_stale_free_key :
    ((initial "g").run [.enqueued (sample 1 "A"), .enqueued (sample 2 "A"),
        .acquired (sample 1 "A"), .dequeued (sample 1 "A")]).map (fun s =>
      (s.freeGroups, (StdMap.find s.messageGroups "A").map (fun st => (st.owner, st.members))))
      = some ([(1, "A")], some ("", [2])) := by
  decide

/-! ## acquireMessage (C4) -/

/-- C4 as stated fails on two inputs.  First, in the state reached by enqueueing messages 1
and 2 of group `A` and then acquiring and dequeueing message 1, group `A` exists and is
unowned, yet `acquireMessage("c1", message 2)` fails the assertion of `unFree` instead of
returning true.  Second, when `consumers["c1"]` is `2^32 - 1` the increment wraps, so the
counter is 0 afterwards, not one greater. -/
theorem acquireMessage_needs_free_entry_and_room :
    (((initial "g").run [.enqueued (sample 1 "A"), .enqueued (sample 2 "A"),
        .acquired (sample 1 "A"), .dequeued (sample 1 "A")]).map (fun s =>
      ((StdMap.find s.messageGroups (s.getGroupId (sample 2 "A"))).map GroupState.owned,
        s.acquireMessage "c1" (sample 2 "A")))
      = some (some false, none)) ∧
    ((acquireMessage
        { groupIdHeader := "g",
          messageGroups := [("A", { group := "A", members := [1] })],
          freeGroups := [(1, "A")],
          consumers := [("c1", 4294967295)] } "c1" (sample 1 "A")).map (fun r =>
      (r.1, r.2.consumerCount "c1"))
      = some (true, 0)) := by
  decide

/-- C4 (amended): for a `qm` whose group exists and, when unowned, is registered in
`freeGroups` under the position of its head member and under no other key (what `unFree`
asserts), and with `consumers[consumer]` below `2^32 - 1`: `acquireMessage(consumer, qm)`
returns, and returns true if and only if the group was unowned or owned by `consumer`.  If
it was unowned, afterwards its owner is `consumer`, `consumers[consumer]` is one greater
and no `freeGroups` entry refers to the group; if it was owned, the manager is unchanged. -/
theorem acquireMessage_contract (m : MessageGroupManager) (consumer : String)
    (qm : QueuedMessage) (st : GroupState)
    (hst : StdMap.find m.messageGroups (m.getGroupId qm) = some st)
    (hfree : st.owned = false → ∃ front, st.members.head? = some front ∧
      StdMap.find m.freeGroups front = some (m.getGroupId qm) ∧
      ∀ pos, StdMap.find m.freeGroups pos = some (m.getGroupId qm) → pos = front)
    (hcount : m.consumerCount consumer + 1 < UINT32_SIZE) :
    ∃ m1, m.acquireMessage consumer qm
        = some (decide (st.owned = false ∨ st.owner = consumer), m1) ∧
      (st.owned = false →
        m1.ownerOf (m.getGroupId qm) = some consumer ∧
        m1.consumerCount consumer = m.consumerCount consumer + 1 ∧
        ∀ pos, StdMap.find m1.freeGroups pos ≠ some (m.getGroupId qm)) ∧
      (st.owned = true → m1 = m) := by
  cases ho : st.owned with
  | true =>
    refine ⟨m, ?_, ?_, fun _ => rfl⟩
    · unfold acquireMessage
      simp [hst, ho]
    · intro h
      exact absurd h (by simp)
  | false =>
    obtain ⟨front, hfront, hfind, huniq⟩ := hfree ho
    refine ⟨{ groupIdHeader := m.groupIdHeader,
              messageGroups := StdMap.put m.messageGroups (m.getGroupId qm)
                { st with owner := consumer },
              freeGroups := StdMap.erase m.freeGroups front,
              consumers := StdMap.put m.consumers consumer (m.consumerCount consumer + 1) },
            ?_, ?_, ?_⟩
    · unfold acquireMessage own unFree
      simp only [hst, ho, Bool.not_false, if_true, setGroup, consumerCount, hfront, hfind,
        true_or, decide_True]
      have hmod : ((StdMap.find m.consumers consumer).getD 0 + 1) % UINT32_SIZE
          = (StdMap.find m.consumers consumer).getD 0 + 1 := Nat.mod_eq_of_lt hcount
      rw [hmod]
    · intro _
      refine ⟨?_, ?_, ?_⟩
      · unfold ownerOf
        simp only [StdMap.find_put_same, Option.map_some']
      · unfold consumerCount
        simp only [StdMap.find_put_same, Option.getD_some]
      · intro pos hpos
        simp only at hpos
        by_cases hp : pos = front
        · subst hp
          rw [StdMap.find_erase_same] at hpos
          exact absurd hpos (by simp)
        · rw [StdMap.find_erase_other _ _ _ hp] at hpos
          exact hp (huniq pos hpos)
    · intro h
      exact absurd h (by simp)

/-- The amended C4 at a concrete state: group `A` with members 1 and 2 is free under key 1
and consumer `c1` owns nothing yet. -/
theorem acquireMessage_contract_witness :
    ∃ m1, acquireMessage
        { groupIdHeader := "g",
          messageGroups := [("A", { group := "A", members := [1, 2] })],
          freeGroups := [(1, "A")],
          consumers := [("c1", 0)] } "c1" (sample 1 "A")
        = some (true, m1) ∧ m1.ownerOf "A" = some "c1" ∧ m1.consumerCount "c1" = 1 :=
  let m : MessageGroupManager :=
    { groupIdHeader := "g",
      messageGroups := [("A", { group := "A", members := [1, 2] })],
      freeGroups := [(1, "A")],
      consumers := [("c1", 0)] }
  match acquireMessage_contract m "c1" (sample 1 "A") { group := "A", members := [1, 2] }
      (by decide)
      (fun _ => ⟨1, by decide, by decide, fun pos hpos => by
        by_cases hp : pos = 1
        · exact hp
        · exfalso
          revert hpos
          simp [m, StdMap.find, getGroupId, sample]
          exact fun h => hp h.symm⟩)
      (by decide) with
  | ⟨m1, h1, h2, _⟩ => ⟨m1, h1, (h2 (by decide)).1, (h2 (by decide)).2.1⟩

/-! ## nextConsumableMessage (C5) -/

theorem next_in_sorted (key : Option String) (front : List QueuedMessage) (x : QueuedMessage)
    (back : List QueuedMessage)
    (hs : (front ++ x :: back).Pairwise (fun a b => a.position < b.position)) :
    Messages.next { key := key, items := front ++ x :: back } x.position = back.head? := by
  unfold Messages.next
  simp only
  rw [List.pairwise_append] at hs
  obtain ⟨_, hxb, hfx⟩ := hs
  rw [List.pairwise_cons] at hxb
  have hfront : List.find? (fun qm => decide (x.position < qm.position)) front = none := by
    rw [List.find?_eq_none]
    intro y hy
    have h3 : y.position < x.position := hfx y hy x (List.mem_cons_self _ _)
    simp only [decide_eq_true_eq]
    exact Nat.lt_asymm h3
  rw [List.find?_append, hfront, Option.none_or, List.find?_cons]
  simp only [lt_self_iff_false, decide_False]
  cases back with
  | nil => rfl
  | cons y rest =>
    have hy := hxb.1 y (List.mem_cons_self _ _)
    simp only [List.find?_cons, hy, decide_True, List.head?_cons]

theorem walk_in_sorted (m : MessageGroupManager) (key : Option String) (consumer : String) :
    ∀ (back front : List QueuedMessage) (x : QueuedMessage) (fuel : Nat),
      (front ++ x :: back).Pairwise (fun a b => a.position < b.position) →
      back.length < fuel →
      (∀ y ∈ x :: back, (StdMap.find m.messageGroups (m.getGroupId y)).isSome = true) →
      nextConsumableWalk m { key := key, items := front ++ x :: back } consumer fuel x
        = some ((x :: back).find? (m.consumable consumer)) := by
  intro back
  induction back with
  | nil =>
    intro front x fuel hs hfuel hgroups
    obtain ⟨n, rfl⟩ : ∃ n, fuel = n + 1 := ⟨fuel - 1, by omega⟩
    have hx := hgroups x (List.mem_cons_self _ _)
    cases hst : StdMap.find m.messageGroups (m.getGroupId x) with
    | none => simp [hst] at hx
    | some st =>
      unfold nextConsumableWalk
      simp only [hst, next_in_sorted key front x [] hs, List.head?_nil, List.find?_cons,
        consumable, List.find?_nil]
      cases hcond : (!st.owned || decide (st.owner = consumer)) <;> simp
  | cons y rest ih =>
    intro front x fuel hs hfuel hgroups
    obtain ⟨n, rfl⟩ : ∃ n, fuel = n + 1 := ⟨fuel - 1, by omega⟩
    have hx := hgroups x (List.mem_cons_self _ _)
    have hs2 : ((front ++ [x]) ++ y :: rest).Pairwise (fun a b => a.position < b.position) := by
      simpa using hs
    have hrec := ih (front ++ [x]) y n hs2 (by simp only [List.length_cons] at hfuel; omega)
      (fun z hz => hgroups z (List.mem_cons_of_mem _ hz))
    have hitems : front ++ [x] ++ y :: rest = front ++ x :: y :: rest := by simp
    rw [hitems] at hrec
    cases hst : StdMap.find m.messageGroups (m.getGroupId x) with
    | none => simp [hst] at hx
    | some st =>
      unfold nextConsumableWalk
      simp only [hst, next_in_sorted key front x (y :: rest) hs, List.head?_cons]
      cases hcond : (!st.owned || decide (st.owner = consumer)) with
      | true =>
        have hcx : m.consumable consumer x = true := by
          simp only [consumable, hst, hcond]
        simp only [if_true, List.find?_cons, hcx]
      | false =>
        have hcx : m.consumable consumer x = false := by
          simp only [consumable, hst, hcond]
        simp only [Bool.false_eq_true, if_false, hrec]
        rw [List.find?_cons (a := x), hcx]

theorem walk_result (m : MessageGroupManager) (messages : Messages) (consumer : String) :
    ∀ (fuel : Nat) (x qm : QueuedMessage), x ∈ messages.items →
      nextConsumableWalk m messages consumer fuel x = some (some qm) →
      qm ∈ messages.items ∧ m.consumable consumer qm = true := by
  intro fuel
  induction fuel with
  | zero =>
    intro x qm _ h
    simp [nextConsumableWalk] at h
  | succ n ih =>
    intro x qm hx h
    unfold nextConsumableWalk at h
    split at h
    · exact absurd h (by simp)
    · rename_i st hst
      split at h
      · rename_i hcond
        simp only [Option.some.injEq] at h
        subst h
        exact ⟨hx, by simp only [consumable, hst, hcond]⟩
      · split at h
        · exact absurd h (by simp)
        · rename_i y hy
          exact ih y qm (List.mem_of_find?_eq_some hy) h

theorem candidate_frame {m m1 : MessageGroupManager} {messages : Messages} {c : Consumer}
    {r : Option QueuedMessage} (h : m.nextConsumableCandidate messages c = some (r, m1)) :
    m1.messageGroups = m.messageGroups ∧ m1.groupIdHeader = m.groupIdHeader ∧
      ∀ cand, r = some cand → cand ∈ messages.items := by
  unfold nextConsumableCandidate at h
  split at h
  · simp only [Option.some.injEq, Prod.mk.injEq] at h
    obtain ⟨h1, h2⟩ := h
    subst h1 h2
    exact ⟨rfl, rfl, fun _ hc => absurd hc (by simp)⟩
  · split at h
    · split at h
      · split at h
        · exact absurd h (by simp)
        · rename_i next hnext
          simp only [Option.some.injEq, Prod.mk.injEq] at h
          obtain ⟨h1, h2⟩ := h
          subst h1 h2
          refine ⟨rfl, rfl, fun cand hc => ?_⟩
          simp only [Option.some.injEq] at hc
          subst hc
          exact List.mem_of_find?_eq_some hnext
      · simp only [Option.some.injEq, Prod.mk.injEq] at h
        obtain ⟨h1, h2⟩ := h
        subst h1 h2
        exact ⟨rfl, rfl, fun cand hc => List.mem_of_find?_eq_some hc⟩
    · have hm : ∀ m2 : MessageGroupManager,
          m2 = (match StdMap.find m.consumers c.name with
            | some _ => m
            | none => { m with consumers := StdMap.put m.consumers c.name 0 }) →
          m2.messageGroups = m.messageGroups ∧ m2.groupIdHeader = m.groupIdHeader := by
        intro m2 h2
        subst h2
        split <;> exact ⟨rfl, rfl⟩
      simp only at h
      split at h
      · simp only [Option.some.injEq, Prod.mk.injEq] at h
        obtain ⟨h1, h2⟩ := h
        subst h1
        exact ⟨(hm _ h2.symm).1, (hm _ h2.symm).2, fun _ hc => absurd hc (by simp)⟩
      · simp only [Option.some.injEq, Prod.mk.injEq] at h
        obtain ⟨h1, h2⟩ := h
        subst h1
        exact ⟨(hm _ h2.symm).1, (hm _ h2.symm).2, fun cand hc => List.mem_of_find?_eq_some hc⟩

theorem consumable_congr {m m1 : MessageGroupManager}
    (hg : m1.messageGroups = m.messageGroups) (hh : m1.groupIdHeader = m.groupIdHeader) :
    m1.consumable = m.consumable := by
  funext consumer qm
  unfold consumable getGroupId
  rw [hg, hh]

theorem walk_congr {m m1 : MessageGroupManager}
    (hg : m1.messageGroups = m.messageGroups) (hh : m1.groupIdHeader = m.groupIdHeader)
    (messages : Messages) (consumer : String) :
    ∀ (fuel : Nat) (x : QueuedMessage),
      nextConsumableWalk m1 messages consumer fuel x
        = nextConsumableWalk m messages consumer fuel x := by
  intro fuel
  induction fuel with
  | zero => intro x; rfl
  | succ n ih =>
    intro x
    unfold nextConsumableWalk
    have hid : m1.getGroupId x = m.getGroupId x := by
      unfold getGroupId
      rw [hh]
    rw [hg, hid]
    cases StdMap.find m.messageGroups (m.getGroupId x) with
    | none => rfl
    | some st =>
      simp only
      split
      · rfl
      · cases messages.next x.position with
        | none => rfl
        | some y => exact ih y

theorem dropWhile_ne_append (front back : List QueuedMessage) (x : QueuedMessage)
    (h : ∀ y ∈ front, y ≠ x) :
    (front ++ x :: back).dropWhile (fun y => decide (y ≠ x)) = x :: back := by
  induction front with
  | nil => simp [List.dropWhile_cons]
  | cons z rest ih =>
    have hz : z ≠ x := h z (List.mem_cons_self _ _)
    simp only [List.cons_append, List.dropWhile_cons, hz, ne_eq, not_false_eq_true, decide_True,
      if_true]
    exact ih (fun y hy => h y (List.mem_cons_of_mem _ hy))

/-- C5: `nextConsumableMessage(c)`.  (1) A message it returns is in the container and its
group is unowned or owned by `c`.  (2) It returns none when the container is empty, and (3)
when `freeGroups` is empty and `consumers[c]` is 0.  (4) When it enters its loop with a
candidate, the container being held in increasing position order and every message from the
candidate on having a known group, it returns the first message at or after the candidate,
in container order, whose group is unowned or owned by `c`, or none if there is none. -/
theorem nextConsumableMessage_contract (m : MessageGroupManager) (messages : Messages)
    (c : Consumer) :
    (∀ qm m1, m.nextConsumableMessage messages c = some (some qm, m1) →
      qm ∈ messages.items ∧ m.consumable c.name qm = true) ∧
    (messages.empty = true → m.nextConsumableMessage messages c = some (none, m)) ∧
    (m.freeGroups = [] → m.consumerCount c.name = 0 →
      ∃ m1, m.nextConsumableMessage messages c = some (none, m1)) ∧
    (∀ cand m1, m.nextConsumableCandidate messages c = some (some cand, m1) →
      messages.Sorted →
      (∀ y ∈ messages.items, cand.position ≤ y.position →
        (StdMap.find m.messageGroups (m.getGroupId y)).isSome = true) →
      m.nextConsumableMessage messages c
        = some ((messages.items.dropWhile (fun y => decide (y ≠ cand))).find?
            (m.consumable c.name), m1)) := by
  refine ⟨?_, ?_, ?_, ?_⟩
  · intro qm m1 h
    unfold nextConsumableMessage at h
    cases hc : m.nextConsumableCandidate messages c with
    | none => simp [hc] at h
    | some p =>
      obtain ⟨r, m2⟩ := p
      obtain ⟨hg, hh, hmem⟩ := candidate_frame hc
      cases r with
      | none => simp [hc] at h
      | some next =>
        simp only [hc] at h
        cases hw : nextConsumableWalk m2 messages c.name messages.size next with
        | none => simp [hw] at h
        | some r2 =>
          simp only [hw, Option.some.injEq, Prod.mk.injEq] at h
          obtain ⟨h1, _⟩ := h
          subst h1
          have := walk_result m2 messages c.name _ next qm (hmem next rfl) hw
          rw [consumable_congr hg hh] at this
          exact this
  · intro he
    unfold nextConsumableMessage nextConsumableCandidate
    simp only [he, if_true]
  · intro hfree hcount
    have hhead : m.freeGroups.head? = none := by rw [hfree]; rfl
    have hcand : ∃ m1, m.nextConsumableCandidate messages c = some (none, m1) := by
      unfold nextConsumableCandidate
      by_cases he : messages.empty = true
      · exact ⟨m, by simp only [he, if_true]⟩
      · simp only [he, if_false, hhead]
        cases hf : StdMap.find m.consumers c.name with
        | some v =>
          simp only [hcount, if_true]
          exact ⟨m, rfl⟩
        | none =>
          have h0 : consumerCount { m with consumers := StdMap.put m.consumers c.name 0 } c.name
              = 0 := by
            unfold consumerCount
            simp only [StdMap.find_put_same, Option.getD_some]
          simp only [h0, if_true]
          exact ⟨_, rfl⟩
    obtain ⟨m1, h1⟩ := hcand
    exact ⟨m1, by unfold nextConsumableMessage; simp only [h1]⟩
  · intro cand m1 hc hs hgroups
    obtain ⟨hg, hh, hmem⟩ := candidate_frame hc
    obtain ⟨front, back, hitems⟩ := List.append_of_mem (hmem cand rfl)
    unfold Messages.Sorted at hs
    rw [hitems] at hs hgroups
    have hs2 := hs
    rw [List.pairwise_append] at hs2
    obtain ⟨_, hxb, hfx⟩ := hs2
    rw [List.pairwise_cons] at hxb
    have hfront : ∀ y ∈ front, y ≠ cand := by
      intro y hy heq
      have h3 : y.position < cand.position := hfx y hy cand (List.mem_cons_self _ _)
      rw [heq] at h3
      exact Nat.lt_irrefl _ h3
    have hgr : ∀ y ∈ cand :: back,
        (StdMap.find m.messageGroups (m.getGroupId y)).isSome = true := by
      intro y hy
      refine hgroups y (List.mem_append_right _ hy) ?_
      cases hy with
      | head => exact Nat.le_refl _
      | tail _ hy2 => exact Nat.le_of_lt (hxb.1 y hy2)
    have hmsg : messages = { key := messages.key, items := front ++ cand :: back } := by
      cases messages
      simp only at hitems
      rw [hitems]
    have hwalk := walk_in_sorted m messages.key c.name back front cand messages.size hs
      (by
        unfold Messages.size
        rw [hitems]
        simp only [List.length_append, List.length_cons]
        omega)
      hgr
    rw [← hmsg] at hwalk
    unfold nextConsumableMessage
    simp only [hc, walk_congr hg hh, hwalk]
    rw [hitems, dropWhile_ne_append front back cand hfront]

/-- C5 at a concrete state: group `A` (message 1) is owned by `c2`, group `B` (message 2) is
free; consumer `c1` at position 0 starts from message 1 and is given message 2. -/
theorem nextConsumableMessage_contract_witness :
    nextConsumableMessage
        { groupIdHeader := "g",
          messageGroups := [("A", { group := "A", owner := "c2", acquired := 0, members := [1] }),
            ("B", { group := "B", members := [2] })],
          freeGroups := [(2, "B")],
          consumers := [("c1", 0), ("c2", 1)] }
        { items := [sample 1 "A", sample 2 "B"] } { name := "c1" }
      = some (some (sample 2 "B"),
        { groupIdHeader := "g",
          messageGroups := [("A", { group := "A", owner := "c2", acquired := 0, members := [1] }),
            ("B", { group := "B", members := [2] })],
          freeGroups := [(2, "B")],
          consumers := [("c1", 0), ("c2", 1)] }) :=
  (nextConsumableMessage_contract
      { groupIdHeader := "g",
        messageGroups := [("A", { group := "A", owner := "c2", acquired := 0, members := [1] }),
          ("B", { group := "B", members := [2] })],
        freeGroups := [(2, "B")],
        consumers := [("c1", 0), ("c2", 1)] }
      { items := [sample 1 "A", sample 2 "B"] } { name := "c1" }).2.2.2
    (sample 1 "A") _ (by decide) (by unfold Messages.Sorted; decide) (by decide)

end MessageGroupManager

/-! ## Lemmas on queue operations -/

namespace Queue

theorem deliver_nil (o : QueueObserver) : o.deliver [] = o := by
  cases o
  simp [QueueObserver.deliver]

theorem deliver_append (o : QueueObserver) (d1 d2 : List Notification) :
    (o.deliver d1).deliver d2 = o.deliver (d1 ++ d2) := by
  cases o
  simp [QueueObserver.deliver]

theorem map_deliver_nil (obs : List QueueObserver) :
    obs.map (fun o => o.deliver []) = obs := by
  induction obs with
  | nil => rfl
  | cons o rest ih => rw [List.map_cons, deliver_nil, ih]

theorem frame_refl (q : Queue) : Frame q q [] :=
  ⟨(map_deliver_nil q.observers).symm, rfl, rfl, rfl, rfl, rfl, rfl, rfl⟩

theorem frame_of_eq {q q1 : Queue} (h1 : q1.observers = q.observers)
    (h2 : q1.messages = q.messages) (h3 : q1.sequence = q.sequence)
    (h4 : q1.consumerCount = q.consumerCount) (h5 : q1.exclusive = q.exclusive)
    (h6 : q1.deleted = q.deleted) (h7 : q1.insertSeqNo = q.insertSeqNo)
    (h8 : q1.seqNoKey = q.seqNoKey) : Frame q q1 [] :=
  ⟨by rw [h1, map_deliver_nil], h2, h3, h4, h5, h6, h7, h8⟩

theorem frame_trans {q q1 q2 : Queue} {d1 d2 : List Notification}
    (h1 : Frame q q1 d1) (h2 : Frame q1 q2 d2) : Frame q q2 (d1 ++ d2) := by
  obtain ⟨a1, a2, a3, a4, a5, a6, a7, a8⟩ := h1
  obtain ⟨b1, b2, b3, b4, b5, b6, b7, b8⟩ := h2
  refine ⟨?_, b2.trans a2, b3.trans a3, b4.trans a4, b5.trans a5, b6.trans a6, b7.trans a7,
    b8.trans a8⟩
  rw [b1, a1, List.map_map]
  apply List.map_congr_left
  intro o _
  exact deliver_append o d1 d2

theorem notifyObservers_frame {q q1 : Queue} {n : Notification}
    (h : q.notifyObservers n = some q1) : Frame q q1 [n] := by
  unfold notifyObservers at h
  simp only at h
  split at h
  · cases h
    exact ⟨rfl, rfl, rfl, rfl, rfl, rfl, rfl, rfl⟩
  · split at h
    · exact absurd h (by simp)
    · cases h
      exact ⟨rfl, rfl, rfl, rfl, rfl, rfl, rfl, rfl⟩

theorem notifyObservers_total {q : Queue} (n : Notification) (h : q.allocator = none) :
    ∃ q1, q.notifyObservers n = some q1 ∧ q1.allocator = none := by
  unfold notifyObservers
  simp only [h]
  exact ⟨_, rfl, rfl⟩

theorem enqueued_frame {q q1 : Queue} {qm : QueuedMessage} (h : q.enqueued qm = some q1) :
    Frame q q1 [.enqueued qm] := by
  unfold enqueued at h
  split at h
  · exact absurd h (by simp)
  · rename_i q2 h2
    cases h
    exact frame_trans (notifyObservers_frame h2)
      (frame_of_eq rfl rfl rfl rfl rfl rfl rfl rfl)

theorem acquired_frame {q q1 : Queue} {qm : QueuedMessage} (h : q.acquired qm = some q1) :
    Frame q q1 [.acquired qm] :=
  notifyObservers_frame h

theorem dequeued_frame {q q1 : Queue} {qm : QueuedMessage} (h : q.dequeued qm = some q1) :
    Frame q q1 [.dequeued qm] := by
  unfold dequeued at h
  have h2 := notifyObservers_frame h
  exact frame_trans (frame_of_eq (q := q) rfl rfl rfl rfl rfl rfl rfl rfl) h2

theorem onlyDequeued_nil : OnlyDequeued [] := by
  intro n hn
  exact absurd hn (List.not_mem_nil n)

theorem onlyDequeued_append {d1 d2 : List Notification} (h1 : OnlyDequeued d1)
    (h2 : OnlyDequeued d2) : OnlyDequeued (d1 ++ d2) := by
  intro n hn
  rcases List.mem_append.mp hn with h | h
  · exact h1 n h
  · exact h2 n h

theorem dequeue_frame {q q1 : Queue} {ctxt r : Bool} {qm : QueuedMessage}
    (h : q.dequeue ctxt qm = some (r, q1)) :
    ∃ delta, Frame q q1 delta ∧ (delta = [] ∨ delta = [.dequeued qm]) := by
  unfold dequeue at h
  split at h
  · cases h
    exact ⟨[], frame_refl q, Or.inl rfl⟩
  · split at h
    · cases h
      exact ⟨[], frame_refl q, Or.inl rfl⟩
    · split at h
      · exact absurd h (by simp)
      · rename_i q2 h2
        have hq2 : ∃ delta, Frame q q2 delta ∧ (delta = [] ∨ delta = [.dequeued qm]) := by
          split at h2
          · cases h2
            exact ⟨[], frame_refl q, Or.inl rfl⟩
          · exact ⟨_, dequeued_frame h2, Or.inr rfl⟩
        obtain ⟨delta, hf, hd⟩ := hq2
        simp only at h
        split at h
        · cases h
          exact ⟨delta, hf, hd⟩
        · cases h
          exact ⟨delta, hf, hd⟩

theorem dequeueAll_frame : ∀ (l : List QueuedMessage) {q q1 : Queue},
    q.dequeueAll l = some q1 → ∃ delta, Frame q q1 delta ∧ OnlyDequeued delta := by
  intro l
  induction l with
  | nil =>
    intro q q1 h
    simp only [dequeueAll, Option.some.injEq] at h
    subst h
    exact ⟨[], frame_refl q, onlyDequeued_nil⟩
  | cons qm rest ih =>
    intro q q1 h
    unfold dequeueAll at h
    split at h
    · exact absurd h (by simp)
    · rename_i r q2 h2
      obtain ⟨d1, hf1, hd1⟩ := dequeue_frame h2
      obtain ⟨d2, hf2, hd2⟩ := ih h
      refine ⟨d1 ++ d2, frame_trans hf1 hf2, onlyDequeued_append ?_ hd2⟩
      rcases hd1 with h3 | h3
      · rw [h3]
        exact onlyDequeued_nil
      · rw [h3]
        intro n hn
        simp only [List.mem_singleton] at hn
        exact ⟨qm, hn⟩

theorem enqueuedPositions_append (d1 d2 : List Notification) :
    enqueuedPositions (d1 ++ d2) = enqueuedPositions d1 ++ enqueuedPositions d2 := by
  induction d1 with
  | nil => rfl
  | cons n rest ih =>
    cases n <;> simp [enqueuedPositions, ih]

theorem onlyDequeued_noEnqueued {delta : List Notification} (h : OnlyDequeued delta) :
    NoEnqueued delta := by
  unfold NoEnqueued
  induction delta with
  | nil => rfl
  | cons n rest ih =>
    obtain ⟨qm, hn⟩ := h n (List.mem_cons_self _ _)
    subst hn
    simp only [enqueuedPositions]
    exact ih (fun m hm => h m (List.mem_cons_of_mem _ hm))

theorem enqueueStore_frame (q : Queue) (msg : Message) : Frame q (q.enqueueStore msg).2 [] := by
  unfold enqueueStore forcePersistent
  simp only
  split_ifs <;> exact frame_of_eq rfl rfl rfl rfl rfl rfl rfl rfl

theorem enqueuePolicy_frame {q : Queue} (q1 : Queue) {msg : Message} {s : Bool}
    (h : (q.enqueuePolicy msg s).state? = some q1) :
    ∃ delta, Frame q q1 delta ∧ OnlyDequeued delta := by
  unfold enqueuePolicy at h
  split at h
  · simp only [Outcome.state?, Option.some.injEq] at h
    subst h
    exact ⟨[], frame_refl q, onlyDequeued_nil⟩
  · rename_i p hp
    split at h
    · simp only [Outcome.state?, Option.some.injEq] at h
      subst h
      exact ⟨[], frame_refl q, onlyDequeued_nil⟩
    · split at h
      · simp only [Outcome.state?, Option.some.injEq] at h
        subst h
        exact ⟨[], frame_of_eq rfl rfl rfl rfl rfl rfl rfl rfl, onlyDequeued_nil⟩
      · simp only at h
        split at h
        · simp [Outcome.state?] at h
        · rename_i q2 h2
          simp only [Outcome.state?, Option.some.injEq] at h
          subst h
          obtain ⟨delta, hf, hd⟩ := dequeueAll_frame _ h2
          have h0 : Frame q { q with policy := some ((p.record (.tryEnqueue msg)).record
              .getPendingDequeues) } [] := frame_of_eq rfl rfl rfl rfl rfl rfl rfl rfl
          exact ⟨delta, by simpa using frame_trans h0 hf, hd⟩

theorem enqueue_frame {q : Queue} (q1 : Queue) {msg : Message} {s : Bool}
    (h : (q.enqueue msg s).state? = some q1) :
    ∃ delta, Frame q q1 delta ∧ OnlyDequeued delta := by
  unfold enqueue at h
  split at h
  · simp only [Outcome.state?, Option.some.injEq] at h
    subst h
    exact ⟨[], frame_refl q, onlyDequeued_nil⟩
  · split at h
    · simp [Outcome.state?] at h
    · rename_i e q2 h2
      simp only [Outcome.state?, Option.some.injEq] at h
      subst h
      exact enqueuePolicy_frame _ (by rw [h2]; rfl)
    · rename_i u q2 h2
      simp only [Outcome.state?, Option.some.injEq] at h
      subst h
      obtain ⟨delta, hf, hd⟩ := enqueuePolicy_frame q2 (by rw [h2]; rfl)
      exact ⟨delta, by simpa using frame_trans hf (enqueueStore_frame q2 msg), hd⟩

theorem pushFrame_of_frame {q q1 : Queue} {delta : List Notification}
    (h : Frame q q1 delta) (hd : NoEnqueued delta) : PushFrame q q1 delta := by
  refine ⟨h.1, Nat.le_of_eq h.2.2.1.symm, ?_⟩
  rw [hd, h.2.2.1, Nat.sub_self]
  rfl

theorem pushFrame_trans {q q1 q2 : Queue} {d1 d2 : List Notification}
    (h1 : PushFrame q q1 d1) (h2 : PushFrame q1 q2 d2) : PushFrame q q2 (d1 ++ d2) := by
  obtain ⟨a1, a2, a3⟩ := h1
  obtain ⟨b1, b2, b3⟩ := h2
  refine ⟨?_, Nat.le_trans a2 b2, ?_⟩
  · rw [b1, a1, List.map_map]
    apply List.map_congr_left
    intro o _
    exact deliver_append o d1 d2
  · rw [enqueuedPositions_append, a3, b3]
    have h := List.range'_append (q.sequence + 1) (q1.sequence - q.sequence)
      (q2.sequence - q1.sequence) 1
    have e1 : q.sequence + 1 + 1 * (q1.sequence - q.sequence) = q1.sequence + 1 := by omega
    have e2 : q2.sequence - q1.sequence + (q1.sequence - q.sequence)
        = q2.sequence - q.sequence := by omega
    rw [e1, e2] at h
    exact h

theorem Messages.push_getLast (ms : Messages) (qm : QueuedMessage) :
    (ms.push qm).1.items.getLast? = some qm := by
  unfold Messages.push
  split
  · exact List.getLast?_concat _
  · split
    · exact List.getLast?_concat _
    · exact List.getLast?_concat _

theorem map_deliver_deliver (obs : List QueueObserver) (d1 d2 : List Notification) :
    (obs.map (fun o => o.deliver d1)).map (fun o => o.deliver d2)
      = obs.map (fun o => o.deliver (d1 ++ d2)) := by
  rw [List.map_map]
  apply List.map_congr_left
  intro o _
  exact deliver_append o d1 d2

theorem pushQueued_effect {q q1 : Queue} {qm : QueuedMessage} {isRecovery : Bool}
    (h : q.pushQueued qm isRecovery = some q1) :
    q1.sequence = qm.position ∧ q1.messages.items.getLast? = some qm ∧
    ∃ delta, q1.observers = q.observers.map (fun o => o.deliver (.enqueued qm :: delta)) ∧
      NoEnqueued delta := by
  unfold pushQueued at h
  simp only at h
  split at h
  · exact absurd h (by simp)
  · rename_i qa ha
    obtain ⟨a1, a2, a3, -⟩ := enqueued_frame ha
    simp only at a1 a2 a3
    have hlast := Messages.push_getLast q.messages qm
    rw [← a2] at hlast
    split at h
    · cases h
      exact ⟨a3, hlast, [], a1, rfl⟩
    · rename_i removed hrem
      split at h
      · exact absurd h (by simp)
      · rename_i qb hb
        obtain ⟨b1, b2, b3, -⟩ := acquired_frame hb
        simp only at b1 b2 b3
        have hobs : qb.observers = q.observers.map (fun o => o.deliver
            ([.enqueued qm] ++ [.acquired removed])) := by
          rw [b1, a1, map_deliver_deliver]
        split at h
        · cases h
          exact ⟨b3.trans a3, b2 ▸ hlast, [.acquired removed], hobs, rfl⟩
        · cases hd : qb.dequeue false removed with
          | none => simp [hd] at h
          | some r =>
            obtain ⟨flag, qc⟩ := r
            simp only [hd, Option.map_some', Option.some.injEq] at h
            subst h
            obtain ⟨dc, ⟨c1, c2, c3, -⟩, hdc⟩ := dequeue_frame hd
            refine ⟨c3.trans (b3.trans a3), c2 ▸ b2 ▸ hlast, [.acquired removed] ++ dc, ?_, ?_⟩
            · rw [c1, hobs, map_deliver_deliver]
              rfl
            · rcases hdc with h3 | h3 <;> subst h3 <;> rfl

theorem push_effect {q q1 : Queue} {msg : Message} {isRecovery : Bool}
    (h : q.push msg isRecovery = some q1) :
    q1.sequence = q.sequence + 1 ∧
    (∃ payload, q1.messages.items.getLast? = some ⟨payload, q.sequence + 1⟩) ∧
    ∃ delta, q1.observers = q.observers.map (fun o => o.deliver delta) ∧
      enqueuedPositions delta = [q.sequence + 1] := by
  unfold push at h
  obtain ⟨h1, h2, delta, h3, h4⟩ := pushQueued_effect h
  refine ⟨h1, ⟨_, h2⟩, _, h3, ?_⟩
  unfold NoEnqueued at h4
  simp only [enqueuedPositions, h4]

theorem push_pushFrame {q q1 : Queue} {msg : Message} {isRecovery : Bool}
    (h : q.push msg isRecovery = some q1) : ∃ delta, PushFrame q q1 delta := by
  obtain ⟨h1, -, delta, h3, h4⟩ := push_effect h
  refine ⟨delta, h3, by omega, ?_⟩
  rw [h4, h1]
  have : q.sequence + 1 - q.sequence = 1 := by omega
  rw [this]
  rfl

theorem deliver_pushFrame {q q1 : Queue} {msg : Message}
    (h : (q.deliver msg).state? = some q1) : ∃ delta, PushFrame q q1 delta := by
  have hrefl : ∀ q2 : Queue, Frame q q2 [] → ∃ delta, PushFrame q q2 delta := fun q2 hf =>
    ⟨[], pushFrame_of_frame hf rfl⟩
  unfold deliver at h
  split at h
  · simp only [Outcome.state?, Option.some.injEq] at h
    subst h
    exact hrefl _ (frame_refl q)
  · split at h
    · split at h
      · simp only [Outcome.state?, Option.some.injEq] at h
        subst h
        exact hrefl _ (frame_of_eq rfl rfl rfl rfl rfl rfl rfl rfl)
      · simp only [Outcome.state?, Option.some.injEq] at h
        subst h
        exact hrefl _ (frame_refl q)
    · split at h
      · simp only [Outcome.state?, Option.some.injEq] at h
        subst h
        exact hrefl _ (frame_refl q)
      · split at h
        · simp only [Outcome.state?, Option.some.injEq] at h
          subst h
          exact hrefl _ (frame_refl q)
        · split at h
          · simp [Outcome.state?] at h
          · rename_i e qa ha
            simp only [Outcome.state?, Option.some.injEq] at h
            subst h
            obtain ⟨delta, hf, hd⟩ := enqueue_frame qa (by rw [ha]; rfl)
            exact ⟨delta, pushFrame_of_frame hf (onlyDequeued_noEnqueued hd)⟩
          · rename_i r qa ha
            obtain ⟨d1, hf, hd⟩ := enqueue_frame qa (by rw [ha]; rfl)
            split at h
            · simp [Outcome.state?] at h
            · rename_i qb hb
              simp only [Outcome.state?, Option.some.injEq] at h
              subst h
              obtain ⟨d2, hp⟩ := push_pushFrame hb
              exact ⟨d1 ++ d2, pushFrame_trans (pushFrame_of_frame hf (onlyDequeued_noEnqueued hd)) hp⟩

theorem recover_pushFrame {q q1 : Queue} {msg : Message}
    (h : q.recover msg = some q1) : ∃ delta, PushFrame q q1 delta := by
  unfold recover at h
  simp only at h
  split at h
  · exact absurd h (by simp)
  · rename_i qa ha
    obtain ⟨delta, h1, h2, h3⟩ := push_pushFrame ha
    simp only at h1 h2 h3
    cases h
    refine ⟨delta, ?_, ?_, ?_⟩
    · split_ifs <;> exact h1
    · split_ifs <;> exact h2
    · split_ifs <;> exact h3

theorem pushCall_pushFrame {q q1 : Queue} {call : PushCall}
    (h : q.pushCall call = some q1) : ∃ delta, PushFrame q q1 delta := by
  cases call with
  | push msg isRecovery => exact push_pushFrame h
  | deliver msg => exact deliver_pushFrame h
  | process msg => exact push_pushFrame h
  | recover msg => exact recover_pushFrame h

theorem pushCalls_pushFrame : ∀ (calls : List PushCall) {q q1 : Queue},
    q.pushCalls calls = some q1 → ∃ delta, PushFrame q q1 delta := by
  intro calls
  induction calls with
  | nil =>
    intro q q1 h
    simp only [pushCalls, Option.some.injEq] at h
    subst h
    exact ⟨[], pushFrame_of_frame (frame_refl q) rfl⟩
  | cons call rest ih =>
    intro q q1 h
    unfold pushCalls at h
    split at h
    · exact absurd h (by simp)
    · rename_i qa ha
      obtain ⟨d1, h1⟩ := pushCall_pushFrame ha
      obtain ⟨d2, h2⟩ := ih h
      exact ⟨d1 ++ d2, pushFrame_trans h1 h2⟩

/-! ### Without a group manager no assertion can fail -/

theorem enqueued_total {q : Queue} (qm : QueuedMessage) (h : q.allocator = none) :
    ∃ q1, q.enqueued qm = some q1 ∧ q1.allocator = none := by
  obtain ⟨q1, h1, h2⟩ := notifyObservers_total (.enqueued qm) h
  unfold enqueued
  rw [h1]
  exact ⟨_, rfl, h2⟩

theorem acquired_total {q : Queue} (qm : QueuedMessage) (h : q.allocator = none) :
    ∃ q1, q.acquired qm = some q1 ∧ q1.allocator = none :=
  notifyObservers_total (.acquired qm) h

theorem dequeued_total {q : Queue} (qm : QueuedMessage) (h : q.allocator = none) :
    ∃ q1, q.dequeued qm = some q1 ∧ q1.allocator = none := by
  unfold dequeued
  exact notifyObservers_total (.dequeued qm) h

theorem dequeue_total {q : Queue} (ctxt : Bool) (qm : QueuedMessage) (h : q.allocator = none) :
    ∃ r q1, q.dequeue ctxt qm = some (r, q1) ∧ q1.allocator = none := by
  unfold dequeue
  split
  · exact ⟨_, _, rfl, h⟩
  · split
    · exact ⟨_, _, rfl, h⟩
    · have hmid : ∃ q2, (if ctxt = true then some q else q.dequeued qm) = some q2 ∧
          q2.allocator = none := by
        split
        · exact ⟨q, rfl, h⟩
        · exact dequeued_total qm h
      obtain ⟨q2, h2, h3⟩ := hmid
      rw [h2]
      simp only
      split
      · exact ⟨_, _, rfl, h3⟩
      · exact ⟨_, _, rfl, h3⟩

theorem dequeueAll_total : ∀ (l : List QueuedMessage) {q : Queue}, q.allocator = none →
    ∃ q1, q.dequeueAll l = some q1 ∧ q1.allocator = none := by
  intro l
  induction l with
  | nil =>
    intro q h
    exact ⟨q, rfl, h⟩
  | cons qm rest ih =>
    intro q h
    obtain ⟨r, q2, h2, h3⟩ := dequeue_total false qm h
    obtain ⟨q3, h4, h5⟩ := ih h3
    unfold dequeueAll
    rw [h2]
    exact ⟨q3, h4, h5⟩

theorem enqueuePolicy_total {q : Queue} (msg : Message) (s : Bool)
    (h : q.allocator = none) :
    ∃ q1, (q.enqueuePolicy msg s).state? = some q1 ∧ q1.allocator = none := by
  unfold enqueuePolicy
  split
  · exact ⟨q, rfl, h⟩
  · rename_i p hp
    split
    · exact ⟨q, rfl, h⟩
    · split
      · exact ⟨_, rfl, h⟩
      · simp only
        obtain ⟨q3, h4, h5⟩ := dequeueAll_total
          ((p.record (.tryEnqueue msg)).pendingAfter (p.record (.tryEnqueue msg)).calls)
          (q := { q with policy := some ((p.record (.tryEnqueue msg)).record
            .getPendingDequeues) }) h
        rw [h4]
        exact ⟨q3, rfl, h5⟩

theorem enqueueStore_allocator (q : Queue) (msg : Message) :
    (q.enqueueStore msg).2.allocator = q.allocator := by
  unfold enqueueStore forcePersistent
  simp only
  split_ifs <;> rfl

theorem enqueue_total {q : Queue} (msg : Message) (s : Bool) (h : q.allocator = none) :
    ∃ q1, (q.enqueue msg s).state? = some q1 ∧ q1.allocator = none ∧
      ((∃ r, q.enqueue msg s = .ok r q1) ∨ ∃ e, q.enqueue msg s = .raised e q1) := by
  unfold enqueue
  split
  · exact ⟨q, rfl, h, Or.inl ⟨_, rfl⟩⟩
  · obtain ⟨q2, h2, h3⟩ := enqueuePolicy_total msg s h
    cases hp : q.enqueuePolicy msg s with
    | aborted => simp [hp, Outcome.state?] at h2
    | raised e qa =>
      simp only [hp, Outcome.state?, Option.some.injEq] at h2
      subst h2
      exact ⟨qa, rfl, h3, Or.inr ⟨_, rfl⟩⟩
    | ok u qa =>
      simp only [hp, Outcome.state?, Option.some.injEq] at h2
      subst h2
      exact ⟨_, rfl, (enqueueStore_allocator qa msg).trans h3, Or.inl ⟨_, rfl⟩⟩

theorem pushQueued_total {q : Queue} (qm : QueuedMessage) (isRecovery : Bool)
    (h : q.allocator = none) :
    ∃ q1, q.pushQueued qm isRecovery = some q1 ∧ q1.allocator = none := by
  unfold pushQueued
  simp only
  obtain ⟨qa, ha, ha2⟩ := enqueued_total qm
    (q := { q with sequence := qm.position, messages := (q.messages.push qm).1,
                   listeners := [] }) h
  rw [ha]
  simp only
  split
  · exact ⟨_, rfl, ha2⟩
  · rename_i removed _
    obtain ⟨qb, hb, hb2⟩ := acquired_total removed
      (q := { qa with woken := qa.woken ++ q.listeners }) ha2
    rw [hb]
    simp only
    split
    · exact ⟨_, rfl, hb2⟩
    · obtain ⟨r, qc, hc, hc2⟩ := dequeue_total false removed hb2
      rw [hc]
      exact ⟨qc, rfl, hc2⟩

theorem push_total {q : Queue} (msg : Message) (isRecovery : Bool) (h : q.allocator = none) :
    ∃ q1, q.push msg isRecovery = some q1 ∧ q1.allocator = none := by
  unfold push
  exact pushQueued_total _ isRecovery h

theorem deliver_total {q : Queue} (msg : Message) (h : q.allocator = none) :
    ∃ q1, (q.deliver msg).state? = some q1 ∧ q1.allocator = none := by
  unfold deliver
  split
  · exact ⟨q, rfl, h⟩
  · split
    · split
      · exact ⟨_, rfl, h⟩
      · exact ⟨q, rfl, h⟩
    · split
      · exact ⟨q, rfl, h⟩
      · split
        · exact ⟨q, rfl, h⟩
        · obtain ⟨qa, -, ha2, ha3⟩ := enqueue_total msg false h
          rcases ha3 with ⟨r, hr⟩ | ⟨e, he⟩
          · rw [hr]
            simp only
            obtain ⟨qb, hb, hb2⟩ := push_total r.2 false ha2
            rw [hb]
            exact ⟨qb, rfl, hb2⟩
          · rw [he]
            exact ⟨qa, rfl, ha2⟩

theorem recover_total {q : Queue} (msg : Message) (h : q.allocator = none) :
    ∃ q1, q.recover msg = some q1 ∧ q1.allocator = none := by
  unfold recover
  simp only
  have h1 : ∀ q2 : Queue, q2.allocator = none →
      ∃ q3, q2.push msg true = some q3 ∧ q3.allocator = none := fun q2 h2 =>
    push_total msg true h2
  obtain ⟨qa, ha, ha2⟩ :=
    h1 { q with policy := q.policy.map fun (p : QueuePolicy) => p.record (.recoverEnqueued msg) } h
  rw [ha]
  refine ⟨_, rfl, ?_⟩
  split_ifs <;> exact ha2

theorem pushCalls_total : ∀ (calls : List PushCall) {q : Queue}, q.allocator = none →
    ∃ q1, q.pushCalls calls = some q1 ∧ q1.allocator = none := by
  intro calls
  induction calls with
  | nil =>
    intro q h
    exact ⟨q, rfl, h⟩
  | cons call rest ih =>
    intro q h
    have hcall : ∃ qa, q.pushCall call = some qa ∧ qa.allocator = none := by
      cases call with
      | push msg isRecovery => exact push_total msg isRecovery h
      | deliver msg => exact deliver_total msg h
      | process msg => exact push_total msg false h
      | recover msg => exact recover_total msg h
    obtain ⟨qa, ha, ha2⟩ := hcall
    obtain ⟨qb, hb, hb2⟩ := ih ha2
    unfold pushCalls
    rw [ha]
    exact ⟨qb, hb, hb2⟩

/-! ## Positions assigned by push (C6) -/

/-- C6: each push assigns the position that follows the previous sequence number.  (1) A
single `push` leaves `sequence` one greater and the new message, at the back of the
container, carries that position.  (2) After every sequence of `push`, `deliver`, `process`
and `recover` calls that passes its assertions, the callbacks made on every observer are those
of a common list `delta` whose `enqueued` callbacks carry exactly the positions
`sequence + 1, ..., sequence'` in this order: they are strictly increasing and none occurs
twice.  (3) On a queue without a group manager no assertion can fail, so every such sequence
of calls runs to its end. -/
theorem push_assigns_increasing_positions (q : Queue) :
    (∀ msg isRecovery q1, q.push msg isRecovery = some q1 →
      q1.sequence = q.sequence + 1 ∧
      ∃ payload, q1.messages.items.getLast? = some ⟨payload, q.sequence + 1⟩) ∧
    (∀ calls q1, q.pushCalls calls = some q1 →
      ∃ delta, q1.observers = q.observers.map (fun o => o.deliver delta) ∧
        q.sequence ≤ q1.sequence ∧
        enqueuedPositions delta = List.range' (q.sequence + 1) (q1.sequence - q.sequence) ∧
        (enqueuedPositions delta).Pairwise (fun a b => a < b) ∧
        (enqueuedPositions delta).Nodup) ∧
    (q.allocator = none → ∀ calls, ∃ q1, q.pushCalls calls = some q1) := by
  refine ⟨?_, ?_, ?_⟩
  · intro msg isRecovery q1 h
    exact ⟨(push_effect h).1, (push_effect h).2.1⟩
  · intro calls q1 h
    obtain ⟨delta, h1, h2, h3⟩ := pushCalls_pushFrame calls h
    refine ⟨delta, h1, h2, h3, ?_, ?_⟩
    · rw [h3]
      exact List.pairwise_lt_range' _ _
    · rw [h3]
      exact List.nodup_range' _ _
  · intro h calls
    obtain ⟨q1, h1, -⟩ := pushCalls_total calls h
    exact ⟨q1, h1⟩

/-- C6 at a concrete run: on a fresh last-value queue with one observer, a push, a deliver
and a process assign positions 1, 2, 3; the third displaces the first. -/
theorem push_assigns_increasing_positions_witness :
    (pushCalls { observers := [{}], messages := { key := some "k" } }
        [.push { id := 1, headers := some [("k", FieldValue.str "x")] } false,
         .deliver { id := 2, headers := some [("k", FieldValue.str "y")] },
         .process { id := 3, headers := some [("k", FieldValue.str "x")] }]).map
      (fun q => (q.sequence, q.messages.items.map QueuedMessage.position,
        q.observers.map (fun o => enqueuedPositions o.seen)))
      = some (3, [2, 3], [[1, 2, 3]]) ∧
    ∃ q1, pushCalls { observers := [{}], messages := { key := some "k" } }
        [.push { id := 1, headers := some [("k", FieldValue.str "x")] } false,
         .deliver { id := 2, headers := some [("k", FieldValue.str "y")] },
         .process { id := 3, headers := some [("k", FieldValue.str "x")] }] = some q1 :=
  ⟨by decide,
   (push_assigns_increasing_positions
      { observers := [{}], messages := { key := some "k" } }).2.2 rfl _⟩

/-! ### The candidate of the allocator is the message `find` returns at its position -/

theorem Messages.find_mem {ms : Messages} {pos : Nat} {qm : QueuedMessage}
    (h : ms.find pos = some qm) : qm ∈ ms.items ∧ qm.position = pos := by
  unfold Messages.find at h
  have h2 := List.find?_some h
  simp only [decide_eq_true_eq] at h2
  exact ⟨List.mem_of_find?_eq_some h, h2⟩

theorem Messages.find_self_of_find {ms : Messages} {pos : Nat} {qm : QueuedMessage}
    (h : ms.find pos = some qm) : ms.find qm.position = some qm := by
  rw [(Messages.find_mem h).2]
  exact h

theorem Messages.find_of_next {ms : Messages} {pos : Nat} {qm : QueuedMessage}
    (h : ms.next pos = some qm) : ms.find qm.position = some qm := by
  unfold Messages.next at h
  unfold Messages.find
  rw [List.find?_eq_some] at h ⊢
  obtain ⟨h1, front, back, h2, h3⟩ := h
  simp only [decide_eq_true_eq] at h1
  refine ⟨by simp, front, back, h2, ?_⟩
  intro a ha
  have h4 := h3 a ha
  simp only [Bool.not_eq_true', decide_eq_false_iff_not, Nat.not_lt] at h4
  simp only [Bool.not_eq_true', decide_eq_false_iff_not]
  omega

theorem Messages.find_of_front {ms : Messages} {qm : QueuedMessage}
    (h : ms.front = some qm) : ms.find qm.position = some qm := by
  unfold Messages.front at h
  unfold Messages.find
  cases hi : ms.items with
  | nil => simp [hi] at h
  | cons x rest =>
    simp only [hi, List.head?_cons, Option.some.injEq] at h
    subst h
    simp [List.find?_cons]

theorem walk_find (m : MessageGroupManager) (messages : Messages) (consumer : String) :
    ∀ (fuel : Nat) (x qm : QueuedMessage), messages.find x.position = some x →
      m.nextConsumableWalk messages consumer fuel x = some (some qm) →
      messages.find qm.position = some qm := by
  intro fuel
  induction fuel with
  | zero =>
    intro x qm _ h
    simp [MessageGroupManager.nextConsumableWalk] at h
  | succ n ih =>
    intro x qm hx h
    unfold MessageGroupManager.nextConsumableWalk at h
    split at h
    · exact absurd h (by simp)
    · split at h
      · simp only [Option.some.injEq] at h
        subst h
        exact hx
      · split at h
        · exact absurd h (by simp)
        · rename_i y hy
          exact ih y qm (Messages.find_of_next hy) h

theorem manager_candidate_find {m m1 : MessageGroupManager} {messages : Messages}
    {c : Consumer} {qm : QueuedMessage}
    (h : m.nextConsumableMessage messages c = some (some qm, m1)) :
    messages.find qm.position = some qm := by
  unfold MessageGroupManager.nextConsumableMessage at h
  cases hc : m.nextConsumableCandidate messages c with
  | none => simp [hc] at h
  | some p =>
    obtain ⟨r, m2⟩ := p
    cases r with
    | none => simp [hc] at h
    | some next =>
      simp only [hc] at h
      have hnext : messages.find next.position = some next := by
        unfold MessageGroupManager.nextConsumableCandidate at hc
        split at hc
        · simp at hc
        · split at hc
          · split at hc
            · split at hc
              · simp at hc
              · rename_i y hy
                simp only [Option.some.injEq, Prod.mk.injEq] at hc
                obtain ⟨h1, -⟩ := hc
                subst h1
                exact Messages.find_self_of_find hy
            · simp only [Option.some.injEq, Prod.mk.injEq] at hc
              exact Messages.find_of_next hc.1
          · simp only at hc
            split at hc
            · simp at hc
            · simp only [Option.some.injEq, Prod.mk.injEq] at hc
              exact Messages.find_of_next hc.1
      cases hw : m2.nextConsumableWalk messages c.name messages.size next with
      | none => simp [hw] at h
      | some r2 =>
        simp only [hw, Option.some.injEq, Prod.mk.injEq] at h
        obtain ⟨h1, -⟩ := h
        subst h1
        exact walk_find m2 messages c.name _ next qm hnext hw

theorem nextConsumableMessage_effect {q q1 : Queue} {c : Consumer}
    {r : Option QueuedMessage} (h : q.nextConsumableMessage c = some (r, q1)) :
    Frame q q1 [] ∧ ∀ qm, r = some qm → q.messages.find qm.position = some qm := by
  unfold nextConsumableMessage at h
  split at h
  · simp only [Option.some.injEq, Prod.mk.injEq] at h
    obtain ⟨h1, h2⟩ := h
    subst h1 h2
    exact ⟨frame_refl q, fun qm hq => Messages.find_of_front hq⟩
  · rename_i mgr hm
    split at h
    · exact absurd h (by simp)
    · rename_i res hres
      simp only [Option.some.injEq, Prod.mk.injEq] at h
      obtain ⟨h1, h2⟩ := h
      subst h1 h2
      refine ⟨frame_of_eq rfl rfl rfl rfl rfl rfl rfl rfl, fun qm hq => ?_⟩
      obtain ⟨r1, m1⟩ := res
      simp only at hq
      subst hq
      exact manager_candidate_find hres

theorem allocatorAcquire_frame {q q1 : Queue} {consumer : String} {qm : QueuedMessage}
    {r : Bool} (h : q.allocatorAcquire consumer qm = some (r, q1)) : Frame q q1 [] := by
  unfold allocatorAcquire at h
  split at h
  · simp only [Option.some.injEq, Prod.mk.injEq] at h
    obtain ⟨-, h2⟩ := h
    subst h2
    exact frame_refl q
  · split at h
    · exact absurd h (by simp)
    · simp only [Option.some.injEq, Prod.mk.injEq] at h
      obtain ⟨-, h2⟩ := h
      subst h2
      exact frame_of_eq rfl rfl rfl rfl rfl rfl rfl rfl

theorem acquire_effect {q q1 : Queue} {pos : Nat} {r : Option QueuedMessage}
    (h : q.acquire pos = some (r, q1)) :
    (r = none → q1 = q ∧ q.messages.find pos = none) ∧
    (∀ qm, r = some qm → q.messages.find pos = some qm ∧
      q1.messages.items = q.messages.items.erase qm ∧
      q1.observers = q.observers.map (fun o => o.deliver [.acquired qm]) ∧
      q1.sequence = q.sequence ∧ q1.deleted = q.deleted) := by
  unfold acquire Messages.remove at h
  cases hf : q.messages.find pos with
  | none =>
    simp only [hf, Option.some.injEq, Prod.mk.injEq] at h
    obtain ⟨h1, h2⟩ := h
    subst h1 h2
    exact ⟨fun _ => ⟨rfl, rfl⟩, fun qm hq => absurd hq (by simp)⟩
  | some found =>
    simp only [hf] at h
    split at h
    · exact absurd h (by simp)
    · rename_i qa ha
      simp only [Option.some.injEq, Prod.mk.injEq] at h
      obtain ⟨h1, h2⟩ := h
      subst h1 h2
      obtain ⟨a1, a2, a3, -, -, a6, -⟩ := acquired_frame ha
      refine ⟨fun hn => absurd hn (by simp), fun qm hq => ?_⟩
      simp only [Option.some.injEq] at hq
      subst hq
      refine ⟨rfl, ?_, a1, a3, a6⟩
      simp only [a2]

/-! ## consumeNextMessage (C7) -/

theorem consumeLoop_spec : ∀ (fuel : Nat) (q : Queue) (c : Consumer) (code : ConsumeCode)
    (m : Option QueuedMessage) (c1 : Consumer) (q1 : Queue),
    q.consumeLoop fuel c = some (code, m, c1, q1) →
    q1.messages.items.Sublist q.messages.items ∧
    ∃ delta, q1.observers = q.observers.map (fun o => o.deliver delta) ∧
      (code = .CONSUMED → ∃ qm, m = some qm ∧ qm ∈ q.messages.items ∧
        (q.messages.items.Nodup → qm ∉ q1.messages.items) ∧
        qm.payload.expired = false ∧ c.filter qm.payload = true ∧
        c.accept qm.payload = true ∧ delta.count (.acquired qm) = 1 ∧
        c1.position = qm.position) ∧
      (code ≠ .CONSUMED → m = none ∧
        ∀ x ∈ q.messages.items, x.payload.expired = false → x ∈ q1.messages.items) := by
  intro fuel
  induction fuel with
  | zero =>
    intro q c code m c1 q1 h
    simp [consumeLoop] at h
  | succ n ih =>
    intro q c code m c1 q1 h
    unfold consumeLoop at h
    split at h
    · exact absurd h (by simp)
    · -- no candidate
      rename_i qa ha
      obtain ⟨⟨a1, a2, -⟩, -⟩ := nextConsumableMessage_effect ha
      simp only [Option.some.injEq, Prod.mk.injEq] at h
      obtain ⟨h1, h2, h3, h4⟩ := h
      subst h1 h2 h3 h4
      have hm : (qa.addListener c).messages = q.messages := by
        unfold addListener
        split <;> exact a2
      have ho : (qa.addListener c).observers = q.observers.map (fun o => o.deliver []) := by
        unfold addListener
        split <;> exact a1
      rw [hm]
      exact ⟨List.Sublist.refl _, [], ho, fun hc => absurd hc (by simp),
        fun _ => ⟨rfl, fun x hx _ => hx⟩⟩
    · rename_i msg qa ha
      obtain ⟨⟨a1, a2, -⟩, hfind⟩ := nextConsumableMessage_effect ha
      have hfirst : qa.messages.find msg.position = some msg := by
        rw [a2]
        exact hfind msg rfl
      have hmem : msg ∈ q.messages.items := (Messages.find_mem (hfind msg rfl)).1
      split at h
      · -- expired candidate: acquire, dequeue, retry
        rename_i hexp
        split at h
        · exact absurd h (by simp)
        · rename_i removed qb hb
          obtain ⟨hnone, hsome⟩ := acquire_effect hb
          cases removed with
          | none =>
            have := (hnone rfl).2
            rw [hfirst] at this
            exact absurd this (by simp)
          | some r =>
            obtain ⟨b0, b1, b2, -⟩ := hsome r rfl
            rw [hfirst] at b0
            simp only [Option.some.injEq] at b0
            subst b0
            simp only [Option.getD_some] at h
            split at h
            · exact absurd h (by simp)
            · rename_i flag qc hc
              obtain ⟨dd, ⟨c1f, c2f, -⟩, hdd⟩ := dequeue_frame hc
              obtain ⟨hsub, delta, hobs, hcons, hother⟩ := ih qc _ code m c1 q1 h
              have hitems : qc.messages.items = q.messages.items.erase msg := by
                rw [c2f, b1, a2]
              rw [hitems] at hsub hcons hother
              refine ⟨hsub.trans (List.erase_sublist _ _), [.acquired msg] ++ dd ++ delta, ?_,
                ?_, ?_⟩
              · rw [hobs, c1f, b2, a1, map_deliver_deliver, map_deliver_deliver,
                  map_deliver_deliver]
                simp
              · intro hcode
                obtain ⟨qm, e1, e2, e3, e4, e5, e6, e7, e8⟩ := hcons hcode
                have hne : msg ≠ qm := by
                  intro heq
                  rw [heq] at hexp
                  rw [e4] at hexp
                  exact absurd hexp (by simp)
                refine ⟨qm, e1, (List.erase_sublist _ _).subset e2,
                  fun hnd => e3 (hnd.erase msg), e4, e5, e6, ?_, e8⟩
                have hdd0 : dd.count (.acquired qm) = 0 := by
                  rcases hdd with h3 | h3 <;> subst h3 <;> simp
                have h1 : [Notification.acquired msg].count (.acquired qm) = 0 := by
                  simp [List.count_singleton, hne]
                rw [List.count_append, List.count_append, h1, hdd0, e7]
              · intro hcode
                obtain ⟨e1, e2⟩ := hother hcode
                refine ⟨e1, fun x hx hexp2 => e2 x ?_ hexp2⟩
                have hne : x ≠ msg := by
                  intro heq
                  rw [heq] at hexp2
                  rw [hexp2] at hexp
                  exact absurd hexp (by simp)
                exact (List.mem_erase_of_ne hne).mpr hx
      · rename_i hexp
        simp only [Bool.not_eq_true] at hexp
        split at h
        · rename_i hfilter
          split at h
          · rename_i haccept
            split at h
            · exact absurd h (by simp)
            · exact absurd h (by simp)
            · rename_i qb hb
              obtain ⟨b1, b2, -⟩ := allocatorAcquire_frame hb
              split at h
              · exact absurd h (by simp)
              · exact absurd h (by simp)
              · rename_i taken qc hc
                simp only [Option.some.injEq, Prod.mk.injEq] at h
                obtain ⟨h1, h2, h3, h4⟩ := h
                subst h1 h2 h3 h4
                obtain ⟨-, hsome⟩ := acquire_effect hc
                obtain ⟨c0, c1f, c2f, -⟩ := hsome taken rfl
                rw [b2, hfirst] at c0
                simp only [Option.some.injEq] at c0
                subst c0
                have hitems : qc.messages.items = q.messages.items.erase msg := by
                  rw [c1f, b2, a2]
                rw [hitems]
                refine ⟨List.erase_sublist _ _, [.acquired msg], ?_, ?_,
                  fun hc2 => absurd rfl hc2⟩
                · rw [c2f, b1, a1, map_deliver_deliver, map_deliver_deliver]
                  simp
                · intro _
                  refine ⟨msg, rfl, hmem, fun hnd hin => ?_, hexp, hfilter, haccept, ?_, rfl⟩
                  · exact ((List.Nodup.mem_erase_iff hnd).mp hin).1 rfl
                  · simp
          · simp only [Option.some.injEq, Prod.mk.injEq] at h
            obtain ⟨h1, h2, h3, h4⟩ := h
            subst h1 h2 h3 h4
            rw [a2]
            exact ⟨List.Sublist.refl _, [], a1, fun hc => absurd hc (by simp),
              fun _ => ⟨rfl, fun x hx _ => hx⟩⟩
        · simp only [Option.some.injEq, Prod.mk.injEq] at h
          obtain ⟨h1, h2, h3, h4⟩ := h
          subst h1 h2 h3 h4
          rw [a2]
          exact ⟨List.Sublist.refl _, [], a1, fun hc => absurd hc (by simp),
            fun _ => ⟨rfl, fun x hx _ => hx⟩⟩

theorem acquire_total {q : Queue} {pos : Nat} {qm : QueuedMessage}
    (h : q.allocator = none) (hf : q.messages.find pos = some qm) :
    ∃ q1, q.acquire pos = some (some qm, q1) ∧ q1.allocator = none := by
  unfold acquire Messages.remove
  simp only [hf]
  obtain ⟨qa, ha, ha2⟩ := acquired_total qm
    (q := { q with messages := { q.messages with items := q.messages.items.erase qm } }) h
  rw [ha]
  exact ⟨_, rfl, ha2⟩

theorem consumeLoop_total : ∀ (fuel : Nat) (q : Queue) (c : Consumer),
    q.allocator = none → q.messages.items.length < fuel →
    ∃ r, q.consumeLoop fuel c = some r := by
  intro fuel
  induction fuel with
  | zero =>
    intro q c _ h
    exact absurd h (Nat.not_lt_zero _)
  | succ n ih =>
    intro q c halloc hlen
    have hnext : q.nextConsumableMessage c = some (q.messages.front, q) := by
      unfold nextConsumableMessage
      simp only [halloc]
    unfold consumeLoop
    rw [hnext]
    cases hfront : q.messages.front with
    | none => exact ⟨_, rfl⟩
    | some msg =>
      simp only
      have hfind := Messages.find_of_front hfront
      obtain ⟨qb, hb, hb2⟩ := acquire_total halloc hfind
      split
      · -- expired
        rw [hb]
        simp only [Option.getD_some]
        obtain ⟨flag, qc, hc, hc2⟩ := dequeue_total false msg hb2
        rw [hc]
        simp only
        obtain ⟨-, hsome⟩ := acquire_effect hb
        obtain ⟨-, b1, -⟩ := hsome msg rfl
        obtain ⟨dd, ⟨-, c2f, -⟩, -⟩ := dequeue_frame hc
        apply ih qc _ hc2
        rw [c2f, b1, List.length_erase_of_mem (Messages.find_mem hfind).1]
        have : 0 < q.messages.items.length :=
          List.length_pos_of_mem (Messages.find_mem hfind).1
        omega
      · split
        · split
          · have hacq : q.allocatorAcquire c.name msg = some (true, q) := by
              unfold allocatorAcquire
              simp only [halloc]
            rw [hacq]
            simp only
            rw [hb]
            exact ⟨_, rfl⟩
          · exact ⟨_, rfl⟩
        · exact ⟨_, rfl⟩

/-- C7: `consumeNextMessage(m, c)`.  (1) If it returns CONSUMED, the message handed out was
in the container before the call and, no message being held twice, is not in it afterwards;
it is not expired, `c.filter` and `c.accept` hold for it, the callbacks made on every
observer during the call (`delta`) contain `acquired` for it exactly once, and `c.position`
is its position.  If it returns CANT_CONSUME or NO_MESSAGES, no message is handed out, the
container keeps its order and every message that is not expired (the candidate of the
allocator among them) is still in it.  (2) On a queue with the default allocator the call
always returns. -/
theorem consumeNextMessage_contract (q : Queue) (c : Consumer) :
    (∀ code m c1 q1, q.consumeNextMessage c = some (code, m, c1, q1) →
      (code = .CONSUMED → ∃ qm delta, m = some qm ∧ qm ∈ q.messages.items ∧
        (q.messages.items.Nodup → qm ∉ q1.messages.items) ∧
        qm.payload.expired = false ∧ c.filter qm.payload = true ∧
        c.accept qm.payload = true ∧
        q1.observers = q.observers.map (fun o => o.deliver delta) ∧
        delta.count (.acquired qm) = 1 ∧ c1.position = qm.position) ∧
      (code ≠ .CONSUMED → m = none ∧ q1.messages.items.Sublist q.messages.items ∧
        ∀ x ∈ q.messages.items, x.payload.expired = false → x ∈ q1.messages.items)) ∧
    (q.allocator = none → ∃ r, q.consumeNextMessage c = some r) := by
  refine ⟨?_, ?_⟩
  · intro code m c1 q1 h
    obtain ⟨hsub, delta, hobs, hcons, hother⟩ := consumeLoop_spec _ q c code m c1 q1 h
    refine ⟨fun hc => ?_, fun hc => ?_⟩
    · obtain ⟨qm, e1, e2, e3, e4, e5, e6, e7, e8⟩ := hcons hc
      exact ⟨qm, delta, e1, e2, e3, e4, e5, e6, hobs, e7, e8⟩
    · exact ⟨(hother hc).1, hsub, (hother hc).2⟩
  · intro h
    exact consumeLoop_total _ q c h (Nat.lt_succ_self _)

/-- C7 at a concrete queue: two expired messages are discarded and the third is consumed. -/
theorem consumeNextMessage_contract_witness :
    (consumeNextMessage
        { observers := [{}],
          messages := { items := [⟨{ id := 1, expired := true }, 1⟩,
            ⟨{ id := 2, expired := true }, 2⟩, ⟨{ id := 3 }, 3⟩] } }
        { name := "c" }).map
      (fun r => (r.1, r.2.1.map QueuedMessage.position, r.2.2.1.position,
        r.2.2.2.messages.items,
        r.2.2.2.observers.map (fun o => o.seen.count (.acquired ⟨{ id := 3 }, 3⟩))))
      = some (.CONSUMED, some 3, 3, [], [1]) ∧
    ∃ r, consumeNextMessage
        { observers := [{}],
          messages := { items := [⟨{ id := 1, expired := true }, 1⟩,
            ⟨{ id := 2, expired := true }, 2⟩, ⟨{ id := 3 }, 3⟩] } }
        { name := "c" } = some r :=
  ⟨by decide,
   (consumeNextMessage_contract
      { observers := [{}],
        messages := { items := [⟨{ id := 1, expired := true }, 1⟩,
          ⟨{ id := 2, expired := true }, 2⟩, ⟨{ id := 3 }, 3⟩] } }
      { name := "c" }).2 rfl⟩

/-! ## browseNextMessage (C8) -/

theorem Messages.next_min {ms : Messages} {pos : Nat} {msg : QueuedMessage}
    (hs : ms.Sorted) (h : ms.next pos = some msg) :
    ∀ x ∈ ms.items, pos < x.position →
      msg.position ≤ x.position ∧ (x.position = msg.position → x = msg) := by
  unfold Messages.next at h
  rw [List.find?_eq_some] at h
  obtain ⟨-, front, back, h2, h3⟩ := h
  unfold Messages.Sorted at hs
  rw [h2, List.pairwise_append] at hs
  obtain ⟨-, hmb, -⟩ := hs
  rw [List.pairwise_cons] at hmb
  intro x hx hpos
  rw [h2] at hx
  rcases List.mem_append.mp hx with hin | hin
  · have h4 := h3 x hin
    simp only [Bool.not_eq_true', decide_eq_false_iff_not] at h4
    exact absurd hpos h4
  · rcases List.mem_cons.mp hin with heq | hin2
    · subst heq
      exact ⟨Nat.le_refl _, fun _ => rfl⟩
    · have h5 : msg.position < x.position := hmb.1 x hin2
      exact ⟨Nat.le_of_lt h5, fun h6 => absurd h6 (Nat.ne_of_gt h5)⟩

theorem Messages.next_gt {ms : Messages} {pos : Nat} {msg : QueuedMessage}
    (h : ms.next pos = some msg) : msg ∈ ms.items ∧ pos < msg.position := by
  unfold Messages.next at h
  have h2 := List.find?_some h
  simp only [decide_eq_true_eq] at h2
  exact ⟨List.mem_of_find?_eq_some h, h2⟩

theorem nextBrowsableMessage_some {q : Queue} {c : Consumer} {msg : QueuedMessage}
    (h : q.nextBrowsableMessage c = some msg) : q.messages.next c.position = some msg := by
  unfold nextBrowsableMessage at h
  split at h
  · exact h
  · exact absurd h (by simp)

theorem addListener_messages (q : Queue) (c : Consumer) :
    (q.addListener c).messages = q.messages := by
  unfold addListener
  split <;> rfl

theorem browseLoop_spec : ∀ (fuel : Nat) (q : Queue) (c : Consumer) (r : Bool)
    (m : Option QueuedMessage) (c1 : Consumer) (q1 : Queue),
    q.browseLoop fuel c = some (r, m, c1, q1) →
    q1.messages = q.messages ∧
    (r = true → ∃ qm, m = some qm ∧ qm ∈ q.messages.items ∧ c.position < qm.position ∧
      c.filter qm.payload = true ∧ c.accept qm.payload = true ∧
      qm.payload.expired = false ∧ c1.position = qm.position ∧
      (q.messages.Sorted → ∀ x ∈ q.messages.items, c.position < x.position →
        x.position < qm.position → c.filter x.payload = false ∨ x.payload.expired = true)) := by
  intro fuel
  induction fuel with
  | zero =>
    intro q c r m c1 q1 h
    simp [browseLoop] at h
  | succ n ih =>
    intro q c r m c1 q1 h
    unfold browseLoop at h
    split at h
    · simp only [Option.some.injEq, Prod.mk.injEq] at h
      obtain ⟨h1, h2, h3, h4⟩ := h
      subst h1 h2 h3 h4
      exact ⟨addListener_messages q c, fun hr => absurd hr (by simp)⟩
    · rename_i msg hmsg
      have hnext := nextBrowsableMessage_some hmsg
      obtain ⟨hmem, hgt⟩ := Messages.next_gt hnext
      split at h
      · rename_i hcond
        simp only [Bool.and_eq_true, Bool.not_eq_true'] at hcond
        split at h
        · rename_i hacc
          simp only [Option.some.injEq, Prod.mk.injEq] at h
          obtain ⟨h1, h2, h3, h4⟩ := h
          subst h1 h2 h3 h4
          refine ⟨rfl, fun _ => ⟨msg, rfl, hmem, hgt, hcond.1, hacc, hcond.2, rfl, ?_⟩⟩
          intro hs x hx hlo hhi
          have := (Messages.next_min hs hnext x hx hlo).1
          omega
        · simp only [Option.some.injEq, Prod.mk.injEq] at h
          obtain ⟨h1, h2, h3, h4⟩ := h
          subst h1 h2 h3 h4
          exact ⟨rfl, fun hr => absurd hr (by simp)⟩
      · rename_i hcond
        obtain ⟨hmsgs, hres⟩ := ih q _ r m c1 q1 h
        refine ⟨hmsgs, fun hr => ?_⟩
        obtain ⟨qm, e1, e2, e3, e4, e5, e6, e7, e8⟩ := hres hr
        simp only at e3 e4 e5 e8
        refine ⟨qm, e1, e2, Nat.lt_trans hgt e3, e4, e5, e6, e7, ?_⟩
        intro hs x hx hlo hhi
        obtain ⟨hle, huniq⟩ := Messages.next_min hs hnext x hx hlo
        by_cases heq : x.position = msg.position
        · have hx2 := huniq heq
          subst hx2
          cases hf : c.filter x.payload with
          | false => exact Or.inl rfl
          | true =>
            cases he : x.payload.expired with
            | true => exact Or.inr rfl
            | false => simp [hf, he] at hcond
        · exact e8 hs x hx (by omega) hhi

theorem countP_next_lt {items : List QueuedMessage} {pos : Nat} {msg : QueuedMessage}
    (hmem : msg ∈ items) (hgt : pos < msg.position) :
    items.countP (fun x => decide (msg.position < x.position))
      < items.countP (fun x => decide (pos < x.position)) := by
  have hmono : ∀ l : List QueuedMessage,
      l.countP (fun x => decide (msg.position < x.position))
        ≤ l.countP (fun x => decide (pos < x.position)) := by
    intro l
    apply List.countP_mono_left
    intro x _ hx
    simp only [decide_eq_true_eq] at hx ⊢
    omega
  induction items with
  | nil => exact absurd hmem (List.not_mem_nil _)
  | cons y rest ih =>
    rcases List.mem_cons.mp hmem with heq | hin
    · subst heq
      have h1 : (msg :: rest).countP (fun x => decide (msg.position < x.position))
          = rest.countP (fun x => decide (msg.position < x.position)) := by
        rw [List.countP_cons_of_neg]
        simp
      have h2 : (msg :: rest).countP (fun x => decide (pos < x.position))
          = rest.countP (fun x => decide (pos < x.position)) + 1 := by
        rw [List.countP_cons_of_pos]
        simpa using hgt
      rw [h1, h2]
      exact Nat.lt_succ_of_le (hmono rest)
    · have h3 := ih hin
      have h4 := hmono [y]
      simp only [List.countP_cons] at h4 ⊢
      simp only [List.countP_nil, Nat.zero_add] at h4
      omega

theorem browseLoop_total : ∀ (fuel : Nat) (q : Queue) (c : Consumer),
    q.messages.items.countP (fun x => decide (c.position < x.position)) < fuel →
    ∃ r, q.browseLoop fuel c = some r := by
  intro fuel
  induction fuel with
  | zero =>
    intro q c h
    exact absurd h (Nat.not_lt_zero _)
  | succ n ih =>
    intro q c h
    unfold browseLoop
    cases hmsg : q.nextBrowsableMessage c with
    | none => exact ⟨_, rfl⟩
    | some msg =>
      simp only
      obtain ⟨hmem, hgt⟩ := Messages.next_gt (nextBrowsableMessage_some hmsg)
      split
      · split
        · exact ⟨_, rfl⟩
        · exact ⟨_, rfl⟩
      · apply ih
        have := countP_next_lt hmem hgt
        simp only
        omega

/-- C8: `browseNextMessage(m, c)` always returns and never changes the messages container.
When it returns true with message `qm`: `qm` is in the container, its position is greater
than `c.position` before the call, `c.filter` and `c.accept` hold for it, it is not expired,
`c.position` is set to its position, and, the container being held in increasing position
order, every message with a position strictly between the old `c.position` and that of `qm`
is rejected by the filter or expired. -/
theorem browseNextMessage_contract (q : Queue) (c : Consumer) :
    ∃ r m c1 q1, q.browseNextMessage c = some (r, m, c1, q1) ∧
      q1.messages = q.messages ∧
      (r = true → ∃ qm, m = some qm ∧ qm ∈ q.messages.items ∧ c.position < qm.position ∧
        c.filter qm.payload = true ∧ c.accept qm.payload = true ∧
        qm.payload.expired = false ∧ c1.position = qm.position ∧
        (q.messages.Sorted → ∀ x ∈ q.messages.items, c.position < x.position →
          x.position < qm.position →
          c.filter x.payload = false ∨ x.payload.expired = true)) := by
  have htotal : ∃ res, q.browseNextMessage c = some res := by
    unfold browseNextMessage
    apply browseLoop_total
    have := List.countP_le_length (fun x => decide (c.position < x.position))
      (l := q.messages.items)
    unfold Messages.size
    omega
  obtain ⟨⟨r, m, c1, q1⟩, hres⟩ := htotal
  refine ⟨r, m, c1, q1, hres, ?_⟩
  unfold browseNextMessage at hres
  exact browseLoop_spec _ q c r m c1 q1 hres

/-! ### The iteration bounds are never what stops a loop -/

theorem walk_fuel (m : MessageGroupManager) (messages : Messages) (consumer : String) :
    ∀ (fuel : Nat) (x : QueuedMessage),
      messages.items.countP (fun y => decide (x.position < y.position)) < fuel →
      ∀ n, m.nextConsumableWalk messages consumer (fuel + n) x
        = m.nextConsumableWalk messages consumer fuel x := by
  intro fuel
  induction fuel with
  | zero =>
    intro x h
    exact absurd h (Nat.not_lt_zero _)
  | succ k ih =>
    intro x hlen n
    have hk : k + 1 + n = (k + n) + 1 := by omega
    rw [hk]
    unfold MessageGroupManager.nextConsumableWalk
    cases hst : StdMap.find m.messageGroups (m.getGroupId x) with
    | none => rfl
    | some st =>
      simp only
      by_cases hcond : (!st.owned || decide (st.owner = consumer)) = true
      · simp only [hcond, if_true]
      · simp only [hcond, Bool.false_eq_true, if_false]
        cases hy : messages.next x.position with
        | none => rfl
        | some y =>
          simp only
          apply ih
          obtain ⟨hmem, hgt⟩ := Messages.next_gt hy
          have := countP_next_lt hmem hgt
          omega

/-- The bound `messages.size()` that `nextConsumableMessage` gives to its loop is never
reached: a larger bound gives the same result. -/
theorem nextConsumableWalk_bound (m : MessageGroupManager) (messages : Messages)
    (consumer : String) (x : QueuedMessage) (hx : x ∈ messages.items) (n : Nat) :
    m.nextConsumableWalk messages consumer (messages.size + n) x
      = m.nextConsumableWalk messages consumer messages.size x := by
  apply walk_fuel
  unfold Messages.size
  have h1 := List.countP_le_length (fun y => decide (x.position < y.position))
    (l := messages.items)
  have h2 : messages.items.countP (fun y => decide (x.position < y.position))
      ≠ messages.items.length := by
    intro heq
    rw [List.countP_eq_length] at heq
    have := heq x hx
    simp at this
  omega

/-- C8 at a concrete queue: a browser at position 0 whose filter rejects message 1 skips it
and an expired message 2, and is given message 3; the container is untouched. -/
theorem browseNextMessage_contract_witness :
    (browseNextMessage
        { messages := { items := [⟨{ id := 1 }, 1⟩, ⟨{ id := 2, expired := true }, 2⟩,
            ⟨{ id := 3 }, 3⟩] } }
        { name := "b", preAcquires := false, filter := fun m => decide (m.id ≠ 1) }).map
      (fun r => (r.1, r.2.1.map QueuedMessage.position, r.2.2.1.position,
        r.2.2.2.messages.items.map QueuedMessage.position))
      = some (true, some 3, 3, [1, 2, 3]) ∧
    ∃ r m c1 q1, browseNextMessage
        { messages := { items := [⟨{ id := 1 }, 1⟩, ⟨{ id := 2, expired := true }, 2⟩,
            ⟨{ id := 3 }, 3⟩] } }
        { name := "b", preAcquires := false, filter := fun m => decide (m.id ≠ 1) }
      = some (r, m, c1, q1) :=
  ⟨by decide,
   match browseNextMessage_contract
      { messages := { items := [⟨{ id := 1 }, 1⟩, ⟨{ id := 2, expired := true }, 2⟩,
          ⟨{ id := 3 }, 3⟩] } }
      { name := "b", preAcquires := false, filter := fun m => decide (m.id ≠ 1) } with
   | ⟨r, m, c1, q1, h, _⟩ => ⟨r, m, c1, q1, h⟩⟩

/-! ## requeue (C9) -/

theorem mem_insertByPosition (qm y : QueuedMessage) (items : List QueuedMessage) :
    y ∈ Messages.insertByPosition qm items ↔ y = qm ∨ y ∈ items := by
  induction items with
  | nil => simp [Messages.insertByPosition]
  | cons x rest ih =>
    unfold Messages.insertByPosition
    split
    · simp
    · simp only [List.mem_cons, ih]
      tauto

theorem find_insertByPosition (qm : QueuedMessage) (items : List QueuedMessage)
    (h : ∀ x ∈ items, x.position ≠ qm.position) :
    (Messages.insertByPosition qm items).find? (fun x => decide (x.position = qm.position))
      = some qm := by
  induction items with
  | nil => simp [Messages.insertByPosition]
  | cons x rest ih =>
    unfold Messages.insertByPosition
    split
    · simp
    · have hx : x.position ≠ qm.position := h x (List.mem_cons_self _ _)
      rw [List.find?_cons]
      simp only [hx, decide_False]
      exact ih (fun y hy => h y (List.mem_cons_of_mem _ hy))

theorem sorted_insertByPosition (qm : QueuedMessage) (items : List QueuedMessage)
    (hs : items.Pairwise (fun a b => a.position < b.position))
    (h : ∀ x ∈ items, x.position ≠ qm.position) :
    (Messages.insertByPosition qm items).Pairwise (fun a b => a.position < b.position) := by
  induction items with
  | nil => simp [Messages.insertByPosition]
  | cons x rest ih =>
    rw [List.pairwise_cons] at hs
    have hx : x.position ≠ qm.position := h x (List.mem_cons_self _ _)
    unfold Messages.insertByPosition
    split
    · rename_i hlt
      rw [List.pairwise_cons, List.pairwise_cons]
      refine ⟨?_, hs.1, hs.2⟩
      intro y hy
      rcases List.mem_cons.mp hy with heq | hin
      · rw [heq]
        exact hlt
      · exact Nat.lt_trans hlt (hs.1 y hin)
    · rename_i hge
      rw [List.pairwise_cons]
      refine ⟨?_, ih hs.2 (fun y hy => h y (List.mem_cons_of_mem _ hy))⟩
      intro y hy
      rcases (mem_insertByPosition qm y rest).mp hy with heq | hin
      · rw [heq]
        omega
      · exact hs.1 y hin

theorem forcePersistent_frame (q : Queue) (msg : Message) : Frame q (q.forcePersistent msg) [] := by
  unfold forcePersistent
  split
  · exact frame_refl q
  · exact frame_of_eq rfl rfl rfl rfl rfl rfl rfl rfl

theorem forcePersistent_allocator (q : Queue) (msg : Message) :
    (q.forcePersistent msg).allocator = q.allocator := by
  unfold forcePersistent
  split <;> rfl

theorem requeueForce_effect {q q1 : Queue} {qm : QueuedMessage}
    (h : (q.requeueForce qm).state? = some q1) : q1.messages = q.messages := by
  unfold requeueForce at h
  split at h
  · simp only at h
    split at h
    · split at h
      · simp [Outcome.state?] at h
      · rename_i e q3 h3
        simp only [Outcome.state?, Option.some.injEq] at h
        subst h
        obtain ⟨delta, hf, -⟩ := enqueue_frame q3 (by rw [h3]; rfl)
        exact hf.2.1.trans (forcePersistent_frame _ _).2.1
      · rename_i r q3 h3
        simp only [Outcome.state?, Option.some.injEq] at h
        subst h
        obtain ⟨delta, hf, -⟩ := enqueue_frame q3 (by rw [h3]; rfl)
        exact hf.2.1.trans (forcePersistent_frame _ _).2.1
    · simp only [Outcome.state?, Option.some.injEq] at h
      subst h
      exact (forcePersistent_frame _ _).2.1
  · simp only [Outcome.state?, Option.some.injEq] at h
    subst h
    rfl

theorem requeueForce_total {q : Queue} (qm : QueuedMessage) (h : q.allocator = none) :
    (∃ q1, q.requeueForce qm = .ok () q1 ∧ q1.allocator = none) ∨
      ∃ e q1, q.requeueForce qm = .raised e q1 := by
  unfold requeueForce
  split
  · simp only
    split
    · obtain ⟨qa, -, ha2, ha3⟩ := enqueue_total qm.payload false
        ((forcePersistent_allocator q qm.payload).trans h)
      rcases ha3 with ⟨r, hr⟩ | ⟨e, he⟩
      · rw [hr]
        exact Or.inl ⟨qa, rfl, ha2⟩
      · rw [he]
        exact Or.inr ⟨e, qa, rfl⟩
    · exact Or.inl ⟨_, rfl, (forcePersistent_allocator q qm.payload).trans h⟩
  · exact Or.inl ⟨q, rfl, h⟩

theorem requeue_messages {q q1 : Queue} {qm : QueuedMessage} (he : q.isEnqueued qm = true)
    (h : (q.requeue qm).state? = some q1) : q1.messages = q.messages.reinsert qm := by
  unfold requeue at h
  simp only [he, Bool.not_true, Bool.false_eq_true, if_false] at h
  split at h
  · simp [Outcome.state?] at h
  · rename_i e q3 h3
    simp only [Outcome.state?, Option.some.injEq] at h
    subst h
    exact requeueForce_effect (by rw [h3]; rfl)
  · rename_i u q3 h3
    have hq3 : q3.messages = q.messages.reinsert qm :=
      requeueForce_effect (by rw [h3]; rfl)
    split at h
    · simp [Outcome.state?] at h
    · rename_i q4 h4
      simp only [Outcome.state?, Option.some.injEq] at h
      subst h
      exact (notifyObservers_frame h4).2.1.trans hq3

theorem requeue_total {q : Queue} (qm : QueuedMessage) (h : q.allocator = none) :
    ∃ q1, (q.requeue qm).state? = some q1 := by
  unfold requeue
  split
  · exact ⟨q, rfl⟩
  · have hq : ∀ q0 : Queue, q0.allocator = none →
        ∃ q1, (match q0.requeueForce qm with
          | .aborted => Outcome.aborted
          | .raised e q3 => .raised e q3
          | .ok _ q3 =>
            match q3.notifyObservers (.requeued qm) with
            | none => .aborted
            | some q4 => .ok () { q4 with woken := q4.woken ++ q.listeners }).state?
          = some q1 := by
      intro q0 h0
      rcases requeueForce_total qm h0 with ⟨q3, h3, h4⟩ | ⟨e, q3, h3⟩
      · rw [h3]
        simp only
        obtain ⟨q5, h5, -⟩ := notifyObservers_total (.requeued qm) h4
        rw [h5]
        exact ⟨_, rfl⟩
      · rw [h3]
        exact ⟨q3, rfl⟩
    exact hq _ h

/-- C9: requeue preserves position.  (1) If the policy reports `qm` as not enqueued,
`requeue(qm)` returns leaving the whole queue, its container and its observers included, as
it was.  (2) If `qm` is enqueued per the policy and no message is held at its position (it
was removed from the container by acquire), then in the queue `requeue(qm)` leaves behind
`find(qm.position)` succeeds and returns `qm`, and a container held in increasing position
order stays so; on a queue with the default allocator the call always leaves such a queue. -/
theorem requeue_contract (q : Queue) (qm : QueuedMessage) :
    (q.isEnqueued qm = false → q.requeue qm = .ok () q) ∧
    (q.isEnqueued qm = true → q.find qm.position = none →
      (∀ q1, (q.requeue qm).state? = some q1 →
        q1.find qm.position = some qm ∧ (q.messages.Sorted → q1.messages.Sorted)) ∧
      (q.allocator = none → ∃ q1, (q.requeue qm).state? = some q1)) := by
  refine ⟨?_, ?_⟩
  · intro he
    unfold requeue
    simp only [he, Bool.not_false, if_true]
  · intro he hfind
    have hpos : ∀ x ∈ q.messages.items, x.position ≠ qm.position := by
      unfold find Messages.find at hfind
      rw [List.find?_eq_none] at hfind
      intro x hx
      have := hfind x hx
      simpa using this
    refine ⟨fun q1 h1 => ?_, fun ha => requeue_total qm ha⟩
    have hm := requeue_messages he h1
    refine ⟨?_, fun hs => ?_⟩
    · unfold find Messages.find
      rw [hm]
      exact find_insertByPosition qm _ hpos
    · unfold Messages.Sorted
      rw [hm]
      exact sorted_insertByPosition qm _ hs hpos

/-- C9 at a concrete queue: message 2, acquired earlier, is requeued between messages 1 and
3 and is found again at position 2. -/
theorem requeue_contract_witness :
    ∃ q1, (requeue { messages := { items := [⟨{ id := 1 }, 1⟩, ⟨{ id := 3 }, 3⟩] } }
        ⟨{ id := 2 }, 2⟩).state? = some q1 ∧
      q1.find 2 = some ⟨{ id := 2 }, 2⟩ :=
  match (requeue_contract { messages := { items := [⟨{ id := 1 }, 1⟩, ⟨{ id := 3 }, 3⟩] } }
      ⟨{ id := 2 }, 2⟩).2 rfl (by decide) with
  | ⟨h1, h2⟩ =>
    match h2 rfl with
    | ⟨q1, h3⟩ => ⟨q1, h3, (h1 q1 h3).1⟩

/-! ## consume (C10) -/

/-- C10: `consume(c, requestExclusive)`.  (1) If an exclusive consumer exists, and (2) if
`requestExclusive` is set while `consumerCount > 0`, it raises ResourceLocked and the queue,
`consumerCount` and `exclusive` included, is as before the call.  (3) Otherwise, the
`uint32_t` counter having room and the group manager, if any, not knowing a consumer of that
name, it returns with `consumerCount` one greater and `exclusive` set to the session of `c`
if `requestExclusive` and left unset if not. -/
theorem consume_contract (q : Queue) (c : Consumer) (requestExclusive : Bool) :
    (q.exclusive.isSome = true → q.consume c requestExclusive = .raised .ResourceLocked q) ∧
    (requestExclusive = true → q.consumerCount ≠ 0 →
      q.consume c requestExclusive = .raised .ResourceLocked q) ∧
    (q.exclusive = none → (requestExclusive = false ∨ q.consumerCount = 0) →
      q.consumerCount + 1 < UINT32_SIZE →
      (∀ mgr, q.allocator = some mgr → (mgr.consumerAdded c.name).isSome = true) →
      ∃ q1, q.consume c requestExclusive = .ok () q1 ∧
        q1.consumerCount = q.consumerCount + 1 ∧
        q1.exclusive = if requestExclusive then c.session else none) := by
  refine ⟨?_, ?_, ?_⟩
  · intro he
    unfold consume
    simp only [he, if_true]
  · intro hr hc
    unfold consume
    split
    · rfl
    · simp only [hr, hc, ne_eq, not_false_eq_true, decide_True, Bool.and_self, if_true]
  · intro he hcond hroom hmgr
    have hnot : (requestExclusive && decide (q.consumerCount ≠ 0)) = false := by
      rcases hcond with h | h
      · simp [h]
      · simp [h]
    have hnotify : ∀ q3 : Queue, q3.allocator = q.allocator →
        ∃ q4, q3.notifyObservers (.consumerAdded c.name) = some q4 ∧
          q4.consumerCount = q3.consumerCount ∧ q4.exclusive = q3.exclusive := by
      intro q3 h3
      unfold notifyObservers
      simp only
      cases ha : q.allocator with
      | none =>
        rw [h3, ha]
        exact ⟨_, rfl, rfl, rfl⟩
      | some mgr =>
        rw [h3, ha]
        have := hmgr mgr ha
        simp only [managerCallback]
        cases hm : mgr.consumerAdded c.name with
        | none => simp [hm] at this
        | some mgr1 => exact ⟨_, rfl, rfl, rfl⟩
    have hreg : (q.registerConsumer c requestExclusive).allocator = q.allocator ∧
        (q.registerConsumer c requestExclusive).consumerCount
          = (q.consumerCount + 1) % UINT32_SIZE ∧
        (q.registerConsumer c requestExclusive).exclusive
          = if requestExclusive then c.session else q.exclusive := by
      unfold registerConsumer
      cases requestExclusive <;> simp only [Bool.false_eq_true, if_false, if_true] <;>
        split <;> exact ⟨rfl, rfl, rfl⟩
    obtain ⟨r1, r2, r3⟩ := hreg
    unfold consume
    simp only [he, Option.isSome_none, Bool.false_eq_true, if_false, hnot]
    obtain ⟨q4, h4, h5, h6⟩ := hnotify _ r1
    rw [h4]
    refine ⟨q4, rfl, ?_, ?_⟩
    · rw [h5, r2]
      exact Nat.mod_eq_of_lt hroom
    · rw [h6, r3, he]

/-- C10 at concrete queues: an exclusive subscription on a fresh queue is granted, and a
second consumer is then refused. -/
theorem consume_contract_witness :
    (∃ q1, consume {} { name := "c1", session := some 7 } true = .ok () q1 ∧
      q1.consumerCount = 1 ∧ q1.exclusive = some 7) ∧
    consume { consumerCount := 1, exclusive := some 7 } { name := "c2", session := some 8 } false
      = .raised .ResourceLocked { consumerCount := 1, exclusive := some 7 } :=
  ⟨(consume_contract {} { name := "c1", session := some 7 } true).2.2 rfl (Or.inr rfl)
      (by decide) (fun mgr h => absurd h (by simp)),
   (consume_contract { consumerCount := 1, exclusive := some 7 }
      { name := "c2", session := some 8 } false).1 rfl⟩

/-! ## deliver (C11) -/


theorem enqueuePolicy_cases (q : Queue) (msg : Message) (s : Bool) :
    q.enqueuePolicy msg s = .aborted ∨ (∃ q1, q.enqueuePolicy msg s = .ok () q1) ∨
    ∃ p, q.policy = some p ∧ s = false ∧ p.rejectsAfter p.calls msg = true ∧
      q.enqueuePolicy msg s
        = .raised .ResourceLimitExceeded { q with policy := some (p.record (.tryEnqueue msg)) } := by
  unfold enqueuePolicy
  split
  · exact Or.inr (Or.inl ⟨_, rfl⟩)
  · rename_i p hp
    split
    · exact Or.inr (Or.inl ⟨_, rfl⟩)
    · rename_i hs
      split
      · rename_i hr
        exact Or.inr (Or.inr ⟨p, hp, by simpa using hs, hr, rfl⟩)
      · simp only
        split
        · exact Or.inl rfl
        · exact Or.inr (Or.inl ⟨_, rfl⟩)

theorem enqueue_cases (q : Queue) (msg : Message) :
    q.enqueue msg = .aborted ∨ (∃ r q1, q.enqueue msg = .ok r q1) ∨
    ∃ p, q.policy = some p ∧ q.deleted = false ∧ p.rejectsAfter p.calls msg = true ∧
      q.enqueue msg
        = .raised .ResourceLimitExceeded { q with policy := some (p.record (.tryEnqueue msg)) } := by
  unfold enqueue
  split
  · exact Or.inr (Or.inl ⟨_, _, rfl⟩)
  · rename_i hd
    rcases enqueuePolicy_cases q msg false with h | ⟨q1, h⟩ | ⟨p, hp, -, hr, h⟩
    · rw [h]
      exact Or.inl rfl
    · rw [h]
      exact Or.inr (Or.inl ⟨_, _, rfl⟩)
    · rw [h]
      exact Or.inr (Or.inr ⟨p, hp, by simpa using hd, hr, rfl⟩)

theorem pushQueued_items_deque {q q1 : Queue} {qm : QueuedMessage} {isRecovery : Bool}
    (hk : q.messages.key = none) (h : q.pushQueued qm isRecovery = some q1) :
    q1.messages.items = q.messages.items ++ [qm] := by
  unfold pushQueued at h
  have hp : q.messages.push qm = ({ q.messages with items := q.messages.items ++ [qm] }, none) := by
    simp only [Messages.push, hk]
  simp only [hp] at h
  split at h
  · exact absurd h (by simp)
  · rename_i qa ha
    obtain ⟨-, a2, -⟩ := enqueued_frame ha
    simp only [Option.some.injEq] at h
    subst h
    simp only [a2]

theorem push_effect_message {q q1 : Queue} {msg : Message} {isRecovery : Bool}
    (h : q.push msg isRecovery = some q1) :
    q1.messages.items.getLast?
      = some ⟨if q.insertSeqNo then setInt64 msg q.seqNoKey (q.sequence + 1) else msg,
          q.sequence + 1⟩ ∧
    (q.messages.key = none →
      q1.messages.items = q.messages.items ++
        [⟨if q.insertSeqNo then setInt64 msg q.seqNoKey (q.sequence + 1) else msg,
          q.sequence + 1⟩]) := by
  unfold push at h
  exact ⟨(pushQueued_effect h).2.1, fun hk => pushQueued_items_deque hk h⟩

theorem acquiredMessages_append (d1 d2 : List Notification) :
    acquiredMessages (d1 ++ d2) = acquiredMessages d1 ++ acquiredMessages d2 := by
  induction d1 with
  | nil => rfl
  | cons n rest ih => cases n <;> simp [acquiredMessages, ih]

theorem kept_of_eq {q q1 : Queue} (h1 : q1.policy = q.policy) (h2 : q1.routed = q.routed) :
    Kept q q1 := by
  refine ⟨⟨[], ?_⟩, h2⟩
  rw [h1]
  cases q.policy <;> simp

theorem kept_refl (q : Queue) : Kept q q := kept_of_eq rfl rfl

theorem kept_trans {q q1 q2 : Queue} (h1 : Kept q q1) (h2 : Kept q1 q2) : Kept q q2 := by
  obtain ⟨⟨e1, h1⟩, r1⟩ := h1
  obtain ⟨⟨e2, h2⟩, r2⟩ := h2
  refine ⟨⟨e1 ++ e2, ?_⟩, r2.trans r1⟩
  rw [h2, h1]
  cases q.policy <;> simp

theorem keepsEnqueued_of_kept {q q1 : Queue} (h : Kept q q1) (hk : KeepsEnqueued q) :
    KeepsEnqueued q1 := by
  obtain ⟨⟨e, h⟩, -⟩ := h
  intro p1 hp1 calls qm
  rw [h] at hp1
  cases hp : q.policy with
  | none => simp [hp] at hp1
  | some p =>
    simp only [hp, Option.map_some', Option.some.injEq] at hp1
    subst hp1
    exact hk p hp calls qm

theorem policy_none_of_kept {q q1 : Queue} (h : Kept q q1) (hp : q.policy = none) :
    q1.policy = none := by
  obtain ⟨⟨e, h⟩, -⟩ := h
  rw [h, hp]
  rfl

theorem notifyObservers_kept {q q1 : Queue} {n : Notification}
    (h : q.notifyObservers n = some q1) : Kept q q1 := by
  unfold notifyObservers at h
  simp only at h
  split at h
  · cases h
    exact kept_of_eq rfl rfl
  · split at h
    · exact absurd h (by simp)
    · cases h
      exact kept_of_eq rfl rfl

theorem acquired_kept {q q1 : Queue} {qm : QueuedMessage} (h : q.acquired qm = some q1) :
    Kept q q1 := notifyObservers_kept h

theorem dequeued_kept {q q1 : Queue} {qm : QueuedMessage} (h : q.dequeued qm = some q1) :
    Kept q q1 := by
  unfold dequeued at h
  have h2 := notifyObservers_kept h
  have h1 : Kept q { q with policy := q.policy.map (fun (p : QueuePolicy) => p.record (.dequeued qm)) } := by
    refine ⟨⟨[.dequeued qm], ?_⟩, rfl⟩
    cases hp : q.policy <;> simp [QueuePolicy.record]
  exact kept_trans h1 h2

theorem keepsEnqueued_isEnqueued {q : Queue} (hk : KeepsEnqueued q) (qm : QueuedMessage) :
    q.isEnqueued qm = true := by
  unfold isEnqueued
  split
  · rfl
  · rename_i p hp
    exact hk p hp _ _

theorem dequeue_kept {q q1 : Queue} {ctxt r : Bool} {qm : QueuedMessage}
    (h : q.dequeue ctxt qm = some (r, q1)) : Kept q q1 := by
  unfold dequeue at h
  split at h
  · cases h
    exact kept_refl q
  · split at h
    · cases h
      exact kept_refl q
    · split at h
      · exact absurd h (by simp)
      · rename_i q2 h2
        have hq2 : Kept q q2 := by
          split at h2
          · cases h2
            exact kept_refl q
          · exact dequeued_kept h2
        simp only at h
        split at h
        · cases h
          exact kept_trans hq2 (kept_of_eq rfl rfl)
        · cases h
          exact hq2

theorem dequeue_fires {q q1 : Queue} {r : Bool} {qm : QueuedMessage}
    (hd : q.deleted = false) (hk : KeepsEnqueued q)
    (h : q.dequeue false qm = some (r, q1)) : Frame q q1 [.dequeued qm] := by
  unfold dequeue at h
  simp only [hd, keepsEnqueued_isEnqueued hk qm, Bool.false_eq_true, if_false,
    Bool.not_true] at h
  split at h
  · exact absurd h (by simp)
  · rename_i q2 h2
    have hq2 := dequeued_frame h2
    split at h
    · cases h
      exact frame_trans hq2 (frame_of_eq rfl rfl rfl rfl rfl rfl rfl rfl)
    · cases h
      exact hq2

theorem collector_pass_all (mf : MessageFilter) : ∀ (items pre : List QueuedMessage),
    (Messages.removeIfLoop Collector.call
        { maxMatches := 0, filter := mf, matched := pre } items).2
      = { maxMatches := 0, filter := mf, matched := pre ++ items.filter mf.isMatch } ∧
    (Messages.removeIfLoop Collector.call
        { maxMatches := 0, filter := mf, matched := pre } items).1
      = items.filter (fun x => !mf.isMatch x) := by
  intro items
  induction items with
  | nil => intro pre; simp [Messages.removeIfLoop]
  | cons qm rest ih =>
    intro pre
    cases hm : mf.isMatch qm with
    | true =>
      obtain ⟨h1, h2⟩ := ih (pre ++ [qm])
      simp [Messages.removeIfLoop, Collector.call, hm, h1, h2]
    | false =>
      obtain ⟨h1, h2⟩ := ih pre
      simp [Messages.removeIfLoop, Collector.call, hm, h1, h2]

theorem collector_pass_capped (n : Nat) (hn : n ≠ 0) (mf : MessageFilter) :
    ∀ (items pre : List QueuedMessage),
    (Messages.removeIfLoop Collector.call
        { maxMatches := n, filter := mf, matched := pre } items).2
      = { maxMatches := n, filter := mf,
          matched := pre ++ (items.filter mf.isMatch).take (n - pre.length) } ∧
    (Messages.removeIfLoop Collector.call
        { maxMatches := n, filter := mf, matched := pre } items).1.Sublist items ∧
    ((Messages.removeIfLoop Collector.call
        { maxMatches := n, filter := mf, matched := pre } items).1
      ++ (items.filter mf.isMatch).take (n - pre.length)).Perm items := by
  intro items
  induction items with
  | nil => intro pre; simp [Messages.removeIfLoop]
  | cons qm rest ih =>
    intro pre
    by_cases hcap : pre.length < n
    · cases hm : mf.isMatch qm with
      | true =>
        obtain ⟨h1, h2, h3⟩ := ih (pre ++ [qm])
        have hsub : n - pre.length = (n - (pre ++ [qm]).length) + 1 := by
          simp only [List.length_append, List.length_singleton]
          omega
        have hcall : Collector.call { maxMatches := n, filter := mf, matched := pre } qm
            = (true, { maxMatches := n, filter := mf, matched := pre ++ [qm] }) := by
          simp [Collector.call, hm, hcap]
        simp only [Messages.removeIfLoop, hcall, if_true, List.filter_cons, hm]
        rw [hsub, List.take_succ_cons]
        refine ⟨?_, h2.cons qm, ?_⟩
        · rw [h1]
          simp
        · exact List.perm_middle.trans (List.Perm.cons qm h3)
      | false =>
        obtain ⟨h1, h2, h3⟩ := ih pre
        have hcall : Collector.call { maxMatches := n, filter := mf, matched := pre } qm
            = (false, { maxMatches := n, filter := mf, matched := pre }) := by
          simp [Collector.call, hm, hcap]
        simp only [Messages.removeIfLoop, hcall, List.filter_cons, hm, Bool.false_eq_true,
          if_false]
        exact ⟨h1, h2.cons_cons qm, List.Perm.cons qm h3⟩
    · obtain ⟨h1, h2, h3⟩ := ih pre
      have hcall : Collector.call { maxMatches := n, filter := mf, matched := pre } qm
          = (false, { maxMatches := n, filter := mf, matched := pre }) := by
        simp [Collector.call, hcap, hn]
      have hz : n - pre.length = 0 := by omega
      simp only [Messages.removeIfLoop, hcall, Bool.false_eq_true, if_false]
      rw [hz] at h1 h3 ⊢
      simp only [List.take_zero, List.append_nil] at h1 h3 ⊢
      exact ⟨h1, h2.cons_cons qm, List.Perm.cons qm h3⟩

theorem collector_pass (n : Nat) (mf : MessageFilter) (ms : Messages) :
    (ms.removeIf Collector.call { maxMatches := n, filter := mf }).2.matched
      = (if n = 0 then ms.items.filter mf.isMatch else (ms.items.filter mf.isMatch).take n) ∧
    (ms.removeIf Collector.call { maxMatches := n, filter := mf }).1.items.Sublist ms.items ∧
    ((ms.removeIf Collector.call { maxMatches := n, filter := mf }).1.items
      ++ (if n = 0 then ms.items.filter mf.isMatch else (ms.items.filter mf.isMatch).take n)).Perm
      ms.items := by
  unfold Messages.removeIf
  by_cases hn : n = 0
  · subst hn
    obtain ⟨h1, h2⟩ := collector_pass_all mf ms.items []
    simp only [h1, h2, if_true, List.nil_append]
    refine ⟨trivial, List.filter_sublist _, ?_⟩
    have h := List.filter_append_perm (fun x => mf.isMatch x) ms.items
    refine (List.perm_append_comm.trans ?_).trans h
    simp
  · obtain ⟨h1, h2, h3⟩ := collector_pass_capped n hn mf ms.items []
    simp only [List.length_nil, Nat.sub_zero, List.nil_append] at h1 h3
    simp only [h1, hn, if_false]
    exact ⟨trivial, h2, h3⟩

theorem purgeLoop_effect : ∀ (l : List QueuedMessage) {q q1 : Queue},
    purgeLoop q l = some q1 →
    Kept q q1 ∧ (∃ delta, Frame q q1 delta ∧ acquiredMessages delta = l) ∧
      (q.deleted = false → KeepsEnqueued q →
        Frame q q1 (l.flatMap (fun x => [Notification.acquired x, Notification.dequeued x]))) := by
  intro l
  induction l with
  | nil =>
    intro q q1 h
    simp only [purgeLoop, Option.some.injEq] at h
    subst h
    exact ⟨kept_refl q, ⟨[], frame_refl q, rfl⟩, fun _ _ => frame_refl q⟩
  | cons qm rest ih =>
    intro q q1 h
    unfold purgeLoop at h
    split at h
    · exact absurd h (by simp)
    · rename_i qa ha
      split at h
      · exact absurd h (by simp)
      · rename_i r qb hb
        have fa := acquired_frame ha
        have ka := acquired_kept ha
        obtain ⟨db, fb, hdb⟩ := dequeue_frame hb
        have kb := dequeue_kept hb
        have hrest : ∃ qc, Frame qb qc [] ∧ Kept qb qc ∧ purgeLoop qc rest = some q1 :=
          ⟨qb, frame_refl qb, kept_refl qb, h⟩
        obtain ⟨qc, fc, kc, hc⟩ := hrest
        obtain ⟨kd, ⟨dd, fd, had⟩, hdd⟩ := ih hc
        refine ⟨kept_trans ka (kept_trans kb (kept_trans kc kd)),
          ⟨[.acquired qm] ++ (db ++ ([] ++ dd)),
            frame_trans fa (frame_trans fb (frame_trans fc fd)), ?_⟩, ?_⟩
        · rw [acquiredMessages_append, acquiredMessages_append, acquiredMessages_append, had]
          rcases hdb with hdb | hdb <;> subst hdb <;> simp [acquiredMessages]
        · intro hdel hkeep
          have hdela : qa.deleted = false := fa.2.2.2.2.2.1.trans hdel
          have hkeepa := keepsEnqueued_of_kept ka hkeep
          have fb2 := dequeue_fires hdela hkeepa hb
          have hdelc : qc.deleted = false :=
            fc.2.2.2.2.2.1.trans (fb.2.2.2.2.2.1.trans hdela)
          have hkeepc := keepsEnqueued_of_kept kc (keepsEnqueued_of_kept kb hkeepa)
          have hall := frame_trans fa (frame_trans fb2 (frame_trans fc (hdd hdelc hkeepc)))
          simpa using hall

theorem purgeLoop_total : ∀ (l : List QueuedMessage) {q : Queue},
    q.allocator = none → ∃ q1, purgeLoop q l = some q1 ∧ q1.allocator = none := by
  intro l
  induction l with
  | nil => exact fun {q} h => ⟨q, rfl, h⟩
  | cons qm rest ih =>
    intro q h
    obtain ⟨qa, ha, ha2⟩ := acquired_total qm h
    obtain ⟨r, qb, hb, hb2⟩ := dequeue_total false qm ha2
    unfold purgeLoop
    rw [ha]
    simp only [hb]
    exact ih hb2

/-! ## purgeExpired (C13) -/

theorem collect_expired_pass : ∀ (items pre : List QueuedMessage),
    Messages.removeIfLoop collect_if_expired pre items
      = (items.filter (fun x => !x.payload.expired),
         pre ++ items.filter (fun x => x.payload.expired)) := by
  intro items
  induction items with
  | nil => intro pre; simp [Messages.removeIfLoop]
  | cons qm rest ih =>
    intro pre
    cases hm : qm.payload.expired with
    | true => simp [Messages.removeIfLoop, collect_if_expired, hm, ih]
    | false => simp [Messages.removeIfLoop, collect_if_expired, hm, ih]

theorem purgeExpired_pass {q : Queue} {lapse : Int} (hdue : q.expiryPassDue lapse = true) :
    q.purgeExpired lapse
      = purgeLoop
          { q with
            dequeueSincePurge :=
              ((q.dequeueSincePurge - toInt32 q.dequeueSincePurge) % UINT32_SIZE).toNat,
            messages :=
              { q.messages with items := q.messages.items.filter (fun x => !x.payload.expired) } }
          (q.messages.items.filter (fun x => x.payload.expired)) := by
  have hub : (decide (toInt32 (Int.tdiv lapse TIME_SEC) = -1)
      && decide (toInt32 q.dequeueSincePurge = -2147483648)) = false := by
    cases h : (decide (toInt32 (Int.tdiv lapse TIME_SEC) = -1)
      && decide (toInt32 q.dequeueSincePurge = -2147483648))
    · rfl
    · exfalso
      simp only [Bool.and_eq_true, decide_eq_true_eq] at h
      unfold expiryPassDue at hdue
      simp only [h.1, h.2] at hdue
      revert hdue
      decide
  unfold purgeExpired
  dsimp only
  split
  · rename_i h
    rw [hub] at h
    cases h
  · have hr : q.messages.removeIf collect_if_expired []
        = ({ q.messages with items := q.messages.items.filter (fun x => !x.payload.expired) },
           q.messages.items.filter (fun x => x.payload.expired)) := by
      unfold Messages.removeIf
      rw [collect_expired_pass]
      simp
    rw [hr]

/-- C13: `purgeExpired(lapse)` when the expiry pass is due.  When the call returns: (1) the
container holds exactly the messages it held that have not expired, in their order, so no
expired message is left; (2) every observer has got new callbacks, among which the
`acquired` ones are those of the expired messages, in container order; on a queue that is
not deleted and whose policy holds the messages as enqueued, the new callbacks are exactly
`acquired` then `dequeued` for each expired message in turn.  (3) Without a group manager no
assertion can fail and the call returns. -/
theorem purgeExpired_contract (q : Queue) (lapse : Int) (hdue : q.expiryPassDue lapse = true) :
    (∀ q1, q.purgeExpired lapse = some q1 →
      q1.messages.items = q.messages.items.filter (fun x => !x.payload.expired) ∧
      (∀ x ∈ q1.messages.items, x.payload.expired = false) ∧
      (∃ delta, q1.observers = q.observers.map (fun o => o.deliver delta) ∧
        acquiredMessages delta = q.messages.items.filter (fun x => x.payload.expired)) ∧
      (q.deleted = false → KeepsEnqueued q →
        q1.observers = q.observers.map (fun o => o.deliver
          ((q.messages.items.filter (fun x => x.payload.expired)).flatMap
            (fun x => [Notification.acquired x, Notification.dequeued x]))))) ∧
    (q.allocator = none → ∃ q1, q.purgeExpired lapse = some q1) := by
  rw [purgeExpired_pass hdue]
  refine ⟨fun q1 h => ?_, fun halloc => ?_⟩
  · obtain ⟨-, ⟨delta, fd, had⟩, hfire⟩ := purgeLoop_effect _ h
    have hitems : q1.messages.items = q.messages.items.filter (fun x => !x.payload.expired) := by
      rw [fd.2.1]
    refine ⟨hitems, ?_, ⟨delta, fd.1, had⟩, fun hdel hkeep => (hfire hdel hkeep).1⟩
    intro x hx
    rw [hitems] at hx
    simpa using (List.mem_filter.mp hx).2
  · obtain ⟨q1, h1, -⟩ := purgeLoop_total
      (q.messages.items.filter (fun x => x.payload.expired))
      (q := { q with
        dequeueSincePurge :=
          ((q.dequeueSincePurge - toInt32 q.dequeueSincePurge) % UINT32_SIZE).toNat,
        messages :=
          { q.messages with items := q.messages.items.filter (fun x => !x.payload.expired) } })
      halloc
    exact ⟨q1, h1⟩

/-- C13 at a concrete queue: three messages, all expired, no dequeue counted, 50 ms since the
last call: the three are removed and the observer sees `acquired` then `dequeued` for each. -/
theorem purgeExpired_contract_witness :
    ((purgeExpired { observers := [{}], messages := { items :=
          [⟨{ id := 1, expired := true }, 1⟩, ⟨{ id := 2, expired := true }, 2⟩,
           ⟨{ id := 3, expired := true }, 3⟩] }, sequence := 3 } 50000000).map
      (fun q1 => (q1.messages.items.length,
        q1.observers.map (fun o => o.seen.map (fun n =>
          match n with
          | .acquired qm => (1, qm.position)
          | .dequeued qm => (2, qm.position)
          | _ => (0, 0)))))
      = some (0, [[(1, 1), (2, 1), (1, 2), (2, 2), (1, 3), (2, 3)]])) ∧
    ∃ q1, purgeExpired { observers := [{}], messages := { items :=
          [⟨{ id := 1, expired := true }, 1⟩, ⟨{ id := 2, expired := true }, 2⟩,
           ⟨{ id := 3, expired := true }, 3⟩] }, sequence := 3 } 50000000 = some q1 := by
  refine ⟨by decide, ?_⟩
  refine (purgeExpired_contract _ 50000000 ?_).2 rfl
  decide

/-! ## dequeue and the store (C15) -/

theorem notifyObservers_store {q q1 : Queue} {n : Notification}
    (h : q.notifyObservers n = some q1) :
    q1.forced = q.forced ∧ q1.syncList = q.syncList ∧ q1.hasStore = q.hasStore ∧
      q1.storeCalls = q.storeCalls := by
  unfold notifyObservers at h
  simp only at h
  split at h
  · cases h
    exact ⟨rfl, rfl, rfl, rfl⟩
  · split at h
    · exact absurd h (by simp)
    · cases h
      exact ⟨rfl, rfl, rfl, rfl⟩

theorem dequeued_store {q q1 : Queue} {qm : QueuedMessage} (h : q.dequeued qm = some q1) :
    q1.forced = q.forced ∧ q1.syncList = q.syncList ∧ q1.hasStore = q.hasStore ∧
      q1.storeCalls = q.storeCalls := by
  unfold dequeued at h
  have h2 := notifyObservers_store h
  exact h2

/-- C15: `dequeue(ctxt, msg)` and the store.  When the call returns, it returns true exactly
when the barrier was acquired (the queue is not deleted), the message is enqueued per the
policy, a store exists, the message is persistent or its content is releasable, and the
message is not forced persistent or is stored on this queue; `store->dequeue` is called,
once and for this message, exactly in that case.  So the store is never asked to dequeue a
forced-persistent message that is not stored on this queue.  With a transaction context, or
without a group manager, no assertion can fail and the call returns. -/
theorem dequeue_store_contract (q : Queue) (ctxt : Bool) (qm : QueuedMessage) :
    (∀ r q1, q.dequeue ctxt qm = some (r, q1) →
      (r = true ↔
        (q.deleted = false ∧ q.isEnqueued qm = true ∧ q.hasStore = true ∧
          (q.isPersistent qm.payload = true ∨ qm.payload.contentReleasable = true) ∧
          (q.isForcedPersistent qm.payload = false ∨ q.isStoredOnQueue qm.payload = true))) ∧
      q1.storeCalls
        = (if r then q.storeCalls ++ [StoreCall.dequeue qm.payload.id] else q.storeCalls) ∧
      (q.isForcedPersistent qm.payload = true → q.isStoredOnQueue qm.payload = false →
        r = false ∧ q1.storeCalls = q.storeCalls)) ∧
    (ctxt = true ∨ q.allocator = none → ∃ r q1, q.dequeue ctxt qm = some (r, q1)) := by
  have main : ∀ r q1, q.dequeue ctxt qm = some (r, q1) →
      (r = true ↔
        (q.deleted = false ∧ q.isEnqueued qm = true ∧ q.hasStore = true ∧
          (q.isPersistent qm.payload = true ∨ qm.payload.contentReleasable = true) ∧
          (q.isForcedPersistent qm.payload = false ∨ q.isStoredOnQueue qm.payload = true))) ∧
      q1.storeCalls
        = (if r then q.storeCalls ++ [StoreCall.dequeue qm.payload.id] else q.storeCalls) := by
    intro r q1 h
    unfold dequeue at h
    split at h
    · rename_i hd
      cases h
      simp [hd]
    · rename_i hd
      split at h
      · rename_i he
        cases h
        simp only [Bool.not_eq_true', Bool.not_eq_true] at he
        simp [he]
      · rename_i he
        split at h
        · exact absurd h (by simp)
        · rename_i q2 h2
          have hq2 : q2.forced = q.forced ∧ q2.syncList = q.syncList ∧ q2.hasStore = q.hasStore ∧
              q2.storeCalls = q.storeCalls := by
            split at h2
            · cases h2
              exact ⟨rfl, rfl, rfl, rfl⟩
            · exact dequeued_store h2
          obtain ⟨f1, f2, f3, f4⟩ := hq2
          have e1 : q2.isForcedPersistent qm.payload = q.isForcedPersistent qm.payload := by
            simp only [isForcedPersistent, f1]
          have e2 : q2.isStoredOnQueue qm.payload = q.isStoredOnQueue qm.payload := by
            simp only [isStoredOnQueue, f2]
          have e3 : q2.isPersistent qm.payload = q.isPersistent qm.payload := by
            simp only [isPersistent, e1]
          simp only [e1, e2, e3, f3] at h
          simp only [Bool.not_eq_true] at hd
          simp only [Bool.not_eq_true', Bool.not_eq_true, Bool.not_eq_false'] at he
          split at h
          · rename_i hc
            cases h
            simp only [f4, if_true, and_true, true_iff, hd, he, true_and]
            revert hc
            cases q.isForcedPersistent qm.payload <;> cases q.isStoredOnQueue qm.payload <;>
              cases q.isPersistent qm.payload <;> cases qm.payload.contentReleasable <;>
              cases q.hasStore <;> simp
          · rename_i hc
            cases h
            simp only [f4, Bool.false_eq_true, if_false, and_true, false_iff, hd, he, true_and]
            revert hc
            cases q.isForcedPersistent qm.payload <;> cases q.isStoredOnQueue qm.payload <;>
              cases q.isPersistent qm.payload <;> cases qm.payload.contentReleasable <;>
              cases q.hasStore <;> simp
  refine ⟨fun r q1 h => ?_, fun htot => ?_⟩
  · obtain ⟨m1, m2⟩ := main r q1 h
    refine ⟨m1, m2, fun hf hs => ?_⟩
    have hr : r = false := by
      cases r
      · rfl
      · have := m1.mp rfl
        rcases this.2.2.2.2 with h5 | h5
        · rw [hf] at h5
          cases h5
        · rw [hs] at h5
          cases h5
    subst hr
    exact ⟨rfl, by simpa using m2⟩
  · rcases htot with hc | ha
    · subst hc
      unfold dequeue
      split
      · exact ⟨_, _, rfl⟩
      · split
        · exact ⟨_, _, rfl⟩
        · simp only [if_true]
          split
          · exact ⟨_, _, rfl⟩
          · exact ⟨_, _, rfl⟩
    · obtain ⟨r, q1, h, -⟩ := dequeue_total ctxt qm ha
      exact ⟨r, q1, h⟩

/-- C15 at concrete queues: a durable message on a queue with a store is dequeued from the
store; a message forced persistent by another queue and not stored on this one is not. -/
theorem dequeue_store_contract_witness :
    ((dequeue { hasStore := true } false ⟨{ id := 1, durable := true }, 1⟩).map
        (fun r => (r.1, r.2.storeCalls)) = some (true, [StoreCall.dequeue 1])) ∧
    ((dequeue { hasStore := true, forced := [1] } false ⟨{ id := 1 }, 1⟩).map
        (fun r => (r.1, r.2.storeCalls)) = some (false, [])) ∧
    ∃ r q1, dequeue { hasStore := true, forced := [1] } false ⟨{ id := 1 }, 1⟩ = some (r, q1) :=
  ⟨by decide, by decide,
   (dequeue_store_contract { hasStore := true, forced := [1] } false ⟨{ id := 1 }, 1⟩).2
     (Or.inr rfl)⟩

/-! ## A deleted queue (C17) -/

/-- C17: on a queue whose deleted flag is set, `getNextMessage` and `dispatch` raise
ResourceDeleted for every consumer, before anything is done: the queue (its container and its
listener set among the rest) and the consumer (its position among the rest) are as they
were, and nothing is delivered to the consumer. -/
theorem deleted_queue_raises (q : Queue) (c : Consumer) (hd : q.deleted = true) :
    q.getNextMessage c = (.raised .ResourceDeleted q, c) ∧
    q.dispatch c = (.raised .ResourceDeleted q, c) ∧
    (∀ q0 : Queue, q0.notifyDeleted.deleted = true) ∧
    (∀ q0 q1 : Queue, q0.destroyed = some q1 → q1.deleted = true) := by
  have h1 : q.getNextMessage c = (.raised .ResourceDeleted q, c) := by
    unfold getNextMessage
    simp only [hd, if_true]
  refine ⟨h1, ?_, fun q0 => rfl, fun q0 q1 h => ?_⟩
  · unfold dispatch
    rw [h1]
  · unfold destroyed at h
    split at h
    · exact absurd h (by simp)
    · simp only at h
      split at h
      · exact absurd h (by simp)
      · cases h
        rfl

/-- C17 at a concrete queue: a deleted queue holding a message, and a consumer. -/
theorem deleted_queue_raises_witness :
    getNextMessage { deleted := true, messages := { items := [⟨{ id := 1 }, 1⟩] }, sequence := 1 }
        { name := "c" }
      = (.raised .ResourceDeleted
          { deleted := true, messages := { items := [⟨{ id := 1 }, 1⟩] }, sequence := 1 },
         { name := "c" }) :=
  (deleted_queue_raises _ _ rfl).1

/-! ## The enqueue path of a deleted queue (C18) -/

theorem deliver_of_pass {q : Queue} {msg : Message}
    (hpass : (q.deferDelivery msg || (msg.immediate && q.consumerCount == 0) || q.isLocal msg
        || q.isExcluded msg) = false) :
    q.deliver msg =
      match q.enqueue msg with
      | .aborted => .aborted
      | .raised e q1 => .raised e q1
      | .ok r q1 =>
        match q1.push r.2 with
        | none => .aborted
        | some q2 => .ok () q2 := by
  simp only [Bool.or_eq_false_iff] at hpass
  obtain ⟨⟨⟨h1, h2⟩, h3⟩, h4⟩ := hpass
  unfold deliver
  simp only [h1, h2, h3, h4, Bool.false_eq_true, if_false]
  try rfl

theorem deliver_of_drop {q : Queue} {msg : Message}
    (hdrop : (q.deferDelivery msg || (msg.immediate && q.consumerCount == 0) || q.isLocal msg
        || q.isExcluded msg) = true) :
    q.deliver msg = .ok ()
      (if !q.deferDelivery msg && (msg.immediate && q.consumerCount == 0)
          && q.hasAlternateExchange
       then { q with routed := q.routed ++ [msg] } else q) := by
  unfold deliver
  cases h1 : q.deferDelivery msg
  · cases h2 : (msg.immediate && q.consumerCount == 0)
    · simp only [h1, h2, Bool.false_or] at hdrop
      cases h3 : q.isLocal msg
      · simp only [h3, Bool.false_or] at hdrop
        simp [hdrop]
      · simp
    · cases h4 : q.hasAlternateExchange <;> simp
  · simp

/-- C18 as stated fails: a fresh queue is destroyed, which sets its deleted flag; `push` and
`deliver` of a message on the deleted queue raise nothing, and leave the message in the
container at position 1, with the sequence number advanced to 1. -/
theorem deleted_queue_accepts_message :
    ((destroyed {}).map (fun q => q.deleted) = some true) ∧
    (((destroyed {}).bind (fun q => q.push { id := 1 })).map
      (fun q1 => (q1.sequence, q1.messages.items.map (fun x => (x.payload.id, x.position))))
      = some (1, [(1, 1)])) ∧
    ((destroyed {}).map (fun q => (q.deliver { id := 1 }).error?) = some none) ∧
    (((destroyed {}).bind (fun q => (q.deliver { id := 1 }).state?)).map
      (fun q1 => (q1.sequence, q1.messages.items.map (fun x => (x.payload.id, x.position))))
      = some (1, [(1, 1)])) := by
  decide

/-- C18, amended: on a queue whose deleted flag is set, `push` and `deliver` raise nothing.
(1) `push` assigns the next position as ever: when it returns, the sequence number has
advanced by one and `msg` (with the new sequence number written in its headers, when the
queue inserts sequence numbers) is at the back of the container with that position; in the
Deque the container is the old one with that message appended.
(2) `enqueue` returns false and does nothing: neither the policy nor the store is called.
(3) `deliver` raises no exception; for a message that is not dropped (the cluster does not
defer it, it is not immediate without a consumer, it is not local and not excluded) it does
what `push` does.  (4) Without a group manager no assertion can fail and both return. -/
theorem deleted_queue_push_contract (q : Queue) (msg : Message) (hd : q.deleted = true) :
    (∀ isRecovery q1, q.push msg isRecovery = some q1 →
      q1.sequence = q.sequence + 1 ∧
      q1.messages.items.getLast?
        = some ⟨if q.insertSeqNo then setInt64 msg q.seqNoKey (q.sequence + 1) else msg,
            q.sequence + 1⟩ ∧
      (q.messages.key = none →
        q1.messages.items = q.messages.items ++
          [⟨if q.insertSeqNo then setInt64 msg q.seqNoKey (q.sequence + 1) else msg,
            q.sequence + 1⟩])) ∧
    q.enqueue msg = .ok (false, msg) q ∧
    (q.deliver msg).error? = none ∧
    ((q.deferDelivery msg || (msg.immediate && q.consumerCount == 0) || q.isLocal msg
        || q.isExcluded msg) = false →
      q.deliver msg = Outcome.returned ((q.push msg).map (fun q1 => ((), q1)))) ∧
    (q.allocator = none →
      (∃ q1, q.push msg = some q1) ∧ ∃ q1, q.deliver msg = .ok () q1) := by
  have he : q.enqueue msg = .ok (false, msg) q := by
    unfold enqueue
    simp only [hd, if_true]
  have hpass : (q.deferDelivery msg || (msg.immediate && q.consumerCount == 0) || q.isLocal msg
        || q.isExcluded msg) = false →
      q.deliver msg = Outcome.returned ((q.push msg).map (fun q1 => ((), q1))) := by
    intro h
    rw [deliver_of_pass h, he]
    simp only
    cases q.push msg <;> rfl
  refine ⟨fun isRecovery q1 h => ⟨(push_effect h).1, (push_effect_message h).1,
    (push_effect_message h).2⟩, he, ?_, hpass, ?_⟩
  · cases h : (q.deferDelivery msg || (msg.immediate && q.consumerCount == 0) || q.isLocal msg
        || q.isExcluded msg)
    · rw [hpass h]
      cases q.push msg <;> rfl
    · rw [deliver_of_drop h]
      rfl
  · intro halloc
    obtain ⟨q1, h1, -⟩ := push_total msg false halloc
    refine ⟨⟨q1, h1⟩, ?_⟩
    cases h : (q.deferDelivery msg || (msg.immediate && q.consumerCount == 0) || q.isLocal msg
        || q.isExcluded msg)
    · rw [hpass h, h1]
      exact ⟨q1, rfl⟩
    · rw [deliver_of_drop h]
      exact ⟨_, rfl⟩

/-- C18 at a concrete queue: a deleted queue takes a message pushed, and a message
delivered, which it holds afterwards at position 1. -/
theorem deleted_queue_push_contract_witness :
    ∃ q1, push { deleted := true } { id := 1 } = some q1 ∧
      q1.messages.items = [⟨{ id := 1 }, 1⟩] ∧ q1.sequence = 1 ∧
      deliver { deleted := true } { id := 1 } = .ok () q1 := by
  have h := deleted_queue_push_contract { deleted := true } { id := 1 } rfl
  obtain ⟨q1, hq1⟩ := (h.2.2.2.2 rfl).1
  obtain ⟨hs, -, hi⟩ := h.1 false q1 hq1
  refine ⟨q1, hq1, hi rfl, hs, ?_⟩
  rw [h.2.2.2.1 rfl, hq1]
  rfl

/-! ## destroyed (C20) -/

theorem popAndDequeue_effect {q q1 : Queue} {msg : QueuedMessage} {rest : List QueuedMessage}
    (hi : q.messages.items = msg :: rest) (h : q.popAndDequeue = some q1) :
    Kept q q1 ∧
    (∃ delta, Frame { q with messages := { q.messages with items := rest } } q1 delta ∧
      acquiredMessages delta = [msg]) ∧
    (q.deleted = false → KeepsEnqueued q →
      Frame { q with messages := { q.messages with items := rest } } q1
        [.acquired msg, .dequeued msg]) := by
  unfold popAndDequeue at h
  have hfront : q.messages.front = some msg := by
    simp [Messages.front, hi]
  have hpop : q.messages.pop = some (msg, { q.messages with items := rest }) := by
    simp [Messages.pop, hi]
  simp only [hfront, pop, hpop] at h
  split at h
  · exact absurd h (by simp)
  · rename_i qb hb
    split at hb
    · exact absurd hb (by simp)
    · rename_i qa ha
      simp only [Option.some.injEq] at hb
      have fa := acquired_frame ha
      have ka := acquired_kept ha
      have fab : Frame qa qb [] := by
        subst hb
        exact frame_of_eq rfl rfl rfl rfl rfl rfl rfl rfl
      have kab : Kept qa qb := by
        subst hb
        exact kept_of_eq rfl rfl
      cases hd : qb.dequeue false msg with
      | none => simp [hd] at h
      | some r =>
        obtain ⟨r1, qc⟩ := r
        simp only [hd, Option.map_some', Option.some.injEq] at h
        subst h
        obtain ⟨dc, fc, hdc⟩ := dequeue_frame hd
        have kc := dequeue_kept hd
        have kall : Kept { q with messages := { q.messages with items := rest } } qc :=
          kept_trans ka (kept_trans kab kc)
        refine ⟨⟨kall.1, kall.2⟩, ⟨[.acquired msg] ++ ([] ++ dc),
          frame_trans fa (frame_trans fab fc), ?_⟩, fun hdel hkeep => ?_⟩
        · rcases hdc with hdc | hdc <;> subst hdc <;> simp [acquiredMessages]
        · have hdelb : qb.deleted = false :=
            fab.2.2.2.2.2.1.trans (fa.2.2.2.2.2.1.trans hdel)
          have hkeepb : KeepsEnqueued qb :=
            keepsEnqueued_of_kept (kept_trans ka kab) hkeep
          exact frame_trans fa (frame_trans fab (dequeue_fires hdelb hkeepb hd))

theorem drainLoop_effect : ∀ (fuel : Nat) {q q1 : Queue}, drainLoop fuel q = some q1 →
    q1.messages.items = [] ∧
    q1.routed = q.routed ++ q.messages.items.map QueuedMessage.payload ∧
    q1.deleted = q.deleted ∧
    (∃ delta, q1.observers = q.observers.map (fun o => o.deliver delta) ∧
      acquiredMessages delta = q.messages.items) ∧
    (q.deleted = false → KeepsEnqueued q →
      q1.observers = q.observers.map (fun o => o.deliver
        (q.messages.items.flatMap
          (fun x => [Notification.acquired x, Notification.dequeued x])))) := by
  intro fuel
  induction fuel with
  | zero =>
    intro q q1 h
    simp [drainLoop] at h
  | succ n ih =>
    intro q q1 h
    unfold drainLoop at h
    cases hi : q.messages.items with
    | nil =>
      have hfront : q.messages.front = none := by simp [Messages.front, hi]
      simp only [hfront, Option.some.injEq] at h
      subst h
      refine ⟨hi, by simp, rfl, ⟨[], by simp [QueueObserver.deliver], rfl⟩, fun _ _ => ?_⟩
      simp [QueueObserver.deliver]
    | cons msg rest =>
      have hfront : q.messages.front = some msg := by simp [Messages.front, hi]
      simp only [hfront] at h
      split at h
      · exact absurd h (by simp)
      · rename_i qa ha
        obtain ⟨ka, ⟨da, fa, hda⟩, hfa⟩ :=
          popAndDequeue_effect (q := { q with routed := q.routed ++ [msg.payload] }) hi ha
        obtain ⟨i1, i2, i3, ⟨db, i4, hdb⟩, i5⟩ := ih h
        have hitems : qa.messages.items = rest := by rw [fa.2.1]
        have hobs := fa.1
        simp only at hobs
        refine ⟨i1, ?_, i3.trans fa.2.2.2.2.2.1, ⟨da ++ db, ?_, ?_⟩, fun hdel hkeep => ?_⟩
        · rw [i2, ka.2, hitems]
          simp
        · rw [i4, hobs, map_deliver_deliver]
        · rw [acquiredMessages_append, hda, hdb, hitems]
          rfl
        · have hfa2 := hfa hdel hkeep
          have hobs2 := hfa2.1
          simp only at hobs2
          have hdela : qa.deleted = false := hfa2.2.2.2.2.2.1.trans hdel
          have hkeepa : KeepsEnqueued qa := keepsEnqueued_of_kept ka hkeep
          rw [i5 hdela hkeepa, hobs2, map_deliver_deliver, hitems]
          simp

theorem popAndDequeue_total {q : Queue} {msg : QueuedMessage} {rest : List QueuedMessage}
    (hi : q.messages.items = msg :: rest) (halloc : q.allocator = none) :
    ∃ q1, q.popAndDequeue = some q1 ∧ q1.allocator = none := by
  unfold popAndDequeue
  have hfront : q.messages.front = some msg := by
    simp [Messages.front, hi]
  have hpop : q.messages.pop = some (msg, { q.messages with items := rest }) := by
    simp [Messages.pop, hi]
  simp only [hfront, pop, hpop]
  obtain ⟨qa, ha, ha2⟩ := acquired_total msg
    (q := { q with messages := { q.messages with items := rest } }) halloc
  rw [ha]
  simp only
  obtain ⟨r, qc, hc, hc2⟩ := dequeue_total false msg
    (q := { qa with dequeueSincePurge := (qa.dequeueSincePurge + 1) % UINT32_SIZE }) ha2
  rw [hc]
  exact ⟨qc, rfl, hc2⟩

theorem drainLoop_total : ∀ (fuel : Nat) {q : Queue}, q.allocator = none →
    q.messages.items.length < fuel → ∃ q1, drainLoop fuel q = some q1 ∧ q1.allocator = none := by
  intro fuel
  induction fuel with
  | zero => exact fun {q} _ h => absurd h (Nat.not_lt_zero _)
  | succ n ih =>
    intro q halloc hlen
    unfold drainLoop
    cases hi : q.messages.items with
    | nil =>
      have hfront : q.messages.front = none := by simp [Messages.front, hi]
      simp only [hfront]
      exact ⟨q, rfl, halloc⟩
    | cons msg rest =>
      have hfront : q.messages.front = some msg := by simp [Messages.front, hi]
      simp only [hfront]
      obtain ⟨qa, ha, ha2⟩ :=
        popAndDequeue_total (q := { q with routed := q.routed ++ [msg.payload] }) hi halloc
      rw [ha]
      simp only
      obtain ⟨-, ⟨da, fa, -⟩, -⟩ :=
        popAndDequeue_effect (q := { q with routed := q.routed ++ [msg.payload] }) hi ha
      have hitems : qa.messages.items = rest := by rw [fa.2.1]
      apply ih ha2
      rw [hitems]
      rw [hi] at hlen
      simpa using hlen

theorem drainLoop_fuel : ∀ (fuel : Nat) (q : Queue), q.messages.items.length < fuel →
    drainLoop fuel q = drainLoop (q.messages.items.length + 1) q := by
  intro fuel
  induction fuel with
  | zero => exact fun q h => absurd h (Nat.not_lt_zero _)
  | succ n ih =>
    intro q hlen
    cases hi : q.messages.items with
    | nil =>
      have hfront : q.messages.front = none := by simp [Messages.front, hi]
      simp only [List.length_nil, Nat.zero_add]
      unfold drainLoop
      simp only [hfront]
    | cons msg rest =>
      have hfront : q.messages.front = some msg := by simp [Messages.front, hi]
      simp only [List.length_cons]
      unfold drainLoop
      simp only [hfront]
      cases ha : popAndDequeue { q with routed := q.routed ++ [msg.payload] } with
      | none => rfl
      | some qa =>
        obtain ⟨-, ⟨da, fa, -⟩, -⟩ :=
          popAndDequeue_effect (q := { q with routed := q.routed ++ [msg.payload] }) hi ha
        have hitems : qa.messages.items = rest := by rw [fa.2.1]
        simp only
        rw [ih qa (by rw [hitems]; rw [hi] at hlen; simpa using hlen), hitems]

/-- C20: `destroyed()` on a queue with an alternate exchange.  When the call returns: the
container is empty; the messages it held have been routed to the alternate exchange, each
once and in container order; every observer has got an `acquired` callback for each of
them, in that order, and on a queue that was not deleted yet and whose policy holds the
messages as enqueued the new callbacks are exactly `acquired` then `dequeued` for each
message in turn; the deleted flag is set.  The drain ends: with a broker and without a group
manager no assertion can fail and the call returns, and on every queue the drain stops by
itself within as many iterations as there are messages. -/
theorem destroyed_drains (q : Queue) (halt : q.hasAlternateExchange = true) :
    (∀ q1, q.destroyed = some q1 →
      q1.messages.items = [] ∧
      q1.routed = q.routed ++ q.messages.items.map QueuedMessage.payload ∧
      q1.deleted = true ∧
      (∃ delta, q1.observers = q.observers.map (fun o => o.deliver delta) ∧
        acquiredMessages delta = q.messages.items) ∧
      (q.deleted = false → KeepsEnqueued q →
        q1.observers = q.observers.map (fun o => o.deliver
          (q.messages.items.flatMap
            (fun x => [Notification.acquired x, Notification.dequeued x]))))) ∧
    (q.hasBroker = true → q.allocator = none → ∃ q1, q.destroyed = some q1) ∧
    (∀ (q0 : Queue) (fuel : Nat), q0.messages.size < fuel →
      drainLoop fuel q0 = drainLoop (q0.messages.size + 1) q0) := by
  refine ⟨fun q1 h => ?_, fun hb halloc => ?_, fun q0 fuel hf => drainLoop_fuel fuel q0 hf⟩
  · unfold destroyed at h
    split at h
    · exact absurd h (by simp)
    · simp only [halt, if_true] at h
      generalize hdr : drainLoop _ _ = r at h
      cases r with
      | none => simp at h
      | some qa =>
        simp only [Option.map_some', Option.some.injEq] at h
        obtain ⟨i1, i2, i3, i4, i5⟩ := drainLoop_effect _ hdr
        subst h
        refine ⟨?_, ?_, rfl, ?_, ?_⟩
        · split <;> exact i1
        · split <;> exact i2
        · split <;> exact i4
        · intro hdel hkeep
          have := i5 hdel hkeep
          split <;> exact this
  · obtain ⟨qa, ha, -⟩ := drainLoop_total (q.messages.size + 1)
      (q := { q with unbound := true }) halloc (Nat.lt_succ_self _)
    unfold destroyed
    split
    · rename_i h
      simp [hb] at h
    · dsimp only
      rw [if_pos (show ({ q with unbound := true } : Queue).hasAlternateExchange = true from halt)]
      generalize hdr : drainLoop _ _ = r
      have hr : r = some qa := hdr.symm.trans ha
      subst hr
      exact ⟨_, rfl⟩

/-- C20 at a concrete queue: two messages, one observer, an alternate exchange. -/
theorem destroyed_drains_witness :
    ((destroyed { hasAlternateExchange := true, observers := [{}], messages := { items :=
          [⟨{ id := 1 }, 1⟩, ⟨{ id := 2 }, 2⟩] }, sequence := 2 }).map
      (fun q1 => (q1.messages.items.length, q1.routed.map Message.id, q1.deleted,
        q1.observers.map (fun o => o.seen)))
      = some (0, [1, 2], true,
          [[.acquired ⟨{ id := 1 }, 1⟩, .dequeued ⟨{ id := 1 }, 1⟩,
            .acquired ⟨{ id := 2 }, 2⟩, .dequeued ⟨{ id := 2 }, 2⟩]])) ∧
    ∃ q1, destroyed { hasAlternateExchange := true, observers := [{}], messages := { items :=
          [⟨{ id := 1 }, 1⟩, ⟨{ id := 2 }, 2⟩] }, sequence := 2 } = some q1 := by
  refine ⟨by decide, ?_⟩
  exact (destroyed_drains _ rfl).2.1 rfl rfl

/-! ## tryAutoDelete (C19) -/

theorem destroyed_sets_deleted {q q1 : Queue} (h : q.destroyed = some q1) :
    q1.deleted = true := by
  unfold destroyed at h
  split at h
  · exact absurd h (by simp)
  · simp only at h
    split at h
    · exact absurd h (by simp)
    · cases h
      rfl

theorem destroyed_total {q : Queue} (hb : q.hasBroker = true)
    (h : q.allocator = none ∨ q.hasAlternateExchange = false) : ∃ q1, q.destroyed = some q1 := by
  unfold destroyed
  split
  · rename_i h1
    simp [hb] at h1
  · dsimp only
    by_cases halt : q.hasAlternateExchange = true
    · have halloc : q.allocator = none := by
        rcases h with h | h
        · exact h
        · rw [halt] at h
          cases h
      obtain ⟨qa, ha, -⟩ := drainLoop_total (q.messages.size + 1)
        (q := { q with unbound := true }) halloc (Nat.lt_succ_self _)
      rw [if_pos (show ({ q with unbound := true } : Queue).hasAlternateExchange = true from halt)]
      generalize hdr : drainLoop _ _ = r
      have hr : r = some qa := hdr.symm.trans ha
      subst hr
      exact ⟨_, rfl⟩
    · rw [if_neg (show ¬ ({ q with unbound := true } : Queue).hasAlternateExchange = true from
        halt)]
      exact ⟨_, rfl⟩

/-- C19: `tryAutoDelete(broker, queue)`, `canAutoDelete()` being
`autodelete && !consumerCount && !owner`.  (1) With a timeout set and `canAutoDelete()`
true, the call creates an auto-delete task firing at `now` plus the timeout (in seconds)
and leaves the queue as it was otherwise: it is not destroyed.  (2) Otherwise, when
`canAutoDelete()` is false the call does nothing, and when it is true the queue is
destroyed: the deleted flag is set when the call returns.  So a queue that is not deleted
is destroyed by such a call exactly when `canAutoDelete()` holds; in particular a queue
with autodelete set, no timeout, no consumer and no owner is.  (3) The call returns when
the queue has its broker and either no group manager or no alternate exchange to drain to. -/
theorem tryAutoDelete_contract (q : Queue) (now : Nat) :
    (q.canAutoDelete = true ↔ q.autodelete = true ∧ q.consumerCount = 0 ∧ q.owner = none) ∧
    (q.autoDeleteTimeout ≠ 0 → q.canAutoDelete = true →
      q.tryAutoDelete now
        = some { q with autoDeleteTaskPending := true, autoDeleteTaskCancelled := false,
                        autoDeleteTaskTime := now + q.autoDeleteTimeout * TIME_SEC }) ∧
    (q.canAutoDelete = false → q.tryAutoDelete now = some q) ∧
    (q.autoDeleteTimeout = 0 → q.canAutoDelete = true →
      ∀ q1, q.tryAutoDelete now = some q1 → q1.deleted = true) ∧
    (q.deleted = false → ¬ (q.autoDeleteTimeout ≠ 0 ∧ q.canAutoDelete = true) →
      ∀ q1, q.tryAutoDelete now = some q1 → (q1.deleted = true ↔ q.canAutoDelete = true)) ∧
    (q.autodelete = true → q.autoDeleteTimeout = 0 → q.consumerCount = 0 → q.owner = none →
      ∀ q1, q.tryAutoDelete now = some q1 → q1.deleted = true) ∧
    (q.hasBroker = true → (q.allocator = none ∨ q.hasAlternateExchange = false) →
      ∃ q1, q.tryAutoDelete now = some q1) := by
  have hcan : q.canAutoDelete = true ↔
      q.autodelete = true ∧ q.consumerCount = 0 ∧ q.owner = none := by
    unfold canAutoDelete
    cases q.owner <;> simp [and_assoc]
  have hsched : q.autoDeleteTimeout ≠ 0 → q.canAutoDelete = true →
      q.tryAutoDelete now
        = some { q with autoDeleteTaskPending := true, autoDeleteTaskCancelled := false,
                        autoDeleteTaskTime := now + q.autoDeleteTimeout * TIME_SEC } := by
    intro h1 h2
    unfold tryAutoDelete
    simp only [h1, h2, ne_eq, not_false_eq_true, decide_True, Bool.and_self, if_true]
  have hnot : q.canAutoDelete = false → q.tryAutoDelete now = some q := by
    intro h
    unfold tryAutoDelete tryAutoDeleteImpl
    simp only [h, Bool.and_false, Bool.false_eq_true, if_false]
  have hnow : q.autoDeleteTimeout = 0 → q.canAutoDelete = true →
      ∀ q1, q.tryAutoDelete now = some q1 → q1.deleted = true := by
    intro h1 h2 q1 h
    unfold tryAutoDelete tryAutoDeleteImpl at h
    simp only [h1, h2, ne_eq, not_true_eq_false, decide_False, Bool.false_and,
      Bool.false_eq_true, if_false, if_true] at h
    exact destroyed_sets_deleted h
  refine ⟨hcan, hsched, hnot, hnow, ?_, ?_, ?_⟩
  · intro hd hno q1 h
    cases hc : q.canAutoDelete with
    | false =>
      rw [hnot hc] at h
      cases h
      simp [hd]
    | true =>
      have ht : q.autoDeleteTimeout = 0 := by
        by_contra hne
        exact hno ⟨hne, hc⟩
      simp [hnow ht hc q1 h]
  · intro h1 h2 h3 h4 q1 h
    exact hnow h2 (hcan.mpr ⟨h1, h3, h4⟩) q1 h
  · intro hb hall
    by_cases hs : q.autoDeleteTimeout ≠ 0 ∧ q.canAutoDelete = true
    · rw [hsched hs.1 hs.2]
      exact ⟨_, rfl⟩
    · cases hc : q.canAutoDelete with
      | false =>
        rw [hnot hc]
        exact ⟨_, rfl⟩
      | true =>
        have ht : q.autoDeleteTimeout = 0 := by
          by_contra hne
          exact hs ⟨hne, hc⟩
        unfold tryAutoDelete tryAutoDeleteImpl
        simp only [ht, hc, ne_eq, not_true_eq_false, decide_False, Bool.false_and,
          Bool.false_eq_true, if_false, if_true]
        refine destroyed_total ?_ ?_
        · exact hb
        · exact hall

/-- C19 at concrete queues: an auto-delete queue without consumer or owner is destroyed at
once without a timeout, and gets a task at `now` plus 2 s with a timeout of 2 seconds. -/
theorem tryAutoDelete_contract_witness :
    ((tryAutoDelete { autodelete := true } 5).map (fun q1 => q1.deleted) = some true) ∧
    ((tryAutoDelete { autodelete := true, autoDeleteTimeout := 2 } 5).map
      (fun q1 => (q1.deleted, q1.autoDeleteTaskPending, q1.autoDeleteTaskTime))
      = some (false, true, 2000000005)) ∧
    ∃ q1, tryAutoDelete { autodelete := true } 5 = some q1 :=
  ⟨by decide, by decide,
   (tryAutoDelete_contract { autodelete := true } 5).2.2.2.2.2.2 rfl (Or.inl rfl)⟩


/-! ## Observers whose callbacks raise (C16) -/

theorem calm_deliver (o : QueueObserver) (ns : List Notification) :
    (o.deliver ns).calm = o.calm.deliver ns := rfl

theorem sameButThrows_refl (q : Queue) : SameButThrows q q :=
  ⟨q.observers, q.warnings, rfl, rfl⟩

theorem sameButThrows_calm (q : Queue) : SameButThrows q.calm q := by
  refine ⟨q.observers, q.warnings, rfl, ?_⟩
  simp only [calm, List.map_map]
  apply List.map_congr_left
  intro o _
  rfl

theorem sim_notifyObservers {q q1 : Queue} (n : Notification) (h : SameButThrows q q1) :
    SameQueue (q.notifyObservers n) (q1.notifyObservers n) := by
  obtain ⟨obs, w, rfl, hobs⟩ := h
  unfold notifyObservers
  dsimp only
  have hmap : (obs.map (fun o => (o.call n).1)).map QueueObserver.calm
      = (q.observers.map (fun o => (o.call n).1)).map QueueObserver.calm := by
    have e : ∀ l : List QueueObserver, (l.map (fun o => (o.call n).1)).map QueueObserver.calm
        = (l.map QueueObserver.calm).map (fun o => o.deliver [n]) := by
      intro l
      simp only [List.map_map]
      apply List.map_congr_left
      intro o _
      rfl
    rw [e, e, hobs]
  cases ha : q.allocator with
  | none => exact ⟨_, _, rfl, hmap⟩
  | some mgr =>
    dsimp only
    cases hm : managerCallback mgr n with
    | none => trivial
    | some mgr1 => exact ⟨_, _, rfl, hmap⟩

theorem sim_read {β : Type} {q q1 : Queue} (h : SameButThrows q q1) (g : Queue → β)
    (hg : ∀ (q0 : Queue) obs w, g { q0 with observers := obs, warnings := w } = g q0) :
    g q1 = g q := by
  obtain ⟨obs, w, rfl, -⟩ := h
  exact hg q obs w

theorem sim_update {q q1 : Queue} (h : SameButThrows q q1) (u : Queue → Queue)
    (hu : ∀ (q0 : Queue) obs w, u { q0 with observers := obs, warnings := w }
      = { u q0 with observers := obs, warnings := w })
    (ho : ∀ q0 : Queue, (u q0).observers = q0.observers) :
    SameButThrows (u q) (u q1) := by
  obtain ⟨obs, w, rfl, hobs⟩ := h
  refine ⟨obs, w, hu q obs w, ?_⟩
  rw [ho]
  exact hobs

theorem sameQueue_cases {a b : Option Queue} (h : SameQueue a b) :
    (a = none ∧ b = none) ∨ ∃ x y, a = some x ∧ b = some y ∧ SameButThrows x y := by
  cases a <;> cases b <;> simp only [SameQueue] at h
  · exact Or.inl ⟨rfl, rfl⟩
  · exact Or.inr ⟨_, _, rfl, rfl, h⟩

theorem sameReturn_cases {α : Type} {a b : Option (α × Queue)} (h : SameReturn a b) :
    (a = none ∧ b = none) ∨
      ∃ v x y, a = some (v, x) ∧ b = some (v, y) ∧ SameButThrows x y := by
  cases a <;> cases b <;> simp only [SameReturn] at h
  · exact Or.inl ⟨rfl, rfl⟩
  · rename_i r r1
    obtain ⟨v, x⟩ := r
    obtain ⟨v1, y⟩ := r1
    obtain ⟨h1, h2⟩ := h
    simp only at h1 h2
    subst h1
    exact Or.inr ⟨v, x, y, rfl, rfl, h2⟩

theorem sameOutcome_cases {α : Type} {a b : Outcome α} (h : SameOutcome a b) :
    (a = .aborted ∧ b = .aborted) ∨
    (∃ v x y, a = .ok v x ∧ b = .ok v y ∧ SameButThrows x y) ∨
    (∃ e x y, a = .raised e x ∧ b = .raised e y ∧ SameButThrows x y) := by
  cases a <;> cases b <;> simp only [SameOutcome] at h
  · obtain ⟨h1, h2⟩ := h
    subst h1
    exact Or.inr (Or.inl ⟨_, _, _, rfl, rfl, h2⟩)
  · obtain ⟨h1, h2⟩ := h
    subst h1
    exact Or.inr (Or.inr ⟨_, _, _, rfl, rfl, h2⟩)
  · exact Or.inl ⟨rfl, rfl⟩

theorem sim_enqueued {q q1 : Queue} (qm : QueuedMessage) (h : SameButThrows q q1) :
    SameQueue (q.enqueued qm) (q1.enqueued qm) := by
  unfold enqueued
  rcases sameQueue_cases (sim_notifyObservers (.enqueued qm) h) with ⟨ha, hb⟩ | ⟨x, y, ha, hb, hxy⟩
  · rw [ha, hb]
    trivial
  · rw [ha, hb]
    exact sim_update hxy
      (fun q0 => { q0 with
        policy := q0.policy.map (fun (p : QueuePolicy) => p.record (.enqueued qm)) })
      (fun _ _ _ => rfl) (fun _ => rfl)

theorem sim_acquired {q q1 : Queue} (qm : QueuedMessage) (h : SameButThrows q q1) :
    SameQueue (q.acquired qm) (q1.acquired qm) :=
  sim_notifyObservers (.acquired qm) h

theorem sim_dequeued {q q1 : Queue} (qm : QueuedMessage) (h : SameButThrows q q1) :
    SameQueue (q.dequeued qm) (q1.dequeued qm) := by
  unfold dequeued
  exact sim_notifyObservers (.dequeued qm) (sim_update h
    (fun q0 => { q0 with
      policy := q0.policy.map (fun (p : QueuePolicy) => p.record (.dequeued qm)) })
    (fun _ _ _ => rfl) (fun _ => rfl))

theorem sameReturn_some {α : Type} (v : α) {x y : Queue} (h : SameButThrows x y) :
    SameReturn (some (v, x)) (some (v, y)) := ⟨rfl, h⟩

theorem sim_dequeue {q q1 : Queue} (ctxt : Bool) (qm : QueuedMessage)
    (h : SameButThrows q q1) : SameReturn (q.dequeue ctxt qm) (q1.dequeue ctxt qm) := by
  have hd := sim_read h (fun q0 => q0.deleted) (fun _ _ _ => rfl)
  have he := sim_read h (fun q0 => q0.isEnqueued qm) (fun _ _ _ => rfl)
  simp only at hd he
  unfold dequeue
  rw [hd, he]
  by_cases h1 : q.deleted = true
  · simp only [h1, if_true]
    exact sameReturn_some _ h
  · simp only [h1, if_false]
    by_cases h2 : (!q.isEnqueued qm) = true
    · simp only [h2, if_true]
      exact sameReturn_some _ h
    · simp only [h2, if_false]
      have hmid : SameQueue (if ctxt = true then some q else q.dequeued qm)
          (if ctxt = true then some q1 else q1.dequeued qm) := by
        cases ctxt
        · exact sim_dequeued qm h
        · exact h
      rcases sameQueue_cases hmid with ⟨ha, hb⟩ | ⟨x, y, ha, hb, hxy⟩
      · rw [ha, hb]
        trivial
      · rw [ha, hb]
        obtain ⟨obs, w, rfl, hobs⟩ := hxy
        dsimp only [isForcedPersistent, isStoredOnQueue, isPersistent]
        generalize ((!decide (qm.payload.id ∈ x.forced)
          || decide (qm.payload.id ∈ x.forced) && decide (qm.payload.id ∈ x.syncList))
          && ((qm.payload.durable || decide (qm.payload.id ∈ x.forced)
            || qm.payload.contentReleasable) && x.hasStore)) = c
        cases c
        · simp only [Bool.false_eq_true, if_false]
          exact sameReturn_some _ ⟨obs, w, rfl, hobs⟩
        · simp only [if_true]
          exact sameReturn_some _ ⟨obs, w, rfl, hobs⟩

theorem sim_dequeueAll : ∀ (l : List QueuedMessage) {q q1 : Queue}, SameButThrows q q1 →
    SameQueue (q.dequeueAll l) (q1.dequeueAll l) := by
  intro l
  induction l with
  | nil => exact fun {q q1} h => h
  | cons qm rest ih =>
    intro q q1 h
    unfold dequeueAll
    rcases sameReturn_cases (sim_dequeue false qm h) with ⟨ha, hb⟩ | ⟨v, x, y, ha, hb, hxy⟩
    · rw [ha, hb]
      trivial
    · rw [ha, hb]
      exact ih hxy

theorem sameOutcome_ok {α : Type} (v : α) {x y : Queue} (h : SameButThrows x y) :
    SameOutcome (.ok v x) (.ok v y) := ⟨rfl, h⟩

theorem sameOutcome_raised {α : Type} (e : QueueError) {x y : Queue} (h : SameButThrows x y) :
    SameOutcome (Outcome.raised (α := α) e x) (.raised e y) := ⟨rfl, h⟩

theorem sim_enqueuePolicy {q q1 : Queue} (msg : Message) (s : Bool) (h : SameButThrows q q1) :
    SameOutcome (q.enqueuePolicy msg s) (q1.enqueuePolicy msg s) := by
  have hp := sim_read h (fun q0 => q0.policy) (fun _ _ _ => rfl)
  simp only at hp
  unfold enqueuePolicy
  rw [hp]
  cases hpol : q.policy with
  | none => exact sameOutcome_ok _ h
  | some p =>
    dsimp only
    by_cases hs : s = true
    · simp only [hs, if_true]
      exact sameOutcome_ok _ h
    · simp only [hs, if_false]
      by_cases hr : p.rejectsAfter p.calls msg = true
      · simp only [hr, if_true]
        refine sameOutcome_raised _ ?_
        obtain ⟨obs, w, rfl, hobs⟩ := h
        exact ⟨obs, w, rfl, hobs⟩
      · simp only [hr, if_false]
        have hq : SameButThrows
            { q with policy := some ((p.record (.tryEnqueue msg)).record .getPendingDequeues) }
            { q1 with policy := some ((p.record (.tryEnqueue msg)).record .getPendingDequeues) } := by
          obtain ⟨obs, w, rfl, hobs⟩ := h
          exact ⟨obs, w, rfl, hobs⟩
        rcases sameQueue_cases (sim_dequeueAll
          ((p.record (.tryEnqueue msg)).pendingAfter (p.record (.tryEnqueue msg)).calls) hq)
          with ⟨ha, hb⟩ | ⟨x, y, ha, hb, hxy⟩
        · rw [ha, hb]
          trivial
        · rw [ha, hb]
          exact sameOutcome_ok _ hxy

theorem enqueueStore_throws (q : Queue) (msg : Message) (obs : List QueueObserver) (w : Nat) :
    enqueueStore { q with observers := obs, warnings := w } msg
      = ((q.enqueueStore msg).1,
         { (q.enqueueStore msg).2 with observers := obs, warnings := w }) := by
  unfold enqueueStore forcePersistent isPersistent isForcedPersistent
  dsimp only
  split_ifs <;> rfl

theorem enqueueStore_observers (q : Queue) (msg : Message) :
    (q.enqueueStore msg).2.observers = q.observers := by
  unfold enqueueStore forcePersistent isPersistent isForcedPersistent
  dsimp only
  split_ifs <;> rfl

theorem sim_enqueueStore {q q1 : Queue} (msg : Message) (h : SameButThrows q q1) :
    (q1.enqueueStore msg).1 = (q.enqueueStore msg).1 ∧
    SameButThrows (q.enqueueStore msg).2 (q1.enqueueStore msg).2 := by
  obtain ⟨obs, w, rfl, hobs⟩ := h
  rw [enqueueStore_throws]
  refine ⟨rfl, obs, w, rfl, ?_⟩
  rw [enqueueStore_observers]
  exact hobs

theorem sim_enqueue {q q1 : Queue} (msg : Message) (s : Bool) (h : SameButThrows q q1) :
    SameOutcome (q.enqueue msg s) (q1.enqueue msg s) := by
  have hd := sim_read h (fun q0 => q0.deleted) (fun _ _ _ => rfl)
  simp only at hd
  unfold enqueue
  rw [hd]
  by_cases h1 : q.deleted = true
  · simp only [h1, if_true]
    exact sameOutcome_ok _ h
  · simp only [h1, if_false]
    rcases sameOutcome_cases (sim_enqueuePolicy msg s h) with
      ⟨ha, hb⟩ | ⟨v, x, y, ha, hb, hxy⟩ | ⟨e, x, y, ha, hb, hxy⟩
    · rw [ha, hb]
      trivial
    · rw [ha, hb]
      obtain ⟨e1, e2⟩ := sim_enqueueStore msg hxy
      dsimp only
      rw [e1]
      exact sameOutcome_ok _ e2
    · rw [ha, hb]
      exact sameOutcome_raised _ hxy

theorem sim_requeueForce {q q1 : Queue} (qm : QueuedMessage) (h : SameButThrows q q1) :
    SameOutcome (q.requeueForce qm) (q1.requeueForce qm) := by
  have h1 := sim_read h
    (fun q0 => q0.inLastNodeFailure && q0.persistLastNode && !q0.isStoredOnQueue qm.payload)
    (fun _ _ _ => rfl)
  have h2 := sim_read h (fun q0 => (q0.forcePersistent qm.payload).isForcedPersistent qm.payload)
    (fun q0 obs w => by
      unfold forcePersistent isForcedPersistent
      dsimp only
      split_ifs <;> rfl)
  have hf : SameButThrows (q.forcePersistent qm.payload) (q1.forcePersistent qm.payload) := by
    obtain ⟨obs, w, rfl, hobs⟩ := h
    unfold forcePersistent
    dsimp only
    split_ifs
    · exact ⟨obs, w, rfl, hobs⟩
    · exact ⟨obs, w, rfl, hobs⟩
  simp only at h1 h2
  unfold requeueForce
  rw [h1]
  by_cases hc : (q.inLastNodeFailure && q.persistLastNode && !q.isStoredOnQueue qm.payload) = true
  · simp only [hc, if_true]
    rw [h2]
    by_cases hc2 : (q.forcePersistent qm.payload).isForcedPersistent qm.payload = true
    · simp only [hc2, if_true]
      rcases sameOutcome_cases (sim_enqueue qm.payload false hf) with
        ⟨ha, hb⟩ | ⟨v, x, y, ha, hb, hxy⟩ | ⟨e, x, y, ha, hb, hxy⟩
      · rw [ha, hb]
        trivial
      · rw [ha, hb]
        exact sameOutcome_ok _ hxy
      · rw [ha, hb]
        exact sameOutcome_raised _ hxy
    · simp only [hc2, if_false]
      exact sameOutcome_ok _ hf
  · simp only [hc, if_false]
    exact sameOutcome_ok _ h

theorem sim_requeue {q q1 : Queue} (qm : QueuedMessage) (h : SameButThrows q q1) :
    SameOutcome (q.requeue qm) (q1.requeue qm) := by
  have he := sim_read h (fun q0 => q0.isEnqueued qm) (fun _ _ _ => rfl)
  have hl := sim_read h (fun q0 => q0.listeners) (fun _ _ _ => rfl)
  simp only at he hl
  unfold requeue
  rw [he, hl]
  by_cases h1 : (!q.isEnqueued qm) = true
  · simp only [h1, if_true]
    exact sameOutcome_ok _ h
  · simp only [h1, if_false]
    have hq : SameButThrows { q with messages := q.messages.reinsert qm, listeners := [] }
        { q1 with messages := q1.messages.reinsert qm, listeners := [] } := by
      obtain ⟨obs, w, rfl, hobs⟩ := h
      exact ⟨obs, w, rfl, hobs⟩
    rcases sameOutcome_cases (sim_requeueForce qm hq) with
      ⟨ha, hb⟩ | ⟨v, x, y, ha, hb, hxy⟩ | ⟨e, x, y, ha, hb, hxy⟩
    · rw [ha, hb]
      trivial
    · rw [ha, hb]
      dsimp only
      rcases sameQueue_cases (sim_notifyObservers (.requeued qm) hxy) with
        ⟨hc, hd⟩ | ⟨x2, y2, hc, hd, hxy2⟩
      · rw [hc, hd]
        trivial
      · rw [hc, hd]
        refine sameOutcome_ok _ ?_
        obtain ⟨obs, w, rfl, hobs⟩ := hxy2
        exact ⟨obs, w, rfl, hobs⟩
    · rw [ha, hb]
      exact sameOutcome_raised _ hxy

theorem sim_acquire {q q1 : Queue} (position : Nat) (h : SameButThrows q q1) :
    SameReturn (q.acquire position) (q1.acquire position) := by
  have hm := sim_read h (fun q0 => q0.messages) (fun _ _ _ => rfl)
  simp only at hm
  unfold acquire
  rw [hm]
  cases hr : q.messages.remove position with
  | none => exact sameReturn_some _ h
  | some r =>
    obtain ⟨qm, rest⟩ := r
    dsimp only
    have hq : SameButThrows { q with messages := rest } { q1 with messages := rest } := by
      obtain ⟨obs, w, rfl, hobs⟩ := h
      exact ⟨obs, w, rfl, hobs⟩
    rcases sameQueue_cases (sim_acquired qm hq) with ⟨ha, hb⟩ | ⟨x, y, ha, hb, hxy⟩
    · rw [ha, hb]
      trivial
    · rw [ha, hb]
      refine sameReturn_some _ ?_
      obtain ⟨obs, w, rfl, hobs⟩ := hxy
      exact ⟨obs, w, rfl, hobs⟩

theorem sim_pushQueued {q q1 : Queue} (qm : QueuedMessage) (isRecovery : Bool)
    (h : SameButThrows q q1) :
    SameQueue (q.pushQueued qm isRecovery) (q1.pushQueued qm isRecovery) := by
  have hm := sim_read h (fun q0 => q0.messages) (fun _ _ _ => rfl)
  have hl := sim_read h (fun q0 => q0.listeners) (fun _ _ _ => rfl)
  simp only at hm hl
  unfold pushQueued
  dsimp only
  rw [hm, hl]
  have hq : SameButThrows
      { q with sequence := qm.position, messages := (q.messages.push qm).1, listeners := [] }
      { q1 with sequence := qm.position, messages := (q.messages.push qm).1, listeners := [] } := by
    obtain ⟨obs, w, rfl, hobs⟩ := h
    exact ⟨obs, w, rfl, hobs⟩
  rcases sameQueue_cases (sim_enqueued qm hq) with ⟨ha, hb⟩ | ⟨x, y, ha, hb, hxy⟩
  · rw [ha, hb]
    trivial
  · rw [ha, hb]
    dsimp only
    have hxy2 : SameButThrows { x with woken := x.woken ++ q.listeners }
        { y with woken := y.woken ++ q.listeners } := by
      obtain ⟨obs, w, rfl, hobs⟩ := hxy
      exact ⟨obs, w, rfl, hobs⟩
    cases hp : (q.messages.push qm).2 with
    | none => exact hxy2
    | some removed =>
      dsimp only
      rcases sameQueue_cases (sim_acquired removed hxy2) with ⟨hc, hd⟩ | ⟨x3, y3, hc, hd, hxy3⟩
      · rw [hc, hd]
        trivial
      · rw [hc, hd]
        dsimp only
        cases isRecovery
        · simp only [Bool.false_eq_true, if_false]
          rcases sameReturn_cases (sim_dequeue false removed hxy3) with
            ⟨he, hf⟩ | ⟨v, x4, y4, he, hf, hxy4⟩
          · rw [he, hf]
            trivial
          · rw [he, hf]
            exact hxy4
        · simp only [if_true]
          obtain ⟨obs, w, rfl, hobs⟩ := hxy3
          exact ⟨obs, w, rfl, hobs⟩

theorem sim_push {q q1 : Queue} (msg : Message) (isRecovery : Bool)
    (h : SameButThrows q q1) : SameQueue (q.push msg isRecovery) (q1.push msg isRecovery) := by
  have h1 := sim_read h (fun q0 => q0.sequence) (fun _ _ _ => rfl)
  have h2 := sim_read h (fun q0 => q0.insertSeqNo) (fun _ _ _ => rfl)
  have h3 := sim_read h (fun q0 => q0.seqNoKey) (fun _ _ _ => rfl)
  simp only at h1 h2 h3
  unfold push
  dsimp only
  rw [h1, h2, h3]
  exact sim_pushQueued _ isRecovery h

theorem sim_consume {q q1 : Queue} (c : Consumer) (requestExclusive : Bool)
    (h : SameButThrows q q1) :
    SameOutcome (q.consume c requestExclusive) (q1.consume c requestExclusive) := by
  have h1 := sim_read h (fun q0 => q0.exclusive) (fun _ _ _ => rfl)
  have h2 := sim_read h (fun q0 => q0.consumerCount) (fun _ _ _ => rfl)
  have hr : SameButThrows (q.registerConsumer c requestExclusive)
      (q1.registerConsumer c requestExclusive) := by
    obtain ⟨obs, w, rfl, hobs⟩ := h
    unfold registerConsumer
    dsimp only
    split_ifs <;> exact ⟨obs, w, rfl, hobs⟩
  simp only at h1 h2
  unfold consume
  rw [h1, h2]
  by_cases hc1 : q.exclusive.isSome = true
  · simp only [hc1, if_true]
    exact sameOutcome_raised _ h
  · simp only [hc1, if_false]
    by_cases hc2 : (requestExclusive && decide (q.consumerCount ≠ 0)) = true
    · simp only [hc2, if_true]
      exact sameOutcome_raised _ h
    · simp only [hc2, if_false]
      rcases sameQueue_cases (sim_notifyObservers (.consumerAdded c.name) hr) with
        ⟨ha, hb⟩ | ⟨x, y, ha, hb, hxy⟩
      · rw [ha, hb]
        trivial
      · rw [ha, hb]
        exact sameOutcome_ok _ hxy

theorem sim_cancel {q q1 : Queue} (c : Consumer) (h : SameButThrows q q1) :
    SameQueue (q.cancel c) (q1.cancel c) := by
  have hr : SameButThrows (q.removeListener c) (q1.removeListener c) := by
    obtain ⟨obs, w, rfl, hobs⟩ := h
    unfold removeListener notifyListener
    dsimp only
    split_ifs <;> exact ⟨obs, w, rfl, hobs⟩
  unfold cancel
  dsimp only
  refine sim_notifyObservers _ ?_
  obtain ⟨obs, w, hq, hobs⟩ := hr
  rw [hq]
  exact ⟨obs, w, rfl, hobs⟩

/-- C16: an observer whose callback raises never changes what the triggering operation
does.  With `q.calm` the queue `q` in which every observer callback returns normally:
`push`, `requeue`, `acquire`, `dequeue`, `consume` and `cancel` on `q` end as they do on
`q.calm` (both return the same value, or both raise the same exception, or both fail an
assertion of the group manager) and leave the same queue, observers included with the
callbacks each has seen, but for the warnings logged.  Every notification reaches every
observer, those that follow a raising one too, and one warning is logged for each observer
that raised. -/
theorem observer_failures_swallowed (q : Queue) :
    (∀ msg isRecovery, SameQueue (q.calm.push msg isRecovery) (q.push msg isRecovery)) ∧
    (∀ qm, SameOutcome (q.calm.requeue qm) (q.requeue qm)) ∧
    (∀ position, SameReturn (q.calm.acquire position) (q.acquire position)) ∧
    (∀ ctxt qm, SameReturn (q.calm.dequeue ctxt qm) (q.dequeue ctxt qm)) ∧
    (∀ c requestExclusive,
      SameOutcome (q.calm.consume c requestExclusive) (q.consume c requestExclusive)) ∧
    (∀ c, SameQueue (q.calm.cancel c) (q.cancel c)) ∧
    (∀ n q1, q.notifyObservers n = some q1 →
      q1.observers = q.observers.map (fun o => o.deliver [n]) ∧
      q1.warnings = q.warnings + (q.observers.filter (fun o => o.throws)).length) :=
  ⟨fun msg isRecovery => sim_push msg isRecovery (sameButThrows_calm q),
   fun qm => sim_requeue qm (sameButThrows_calm q),
   fun position => sim_acquire position (sameButThrows_calm q),
   fun ctxt qm => sim_dequeue ctxt qm (sameButThrows_calm q),
   fun c requestExclusive => sim_consume c requestExclusive (sameButThrows_calm q),
   fun c => sim_cancel c (sameButThrows_calm q),
   fun n q1 h => by
     unfold notifyObservers at h
     dsimp only at h
     split at h
     · cases h
       exact ⟨rfl, rfl⟩
     · split at h
       · exact absurd h (by simp)
       · cases h
         exact ⟨rfl, rfl⟩⟩

/-- C16 at a concrete queue: of two observers the first raises; a push reaches both, logs one
warning, and ends as it does when no observer raises. -/
theorem observer_failures_swallowed_witness :
    ((push { observers := [{ throws := true }, {}] } { id := 1 }).map
      (fun q1 => (q1.observers.map (fun o => o.seen.length), q1.warnings, q1.sequence,
        q1.messages.items.length)) = some ([1, 1], 1, 1, 1)) ∧
    SameQueue ((calm { observers := [{ throws := true }, {}] }).push { id := 1 })
      (push { observers := [{ throws := true }, {}] } { id := 1 }) :=
  ⟨by decide,
   (observer_failures_swallowed { observers := [{ throws := true }, {}] }).1 { id := 1 } false⟩


/-! ## Order of the acquired and dequeued callbacks (C14) -/

theorem recordAll_append (l : Ledger) (d1 d2 : List Notification) :
    l.recordAll (d1 ++ d2) = (l.recordAll d1).bind (fun l1 => l1.recordAll d2) := by
  induction d1 generalizing l with
  | nil => rfl
  | cons n rest ih =>
    simp only [List.cons_append, Ledger.recordAll]
    cases l.record n with
    | none => rfl
    | some l1 => exact ih l1

theorem traced_refl (q : Queue) (l : Ledger) : Traced q q l l :=
  ⟨[], by simp [QueueObserver.deliver], rfl⟩

theorem traced_trans {q q1 q2 : Queue} {l l1 l2 : Ledger} (h1 : Traced q q1 l l1)
    (h2 : Traced q1 q2 l1 l2) : Traced q q2 l l2 := by
  obtain ⟨d1, o1, r1⟩ := h1
  obtain ⟨d2, o2, r2⟩ := h2
  refine ⟨d1 ++ d2, ?_, ?_⟩
  · rw [o2, o1, map_deliver_deliver]
  · rw [recordAll_append, r1]
    exact r2

theorem traced_of_frame {q q1 : Queue} {l l1 : Ledger} {delta : List Notification}
    (h : Frame q q1 delta) (hr : l.recordAll delta = some l1) : Traced q q1 l l1 :=
  ⟨delta, h.1, hr⟩

theorem position_ne_of_mem_erase {items : List QueuedMessage} {x y : QueuedMessage}
    (hn : (items.map QueuedMessage.position).Nodup) (hy : y ∈ items.erase x) (hx : x ∈ items) :
    y.position ≠ x.position := by
  induction items with
  | nil => simp at hx
  | cons a rest ih =>
    simp only [List.map_cons, List.nodup_cons, List.mem_map, not_exists, not_and] at hn
    by_cases hax : a = x
    · subst hax
      simp only [List.erase_cons_head] at hy
      intro he
      exact hn.1 y hy he
    · rw [List.erase_cons_tail (by simpa using hax)] at hy
      have hx2 : x ∈ rest := by
        rcases List.mem_cons.mp hx with h | h
        · exact absurd h.symm hax
        · exact h
      rcases List.mem_cons.mp hy with h | h
      · subst h
        intro he
        exact hn.1 x hx2 he.symm
      · exact ih hn.2 h hx2

theorem ledgerInv_perm {items items1 held : List QueuedMessage} {seq : Nat} {l : Ledger}
    (h : LedgerInv items seq held l) (hp : items1.Perm items) : LedgerInv items1 seq held l := by
  obtain ⟨h1, h2, h3⟩ := h
  exact ⟨(hp.map _).nodup_iff.mpr h1, fun x hx => h2 x (hp.mem_iff.mp hx), h3⟩

theorem ledgerInv_acquired {items held : List QueuedMessage} {seq : Nat} {l : Ledger}
    (h : LedgerInv items seq held l) {x : QueuedMessage} (hx : x ∈ items) (toSession : Bool) :
    ∃ l1, l.record (.acquired x) = some l1 ∧
      LedgerInv (items.erase x) seq (if toSession then x :: held else held) l1 := by
  obtain ⟨h1, h2, h3, h4, h5, h6, h7⟩ := h
  obtain ⟨hx1, hx2, hx3⟩ := h2 x hx
  refine ⟨{ l with acquired := x.position :: l.acquired }, ?_, ?_⟩
  · simp only [Ledger.record, hx2, hx3, or_self, if_false]
  · have hnotheld : x.position ∉ held.map QueuedMessage.position := by
      intro hm
      obtain ⟨y, hy, hyp⟩ := List.mem_map.mp hm
      exact hx2 (hyp ▸ h3 y hy)
    refine ⟨(List.erase_sublist x items).map _ |>.nodup h1, ?_, ?_, ?_, ?_, h6, ?_⟩
    · intro y hy
      obtain ⟨a, b, c⟩ := h2 y (List.mem_of_mem_erase hy)
      refine ⟨a, ?_, c⟩
      simp only [List.mem_cons, not_or]
      exact ⟨position_ne_of_mem_erase h1 hy hx, b⟩
    · intro y hy
      cases toSession
      · exact List.mem_cons_of_mem _ (h3 y hy)
      · rcases List.mem_cons.mp hy with hy | hy
        · subst hy
          exact List.mem_cons_self _ _
        · exact List.mem_cons_of_mem _ (h3 y hy)
    · cases toSession
      · exact h4
      · simp only [if_true, List.map_cons, List.nodup_cons]
        exact ⟨hnotheld, h4⟩
    · intro p hp
      rcases List.mem_cons.mp hp with hp | hp
      · subst hp
        exact ⟨hx1, hx3⟩
      · exact h5 p hp
    · exact List.nodup_cons.mpr ⟨hx2, h7⟩

theorem ledgerInv_dequeued {items held held1 : List QueuedMessage} {seq : Nat} {l : Ledger}
    (h : LedgerInv items seq held l) {x : QueuedMessage} (hx : x.position ∈ l.acquired)
    (hsub : ∀ y ∈ held1, y ∈ held ∧ y.position ≠ x.position)
    (hnd : (held1.map QueuedMessage.position).Nodup) :
    ∃ l1, l.record (.dequeued x) = some l1 ∧ LedgerInv items seq held1 l1 := by
  obtain ⟨h1, h2, h3, h4, h5, h6, h7⟩ := h
  refine ⟨{ acquired := l.acquired.erase x.position, dequeued := x.position :: l.dequeued },
    ?_, ?_⟩
  · simp only [Ledger.record, hx, if_true]
  · refine ⟨h1, ?_, ?_, hnd, ?_, ?_, h7.erase _⟩
    · intro y hy
      obtain ⟨a, b, c⟩ := h2 y hy
      refine ⟨a, fun hm => b (List.mem_of_mem_erase hm), ?_⟩
      simp only [List.mem_cons, not_or]
      refine ⟨fun he => b (he ▸ hx), c⟩
    · intro y hy
      obtain ⟨a, b⟩ := hsub y hy
      exact (List.mem_erase_of_ne b).mpr (h3 y a)
    · intro p hp
      have hp2 := List.mem_of_mem_erase hp
      refine ⟨(h5 p hp2).1, ?_⟩
      simp only [List.mem_cons, not_or]
      refine ⟨fun he => ?_, (h5 p hp2).2⟩
      subst he
      exact (List.Nodup.not_mem_erase h7) hp
    · intro p hp
      rcases List.mem_cons.mp hp with hp | hp
      · subst hp
        exact (h5 _ hx).1
      · exact h6 p hp

theorem ledgerInv_held_erase {held : List QueuedMessage} {x : QueuedMessage}
    (hnd : (held.map QueuedMessage.position).Nodup) (hx : x ∈ held) :
    (∀ y ∈ held.erase x, y ∈ held ∧ y.position ≠ x.position) ∧
    ((held.erase x).map QueuedMessage.position).Nodup :=
  ⟨fun _ hy => ⟨List.mem_of_mem_erase hy, position_ne_of_mem_erase hnd hy hx⟩,
   ((List.erase_sublist x held).map _).nodup hnd⟩

theorem ledgerInv_held_sub {items held held1 : List QueuedMessage} {seq : Nat} {l : Ledger}
    (h : LedgerInv items seq held l) (hsub : held1.Sublist held) :
    LedgerInv items seq held1 l := by
  obtain ⟨h1, h2, h3, h4, h5⟩ := h
  exact ⟨h1, h2, fun y hy => h3 y (hsub.subset hy), (hsub.map _).nodup h4, h5⟩

theorem insertByPosition_perm (x : QueuedMessage) (items : List QueuedMessage) :
    (Messages.insertByPosition x items).Perm (x :: items) := by
  induction items with
  | nil => exact List.Perm.refl _
  | cons a rest ih =>
    unfold Messages.insertByPosition
    split
    · exact List.Perm.refl _
    · exact ((List.Perm.cons a ih).trans (List.Perm.swap x a rest))

theorem ledgerInv_requeued {items held : List QueuedMessage} {seq : Nat} {l : Ledger}
    (h : LedgerInv items seq held l) {x : QueuedMessage} (hx : x ∈ held) :
    ∃ l1, l.record (.requeued x) = some l1 ∧
      LedgerInv (Messages.insertByPosition x items) seq (held.erase x) l1 := by
  obtain ⟨h1, h2, h3, h4, h5, h6, h7⟩ := h
  have hxa := h3 x hx
  obtain ⟨e1, e2⟩ := ledgerInv_held_erase h4 hx
  refine ⟨{ l with acquired := l.acquired.erase x.position }, rfl, ?_⟩
  have hinv : LedgerInv (x :: items) seq (held.erase x)
      { l with acquired := l.acquired.erase x.position } := by
    refine ⟨?_, ?_, ?_, e2, ?_, h6, h7.erase _⟩
    · simp only [List.map_cons, List.nodup_cons]
      refine ⟨fun hm => ?_, h1⟩
      obtain ⟨y, hy, hyp⟩ := List.mem_map.mp hm
      exact (h2 y hy).2.1 (hyp ▸ hxa)
    · intro y hy
      rcases List.mem_cons.mp hy with hy | hy
      · subst hy
        exact ⟨(h5 _ hxa).1, List.Nodup.not_mem_erase h7, (h5 _ hxa).2⟩
      · obtain ⟨a, b, c⟩ := h2 y hy
        exact ⟨a, fun hm => b (List.mem_of_mem_erase hm), c⟩
    · intro y hy
      exact (List.mem_erase_of_ne (e1 y hy).2).mpr (h3 y (e1 y hy).1)
    · intro p hp
      exact h5 p (List.mem_of_mem_erase hp)
  exact ledgerInv_perm hinv (insertByPosition_perm x items)

theorem ledgerInv_enqueued {items held : List QueuedMessage} {seq : Nat} {l : Ledger}
    (h : LedgerInv items seq held l) {x : QueuedMessage} (hx : x.position = seq + 1) :
    LedgerInv (items ++ [x]) (seq + 1) held l := by
  obtain ⟨h1, h2, h3, h4, h5, h6, h7⟩ := h
  have hinv : LedgerInv (x :: items) (seq + 1) held l := by
    refine ⟨?_, ?_, h3, h4, ?_, ?_, h7⟩
    · simp only [List.map_cons, List.nodup_cons]
      refine ⟨fun hm => ?_, h1⟩
      obtain ⟨y, hy, hyp⟩ := List.mem_map.mp hm
      have := (h2 y hy).1
      omega
    · intro y hy
      rcases List.mem_cons.mp hy with hy | hy
      · subst hy
        refine ⟨by omega, fun hm => ?_, fun hm => ?_⟩
        · have := (h5 _ hm).1
          omega
        · have := h6 _ hm
          omega
      · obtain ⟨a, b, c⟩ := h2 y hy
        exact ⟨by omega, b, c⟩
    · intro p hp
      exact ⟨by have := (h5 p hp).1; omega, (h5 p hp).2⟩
    · intro p hp
      have := h6 p hp
      omega
  exact ledgerInv_perm hinv (by simp)

theorem enqueueStore_kept (q : Queue) (msg : Message) : Kept q (q.enqueueStore msg).2 := by
  unfold enqueueStore forcePersistent
  simp only
  split_ifs <;> exact kept_of_eq rfl rfl

theorem enqueue_quiet {q q1 : Queue} {msg : Message} {s : Bool} (hp : q.policy = none)
    (h : (q.enqueue msg s).state? = some q1) : Frame q q1 [] ∧ Kept q q1 := by
  unfold enqueue at h
  split at h
  · simp only [Outcome.state?, Option.some.injEq] at h
    subst h
    exact ⟨frame_refl q, kept_refl q⟩
  · have he : q.enqueuePolicy msg s = .ok () q := by
      unfold enqueuePolicy
      simp only [hp]
    simp only [he, Outcome.state?, Option.some.injEq] at h
    subst h
    exact ⟨enqueueStore_frame q msg, enqueueStore_kept q msg⟩

theorem forcePersistent_kept (q : Queue) (msg : Message) : Kept q (q.forcePersistent msg) := by
  unfold forcePersistent
  split
  · exact kept_refl q
  · exact kept_of_eq rfl rfl

theorem requeueForce_quiet {q q1 : Queue} {qm : QueuedMessage} (hp : q.policy = none)
    (h : (q.requeueForce qm).state? = some q1) : Frame q q1 [] ∧ Kept q q1 := by
  unfold requeueForce at h
  split at h
  · simp only at h
    have ff := forcePersistent_frame q qm.payload
    have fk := forcePersistent_kept q qm.payload
    have hp2 := policy_none_of_kept fk hp
    split at h
    · have hq : ∀ q3, (enqueue (q.forcePersistent qm.payload) qm.payload).state? = some q3 →
          Frame q q3 [] ∧ Kept q q3 := by
        intro q3 h3
        obtain ⟨f3, k3⟩ := enqueue_quiet hp2 h3
        exact ⟨frame_trans ff f3, kept_trans fk k3⟩
      split at h
      · simp [Outcome.state?] at h
      · rename_i e q3 h3
        simp only [Outcome.state?, Option.some.injEq] at h
        subst h
        exact hq _ (by rw [h3]; rfl)
      · rename_i r q3 h3
        simp only [Outcome.state?, Option.some.injEq] at h
        subst h
        exact hq _ (by rw [h3]; rfl)
    · simp only [Outcome.state?, Option.some.injEq] at h
      subst h
      exact ⟨ff, fk⟩
  · simp only [Outcome.state?, Option.some.injEq] at h
    subst h
    exact ⟨frame_refl q, kept_refl q⟩

theorem requeueForce_ok {q : Queue} (qm : QueuedMessage) (hp : q.policy = none) :
    q.requeueForce qm = .aborted ∨ ∃ q1, q.requeueForce qm = .ok () q1 := by
  unfold requeueForce
  split
  · simp only
    split
    · rcases enqueue_cases (q.forcePersistent qm.payload) qm.payload with
        h | ⟨r, q1, h⟩ | ⟨p, hp2, -⟩
      · rw [h]
        exact Or.inl rfl
      · rw [h]
        exact Or.inr ⟨_, rfl⟩
      · rw [policy_none_of_kept (forcePersistent_kept q qm.payload) hp] at hp2
        cases hp2
    · exact Or.inr ⟨_, rfl⟩
  · exact Or.inr ⟨_, rfl⟩

theorem requeue_trace {q q1 : Queue} {qm : QueuedMessage} (hp : q.policy = none)
    (h : (q.requeue qm).state? = some q1) :
    q1.observers = q.observers.map (fun o => o.deliver [.requeued qm]) ∧
    q1.messages = q.messages.reinsert qm ∧ q1.sequence = q.sequence ∧ q1.policy = none := by
  unfold requeue at h
  have he : q.isEnqueued qm = true := by
    unfold isEnqueued
    rw [hp]
  simp only [he, Bool.not_true, Bool.false_eq_true, if_false] at h
  rcases requeueForce_ok (q := { q with messages := q.messages.reinsert qm, listeners := [] })
    qm hp with h3 | ⟨q3, h3⟩
  · rw [h3] at h
    simp [Outcome.state?] at h
  · obtain ⟨f3, k3⟩ := requeueForce_quiet (q :=
      { q with messages := q.messages.reinsert qm, listeners := [] }) hp (by rw [h3]; rfl)
    rw [h3] at h
    simp only at h
    cases h4 : q3.notifyObservers (.requeued qm) with
    | none =>
      rw [h4] at h
      simp [Outcome.state?] at h
    | some q4 =>
      rw [h4] at h
      simp only [Outcome.state?, Option.some.injEq] at h
      subst h
      have f4 := notifyObservers_frame h4
      have k4 := notifyObservers_kept h4
      have o3 : q3.observers = q.observers := by
        have := f3.1
        simpa [QueueObserver.deliver] using this
      refine ⟨?_, ?_, ?_, ?_⟩
      · show q4.observers = _
        rw [f4.1, o3]
      · show q4.messages = _
        rw [f4.2.1, f3.2.1]
      · show q4.sequence = _
        rw [f4.2.2.1, f3.2.2.1]
      · exact policy_none_of_kept k4 (policy_none_of_kept k3 hp)

theorem record_enqueued (l : Ledger) (qm : QueuedMessage) :
    l.recordAll [.enqueued qm] = some l := rfl

theorem inv_quiet {q q1 : Queue} {items held : List QueuedMessage} {l : Ledger}
    (h : SessionInv q items held l) (hf : Frame q q1 []) (hk : Kept q q1) :
    Traced q q1 l l ∧ SessionInv q1 items held l ∧ q1.messages = q.messages :=
  ⟨traced_of_frame hf rfl, ⟨policy_none_of_kept hk h.1, by rw [hf.2.2.1]; exact h.2⟩, hf.2.1⟩

theorem inv_acquired {q q1 : Queue} {items held : List QueuedMessage} {l : Ledger}
    (h : SessionInv q items held l) {x : QueuedMessage} (hx : x ∈ items) (toSession : Bool)
    (ha : q.acquired x = some q1) :
    ∃ l1, Traced q q1 l l1 ∧
      SessionInv q1 (items.erase x) (if toSession then x :: held else held) l1 ∧
      q1.messages = q.messages ∧ x.position ∈ l1.acquired ∧
      (∀ y ∈ held, y.position ≠ x.position) := by
  have fa := acquired_frame ha
  have ka := acquired_kept ha
  obtain ⟨l1, hr, hl⟩ := ledgerInv_acquired h.2 hx toSession
  have hmem : x.position ∈ l1.acquired := by
    have hx2 := (h.2.2.1 x hx).2
    simp only [Ledger.record, hx2.1, hx2.2, or_self, if_false, Option.some.injEq] at hr
    subst hr
    exact List.mem_cons_self _ _
  refine ⟨l1, traced_of_frame fa (by simp only [Ledger.recordAll, hr]),
    ⟨policy_none_of_kept ka h.1, by rw [fa.2.2.1]; exact hl⟩, fa.2.1, hmem, ?_⟩
  intro y hy he
  exact (h.2.2.1 x hx).2.1 (he ▸ h.2.2.2.1 y hy)

theorem inv_dequeue {q q1 : Queue} {items held held1 : List QueuedMessage} {l : Ledger}
    (h : SessionInv q items held l) {x : QueuedMessage} (hx : x.position ∈ l.acquired)
    (hsub : ∀ y ∈ held1, y ∈ held ∧ y.position ≠ x.position)
    (hnd : (held1.map QueuedMessage.position).Nodup) {r : Bool}
    (hd : q.dequeue false x = some (r, q1)) :
    ∃ l1, Traced q q1 l l1 ∧ SessionInv q1 items held1 l1 ∧ q1.messages = q.messages := by
  obtain ⟨d, fd, hdd⟩ := dequeue_frame hd
  have kd := dequeue_kept hd
  rcases hdd with hdd | hdd
  · subst hdd
    refine ⟨l, traced_of_frame fd rfl, ⟨policy_none_of_kept kd h.1, ?_⟩, fd.2.1⟩
    rw [fd.2.2.1]
    obtain ⟨h1, h2, h3, h4, h5⟩ := h.2
    exact ⟨h1, h2, fun y hy => h3 y (hsub y hy).1, hnd, h5⟩
  · subst hdd
    obtain ⟨l1, hr, hl⟩ := ledgerInv_dequeued h.2 hx hsub hnd
    refine ⟨l1, traced_of_frame fd (by simp only [Ledger.recordAll, hr]),
      ⟨policy_none_of_kept kd h.1, by rw [fd.2.2.1]; exact hl⟩, fd.2.1⟩

theorem inv_discard {q qa qb qc : Queue} {items held : List QueuedMessage} {l : Ledger}
    (h : SessionInv q items held l) {x : QueuedMessage} (hx : x ∈ items)
    (ha : q.acquired x = some qa) (hf : Frame qa qb []) (hk : Kept qa qb) {r : Bool}
    (hd : qb.dequeue false x = some (r, qc)) :
    ∃ l1, Traced q qc l l1 ∧ SessionInv qc (items.erase x) held l1 ∧
      qc.messages = q.messages := by
  obtain ⟨l1, t1, i1, m1, hmem, hne⟩ := inv_acquired h hx false ha
  simp only [Bool.false_eq_true, if_false] at i1
  obtain ⟨t2, i2, m2⟩ := inv_quiet i1 hf hk
  obtain ⟨l3, t3, i3, m3⟩ := inv_dequeue i2 hmem (fun y hy => ⟨hy, hne y hy⟩) i2.2.2.2.2.1 hd
  exact ⟨l3, traced_trans t1 (traced_trans t2 t3), i3, m3.trans (m2.trans m1)⟩

theorem acquire_kept {q q1 : Queue} {pos : Nat} {r : Option QueuedMessage}
    (h : q.acquire pos = some (r, q1)) : Kept q q1 := by
  unfold acquire at h
  split at h
  · cases h
    exact kept_refl q
  · split at h
    · exact absurd h (by simp)
    · rename_i qa ha
      cases h
      have k1 := acquired_kept ha
      have k2 : Kept q qa := ⟨k1.1, k1.2⟩
      exact kept_trans k2 (kept_of_eq rfl rfl)

theorem acquire_step {q q1 : Queue} {held : List QueuedMessage} {l : Ledger}
    (h : SessionInv q q.messages.items held l) {pos : Nat} {r : Option QueuedMessage}
    (toSession : Bool) (ha : q.acquire pos = some (r, q1)) :
    ∃ l1, Traced q q1 l l1 ∧
      SessionInv q1 q1.messages.items (if toSession then r.toList ++ held else held) l1 ∧
      (∀ x, r = some x → x ∈ q.messages.items ∧ x.position = pos ∧
        q1.messages.items = q.messages.items.erase x ∧ x.position ∈ l1.acquired ∧
        ∀ y ∈ held, y.position ≠ x.position) := by
  unfold acquire Messages.remove at ha
  cases hfind : q.messages.find pos with
  | none =>
    simp only [hfind, Option.some.injEq, Prod.mk.injEq] at ha
    obtain ⟨h1, h2⟩ := ha
    subst h1 h2
    refine ⟨l, traced_refl _ _, ?_, fun x hx => absurd hx (by simp)⟩
    cases toSession <;> simpa using h
  | some x =>
    simp only [hfind] at ha
    obtain ⟨hx, hxp⟩ := Messages.find_mem hfind
    split at ha
    · exact absurd ha (by simp)
    · rename_i qa hqa
      simp only [Option.some.injEq, Prod.mk.injEq] at ha
      obtain ⟨h1, h2⟩ := ha
      subst h1 h2
      have h0 : SessionInv
          { q with messages := { q.messages with items := q.messages.items.erase x } }
          q.messages.items held l := h
      obtain ⟨l1, t1, i1, m1, hmem, hne⟩ := inv_acquired h0 hx toSession hqa
      have hitems : qa.messages.items = q.messages.items.erase x := by rw [m1]
      refine ⟨l1, ?_, ?_, ?_⟩
      · obtain ⟨d, o1, r1⟩ := t1
        exact ⟨d, o1, r1⟩
      · refine ⟨i1.1, ?_⟩
        show LedgerInv qa.messages.items qa.sequence _ l1
        rw [hitems]
        cases toSession
        · simpa using i1.2
        · simpa using i1.2
      · intro y hy
        simp only [Option.some.injEq] at hy
        subst hy
        exact ⟨hx, hxp, hitems, hmem, hne⟩

theorem Messages.push_cases (ms : Messages) (qm : QueuedMessage) :
    ((ms.push qm).2 = none ∧ (ms.push qm).1.items = ms.items ++ [qm]) ∨
    ∃ old, (ms.push qm).2 = some old ∧ old ∈ ms.items ∧
      (ms.push qm).1.items = ms.items.erase old ++ [qm] := by
  unfold Messages.push
  split
  · exact Or.inl ⟨rfl, rfl⟩
  · split
    · exact Or.inl ⟨rfl, rfl⟩
    · rename_i old hold
      exact Or.inr ⟨old, rfl, List.mem_of_find?_eq_some hold, rfl⟩

theorem pushQueued_step {q q1 : Queue} {held : List QueuedMessage} {l : Ledger}
    (h : SessionInv q q.messages.items held l) {qm : QueuedMessage} {isRecovery : Bool}
    (hpos : qm.position = q.sequence + 1) (hp : q.pushQueued qm isRecovery = some q1) :
    ∃ l1, Traced q q1 l l1 ∧ SessionInv q1 q1.messages.items held l1 := by
  unfold pushQueued at hp
  simp only at hp
  split at hp
  · exact absurd hp (by simp)
  · rename_i qa ha
    have fa := enqueued_frame ha
    have ka : Kept q qa := by
      unfold enqueued at ha
      split at ha
      · exact absurd ha (by simp)
      · rename_i q2 h2
        cases ha
        have k2 := notifyObservers_kept h2
        have k3 : Kept q q2 := ⟨k2.1, k2.2⟩
        refine kept_trans k3 ⟨?_, rfl⟩
        have hpn : q2.policy = none := policy_none_of_kept k3 h.1
        exact ⟨[], by simp [hpn]⟩
    have hseq : qa.sequence = q.sequence + 1 := by
      rw [fa.2.2.1]
      exact hpos
    have hmsg : qa.messages = (q.messages.push qm).1 := fa.2.1
    have hobs : qa.observers = q.observers.map (fun o => o.deliver [.enqueued qm]) := fa.1
    have hpol : qa.policy = none := policy_none_of_kept ka h.1
    have hinv0 : LedgerInv (q.messages.items ++ [qm]) (q.sequence + 1) held l :=
      ledgerInv_enqueued h.2 hpos
    have ta : Traced q qa l l := ⟨[.enqueued qm], hobs, rfl⟩
    have hstep : ∀ qb : Queue, Frame qa qb [] → Kept qa qb →
        SessionInv qb (q.messages.items ++ [qm]) held l ∧ Traced q qb l l ∧
          qb.messages = (q.messages.push qm).1 := by
      intro qb fb kb
      have i0 : SessionInv qa (q.messages.items ++ [qm]) held l :=
        ⟨hpol, by rw [hseq]; exact hinv0⟩
      obtain ⟨t1, i1, m1⟩ := inv_quiet i0 fb kb
      exact ⟨i1, traced_trans ta t1, m1.trans hmsg⟩
    obtain ⟨i2, t2, m2⟩ := hstep { qa with woken := qa.woken ++ q.listeners }
      (frame_of_eq rfl rfl rfl rfl rfl rfl rfl rfl) (kept_of_eq rfl rfl)
    rcases Messages.push_cases q.messages qm with ⟨hnone, hitems⟩ | ⟨old, hsome, hold, hitems⟩
    · simp only [hnone, Option.some.injEq] at hp
      subst hp
      refine ⟨l, t2, i2.1, ?_⟩
      have := i2.2
      rw [m2, hitems]
      exact this
    · simp only [hsome] at hp
      split at hp
      · exact absurd hp (by simp)
      · rename_i q3 h3
        have hold2 : old ∈ q.messages.items ++ [qm] := List.mem_append_left _ hold
        have herase : (q.messages.items ++ [qm]).erase old = q.messages.items.erase old ++ [qm] :=
          List.erase_append_left _ hold
        cases isRecovery
        · simp only [Bool.false_eq_true, if_false] at hp
          cases hd : q3.dequeue false old with
          | none => simp [hd] at hp
          | some r =>
            obtain ⟨r1, q4⟩ := r
            simp only [hd, Option.map_some', Option.some.injEq] at hp
            subst hp
            obtain ⟨l1, t3, i3, m3⟩ := inv_discard i2 hold2 h3 (frame_refl q3) (kept_refl q3) hd
            refine ⟨l1, traced_trans t2 t3, i3.1, ?_⟩
            rw [m3, m2, hitems, ← herase]
            exact i3.2
        · simp only [if_true, Option.some.injEq] at hp
          subst hp
          obtain ⟨l1, t3, i3, m3, -, -⟩ := inv_acquired i2 hold2 false h3
          simp only [Bool.false_eq_true, if_false] at i3
          refine ⟨l1, traced_trans t2 ?_, i3.1, ?_⟩
          · obtain ⟨d, o1, r1⟩ := t3
            exact ⟨d, o1, r1⟩
          · show LedgerInv q3.messages.items q3.sequence held l1
            rw [m3, m2, hitems, ← herase]
            exact i3.2

theorem push_step {q q1 : Queue} {held : List QueuedMessage} {l : Ledger}
    (h : SessionInv q q.messages.items held l) {msg : Message} {isRecovery : Bool}
    (hp : q.push msg isRecovery = some q1) :
    ∃ l1, Traced q q1 l l1 ∧ SessionInv q1 q1.messages.items held l1 := by
  unfold push at hp
  exact pushQueued_step h rfl hp

theorem nextConsumableMessage_kept {q q1 : Queue} {c : Consumer} {r : Option QueuedMessage}
    (h : q.nextConsumableMessage c = some (r, q1)) : Kept q q1 := by
  unfold nextConsumableMessage at h
  split at h
  · cases h
    exact kept_refl q
  · split at h
    · exact absurd h (by simp)
    · cases h
      exact kept_of_eq rfl rfl

theorem allocatorAcquire_kept {q q1 : Queue} {consumer : String} {qm : QueuedMessage} {r : Bool}
    (h : q.allocatorAcquire consumer qm = some (r, q1)) : Kept q q1 := by
  unfold allocatorAcquire at h
  split at h
  · cases h
    exact kept_refl q
  · split at h
    · exact absurd h (by simp)
    · cases h
      exact kept_of_eq rfl rfl

theorem addListener_quiet (q : Queue) (c : Consumer) :
    Frame q (q.addListener c) [] ∧ Kept q (q.addListener c) := by
  unfold addListener
  split
  · exact ⟨frame_refl q, kept_refl q⟩
  · exact ⟨frame_of_eq rfl rfl rfl rfl rfl rfl rfl rfl, kept_of_eq rfl rfl⟩

theorem consumeLoop_step : ∀ (fuel : Nat) {q q1 : Queue} {held : List QueuedMessage}
    {l : Ledger} {c c1 : Consumer} {code : ConsumeCode} {m : Option QueuedMessage},
    SessionInv q q.messages.items held l →
    q.consumeLoop fuel c = some (code, m, c1, q1) →
    ∃ l1, Traced q q1 l l1 ∧ SessionInv q1 q1.messages.items (m.toList ++ held) l1 := by
  intro fuel
  induction fuel with
  | zero =>
    intro q q1 held l c c1 code m _ h
    simp [consumeLoop] at h
  | succ n ih =>
    intro q q1 held l c c1 code m hinv h
    unfold consumeLoop at h
    split at h
    · exact absurd h (by simp)
    · rename_i qa ha
      obtain ⟨fa, -⟩ := nextConsumableMessage_effect ha
      have ka := nextConsumableMessage_kept ha
      obtain ⟨ta, ia, ma⟩ := inv_quiet hinv fa ka
      simp only [Option.some.injEq, Prod.mk.injEq] at h
      obtain ⟨-, h2, -, h4⟩ := h
      subst h2 h4
      obtain ⟨fb, kb⟩ := addListener_quiet qa c
      obtain ⟨tb, ib, mb⟩ := inv_quiet ia fb kb
      refine ⟨l, traced_trans ta tb, ib.1, ?_⟩
      simp only [Option.toList, List.nil_append]
      rw [mb, ma]
      exact ib.2
    · rename_i msg qa ha
      obtain ⟨fa, hfind⟩ := nextConsumableMessage_effect ha
      have ka := nextConsumableMessage_kept ha
      obtain ⟨ta, ia, ma⟩ := inv_quiet hinv fa ka
      have ia2 : SessionInv qa qa.messages.items held l := by
        rw [ma]
        exact ia
      have hfa : qa.messages.find msg.position = some msg := by
        rw [ma]
        exact hfind msg rfl
      split at h
      · -- expired
        split at h
        · exact absurd h (by simp)
        · rename_i removed qb hb
          obtain ⟨lb, tb, ib, hrem⟩ := acquire_step ia2 false hb
          simp only [Bool.false_eq_true, if_false] at ib
          have hremoved : removed = some msg := by
            unfold acquire Messages.remove at hb
            simp only [hfa] at hb
            split at hb
            · exact absurd hb (by simp)
            · simp only [Option.some.injEq, Prod.mk.injEq] at hb
              exact hb.1.symm
          subst hremoved
          obtain ⟨-, -, -, hmem, hne⟩ := hrem msg rfl
          split at h
          · exact absurd h (by simp)
          · rename_i r qc hc
            simp only [Option.getD_some] at hc
            obtain ⟨lc, tc, ic, mc⟩ := inv_dequeue ib hmem (fun y hy => ⟨hy, hne y hy⟩)
              ib.2.2.2.2.1 hc
            have ic2 : SessionInv qc qc.messages.items held lc := by
              rw [mc]
              exact ic
            obtain ⟨l1, t1, i1⟩ := ih ic2 h
            exact ⟨l1, traced_trans ta (traced_trans tb (traced_trans tc t1)), i1⟩
      · split at h
        · split at h
          · split at h
            · exact absurd h (by simp)
            · exact absurd h (by simp)
            · rename_i qb hb
              have fb := allocatorAcquire_frame hb
              have kb := allocatorAcquire_kept hb
              obtain ⟨tb, ib, mb⟩ := inv_quiet ia2 fb kb
              have ib2 : SessionInv qb qb.messages.items held l := by
                rw [mb]
                exact ib
              split at h
              · exact absurd h (by simp)
              · exact absurd h (by simp)
              · rename_i m1 qc hc
                simp only [Option.some.injEq, Prod.mk.injEq] at h
                obtain ⟨-, h2, -, h4⟩ := h
                subst h2 h4
                obtain ⟨lc, tc, ic, -⟩ := acquire_step ib2 true hc
                simp only [if_true] at ic
                exact ⟨lc, traced_trans ta (traced_trans tb tc), ic⟩
          · simp only [Option.some.injEq, Prod.mk.injEq] at h
            obtain ⟨-, h2, -, h4⟩ := h
            subst h2 h4
            exact ⟨l, ta, ia2⟩
        · simp only [Option.some.injEq, Prod.mk.injEq] at h
          obtain ⟨-, h2, -, h4⟩ := h
          subst h2 h4
          exact ⟨l, ta, ia2⟩

theorem sessionInv_perm {q : Queue} {items items1 held : List QueuedMessage} {l : Ledger}
    (h : SessionInv q items held l) (hp : items1.Perm items) : SessionInv q items1 held l :=
  ⟨h.1, ledgerInv_perm h.2 hp⟩

theorem purgeLoop_step : ∀ (lst : List QueuedMessage)
    {q q1 : Queue} {kept held : List QueuedMessage} {l : Ledger},
    SessionInv q (kept ++ lst) held l → purgeLoop q lst = some q1 →
    ∃ l1, Traced q q1 l l1 ∧ SessionInv q1 kept held l1 ∧ q1.messages = q.messages := by
  intro lst
  induction lst with
  | nil =>
    intro q q1 kept held l hinv h
    simp only [purgeLoop, Option.some.injEq] at h
    subst h
    exact ⟨l, traced_refl _ _, by simpa using hinv, rfl⟩
  | cons x rest ih =>
    intro q q1 kept held l hinv h
    unfold purgeLoop at h
    split at h
    · exact absurd h (by simp)
    · rename_i qa ha
      split at h
      · exact absurd h (by simp)
      · rename_i r qb hb
        have hx : x ∈ kept ++ x :: rest := by simp
        obtain ⟨lb, tb, ib, mb⟩ := inv_discard hinv hx ha (frame_refl qa) (kept_refl qa) hb
        have hperm : (kept ++ rest).Perm ((kept ++ x :: rest).erase x) := by
          have h1 : (kept ++ x :: rest).Perm (x :: (kept ++ rest)) := List.perm_middle
          have h2 := h1.erase x
          simp only [List.erase_cons_head] at h2
          exact h2.symm
        have ib2 := sessionInv_perm ib hperm
        have hrest : ∃ qc, Frame qb qc [] ∧ Kept qb qc ∧ purgeLoop qc rest = some q1 :=
          ⟨qb, frame_refl qb, kept_refl qb, h⟩
        obtain ⟨qc, fc, kc, hc⟩ := hrest
        obtain ⟨tc, ic, mc⟩ := inv_quiet ib2 fc kc
        obtain ⟨l1, t1, i1, m1⟩ := ih ic hc
        exact ⟨l1, traced_trans tb (traced_trans tc t1), i1, m1.trans (mc.trans mb)⟩

theorem ledgerInv_sublist {items items1 held : List QueuedMessage} {seq : Nat} {l : Ledger}
    (h : LedgerInv items seq held l) (hs : items1.Sublist items) :
    LedgerInv items1 seq held l := by
  obtain ⟨h1, h2, h3⟩ := h
  exact ⟨(hs.map _).nodup h1, fun x hx => h2 x (hs.subset hx), h3⟩

theorem pushQueued_step_pending {q q1 : Queue} {pending held : List QueuedMessage} {l : Ledger}
    (h : SessionInv q (q.messages.items ++ pending) held l) {qm : QueuedMessage}
    {isRecovery : Bool}
    (hpos : qm.position = q.sequence + 1) (hp : q.pushQueued qm isRecovery = some q1) :
    ∃ l1, Traced q q1 l l1 ∧ SessionInv q1 (q1.messages.items ++ pending) held l1 := by
  unfold pushQueued at hp
  simp only at hp
  split at hp
  · exact absurd hp (by simp)
  · rename_i qa ha
    have fa := enqueued_frame ha
    have ka : Kept q qa := by
      unfold enqueued at ha
      split at ha
      · exact absurd ha (by simp)
      · rename_i q2 h2
        cases ha
        have k2 := notifyObservers_kept h2
        have k3 : Kept q q2 := ⟨k2.1, k2.2⟩
        refine kept_trans k3 ⟨?_, rfl⟩
        have hpn : q2.policy = none := policy_none_of_kept k3 h.1
        exact ⟨[], by simp [hpn]⟩
    have hseq : qa.sequence = q.sequence + 1 := by
      rw [fa.2.2.1]
      exact hpos
    have hmsg : qa.messages = (q.messages.push qm).1 := fa.2.1
    have hobs : qa.observers = q.observers.map (fun o => o.deliver [.enqueued qm]) := fa.1
    have hpol : qa.policy = none := policy_none_of_kept ka h.1
    have hinv0 : LedgerInv ((q.messages.items ++ [qm]) ++ pending) (q.sequence + 1) held l := by
      have h0 := ledgerInv_enqueued h.2 hpos
      refine ledgerInv_perm h0 ?_
      rw [List.append_assoc, List.append_assoc]
      exact List.Perm.append_left _ List.perm_append_comm
    have ta : Traced q qa l l := ⟨[.enqueued qm], hobs, rfl⟩
    have hstep : ∀ qb : Queue, Frame qa qb [] → Kept qa qb →
        SessionInv qb ((q.messages.items ++ [qm]) ++ pending) held l ∧ Traced q qb l l ∧
          qb.messages = (q.messages.push qm).1 := by
      intro qb fb kb
      have i0 : SessionInv qa ((q.messages.items ++ [qm]) ++ pending) held l :=
        ⟨hpol, by rw [hseq]; exact hinv0⟩
      obtain ⟨t1, i1, m1⟩ := inv_quiet i0 fb kb
      exact ⟨i1, traced_trans ta t1, m1.trans hmsg⟩
    obtain ⟨i2, t2, m2⟩ := hstep { qa with woken := qa.woken ++ q.listeners }
      (frame_of_eq rfl rfl rfl rfl rfl rfl rfl rfl) (kept_of_eq rfl rfl)
    rcases Messages.push_cases q.messages qm with ⟨hnone, hitems⟩ | ⟨old, hsome, hold, hitems⟩
    · simp only [hnone, Option.some.injEq] at hp
      subst hp
      refine ⟨l, t2, i2.1, ?_⟩
      have := i2.2
      rw [m2, hitems]
      exact this
    · simp only [hsome] at hp
      split at hp
      · exact absurd hp (by simp)
      · rename_i q3 h3
        have hold2 : old ∈ (q.messages.items ++ [qm]) ++ pending :=
          List.mem_append_left _ (List.mem_append_left _ hold)
        have herase : ((q.messages.items ++ [qm]) ++ pending).erase old
            = (q.messages.items.erase old ++ [qm]) ++ pending := by
          rw [List.erase_append_left _ (List.mem_append_left _ hold),
            List.erase_append_left _ hold]
        cases isRecovery
        · simp only [Bool.false_eq_true, if_false] at hp
          cases hd : q3.dequeue false old with
          | none => simp [hd] at hp
          | some r =>
            obtain ⟨r1, q4⟩ := r
            simp only [hd, Option.map_some', Option.some.injEq] at hp
            subst hp
            obtain ⟨l1, t3, i3, m3⟩ := inv_discard i2 hold2 h3 (frame_refl q3) (kept_refl q3) hd
            refine ⟨l1, traced_trans t2 t3, i3.1, ?_⟩
            rw [m3, m2, hitems, ← herase]
            exact i3.2
        · simp only [if_true, Option.some.injEq] at hp
          subst hp
          obtain ⟨l1, t3, i3, m3, -, -⟩ := inv_acquired i2 hold2 false h3
          simp only [Bool.false_eq_true, if_false] at i3
          refine ⟨l1, traced_trans t2 ?_, i3.1, ?_⟩
          · obtain ⟨d, o1, r1⟩ := t3
            exact ⟨d, o1, r1⟩
          · show LedgerInv (q3.messages.items ++ pending) q3.sequence held l1
            rw [m3, m2, hitems, ← herase]
            exact i3.2

theorem deliver_step_pending {q q1 : Queue} {pending held : List QueuedMessage} {l : Ledger}
    (h : SessionInv q (q.messages.items ++ pending) held l) {msg : Message}
    (hd : (q.deliver msg).state? = some q1) :
    ∃ l1, Traced q q1 l l1 ∧ SessionInv q1 (q1.messages.items ++ pending) held l1 := by
  cases hdrop : (q.deferDelivery msg || (msg.immediate && q.consumerCount == 0) || q.isLocal msg
        || q.isExcluded msg) with
  | true =>
    rw [deliver_of_drop hdrop] at hd
    simp only [Outcome.state?, Option.some.injEq] at hd
    subst hd
    split
    · exact ⟨l, traced_of_frame (frame_of_eq rfl rfl rfl rfl rfl rfl rfl rfl) rfl, h.1, h.2⟩
    · exact ⟨l, traced_refl _ _, h⟩
  | false =>
    rw [deliver_of_pass hdrop] at hd
    cases he : q.enqueue msg with
    | aborted =>
      rw [he] at hd
      exact absurd hd (by simp [Outcome.state?])
    | raised e qa =>
      rw [he] at hd
      simp only [Outcome.state?, Option.some.injEq] at hd
      subst hd
      obtain ⟨fa, ka⟩ := enqueue_quiet h.1 (show (q.enqueue msg).state? = some qa by rw [he]; rfl)
      obtain ⟨ta, ia, ma⟩ := inv_quiet h fa ka
      refine ⟨l, ta, ?_⟩
      rw [ma]
      exact ia
    | ok r qa =>
      rw [he] at hd
      simp only at hd
      obtain ⟨fa, ka⟩ := enqueue_quiet h.1 (show (q.enqueue msg).state? = some qa by rw [he]; rfl)
      obtain ⟨ta, ia, ma⟩ := inv_quiet h fa ka
      have ia2 : SessionInv qa (qa.messages.items ++ pending) held l := by
        rw [ma]
        exact ia
      cases hp : qa.push r.2 with
      | none =>
        rw [hp] at hd
        exact absurd hd (by simp [Outcome.state?])
      | some qb =>
        rw [hp] at hd
        simp only [Outcome.state?, Option.some.injEq] at hd
        subst hd
        unfold push at hp
        obtain ⟨l1, t1, i1⟩ := pushQueued_step_pending ia2 rfl hp
        exact ⟨l1, traced_trans ta t1, i1⟩

theorem routeWithAlternate_step {q q1 : Queue} {pending held : List QueuedMessage} {l : Ledger}
    (h : SessionInv q (q.messages.items ++ pending) held l) {ex : Exchange} {msg : Message}
    (hd : (q.routeWithAlternate ex msg).state? = some q1) :
    ∃ l1, Traced q q1 l l1 ∧ SessionInv q1 (q1.messages.items ++ pending) held l1 := by
  unfold routeWithAlternate at hd
  simp only at hd
  have h0 : SessionInv { q with rerouted := q.rerouted ++ [(ex.name, msg)] }
      (q.messages.items ++ pending) held l := ⟨h.1, h.2⟩
  have t0 : Traced q { q with rerouted := q.rerouted ++ [(ex.name, msg)] } l l :=
    traced_of_frame (frame_of_eq rfl rfl rfl rfl rfl rfl rfl rfl) rfl
  split at hd
  · obtain ⟨l1, t1, i1⟩ := deliver_step_pending h0 hd
    exact ⟨l1, traced_trans t0 t1, i1⟩
  · simp only [Outcome.state?, Option.some.injEq] at hd
    subst hd
    exact ⟨l, t0, h0⟩

theorem rerouteLoop_step (dest : Option Exchange) : ∀ (lst : List QueuedMessage)
    {q q1 : Queue} {held : List QueuedMessage} {l : Ledger},
    SessionInv q (q.messages.items ++ lst) held l →
    (rerouteLoop dest q lst).state? = some q1 →
    ∃ l1, Traced q q1 l l1 ∧ SessionInv q1 q1.messages.items held l1 := by
  intro lst
  induction lst with
  | nil =>
    intro q q1 held l hinv h
    simp only [rerouteLoop, Outcome.state?, Option.some.injEq] at h
    subst h
    exact ⟨l, traced_refl _ _, by simpa using hinv⟩
  | cons x rest ih =>
    intro q q1 held l hinv h
    unfold rerouteLoop at h
    cases ha : q.acquired x with
    | none =>
      rw [ha] at h
      exact absurd h (by simp [Outcome.state?])
    | some qa =>
      rw [ha] at h
      simp only at h
      cases hb : qa.dequeue false x with
      | none =>
        rw [hb] at h
        exact absurd h (by simp [Outcome.state?])
      | some rb =>
        obtain ⟨r, qb⟩ := rb
        rw [hb] at h
        simp only at h
        have hx : x ∈ q.messages.items ++ x :: rest := by simp
        obtain ⟨lb, tb, ib, mb⟩ := inv_discard hinv hx ha (frame_refl qa) (kept_refl qa) hb
        have hperm : (q.messages.items ++ rest).Perm ((q.messages.items ++ x :: rest).erase x) := by
          have h1 : (q.messages.items ++ x :: rest).Perm (x :: (q.messages.items ++ rest)) :=
            List.perm_middle
          have h2 := h1.erase x
          simp only [List.erase_cons_head] at h2
          exact h2.symm
        have ib2 : SessionInv qb (qb.messages.items ++ rest) held lb := by
          rw [mb]
          exact sessionInv_perm ib hperm
        cases dest with
        | none =>
          simp only at h
          obtain ⟨l1, t1, i1⟩ := ih ib2 h
          exact ⟨l1, traced_trans tb t1, i1⟩
        | some ex =>
          simp only at h
          cases hr : qb.routeWithAlternate ex x.payload with
          | aborted =>
            rw [hr] at h
            exact absurd h (by simp [Outcome.state?])
          | raised e qc =>
            rw [hr] at h
            simp only [Outcome.state?, Option.some.injEq] at h
            subst h
            obtain ⟨lc, tc, ic⟩ := routeWithAlternate_step ib2
              (show (qb.routeWithAlternate ex x.payload).state? = some qc by rw [hr]; rfl)
            exact ⟨lc, traced_trans tb tc, ic.1,
              ledgerInv_sublist ic.2 (List.sublist_append_left _ _)⟩
          | ok v qc =>
            rw [hr] at h
            simp only at h
            obtain ⟨lc, tc, ic⟩ := routeWithAlternate_step ib2
              (show (qb.routeWithAlternate ex x.payload).state? = some qc by rw [hr]; rfl)
            obtain ⟨l1, t1, i1⟩ := ih ic h
            exact ⟨l1, traced_trans tb (traced_trans tc t1), i1⟩

theorem purge_step {q q1 : Queue} {held : List QueuedMessage} {l : Ledger}
    (h : SessionInv q q.messages.items held l) {purge_request : Nat} {dest : Option Exchange}
    {filter : Option (List (String × Variant))}
    (hp : (q.purge purge_request dest filter).state? = some q1) :
    ∃ l1, Traced q q1 l l1 ∧ SessionInv q1 q1.messages.items held l1 := by
  unfold purge at hp
  split at hp
  · simp only [Outcome.state?, Option.some.injEq] at hp
    subst hp
    exact ⟨l, traced_refl _ _, h⟩
  · rename_i mf hmf
    simp only at hp
    obtain ⟨-, -, h3⟩ := collector_pass purge_request mf q.messages
    have h4 : ((q.messages.removeIf Collector.call
          { maxMatches := purge_request, filter := mf }).1.items
        ++ (q.messages.removeIf Collector.call
          { maxMatches := purge_request, filter := mf }).2.matched).Perm q.messages.items := by
      rw [(collector_pass purge_request mf q.messages).1]
      exact h3
    have h0 : SessionInv { q with messages :=
          (q.messages.removeIf Collector.call { maxMatches := purge_request, filter := mf }).1 }
        ((q.messages.removeIf Collector.call
            { maxMatches := purge_request, filter := mf }).1.items
          ++ (q.messages.removeIf Collector.call
            { maxMatches := purge_request, filter := mf }).2.matched) held l :=
      sessionInv_perm (q := q) h h4
    have key := @rerouteLoop_step dest
      (q.messages.removeIf Collector.call { maxMatches := purge_request, filter := mf }).2.matched
      { q with messages :=
        (q.messages.removeIf Collector.call { maxMatches := purge_request, filter := mf }).1 }
      q1 held l h0
    obtain ⟨l1, t1, i1⟩ := key (by
      generalize rerouteLoop dest { q with messages :=
          (q.messages.removeIf Collector.call { maxMatches := purge_request, filter := mf }).1 }
        (q.messages.removeIf Collector.call { maxMatches := purge_request, filter := mf }).2.matched
        = res at hp ⊢
      cases res with
      | aborted => exact absurd hp (by simp [Outcome.state?])
      | raised e qa => exact hp
      | ok v qa => exact hp)
    refine ⟨l1, ?_, i1⟩
    obtain ⟨d, o1, r1⟩ := t1
    exact ⟨d, o1, r1⟩

theorem purgeExpired_step {q q1 : Queue} {held : List QueuedMessage} {l : Ledger}
    (h : SessionInv q q.messages.items held l) {lapse : Int}
    (hp : q.purgeExpired lapse = some q1) :
    ∃ l1, Traced q q1 l l1 ∧ SessionInv q1 q1.messages.items held l1 := by
  by_cases hdue : q.expiryPassDue lapse = true
  · rw [purgeExpired_pass hdue] at hp
    have hperm : (q.messages.items.filter (fun x => !x.payload.expired)
        ++ q.messages.items.filter (fun x => x.payload.expired)).Perm q.messages.items := by
      have h1 := List.filter_append_perm (fun x : QueuedMessage => x.payload.expired)
        q.messages.items
      refine (List.perm_append_comm.trans ?_).trans h1
      simp
    have h0 : SessionInv
        { q with
          dequeueSincePurge :=
            ((q.dequeueSincePurge - toInt32 q.dequeueSincePurge) % UINT32_SIZE).toNat,
          messages :=
            { q.messages with items := q.messages.items.filter (fun x => !x.payload.expired) } }
        (q.messages.items.filter (fun x => !x.payload.expired)
          ++ q.messages.items.filter (fun x => x.payload.expired)) held l :=
      sessionInv_perm (q := q) h hperm
    obtain ⟨l1, t1, i1, m1⟩ := purgeLoop_step _ h0 hp
    refine ⟨l1, ?_, i1.1, ?_⟩
    · obtain ⟨d, o1, r1⟩ := t1
      exact ⟨d, o1, r1⟩
    · rw [m1]
      exact i1.2
  · unfold purgeExpired at hp
    dsimp only at hp
    split at hp
    · exact absurd hp (by simp)
    · have hq := Option.some.inj hp
      subst hq
      have hf : Frame q { q with dequeueSincePurge :=
          ((q.dequeueSincePurge - toInt32 q.dequeueSincePurge) % UINT32_SIZE).toNat } [] :=
        frame_of_eq rfl rfl rfl rfl rfl rfl rfl rfl
      have hk : Kept q { q with dequeueSincePurge :=
          ((q.dequeueSincePurge - toInt32 q.dequeueSincePurge) % UINT32_SIZE).toNat } :=
        kept_of_eq rfl rfl
      obtain ⟨t1, i1, -⟩ := inv_quiet h hf hk
      exact ⟨l, t1, i1⟩

theorem dequeue_ctxt_quiet {q q1 : Queue} {r : Bool} {qm : QueuedMessage}
    (h : q.dequeue true qm = some (r, q1)) : Frame q q1 [] ∧ Kept q q1 := by
  unfold dequeue at h
  split at h
  · cases h
    exact ⟨frame_refl q, kept_refl q⟩
  · split at h
    · cases h
      exact ⟨frame_refl q, kept_refl q⟩
    · simp only [if_true] at h
      split at h
      · cases h
        exact ⟨frame_of_eq rfl rfl rfl rfl rfl rfl rfl rfl, kept_of_eq rfl rfl⟩
      · cases h
        exact ⟨frame_refl q, kept_refl q⟩

theorem applyOp_step {q q1 : Queue} {held held1 : List QueuedMessage} {l : Ledger} {op : Op}
    (h : SessionInv q q.messages.items held l) (hperm : op.permitted held = true)
    (ha : applyOp q held op = some (q1, held1)) :
    ∃ l1, Traced q q1 l l1 ∧ SessionInv q1 q1.messages.items held1 l1 := by
  cases op with
  | push msg =>
    simp only [applyOp, Option.map_eq_some'] at ha
    obtain ⟨qa, ha, he⟩ := ha
    simp only [Prod.mk.injEq] at he
    obtain ⟨h1, h2⟩ := he
    subst h1 h2
    exact push_step h ha
  | consume c =>
    simp only [applyOp, Option.map_eq_some'] at ha
    obtain ⟨r, ha, he⟩ := ha
    obtain ⟨code, m, c1, qa⟩ := r
    simp only [Prod.mk.injEq] at he
    obtain ⟨h1, h2⟩ := he
    subst h1 h2
    exact consumeLoop_step _ h ha
  | acquire position =>
    simp only [applyOp, Option.map_eq_some'] at ha
    obtain ⟨r, ha, he⟩ := ha
    obtain ⟨m, qa⟩ := r
    simp only [Prod.mk.injEq] at he
    obtain ⟨h1, h2⟩ := he
    subst h1 h2
    obtain ⟨l1, t1, i1, -⟩ := acquire_step h true ha
    simp only [if_true] at i1
    exact ⟨l1, t1, i1⟩
  | requeue qm =>
    simp only [applyOp, Option.map_eq_some'] at ha
    obtain ⟨qa, ha, he⟩ := ha
    simp only [Prod.mk.injEq] at he
    obtain ⟨h1, h2⟩ := he
    subst h1 h2
    have hx : qm ∈ held := by simpa [Op.permitted] using hperm
    obtain ⟨o1, m1, s1, p1⟩ := requeue_trace h.1 ha
    obtain ⟨l1, r1, i1⟩ := ledgerInv_requeued h.2 hx
    refine ⟨l1, ⟨[.requeued qm], o1, by simp only [Ledger.recordAll, r1]⟩, p1, ?_⟩
    rw [m1, s1]
    exact i1
  | dequeue ctxt qm =>
    simp only [applyOp, Option.map_eq_some'] at ha
    obtain ⟨r, ha, he⟩ := ha
    obtain ⟨flag, qa⟩ := r
    simp only [Prod.mk.injEq] at he
    obtain ⟨h1, h2⟩ := he
    subst h1 h2
    have hx : qm ∈ held := by simpa [Op.permitted] using hperm
    cases ctxt with
    | true =>
      obtain ⟨f1, k1⟩ := dequeue_ctxt_quiet ha
      obtain ⟨t1, i1, m1⟩ := inv_quiet h f1 k1
      refine ⟨l, t1, i1.1, ?_⟩
      simp only [if_true]
      rw [m1]
      exact i1.2
    | false =>
      obtain ⟨e1, e2⟩ := ledgerInv_held_erase h.2.2.2.2.1 hx
      obtain ⟨l1, t1, i1, m1⟩ := inv_dequeue h (h.2.2.2.1 qm hx) e1 e2 ha
      refine ⟨l1, t1, i1.1, ?_⟩
      simp only [Bool.false_eq_true, if_false]
      rw [m1]
      exact i1.2
  | dequeueCommitted qm =>
    simp only [applyOp, Option.map_eq_some'] at ha
    obtain ⟨qa, ha, he⟩ := ha
    simp only [Prod.mk.injEq] at he
    obtain ⟨h1, h2⟩ := he
    subst h1 h2
    have hx : qm ∈ held := by simpa [Op.permitted] using hperm
    unfold dequeueCommitted at ha
    have f1 := dequeued_frame ha
    have k1 := dequeued_kept ha
    obtain ⟨e1, e2⟩ := ledgerInv_held_erase h.2.2.2.2.1 hx
    obtain ⟨l1, r1, i1⟩ := ledgerInv_dequeued h.2 (h.2.2.2.1 qm hx) e1 e2
    refine ⟨l1, traced_of_frame f1 (by simp only [Ledger.recordAll, r1]),
      policy_none_of_kept k1 h.1, ?_⟩
    rw [f1.2.1, f1.2.2.1]
    exact i1
  | purge purge_request dest filter =>
    simp only [applyOp, Option.map_eq_some'] at ha
    obtain ⟨qa, ha, he⟩ := ha
    simp only [Prod.mk.injEq] at he
    obtain ⟨h1, h2⟩ := he
    subst h1 h2
    exact purge_step h ha
  | purgeExpired lapse =>
    simp only [applyOp, Option.map_eq_some'] at ha
    obtain ⟨qa, ha, he⟩ := ha
    simp only [Prod.mk.injEq] at he
    obtain ⟨h1, h2⟩ := he
    subst h1 h2
    exact purgeExpired_step h ha

theorem runOps_step : ∀ (ops : List Op) {q q1 : Queue} {held held1 : List QueuedMessage}
    {l : Ledger}, SessionInv q q.messages.items held l → permittedOps q held ops = true →
    runOps q held ops = some (q1, held1) →
    ∃ l1, Traced q q1 l l1 ∧ SessionInv q1 q1.messages.items held1 l1 := by
  intro ops
  induction ops with
  | nil =>
    intro q q1 held held1 l h _ hr
    simp only [runOps, Option.some.injEq, Prod.mk.injEq] at hr
    obtain ⟨h1, h2⟩ := hr
    subst h1 h2
    exact ⟨l, traced_refl _ _, h⟩
  | cons op rest ih =>
    intro q q1 held held1 l h hperm hr
    unfold runOps at hr
    unfold permittedOps at hperm
    simp only [Bool.and_eq_true] at hperm
    obtain ⟨hp1, hp2⟩ := hperm
    cases ha : applyOp q held op with
    | none => simp [ha] at hr
    | some r =>
      obtain ⟨qa, helda⟩ := r
      simp only [ha] at hr hp2
      obtain ⟨la, ta, ia⟩ := applyOp_step h hp1 ha
      obtain ⟨l1, t1, i1⟩ := ih ia hp2 hr
      exact ⟨l1, traced_trans ta t1, i1⟩

theorem addListener_allocator (q : Queue) (c : Consumer) :
    (q.addListener c).allocator = q.allocator := by
  unfold addListener
  split <;> rfl

theorem consumeLoop_returns : ∀ (fuel : Nat) (q : Queue) (c : Consumer),
    q.allocator = none → q.messages.items.length < fuel →
    ∃ r, q.consumeLoop fuel c = some r ∧ r.2.2.2.allocator = none := by
  intro fuel
  induction fuel with
  | zero =>
    intro q c _ h
    exact absurd h (Nat.not_lt_zero _)
  | succ n ih =>
    intro q c halloc hlen
    have hnext : q.nextConsumableMessage c = some (q.messages.front, q) := by
      unfold nextConsumableMessage
      simp only [halloc]
    unfold consumeLoop
    rw [hnext]
    cases hfront : q.messages.front with
    | none => exact ⟨_, rfl, (addListener_allocator q c).trans halloc⟩
    | some msg =>
      simp only
      have hfind := Messages.find_of_front hfront
      obtain ⟨qb, hb, hb2⟩ := acquire_total halloc hfind
      split
      · rw [hb]
        simp only [Option.getD_some]
        obtain ⟨flag, qc, hc, hc2⟩ := dequeue_total false msg hb2
        rw [hc]
        simp only
        obtain ⟨-, hsome⟩ := acquire_effect hb
        obtain ⟨-, b1, -⟩ := hsome msg rfl
        obtain ⟨dd, ⟨-, c2f, -⟩, -⟩ := dequeue_frame hc
        apply ih qc _ hc2
        rw [c2f, b1, List.length_erase_of_mem (Messages.find_mem hfind).1]
        have : 0 < q.messages.items.length :=
          List.length_pos_of_mem (Messages.find_mem hfind).1
        omega
      · split
        · split
          · have hacq : q.allocatorAcquire c.name msg = some (true, q) := by
              unfold allocatorAcquire
              simp only [halloc]
            rw [hacq]
            simp only
            rw [hb]
            exact ⟨_, rfl, hb2⟩
          · exact ⟨_, rfl, halloc⟩
        · exact ⟨_, rfl, halloc⟩

theorem acquire_returns {q : Queue} (pos : Nat) (h : q.allocator = none) :
    ∃ r, q.acquire pos = some r ∧ r.2.allocator = none := by
  cases hf : q.messages.find pos with
  | none =>
    refine ⟨(none, q), ?_, h⟩
    unfold acquire Messages.remove
    simp only [hf]
  | some qm =>
    obtain ⟨q1, h1, h2⟩ := acquire_total h hf
    exact ⟨_, h1, h2⟩

theorem requeueForce_returns {q : Queue} (qm : QueuedMessage) (h : q.allocator = none) :
    ∃ q1, q1.allocator = none ∧
      (q.requeueForce qm = .ok () q1 ∨ ∃ e, q.requeueForce qm = .raised e q1) := by
  unfold requeueForce
  split
  · simp only
    split
    · obtain ⟨qa, -, ha2, ha3⟩ := enqueue_total qm.payload false
        ((forcePersistent_allocator q qm.payload).trans h)
      rcases ha3 with ⟨r, hr⟩ | ⟨e, he⟩
      · rw [hr]
        exact ⟨qa, ha2, Or.inl rfl⟩
      · rw [he]
        exact ⟨qa, ha2, Or.inr ⟨e, rfl⟩⟩
    · exact ⟨_, (forcePersistent_allocator q qm.payload).trans h, Or.inl rfl⟩
  · exact ⟨q, h, Or.inl rfl⟩

theorem requeue_returns {q : Queue} (qm : QueuedMessage) (h : q.allocator = none) :
    ∃ q1, (q.requeue qm).state? = some q1 ∧ q1.allocator = none := by
  unfold requeue
  split
  · exact ⟨q, rfl, h⟩
  · obtain ⟨q3, h4, h3⟩ := requeueForce_returns
      (q := { q with messages := q.messages.reinsert qm, listeners := [] }) qm h
    rcases h3 with h3 | ⟨e, h3⟩
    · rw [h3]
      simp only
      obtain ⟨q5, h5, h6⟩ := notifyObservers_total (.requeued qm) h4
      rw [h5]
      exact ⟨_, rfl, h6⟩
    · rw [h3]
      exact ⟨q3, rfl, h4⟩

theorem routeWithAlternate_total {q : Queue} (ex : Exchange) (msg : Message)
    (h : q.allocator = none) :
    ∃ q1, (q.routeWithAlternate ex msg).state? = some q1 ∧ q1.allocator = none := by
  unfold routeWithAlternate
  simp only
  split
  · exact deliver_total msg h
  · exact ⟨_, rfl, h⟩

theorem rerouteLoop_total (dest : Option Exchange) : ∀ (l : List QueuedMessage) {q : Queue},
    q.allocator = none →
    ∃ q1, (rerouteLoop dest q l).state? = some q1 ∧ q1.allocator = none := by
  intro l
  induction l with
  | nil => exact fun {q} h => ⟨q, rfl, h⟩
  | cons qm rest ih =>
    intro q h
    obtain ⟨qa, ha, ha2⟩ := acquired_total qm h
    obtain ⟨r, qb, hb, hb2⟩ := dequeue_total false qm ha2
    unfold rerouteLoop
    rw [ha]
    simp only [hb]
    cases dest with
    | none => exact ih hb2
    | some ex =>
      simp only
      obtain ⟨qc, hc, hc2⟩ := routeWithAlternate_total ex qm.payload hb2
      cases hr : qb.routeWithAlternate ex qm.payload with
      | aborted =>
        rw [hr] at hc
        exact absurd hc (by simp [Outcome.state?])
      | raised e qd =>
        rw [hr] at hc
        simp only [Outcome.state?, Option.some.injEq] at hc
        subst hc
        exact ⟨qd, rfl, hc2⟩
      | ok v qd =>
        rw [hr] at hc
        simp only [Outcome.state?, Option.some.injEq] at hc
        subst hc
        exact ih hc2

theorem purge_returns {q : Queue} (purge_request : Nat) (dest : Option Exchange)
    (filter : Option (List (String × Variant))) (h : q.allocator = none) :
    ∃ q1, (q.purge purge_request dest filter).state? = some q1 ∧ q1.allocator = none := by
  unfold purge
  split
  · exact ⟨q, rfl, h⟩
  · rename_i mf hmf
    simp only
    obtain ⟨qa, ha, ha2⟩ := rerouteLoop_total dest
      (q.messages.removeIf Collector.call { maxMatches := purge_request, filter := mf }).2.matched
      (q := { q with messages :=
        (q.messages.removeIf Collector.call { maxMatches := purge_request, filter := mf }).1 })
      h
    generalize rerouteLoop dest { q with messages :=
        (q.messages.removeIf Collector.call { maxMatches := purge_request, filter := mf }).1 }
      (q.messages.removeIf Collector.call { maxMatches := purge_request, filter := mf }).2.matched
      = res at ha ⊢
    cases res with
    | aborted => exact absurd ha (by simp [Outcome.state?])
    | raised e qb => exact ⟨qa, ha, ha2⟩
    | ok v qb => exact ⟨qa, ha, ha2⟩

theorem purgeExpired_returns {q : Queue} {lapse : Int}
    (hs : toInt32 (Int.tdiv lapse TIME_SEC) ≠ -1) (h : q.allocator = none) :
    ∃ q1, q.purgeExpired lapse = some q1 ∧ q1.allocator = none := by
  by_cases hdue : q.expiryPassDue lapse = true
  · rw [purgeExpired_pass hdue]
    exact purgeLoop_total _ h
  · unfold purgeExpired
    dsimp only
    split
    · rename_i h1
      simp only [Bool.and_eq_true, decide_eq_true_eq] at h1
      exact absurd h1.1 hs
    · exact ⟨_, rfl, h⟩

theorem applyOp_returns {q : Queue} (held : List QueuedMessage) {op : Op}
    (hs : ∀ lapse, op = .purgeExpired lapse → toInt32 (Int.tdiv lapse TIME_SEC) ≠ -1)
    (h : q.allocator = none) :
    ∃ r, applyOp q held op = some r ∧ r.1.allocator = none := by
  cases op with
  | push msg =>
    obtain ⟨q1, h1, h2⟩ := push_total msg false h
    exact ⟨(q1, held), by simp only [applyOp, h1, Option.map_some'], h2⟩
  | consume c =>
    obtain ⟨r, h1, h2⟩ := consumeLoop_returns (q.messages.size + 1) q c h (Nat.lt_succ_self _)
    exact ⟨(r.2.2.2, r.2.1.toList ++ held),
      by simp only [applyOp, consumeNextMessage, h1, Option.map_some'], h2⟩
  | acquire position =>
    obtain ⟨r, h1, h2⟩ := acquire_returns position h
    exact ⟨(r.2, r.1.toList ++ held), by simp only [applyOp, h1, Option.map_some'], h2⟩
  | requeue qm =>
    obtain ⟨q1, h1, h2⟩ := requeue_returns qm h
    exact ⟨(q1, held.erase qm), by simp only [applyOp, h1, Option.map_some'], h2⟩
  | dequeue ctxt qm =>
    obtain ⟨r, q1, h1, h2⟩ := dequeue_total ctxt qm h
    exact ⟨(q1, if ctxt then held else held.erase qm),
      by simp only [applyOp, h1, Option.map_some'], h2⟩
  | dequeueCommitted qm =>
    obtain ⟨q1, h1, h2⟩ := dequeued_total qm h
    exact ⟨(q1, held.erase qm),
      by simp only [applyOp, dequeueCommitted, h1, Option.map_some'], h2⟩
  | purge purge_request dest filter =>
    obtain ⟨q1, h1, h2⟩ := purge_returns purge_request dest filter h
    exact ⟨(q1, held), by simp only [applyOp, h1, Option.map_some'], h2⟩
  | purgeExpired lapse =>
    obtain ⟨q1, h1, h2⟩ := purgeExpired_returns (hs lapse rfl) h
    exact ⟨(q1, held), by simp only [applyOp, h1, Option.map_some'], h2⟩

theorem runOps_returns : ∀ (ops : List Op) {q : Queue} (held : List QueuedMessage),
    (∀ lapse, Op.purgeExpired lapse ∈ ops → toInt32 (Int.tdiv lapse TIME_SEC) ≠ -1) →
    q.allocator = none → ∃ r, runOps q held ops = some r := by
  intro ops
  induction ops with
  | nil => exact fun {q} held _ _ => ⟨_, rfl⟩
  | cons op rest ih =>
    intro q held hs h
    obtain ⟨r, h1, h2⟩ := applyOp_returns held
      (fun lapse he => hs lapse (he ▸ List.mem_cons_self _ _)) h
    unfold runOps
    rw [h1]
    exact ih r.2 (fun lapse hm => hs lapse (List.mem_cons_of_mem _ hm)) h2

/-- C14 as stated fails.  (1) A message is pushed, consumed, requeued and consumed again,
each call being one the session may make: the observer gets `acquired` for position 1
twice.  (2) A message is pushed and consumed, and `dequeue(0, msg)` is called twice for it:
the observer gets `dequeued` for position 1 twice.  (3) A message is pushed and
`dequeueCommitted` is called for it while it is in the container: the observer gets `dequeued`
for position 1 and no `acquired`. -/
theorem acquired_twice_after_requeue :
    (permittedOps { observers := [{}] } []
        [.push { id := 1 }, .consume { name := "c" }, .requeue ⟨{ id := 1 }, 1⟩,
         .consume { name := "c" }] = true ∧
      (runOps { observers := [{}] } []
        [.push { id := 1 }, .consume { name := "c" }, .requeue ⟨{ id := 1 }, 1⟩,
         .consume { name := "c" }]).map
        (fun r => r.1.observers.map
          (fun o => o.seen.count (Notification.acquired ⟨{ id := 1 }, 1⟩))) = some [2]) ∧
    ((runOps { observers := [{}] } []
        [.push { id := 1 }, .consume { name := "c" }, .dequeue false ⟨{ id := 1 }, 1⟩,
         .dequeue false ⟨{ id := 1 }, 1⟩]).map
        (fun r => r.1.observers.map
          (fun o => o.seen.count (Notification.dequeued ⟨{ id := 1 }, 1⟩))) = some [2]) ∧
    ((runOps { observers := [{}] } []
        [.push { id := 1 }, .dequeueCommitted ⟨{ id := 1 }, 1⟩]).map
        (fun r => r.1.observers.map (fun o => o.seen))
      = some [[.enqueued ⟨{ id := 1 }, 1⟩, .dequeued ⟨{ id := 1 }, 1⟩]]) := by
  decide

/-- C14, amended.  Take a queue without policy whose container holds distinct positions, none
beyond the sequence number (a new queue is one), and a sequence of calls of `push`,
`consumeNextMessage`, `acquire(position)`, `requeue`, `dequeue`, `dequeueCommitted`, `purge`
and `purgeExpired` in which `requeue`, `dequeue` and `dequeueCommitted` are called only for a
message the session holds: one handed out by `consumeNextMessage` or `acquire` and neither
requeued nor settled since.  When the calls have been made, every observer has got the
callbacks of a common list `delta` in which every `dequeued` of a position follows an
`acquired` of it with no `requeued` or `dequeued` of the position in between (so `dequeued`
fires at most once for a position), and an `acquired` of a position follows no `dequeued` of
it, and no other `acquired` of it unless a `requeued` lies in between.  Without a group
manager no assertion can fail and the calls are all made, provided no lapse given to
`purgeExpired` makes -1 whole seconds as an `int`. -/
theorem acquired_precedes_dequeued (q : Queue) (ops : List Op) (hpol : q.policy = none)
    (hpos : (q.messages.items.map QueuedMessage.position).Nodup)
    (hseq : ∀ x ∈ q.messages.items, x.position ≤ q.sequence)
    (hperm : permittedOps q [] ops = true) :
    (∀ q1 held1, runOps q [] ops = some (q1, held1) →
      ∃ delta, q1.observers = q.observers.map (fun o => o.deliver delta) ∧
        AcquiredBeforeDequeued delta) ∧
    (q.allocator = none →
      (∀ lapse, Op.purgeExpired lapse ∈ ops → toInt32 (Int.tdiv lapse TIME_SEC) ≠ -1) →
      ∃ r, runOps q [] ops = some r) := by
  refine ⟨fun q1 held1 hr => ?_, fun halloc hs => runOps_returns ops [] hs halloc⟩
  have h0 : SessionInv q q.messages.items [] {} := by
    refine ⟨hpol, hpos, fun x hx => ⟨hseq x hx, ?_, ?_⟩, ?_, ?_, ?_, ?_, ?_⟩
    · simp
    · simp
    · intro x hx
      simp at hx
    · simp
    · intro p hp
      simp at hp
    · intro p hp
      simp at hp
    · simp
  obtain ⟨l1, ⟨delta, ho, hrec⟩, -⟩ := runOps_step ops h0 hperm hr
  refine ⟨delta, ho, ?_⟩
  unfold AcquiredBeforeDequeued
  rw [hrec]
  rfl

/-- C14 at a concrete run: push, consume, requeue, consume, dequeue on a new queue with one
observer, which sees enqueued, acquired, requeued, acquired, dequeued for position 1. -/
theorem acquired_precedes_dequeued_witness :
    ((runOps { observers := [{}] } []
        [.push { id := 1 }, .consume { name := "c" }, .requeue ⟨{ id := 1 }, 1⟩,
         .consume { name := "c" }, .dequeue false ⟨{ id := 1 }, 1⟩]).map
        (fun r => r.1.observers.map (fun o => o.seen))
      = some [[.enqueued ⟨{ id := 1 }, 1⟩, .acquired ⟨{ id := 1 }, 1⟩,
          .requeued ⟨{ id := 1 }, 1⟩, .acquired ⟨{ id := 1 }, 1⟩,
          .dequeued ⟨{ id := 1 }, 1⟩]]) ∧
    ∃ r, runOps { observers := [{}] } []
        [.push { id := 1 }, .consume { name := "c" }, .requeue ⟨{ id := 1 }, 1⟩,
         .consume { name := "c" }, .dequeue false ⟨{ id := 1 }, 1⟩] = some r := by
  refine ⟨by decide, ?_⟩
  refine (acquired_precedes_dequeued _ _ rfl (by decide) (by decide) (by decide)).2 rfl ?_
  intro lapse h
  simp at h

end Queue

namespace MessageGroupManager

/-! ## dequeued of a head member (C27) and of the last member (C28) -/

theorem erase_head_member (p : Nat) (rest : List Nat) : (p :: rest).erase p = rest := by
  simp

theorem erase_put_same {κ ν : Type} [DecidableEq κ] [KeyOrder κ] (m : List (κ × ν)) (k : κ)
    (v : ν) : StdMap.erase (StdMap.put m k v) k = StdMap.erase m k := by
  induction m with
  | nil => simp [StdMap.put, StdMap.erase]
  | cons e rest ih =>
    obtain ⟨k1, v1⟩ := e
    by_cases h : k1 = k
    · simp [StdMap.put, StdMap.erase, h]
    · by_cases h2 : KeyOrder.lt k k1 = true
      · simp [StdMap.put, StdMap.erase, h, h2]
      · simp [StdMap.put, StdMap.erase, h, h2, ih]

/-- C27: `dequeued(qm)` for the head member of an unowned group with further members (and an
outstanding acquired message, which the call asserts) does not rekey the free entry of the
group.  The call returns, the group keeps its further members, with the second member as its
head, and `freeGroups` is left exactly as it was: an entry under the old head position is
still there, and the group is not reachable under the position `p` of its new head unless
`p` was a key before.  When `p` is not a key, every later `acquireMessage` for a message of
the group fails the assertion of `unFree`. -/
theorem dequeued_head_not_rekeyed (m : MessageGroupManager) (qm : QueuedMessage)
    (st : GroupState) (p : Nat) (rest : List Nat)
    (hfind : StdMap.find m.messageGroups (m.getGroupId qm) = some st)
    (hown : st.owned = false)
    (hmem : st.members = qm.position :: p :: rest)
    (hacq : st.acquired ≠ 0) :
    ∃ m1, m.dequeued qm = some m1 ∧
      m1.freeGroups = m.freeGroups ∧
      StdMap.find m1.messageGroups (m.getGroupId qm)
        = some { st with members := p :: rest, acquired := st.acquired - 1 } ∧
      (StdMap.find m.freeGroups p = none →
        ∀ (consumer : String) (qm2 : QueuedMessage), m.getGroupId qm2 = m.getGroupId qm →
          m1.acquireMessage consumer qm2 = none) := by
  have hd : m.dequeued qm
      = some (m.setGroup (m.getGroupId qm)
          { st with members := p :: rest, acquired := st.acquired - 1 }) := by
    have hown1 : GroupState.owned
        { st with members := p :: rest, acquired := st.acquired - 1 } = false := hown
    unfold dequeued
    simp only [hfind, hmem, List.length_cons, erase_head_member]
    simp [hacq, hown1]
  refine ⟨_, hd, rfl, ?_, ?_⟩
  · unfold setGroup
    exact StdMap.find_put_same _ _ _
  · intro hp consumer qm2 hg
    unfold acquireMessage
    have hg2 : (m.setGroup (m.getGroupId qm)
        { st with members := p :: rest, acquired := st.acquired - 1 }).getGroupId qm2
        = m.getGroupId qm := hg
    have hf : StdMap.find (m.setGroup (m.getGroupId qm)
        { st with members := p :: rest, acquired := st.acquired - 1 }).messageGroups
        (m.getGroupId qm)
        = some { st with members := p :: rest, acquired := st.acquired - 1 } := by
      unfold setGroup
      exact StdMap.find_put_same _ _ _
    simp only [hg2, hf]
    have hown2 : GroupState.owned
        { st with members := p :: rest, acquired := st.acquired - 1 } = false := hown
    simp only [hown2, Bool.not_false, if_true]
    unfold own unFree
    simp [setGroup, hp]

/-- C27 at its failing input: group `A` with members 1 and 2, one message acquired, no
owner, free entry under position 1. -/
theorem dequeued_head_not_rekeyed_witness :
    ∃ m1, ({ groupIdHeader := "g",
             messageGroups := [("A", { group := "A", acquired := 1, members := [1, 2] })],
             freeGroups := [(1, "A")] } : MessageGroupManager).dequeued (sample 1 "A") = some m1 ∧
      m1.freeGroups = [(1, "A")] ∧
      StdMap.find m1.messageGroups "A"
        = some { group := "A", acquired := 0, members := [2] } ∧
      m1.acquireMessage "c1" (sample 2 "A") = none := by
  obtain ⟨m1, h1, h2, h3, h4⟩ := dequeued_head_not_rekeyed
    { groupIdHeader := "g",
      messageGroups := [("A", { group := "A", acquired := 1, members := [1, 2] })],
      freeGroups := [(1, "A")] } (sample 1 "A")
    { group := "A", acquired := 1, members := [1, 2] } 2 [] (by decide) (by decide) (by decide)
    (by decide)
  exact ⟨m1, h1, h2, h3, h4 (by decide) "c1" (sample 2 "A") (by decide)⟩

/-- C28: `dequeued(qm)` for the only member of a group with an outstanding acquired message.
When the group is owned the call returns, the group is erased from the group map and
`freeGroups` is untouched.  When the group is unowned the call does not complete: the member
list has been emptied before `unFree` reads its front, which is undefined, whatever
`freeGroups` holds. -/
theorem dequeued_last_member (m : MessageGroupManager) (qm : QueuedMessage)
    (st : GroupState)
    (hfind : StdMap.find m.messageGroups (m.getGroupId qm) = some st)
    (hmem : st.members = [qm.position])
    (hacq : st.acquired ≠ 0) :
    (st.owned = false → m.dequeued qm = none) ∧
    (st.owned = true →
      ∃ m1, m.dequeued qm = some m1 ∧
        StdMap.find m1.messageGroups (m.getGroupId qm) = none ∧
        m1.messageGroups = StdMap.erase m.messageGroups (m.getGroupId qm) ∧
        m1.freeGroups = m.freeGroups ∧ m1.consumers = m.consumers) := by
  constructor
  · intro hown
    have hown1 : GroupState.owned
        { st with members := [], acquired := st.acquired - 1 } = false := hown
    unfold dequeued
    simp only [hfind, hmem, List.length_cons, erase_head_member]
    simp [hacq, hown1, unFree]
  · intro hown
    have hd : m.dequeued qm
        = some { (m.setGroup (m.getGroupId qm)
            { st with members := [], acquired := st.acquired - 1 }) with
            messageGroups := StdMap.erase (m.setGroup (m.getGroupId qm)
              { st with members := [], acquired := st.acquired - 1 }).messageGroups
              (m.getGroupId qm) } := by
      have hown1 : GroupState.owned
          { st with members := [], acquired := st.acquired - 1 } = true := hown
      unfold dequeued
      simp only [hfind, hmem, List.length_cons, erase_head_member]
      simp [hacq, hown1]
    refine ⟨_, hd, ?_, ?_, rfl, rfl⟩
    · exact StdMap.find_erase_same _ _
    · exact erase_put_same _ _ _

/-- C28 at its failing input: group `A` whose only member, message 1, has been acquired
without an owner (by a purge, say); the free entry of the group is in place. -/
theorem dequeued_last_member_witness :
    ({ groupIdHeader := "g",
       messageGroups := [("A", { group := "A", acquired := 1, members := [1] })],
       freeGroups := [(1, "A")] } : MessageGroupManager).dequeued (sample 1 "A") = none :=
  (dequeued_last_member
    { groupIdHeader := "g",
      messageGroups := [("A", { group := "A", acquired := 1, members := [1] })],
      freeGroups := [(1, "A")] } (sample 1 "A")
    { group := "A", acquired := 1, members := [1] } (by decide) (by decide) (by decide)).1
    (by decide)

end MessageGroupManager

namespace Queue


/-! ## A failed acquire(msg, consumer) (C29) -/

/-- C29 as stated fails.  On a queue with a group manager, message 1 of group `A` is pushed
and then acquired by position (as a purge or another session does), which leaves the group
unowned.  `acquire(msg 1, "c1")` then returns false, there being no message at position 1,
but the allocator has made `c1` the owner of group `A`, counted the group for `c1` and
removed the free entry of the group. -/
theorem failed_acquire_takes_group :
    ((({ allocator := some (MessageGroupManager.initial "g") } : Queue).push
        (MessageGroupManager.sample 1 "A").payload).bind (fun q1 =>
      (q1.acquire 1).bind (fun r =>
        (r.2.acquireFor (MessageGroupManager.sample 1 "A") "c1").map (fun r2 =>
          (r2.1, r.2.allocator.map (fun m => (m.ownerOf "A", m.consumers, m.freeGroups)),
            r2.2.allocator.map (fun m => (m.ownerOf "A", m.consumers, m.freeGroups)))))))
      = some (false, some (some "", [], [(1, "A")]), some (some "c1", [("c1", 1)], [])) := by
  rfl

/-- C29, amended: when `acquire(msg, consumer)` returns false the queue is as it was, its
messages container among the rest, but for the state of the allocator, and that too is as it
was with the default allocator and when the group of `msg` had an owner (the allocator
refused, or the owner is `consumer` and no message is held at the position).  When the group
was unowned, no message is held at the position and the allocator has made `consumer` the
owner of the group. -/
theorem failed_acquire_effect (q q1 : Queue) (msg : QueuedMessage) (consumer : String)
    (h : q.acquireFor msg consumer = some (false, q1)) :
    q1 = { q with allocator := q1.allocator } ∧
    q1.messages = q.messages ∧
    (q.allocator = none → q1 = q) ∧
    (∀ mgr, q.allocator = some mgr →
      ∃ st, StdMap.find mgr.messageGroups (mgr.getGroupId msg) = some st ∧
        (st.owned = true → q1 = q) ∧
        (st.owned = false →
          q.messages.find msg.position = none ∧
          ∃ mgr1, mgr.own (mgr.getGroupId msg) st consumer = some mgr1 ∧
            q1.allocator = some mgr1 ∧
            mgr1.ownerOf (mgr.getGroupId msg) = some consumer)) := by
  unfold acquireFor at h
  cases ha : q.allocatorAcquire consumer msg with
  | none => rw [ha] at h; exact absurd h (by simp)
  | some r =>
    obtain ⟨b, qa⟩ := r
    rw [ha] at h
    -- the queue after the allocator has been asked
    have hqa : qa = { q with allocator := qa.allocator } := by
      unfold allocatorAcquire at ha
      split at ha
      · rename_i hn
        simp only [Option.some.injEq, Prod.mk.injEq] at ha
        obtain ⟨-, h2⟩ := ha
        subst h2
        rfl
      · split at ha
        · exact absurd ha (by simp)
        · simp only [Option.some.injEq, Prod.mk.injEq] at ha
          obtain ⟨-, h2⟩ := ha
          subst h2
          rfl
    -- the container step leaves the queue as it is when it finds nothing
    have hq1 : q1 = qa ∧ (b = true → qa.messages.find msg.position = none) := by
      cases b with
      | false =>
        simp only [Option.some.injEq, Prod.mk.injEq, true_and] at h
        exact ⟨h.symm, fun hb => absurd hb (by simp)⟩
      | true =>
        simp only at h
        cases hc : qa.acquire msg.position with
        | none => rw [hc] at h; exact absurd h (by simp)
        | some r2 =>
          obtain ⟨found, q2⟩ := r2
          rw [hc] at h
          cases found with
          | some x => exact absurd h (by simp)
          | none =>
            simp only [Option.some.injEq, Prod.mk.injEq, true_and] at h
            subst h
            obtain ⟨e1, e2⟩ := (acquire_effect hc).1 rfl
            exact ⟨e1, fun _ => e2⟩
    obtain ⟨e1, e2⟩ := hq1
    subst e1
    have hmsg : q1.messages = q.messages := by rw [hqa]
    refine ⟨hqa, hmsg, ?_, ?_⟩
    · intro hn
      unfold allocatorAcquire at ha
      simp only [hn, Option.some.injEq, Prod.mk.injEq] at ha
      exact ha.2.symm
    · intro mgr hm
      unfold allocatorAcquire at ha
      simp only [hm] at ha
      cases hacq : mgr.acquireMessage consumer msg with
      | none => rw [hacq] at ha; exact absurd ha (by simp)
      | some r3 =>
        rw [hacq] at ha
        simp only [Option.some.injEq, Prod.mk.injEq] at ha
        obtain ⟨hb, hq⟩ := ha
        have hacq2 := hacq
        unfold MessageGroupManager.acquireMessage at hacq
        simp only at hacq
        cases hst : StdMap.find mgr.messageGroups (mgr.getGroupId msg) with
        | none => rw [hst] at hacq; exact absurd hacq (by simp)
        | some st =>
          rw [hst] at hacq
          refine ⟨st, rfl, ?_, ?_⟩
          · intro ho
            simp only [ho, Bool.not_true, Bool.false_eq_true, if_false, Option.some.injEq]
              at hacq
            rw [← hq, ← hacq, ← hm]
          · intro ho
            simp only [ho, Bool.not_false, if_true] at hacq
            cases hown : mgr.own (mgr.getGroupId msg) st consumer with
            | none => rw [hown] at hacq; exact absurd hacq (by simp)
            | some mgr1 =>
              rw [hown] at hacq
              simp only [Option.some.injEq] at hacq
              have hb2 : b = true := by rw [← hb, ← hacq]
              have hr3 : r3 = (true, mgr1) := hacq.symm
              refine ⟨?_, mgr1, rfl, ?_, ?_⟩
              · rw [← hmsg]
                exact e2 hb2
              · rw [← hq, hr3]
              · rw [hr3] at hacq2
                exact MessageGroupManager.ownerOf_after_acquireMessage hacq2

/-- C29, amended, on the queue of the counterexample: the failed call leaves the container
as it was and makes `c1` the owner of group `A`. -/
theorem failed_acquire_effect_witness :
    ∃ q1, ({ allocator := some {
              groupIdHeader := "g",
              messageGroups := [("A", { group := "A", acquired := 1, members := [1] })],
              freeGroups := [(1, "A")] } } : Queue).acquireFor
            (MessageGroupManager.sample 1 "A") "c1" = some (false, q1) ∧
      q1.messages = {} ∧
      q1.allocator.map (fun m => m.ownerOf "A") = some (some "c1") :=
  by
  refine ⟨_, rfl, ?_, rfl⟩
  exact (failed_acquire_effect
    { allocator := some {
        groupIdHeader := "g",
        messageGroups := [("A", { group := "A", acquired := 1, members := [1] })],
        freeGroups := [(1, "A")] } } _
    (MessageGroupManager.sample 1 "A") "c1" rfl).2.1

end Queue

namespace Queue

/-! ## A candidate the consumer cannot take (C30) -/

theorem nextConsumableMessage_rest {q q1 : Queue} {c : Consumer} {r : Option QueuedMessage}
    (h : q.nextConsumableMessage c = some (r, q1)) : q1 = { q with allocator := q1.allocator } := by
  unfold nextConsumableMessage at h
  split at h
  · simp only [Option.some.injEq, Prod.mk.injEq] at h
    obtain ⟨-, h2⟩ := h
    subst h2
    rfl
  · split at h
    · exact absurd h (by simp)
    · simp only [Option.some.injEq, Prod.mk.injEq] at h
      obtain ⟨-, h2⟩ := h
      subst h2
      rfl

end Queue

namespace Queue


/-! ## move to the same queue (C25) -/

theorem sameSetup_refl (q : Queue) : SameSetup q q :=
  ⟨rfl, rfl, rfl, rfl, rfl, rfl, rfl, rfl, rfl, rfl, rfl⟩

theorem sameSetup_trans {q q1 q2 : Queue} (h1 : SameSetup q q1) (h2 : SameSetup q1 q2) :
    SameSetup q q2 := by
  obtain ⟨a1, a2, a3, a4, a5, a6, a7, a8, a9, a10, a11⟩ := h1
  obtain ⟨b1, b2, b3, b4, b5, b6, b7, b8, b9, b10, b11⟩ := h2
  exact ⟨b1.trans a1, b2.trans a2, b3.trans a3, b4.trans a4, b5.trans a5, b6.trans a6,
    b7.trans a7, b8.trans a8, b9.trans a9, b10.trans a10, b11.trans a11⟩

theorem drops_congr {q q1 : Queue} (h : SameSetup q q1) (msg : Message) :
    q1.drops msg = q.drops msg := by
  obtain ⟨-, -, a3, a4, a5, a6, a7, a8, -, -, -⟩ := h
  unfold drops isLocal isExcluded
  rw [a3, a4, a5, a6, a7, a8]

theorem notifyObservers_setup {q q1 : Queue} {n : Notification}
    (h : q.notifyObservers n = some q1) (halloc : q.allocator = none) :
    SameSetup q q1 ∧ q1.messages = q.messages ∧ q1.sequence = q.sequence := by
  unfold notifyObservers at h
  simp only [halloc, Option.some.injEq] at h
  subst h
  exact ⟨⟨rfl, halloc.symm ▸ rfl, rfl, rfl, rfl, rfl, rfl, rfl, rfl, rfl, rfl⟩, rfl, rfl⟩

theorem dequeue_setup {q q1 : Queue} {b : Bool} {qm : QueuedMessage} (hpol : q.policy = none)
    (halloc : q.allocator = none) (h : q.dequeue false qm = some (b, q1)) :
    SameSetup q q1 ∧ q1.messages = q.messages ∧ q1.sequence = q.sequence := by
  unfold dequeue at h
  split at h
  · cases h
    exact ⟨sameSetup_refl q, rfl, rfl⟩
  · split at h
    · cases h
      exact ⟨sameSetup_refl q, rfl, rfl⟩
    · simp only [Bool.false_eq_true, if_false] at h
      split at h
      · exact absurd h (by simp)
      · rename_i qa ha
        unfold dequeued at ha
        obtain ⟨s1, m1, e1⟩ := notifyObservers_setup ha halloc
        have hs : SameSetup q qa := by
          obtain ⟨a1, a2, a3, a4, a5, a6, a7, a8, a9, a10, a11⟩ := s1
          refine ⟨?_, a2, a3, a4, a5, a6, a7, a8, a9, a10, a11⟩
          rw [a1]
          show q.policy.map _ = q.policy
          simp only [hpol, Option.map_none']
        split at h
        · cases h
          exact ⟨hs, m1, e1⟩
        · cases h
          exact ⟨hs, m1, e1⟩

theorem enqueueStore_setup (q : Queue) (msg : Message) :
    SameSetup q (q.enqueueStore msg).2 ∧ (q.enqueueStore msg).2.messages = q.messages ∧
    (q.enqueueStore msg).2.sequence = q.sequence := by
  unfold enqueueStore forcePersistent
  simp only
  split_ifs <;> exact ⟨⟨rfl, rfl, rfl, rfl, rfl, rfl, rfl, rfl, rfl, rfl, rfl⟩, rfl, rfl⟩

theorem enqueueStore_message (q : Queue) (msg : Message) :
    SameContent msg (q.enqueueStore msg).1.2 ∧
    (q.traceId = "" → (q.enqueueStore msg).1.2 = msg) := by
  obtain ⟨q2, hq2, ht2⟩ : ∃ q2, (if (q.inLastNodeFailure && q.persistLastNode) = true
      then q.forcePersistent msg else q) = q2 ∧ q2.traceId = q.traceId := by
    refine ⟨_, rfl, ?_⟩
    unfold forcePersistent
    split_ifs <;> rfl
  unfold enqueueStore SameContent
  simp only [hq2, ht2]
  by_cases ht : q.traceId = ""
  · simp only [ht, ne_eq, not_true_eq_false, decide_False, Bool.false_eq_true, if_false]
    split_ifs <;> exact ⟨rfl, fun _ => rfl⟩
  · simp only [ht, ne_eq, not_false_eq_true, decide_True, if_true]
    split_ifs <;> exact ⟨rfl, fun h => h.elim⟩

theorem enqueue_setup {q : Queue} (hpol : q.policy = none) (msg : Message) :
    ∃ r q1, q.enqueue msg = .ok r q1 ∧ SameSetup q q1 ∧ q1.messages = q.messages ∧
      q1.sequence = q.sequence ∧ SameContent msg r.2 ∧ (q.traceId = "" → r.2 = msg) := by
  unfold enqueue
  split
  · exact ⟨_, _, rfl, sameSetup_refl q, rfl, rfl, rfl, fun _ => rfl⟩
  · have hp : q.enqueuePolicy msg false = .ok () q := by
      unfold enqueuePolicy
      rw [hpol]
    rw [hp]
    obtain ⟨s1, s2, s3⟩ := enqueueStore_setup q msg
    obtain ⟨s4, s5⟩ := enqueueStore_message q msg
    exact ⟨_, _, rfl, s1, s2, s3, s4, s5⟩

theorem push_setup {q q1 : Queue} {msg : Message} (hpol : q.policy = none)
    (halloc : q.allocator = none) (hkey : q.messages.key = none)
    (h : q.push msg = some q1) :
    ∃ payload, SameSetup q q1 ∧
      q1.messages.items = q.messages.items ++ [⟨payload, q.sequence + 1⟩] ∧
      q1.sequence = q.sequence + 1 ∧ SameContent msg payload ∧
      (q.insertSeqNo = false → payload = msg) := by
  have hcontent : SameContent msg
      (if q.insertSeqNo then setInt64 msg q.seqNoKey (q.sequence + 1) else msg) ∧
      (q.insertSeqNo = false →
        (if q.insertSeqNo then setInt64 msg q.seqNoKey (q.sequence + 1) else msg) = msg) := by
    unfold SameContent setInt64
    cases q.insertSeqNo
    · exact ⟨rfl, fun _ => rfl⟩
    · exact ⟨rfl, fun h => absurd h (by simp)⟩
  unfold push at h
  have hitems := pushQueued_items_deque hkey h
  have hseq := (pushQueued_effect h).1
  refine ⟨_, ?_, hitems, hseq, hcontent.1, hcontent.2⟩
  unfold pushQueued at h
  have hp : ∀ qm, q.messages.push qm
      = ({ q.messages with items := q.messages.items ++ [qm] }, none) := by
    intro qm
    simp only [Messages.push, hkey]
  simp only [hp] at h
  split at h
  · exact absurd h (by simp)
  · rename_i qa ha
    simp only [Option.some.injEq] at h
    subst h
    unfold enqueued at ha
    split at ha
    · exact absurd ha (by simp)
    · rename_i qb hb
      simp only [Option.some.injEq] at ha
      subst ha
      obtain ⟨⟨a1, a2, a3, a4, a5, a6, a7, a8, a9, a10, a11⟩, -, -⟩ :=
        notifyObservers_setup hb halloc
      refine ⟨?_, a2, a3, a4, a5, a6, a7, a8, a9, a10, a11⟩
      show qb.policy.map _ = q.policy
      rw [a1]
      show q.policy.map _ = q.policy
      simp only [hpol, Option.map_none']

theorem sameContent_trans {x y z : Message} (h1 : SameContent x y) (h2 : SameContent y z) :
    SameContent x z := by
  unfold SameContent at *
  rw [← h1, ← h2]

theorem deliver_self_step {q : Queue} (hpol : q.policy = none) (halloc : q.allocator = none)
    (hkey : q.messages.key = none) (msg : Message) :
    ∃ q1, q.deliver msg = .ok () q1 ∧ SameSetup q q1 ∧
      (q.drops msg = true → q1.messages = q.messages ∧ q1.sequence = q.sequence) ∧
      (q.drops msg = false →
        ∃ payload, q1.messages.items = q.messages.items ++ [⟨payload, q.sequence + 1⟩] ∧
          q1.sequence = q.sequence + 1 ∧ SameContent msg payload ∧
          (q.traceId = "" → q.insertSeqNo = false → payload = msg)) := by
  cases hdrop : q.drops msg with
  | true =>
    have h := @deliver_of_drop q msg hdrop
    rw [h]
    refine ⟨_, rfl, ?_, fun _ => ?_, fun h => absurd h (by simp)⟩
    · split
      · exact ⟨rfl, rfl, rfl, rfl, rfl, rfl, rfl, rfl, rfl, rfl, rfl⟩
      · exact sameSetup_refl q
    · split
      · exact ⟨rfl, rfl⟩
      · exact ⟨rfl, rfl⟩
  | false =>
    have h := @deliver_of_pass q msg hdrop
    rw [h]
    obtain ⟨r, qa, ha, sa, ma, ea, ca, ta⟩ := enqueue_setup hpol msg
    rw [ha]
    have hpol2 : qa.policy = none := sa.1.trans hpol
    have halloc2 : qa.allocator = none := sa.2.1.trans halloc
    have hkey2 : qa.messages.key = none := by rw [ma]; exact hkey
    obtain ⟨qb, hb, -⟩ := push_total r.2 false halloc2
    obtain ⟨payload, sb, mb, eb, cb, tb⟩ := push_setup hpol2 halloc2 hkey2 hb
    simp only [hb]
    refine ⟨_, rfl, sameSetup_trans sa sb, fun h => absurd h (by simp), fun _ => ?_⟩
    refine ⟨payload, ?_, ?_, sameContent_trans ca cb, fun ht hi => ?_⟩
    · rw [mb, ma]
      rw [ea]
    · rw [eb, ea]
    · have hi2 : qa.insertSeqNo = false := by
        rw [sa.2.2.2.2.2.2.2.2.2.1]
        exact hi
      rw [tb hi2, ta ht]

theorem moveLoop_self : ∀ (l : List QueuedMessage) (q : Queue), q.policy = none →
    q.allocator = none → q.messages.key = none →
    ∃ q1 pushed, moveLoop q none l = (.ok () q1, none) ∧ SameSetup q q1 ∧
      q1.messages.items = q.messages.items ++ pushed ∧
      pushed.map QueuedMessage.position = List.range' (q.sequence + 1) pushed.length ∧
      q1.sequence = q.sequence + pushed.length ∧
      List.Forall₂ (fun x y => SameContent x.payload y.payload ∧
          (q.traceId = "" → q.insertSeqNo = false → y.payload = x.payload))
        (l.filter (fun x => !q.drops x.payload)) pushed := by
  intro l
  induction l with
  | nil =>
    intro q _ _ _
    exact ⟨q, [], rfl, sameSetup_refl q, by simp, rfl, rfl, List.Forall₂.nil⟩
  | cons qm rest ih =>
    intro q hpol halloc hkey
    unfold moveLoop
    obtain ⟨qa, ha, -⟩ := notifyObservers_total (.acquired qm) halloc
    obtain ⟨sa, ma, ea⟩ := notifyObservers_setup ha halloc
    have ha2 : q.acquired qm = some qa := ha
    rw [ha2]
    have hpola : qa.policy = none := sa.1.trans hpol
    have halloca : qa.allocator = none := sa.2.1.trans halloc
    obtain ⟨b, qb, hb, -⟩ := dequeue_total false qm halloca
    obtain ⟨sb, mb, eb⟩ := dequeue_setup hpola halloca hb
    simp only [hb]
    have sab := sameSetup_trans sa sb
    have hpolb : qb.policy = none := sab.1.trans hpol
    have hallocb : qb.allocator = none := sab.2.1.trans halloc
    have hmb : qb.messages = q.messages := mb.trans ma
    have heb : qb.sequence = q.sequence := eb.trans ea
    have hkeyb : qb.messages.key = none := by rw [hmb]; exact hkey
    obtain ⟨qc, hc, sc, hdrop, hpass⟩ := deliver_self_step hpolb hallocb hkeyb qm.payload
    simp only [hc]
    have sac := sameSetup_trans sab sc
    have hpolc : qc.policy = none := sac.1.trans hpol
    have hallocc : qc.allocator = none := sac.2.1.trans halloc
    have hkeyc : qc.messages.key = none := sac.2.2.2.2.2.2.2.2.2.2.trans hkey
    obtain ⟨q1, pushed, h1, s1, m1, p1, e1, f1⟩ := ih qc hpolc hallocc hkeyc
    have hd : qb.drops qm.payload = q.drops qm.payload := drops_congr sab qm.payload
    have hfilter : (rest.filter (fun x => !qc.drops x.payload))
        = rest.filter (fun x => !q.drops x.payload) := by
      apply List.filter_congr
      intro x _
      rw [drops_congr sac]
    have htr : qc.traceId = q.traceId := sac.2.2.2.2.2.2.2.2.1
    have hin : qc.insertSeqNo = q.insertSeqNo := sac.2.2.2.2.2.2.2.2.2.1
    rw [hfilter, htr, hin] at f1
    cases hdq : q.drops qm.payload with
    | true =>
      obtain ⟨hm, he⟩ := hdrop (hd.trans hdq)
      refine ⟨q1, pushed, h1, sameSetup_trans sac s1, ?_, ?_, ?_, ?_⟩
      · rw [m1, hm, hmb]
      · rw [p1, he, heb]
      · rw [e1, he, heb]
      · simp only [List.filter_cons, hdq, Bool.not_true, Bool.false_eq_true, if_false]
        exact f1
    | false =>
      obtain ⟨payload, hm, he, hcont, hsame⟩ := hpass (hd.trans hdq)
      refine ⟨q1, ⟨payload, q.sequence + 1⟩ :: pushed, h1, sameSetup_trans sac s1, ?_, ?_, ?_,
        ?_⟩
      · rw [m1, hm, hmb, heb]
        simp
      · rw [List.map_cons, p1, he, heb]
        simp [List.range'_succ]
      · rw [e1, he, heb]
        simp only [List.length_cons]
        omega
      · simp only [List.filter_cons, hdq, Bool.not_false, if_true]
        refine List.Forall₂.cons ⟨hcont, fun ht hi => hsame ?_ ?_⟩ f1
        · rw [sab.2.2.2.2.2.2.2.2.1]
          exact ht
        · rw [sab.2.2.2.2.2.2.2.2.2.1]
          exact hi

theorem moveLoop_returns : ∀ (l : List QueuedMessage) {q : Queue}, q.allocator = none →
    ∃ q1, (moveLoop q none l).1.state? = some q1 ∧ q1.allocator = none := by
  intro l
  induction l with
  | nil => exact fun {q} h => ⟨q, rfl, h⟩
  | cons qm rest ih =>
    intro q h
    obtain ⟨qa, ha, ha2⟩ := acquired_total qm h
    obtain ⟨r, qb, hb, hb2⟩ := dequeue_total false qm ha2
    obtain ⟨qc, hc, hc2⟩ := deliver_total qm.payload hb2
    unfold moveLoop
    rw [ha]
    simp only [hb]
    cases hd : qb.deliver qm.payload with
    | aborted =>
      rw [hd] at hc
      exact absurd hc (by simp [Outcome.state?])
    | raised e qd =>
      rw [hd] at hc
      simp only [Outcome.state?, Option.some.injEq] at hc
      subst hc
      exact ⟨qd, rfl, hc2⟩
    | ok v qd =>
      rw [hd] at hc
      simp only [Outcome.state?, Option.some.injEq] at hc
      subst hc
      exact ih hc2

theorem move_returns {q : Queue} (qty : Nat) (filter : Option (List (String × Variant)))
    (h : q.allocator = none) :
    ∃ q1, (q.move none qty filter).1.state? = some q1 := by
  unfold move
  split
  · exact ⟨q, rfl⟩
  · rename_i mf hmf
    simp only
    obtain ⟨qa, ha, -⟩ := moveLoop_returns
      (q.messages.removeIf Collector.call { maxMatches := qty, filter := mf }).2.matched
      (q := { q with messages :=
        (q.messages.removeIf Collector.call { maxMatches := qty, filter := mf }).1 })
      h
    generalize moveLoop { q with messages :=
        (q.messages.removeIf Collector.call { maxMatches := qty, filter := mf }).1 } none
      (q.messages.removeIf Collector.call { maxMatches := qty, filter := mf }).2.matched
      = res at ha ⊢
    obtain ⟨o, d⟩ := res
    cases o with
    | aborted => exact absurd ha (by simp [Outcome.state?])
    | raised e qb => exact ⟨qa, ha⟩
    | ok v qb => exact ⟨qa, ha⟩

/-- C25 as stated fails for a queue with a policy.  The queue holds messages 1 and 2 and
its policy rejects what is enqueued; it is moved to itself.  `move` raises
ResourceLimitExceeded when the first message is delivered back and returns no count; both
messages are out of the container, none was enqueued again, and the sequence number has not
advanced. -/
theorem move_to_same_queue_rejected :
    ((move { policy := some { rejectsAfter := fun _ _ => true },
             messages := { items := [⟨{ id := 1 }, 1⟩, ⟨{ id := 2 }, 2⟩] }, sequence := 2 }
        none 0 none).1.error? = some .ResourceLimitExceeded) ∧
    ((move { policy := some { rejectsAfter := fun _ _ => true },
             messages := { items := [⟨{ id := 1 }, 1⟩, ⟨{ id := 2 }, 2⟩] }, sequence := 2 }
        none 0 none).1.value? = none) ∧
    ((move { policy := some { rejectsAfter := fun _ _ => true },
             messages := { items := [⟨{ id := 1 }, 1⟩, ⟨{ id := 2 }, 2⟩] }, sequence := 2 }
        none 0 none).1.state?.map
      (fun q1 => (q1.messages.items.map QueuedMessage.position, q1.sequence))
      = some ([], 2)) := by
  decide

/-- C25, amended: `q.move(q, qty, filter)`, the destination being the queue itself, on a
queue holding fewer than 2^32 messages, `mf` being the filter `MessageFilter::create`
builds.  (1) On every queue with the default allocator the call ends: it returns or raises
an exception, and no assertion fails.  (2) On a queue with the default allocator, no policy
and the Deque container: let `removed` be every message `mf` matches, in container order,
when `qty` is 0, and the first `qty` of them otherwise.  The call returns, and returns the
number of messages of `removed`.  The container holds afterwards the messages that were not
removed, in their order, followed by the messages `pushed`, one for each message of
`removed` that `deliver` does not drop, in the same order: each is the message moved (but
for the trace identity and the sequence header, when the queue writes them), and their
positions are the sequence numbers that follow `q.sequence`, so all are greater than every
position assigned before the call. -/
theorem move_to_same_queue (q : Queue) (qty : Nat)
    (filter : Option (List (String × Variant))) (mf : MessageFilter)
    (hmf : MessageFilter.create filter = some mf) (hsize : q.messages.size < UINT32_SIZE) :
    (q.allocator = none → ∃ q1, (q.move none qty filter).1.state? = some q1) ∧
    (q.policy = none → q.allocator = none → q.messages.key = none →
    ∃ q1 pushed,
      q.move none qty filter
        = (.ok (if qty = 0 then (q.messages.items.filter mf.isMatch).length
                else min qty (q.messages.items.filter mf.isMatch).length) q1, none) ∧
      q1.messages.items
        = (q.messages.removeIf Collector.call { maxMatches := qty, filter := mf }).1.items
          ++ pushed ∧
      (q.messages.removeIf Collector.call { maxMatches := qty, filter := mf }).1.items.Sublist
        q.messages.items ∧
      ((q.messages.removeIf Collector.call { maxMatches := qty, filter := mf }).1.items
        ++ (if qty = 0 then q.messages.items.filter mf.isMatch
            else (q.messages.items.filter mf.isMatch).take qty)).Perm q.messages.items ∧
      pushed.map QueuedMessage.position = List.range' (q.sequence + 1) pushed.length ∧
      (∀ y ∈ pushed, q.sequence < y.position) ∧
      q1.sequence = q.sequence + pushed.length ∧
      List.Forall₂ (fun x y => SameContent x.payload y.payload ∧
          (q.traceId = "" → q.insertSeqNo = false → y.payload = x.payload))
        ((if qty = 0 then q.messages.items.filter mf.isMatch
          else (q.messages.items.filter mf.isMatch).take qty).filter
            (fun x => !q.drops x.payload)) pushed) := by
  refine ⟨fun halloc => move_returns qty filter halloc, fun hpol halloc hkey => ?_⟩
  obtain ⟨h1, h2, h3⟩ := collector_pass qty mf q.messages
  obtain ⟨q1, pushed, hl, -, hm, hp, he, hf⟩ := moveLoop_self
    (q.messages.removeIf Collector.call { maxMatches := qty, filter := mf }).2.matched
    { q with messages :=
        (q.messages.removeIf Collector.call { maxMatches := qty, filter := mf }).1 }
    hpol halloc hkey
  have hdrops : ∀ msg, ({ q with messages :=
      (q.messages.removeIf Collector.call { maxMatches := qty, filter := mf }).1 } : Queue).drops
      msg = q.drops msg := fun _ => rfl
  simp only [hdrops] at hf
  rw [h1] at hf
  refine ⟨q1, pushed, ?_, hm, h2, h3, hp, ?_, he, hf⟩
  · have hlen : (q.messages.removeIf Collector.call
        { maxMatches := qty, filter := mf }).2.matched.length % UINT32_SIZE
        = (if qty = 0 then (q.messages.items.filter mf.isMatch).length
           else min qty (q.messages.items.filter mf.isMatch).length) := by
      rw [h1]
      have hle : (q.messages.items.filter mf.isMatch).length ≤ q.messages.items.length :=
        List.length_filter_le _ _
      have hlt : q.messages.items.length < UINT32_SIZE := hsize
      by_cases hn : qty = 0
      · simp only [hn, if_true]
        exact Nat.mod_eq_of_lt (by omega)
      · simp only [hn, if_false, List.length_take]
        exact Nat.mod_eq_of_lt (by omega)
    unfold move
    simp only [hmf]
    rw [hl]
    simp only [hlen]
  · intro y hy
    have hy2 : y.position ∈ pushed.map QueuedMessage.position := List.mem_map_of_mem _ hy
    rw [hp] at hy2
    have hy3 := (List.mem_range'_1.mp hy2).1
    have hs : ({ q with messages :=
      (q.messages.removeIf Collector.call { maxMatches := qty, filter := mf }).1 } : Queue).sequence
      = q.sequence := rfl
    omega

/-- C25, amended, at a concrete queue: the two messages of a queue are moved to the queue itself; they
come back at positions 3 and 4. -/
theorem move_to_same_queue_witness :
    ∃ q1 pushed,
      move { messages := { items := [⟨{ id := 1 }, 1⟩, ⟨{ id := 2 }, 2⟩] }, sequence := 2 }
        none 0 none = (.ok 2 q1, none) ∧
      q1.messages.items = pushed ∧
      pushed.map QueuedMessage.position = List.range' 3 pushed.length ∧
      pushed.map QueuedMessage.payload = [{ id := 1 }, { id := 2 }] := by
  obtain ⟨q1, pushed, h1, h2, -, -, h5, -, -, h8⟩ := (move_to_same_queue
    { messages := { items := [⟨{ id := 1 }, 1⟩, ⟨{ id := 2 }, 2⟩] }, sequence := 2 }
    0 none .all rfl (by decide)).2 rfl rfl rfl
  refine ⟨q1, pushed, h1, h2, h5, ?_⟩
  have h9 : List.Forall₂ (fun (x y : QueuedMessage) => y.payload = x.payload)
      [⟨{ id := 1 }, 1⟩, ⟨{ id := 2 }, 2⟩] pushed :=
    List.Forall₂.imp (fun _ _ h => h.2 rfl rfl) h8
  cases h9 with
  | cons ha hr =>
    cases hr with
    | cons hb hn =>
      cases hn
      simp only [List.map_cons, List.map_nil, ha, hb]

end Queue

namespace Queue


/-! ## messageLock and the calls on the store (C26) -/

theorem stored_refl (q : Queue) : Stored q q [] := by
  simp [Stored]

theorem stored_of_eq {q q1 : Queue} (h : q1.storeCalls = q.storeCalls) : Stored q q1 [] := by
  simp [Stored, h]

theorem stored_trans {q q1 q2 : Queue} {a b : List StoreAccess} (h1 : Stored q q1 a)
    (h2 : Stored q1 q2 b) : Stored q q2 (a ++ b) := by
  unfold Stored at *
  rw [h2, h1, List.map_append, List.append_assoc]

theorem dequeue_stored {q q1 : Queue} {ctxt b : Bool} {qm : QueuedMessage} (locks : Nat)
    (h : q.dequeue ctxt qm = some (b, q1)) : Stored q q1 (q.dequeueStoreCalls ctxt qm locks) := by
  have hio : q.dequeueStoreCalls ctxt qm locks
      = if b then [⟨.dequeue qm.payload.id, locks⟩] else [] := by
    unfold dequeueStoreCalls
    rw [h]
    cases b <;> rfl
  rw [hio]
  unfold dequeue at h
  split at h
  · cases h
    exact stored_refl q
  · split at h
    · cases h
      exact stored_refl q
    · split at h
      · exact absurd h (by simp)
      · rename_i qa ha
        have hs : qa.storeCalls = q.storeCalls := by
          cases ctxt
          · exact (dequeued_store ha).2.2.2
          · simp only [if_true, Option.some.injEq] at ha
            rw [ha]
        simp only at h
        split at h
        · cases h
          simp [Stored, hs]
        · cases h
          exact stored_of_eq hs

theorem dequeueStoreCalls_locks (q : Queue) (ctxt : Bool) (qm : QueuedMessage) (locks : Nat) :
    ∀ io ∈ q.dequeueStoreCalls ctxt qm locks, io.locks = locks := by
  intro io hio
  unfold dequeueStoreCalls at hio
  split at hio
  · simp only [List.mem_singleton] at hio
    rw [hio]
  · exact absurd hio (List.not_mem_nil io)

theorem dequeueAll_stored (locks : Nat) : ∀ (l : List QueuedMessage) {q q1 : Queue},
    q.dequeueAll l = some q1 → Stored q q1 (q.dequeueAllStoreCalls l locks) := by
  intro l
  induction l with
  | nil =>
    intro q q1 h
    simp only [dequeueAll, Option.some.injEq] at h
    subst h
    exact stored_refl q
  | cons qm rest ih =>
    intro q q1 h
    unfold dequeueAll at h
    unfold dequeueAllStoreCalls
    cases hd : q.dequeue false qm with
    | none => rw [hd] at h; exact absurd h (by simp)
    | some r =>
      obtain ⟨b, qa⟩ := r
      rw [hd] at h
      simp only at h ⊢
      exact stored_trans (dequeue_stored locks hd) (ih h)

theorem dequeueAllStoreCalls_locks (locks : Nat) : ∀ (l : List QueuedMessage) (q : Queue),
    ∀ io ∈ q.dequeueAllStoreCalls l locks, io.locks = locks := by
  intro l
  induction l with
  | nil =>
    intro q io hio
    exact absurd hio (List.not_mem_nil io)
  | cons qm rest ih =>
    intro q io hio
    unfold dequeueAllStoreCalls at hio
    rcases List.mem_append.mp hio with h | h
    · exact dequeueStoreCalls_locks q false qm locks io h
    · split at h
      · exact absurd h (List.not_mem_nil io)
      · exact ih _ io h

theorem enqueueStore_stored (q : Queue) (msg : Message) (locks : Nat) :
    Stored q (q.enqueueStore msg).2
      (if (q.enqueueStore msg).1.1 then [⟨.enqueue (q.enqueueStore msg).1.2.id, locks⟩]
       else []) := by
  obtain ⟨q2, hq2, hs2⟩ : ∃ q2, (if (q.inLastNodeFailure && q.persistLastNode) = true
      then q.forcePersistent msg else q) = q2 ∧ q2.storeCalls = q.storeCalls := by
    refine ⟨_, rfl, ?_⟩
    unfold forcePersistent
    split_ifs <;> rfl
  obtain ⟨q3, hq3, hs3⟩ : ∃ q3, (if decide (q2.traceId ≠ "") = true
      then { q2 with nextMessageId := q2.nextMessageId + 1 } else q2) = q3 ∧
      q3.storeCalls = q.storeCalls := by
    refine ⟨_, rfl, ?_⟩
    split_ifs
    · exact hs2
    · exact hs2
  unfold enqueueStore Stored
  simp only [hq2, hq3]
  generalize (if decide (q2.traceId ≠ "") = true
    then { msg with id := q2.nextMessageId, trace := msg.trace ++ [q2.traceId] }
    else msg) = msg1
  split
  · simp [hs3]
  · split
    · simp [hs3]
    · simp [hs3]

theorem enqueuePolicy_stored {q q1 : Queue} {msg : Message} {s : Bool} (locks : Nat)
    (h : (q.enqueuePolicy msg s).state? = some q1) :
    Stored q q1 (q.enqueuePolicyStoreCalls msg s locks) := by
  unfold enqueuePolicy at h
  unfold enqueuePolicyStoreCalls
  cases hpc : q.policy with
  | none =>
    simp only [hpc, Outcome.state?, Option.some.injEq] at h ⊢
    subst h
    exact stored_refl q
  | some p =>
    simp only [hpc] at h ⊢
    cases s with
    | true =>
      simp only [if_true, Outcome.state?, Option.some.injEq] at h ⊢
      subst h
      exact stored_refl q
    | false =>
      simp only [Bool.false_eq_true, if_false] at h ⊢
      cases hr : p.rejectsAfter p.calls msg with
      | true =>
        simp only [hr, if_true, Outcome.state?, Option.some.injEq] at h ⊢
        subst h
        exact stored_of_eq rfl
      | false =>
        simp only [hr, Bool.false_eq_true, if_false] at h ⊢
        split at h
        · exact absurd h (by simp [Outcome.state?])
        · rename_i qa ha
          simp only [Outcome.state?, Option.some.injEq] at h
          subst h
          exact dequeueAll_stored locks _ ha

theorem enqueuePolicyStoreCalls_locks (q : Queue) (msg : Message) (s : Bool) (locks : Nat) :
    ∀ io ∈ q.enqueuePolicyStoreCalls msg s locks, io.locks = locks := by
  intro io hio
  unfold enqueuePolicyStoreCalls at hio
  split at hio
  · exact absurd hio (List.not_mem_nil io)
  · split at hio
    · exact absurd hio (List.not_mem_nil io)
    · split at hio
      · exact absurd hio (List.not_mem_nil io)
      · exact dequeueAllStoreCalls_locks locks _ _ io hio

theorem enqueue_stored {q q1 : Queue} {msg : Message} {s : Bool} (locks : Nat)
    (h : (q.enqueue msg s).state? = some q1) : Stored q q1 (q.enqueueStoreCalls msg s locks) := by
  unfold enqueue at h
  unfold enqueueStoreCalls
  split at h
  · rename_i hd
    simp only [Outcome.state?, Option.some.injEq] at h
    subst h
    simp only [hd, if_true]
    exact stored_refl q
  · rename_i hd
    simp only [hd, if_false]
    cases hp : q.enqueuePolicy msg s with
    | aborted => rw [hp] at h; exact absurd h (by simp [Outcome.state?])
    | raised e qa =>
      rw [hp] at h
      simp only [Outcome.state?, Option.some.injEq] at h
      subst h
      have h2 : Stored q qa (q.enqueuePolicyStoreCalls msg s locks) :=
        enqueuePolicy_stored locks (by rw [hp]; rfl)
      simpa using h2
    | ok v qa =>
      rw [hp] at h
      simp only [Outcome.state?, Option.some.injEq] at h
      subst h
      have h2 : Stored q qa (q.enqueuePolicyStoreCalls msg s locks) :=
        enqueuePolicy_stored locks (by rw [hp]; rfl)
      exact stored_trans h2 (enqueueStore_stored qa msg locks)

theorem enqueueStoreCalls_locks (q : Queue) (msg : Message) (s : Bool) (locks : Nat) :
    ∀ io ∈ q.enqueueStoreCalls msg s locks, io.locks = locks := by
  intro io hio
  unfold enqueueStoreCalls at hio
  split at hio
  · exact absurd hio (List.not_mem_nil io)
  · rcases List.mem_append.mp hio with h | h
    · exact enqueuePolicyStoreCalls_locks q msg s locks io h
    · split at h
      · split at h
        · simp only [List.mem_singleton] at h
          rw [h]
        · exact absurd h (List.not_mem_nil io)
      · exact absurd h (List.not_mem_nil io)

theorem enqueued_store {q q1 : Queue} {qm : QueuedMessage} (h : q.enqueued qm = some q1) :
    q1.storeCalls = q.storeCalls := by
  unfold enqueued at h
  split at h
  · exact absurd h (by simp)
  · rename_i qa ha
    simp only [Option.some.injEq] at h
    subst h
    exact (notifyObservers_store ha).2.2.2

theorem pushQueued_stored {q q1 : Queue} {qm : QueuedMessage} {isRecovery : Bool}
    (locks : Nat) (h : q.pushQueued qm isRecovery = some q1) :
    Stored q q1 (q.pushQueuedStoreCalls qm isRecovery locks) := by
  unfold pushQueued at h
  unfold pushQueuedStoreCalls
  simp only at h ⊢
  split at h
  · exact absurd h (by simp)
  · rename_i qa ha
    have hsa : qa.storeCalls = q.storeCalls := by
      have := enqueued_store ha
      exact this
    try rw [ha]
    try simp only
    cases hp2 : (q.messages.push qm).2 with
    | none =>
      simp only [hp2, Option.some.injEq] at h ⊢
      subst h
      exact stored_of_eq hsa
    | some removed =>
      simp only [hp2] at h ⊢
      split at h
      · exact absurd h (by simp)
      · rename_i qb hb
        have hsb : qb.storeCalls = q.storeCalls := by
          have := (notifyObservers_store hb).2.2.2
          rw [this]
          exact hsa
        try rw [hb]
        try simp only
        cases isRecovery with
        | true =>
          simp only [if_true, Option.some.injEq] at h ⊢
          subst h
          exact stored_of_eq hsb
        | false =>
          simp only [Bool.false_eq_true, if_false] at h ⊢
          cases hd : qb.dequeue false removed with
          | none => rw [hd] at h; exact absurd h (by simp)
          | some r =>
            obtain ⟨b, qc⟩ := r
            rw [hd] at h
            simp only [Option.map_some', Option.some.injEq] at h
            subst h
            have h3 := dequeue_stored locks hd
            have h4 := stored_trans (stored_of_eq (q := q) hsb) h3
            simpa using h4

theorem pushQueuedStoreCalls_locks (q : Queue) (qm : QueuedMessage) (isRecovery : Bool) (locks : Nat) :
    ∀ io ∈ q.pushQueuedStoreCalls qm isRecovery locks, io.locks = locks := by
  intro io hio
  unfold pushQueuedStoreCalls at hio
  simp only at hio
  split at hio
  · exact absurd hio (List.not_mem_nil io)
  · split at hio
    · exact absurd hio (List.not_mem_nil io)
    · split at hio
      · exact absurd hio (List.not_mem_nil io)
      · split at hio
        · exact absurd hio (List.not_mem_nil io)
        · exact dequeueStoreCalls_locks _ _ _ _ io hio

theorem push_stored {q q1 : Queue} {msg : Message} {isRecovery : Bool} (locks : Nat)
    (h : q.push msg isRecovery = some q1) : Stored q q1 (q.pushStoreCalls msg isRecovery locks) := by
  unfold push at h
  unfold pushStoreCalls
  exact pushQueued_stored locks h

theorem pushStoreCalls_locks (q : Queue) (msg : Message) (isRecovery : Bool) (locks : Nat) :
    ∀ io ∈ q.pushStoreCalls msg isRecovery locks, io.locks = locks := by
  unfold pushStoreCalls
  exact pushQueuedStoreCalls_locks _ _ _ _

theorem deliver_stored {q q1 : Queue} {msg : Message} (locks : Nat)
    (h : (q.deliver msg).state? = some q1) : Stored q q1 (q.deliverStoreCalls msg locks) := by
  unfold deliverStoreCalls
  cases hdrop : q.drops msg with
  | true =>
    rw [deliver_of_drop hdrop] at h
    simp only [Outcome.state?, Option.some.injEq] at h
    subst h
    simp only [if_true]
    split
    · exact stored_of_eq rfl
    · exact stored_refl q
  | false =>
    rw [deliver_of_pass hdrop] at h
    simp only [Bool.false_eq_true, if_false]
    cases he : q.enqueue msg with
    | aborted => rw [he] at h; exact absurd h (by simp [Outcome.state?])
    | raised e qa =>
      rw [he] at h
      simp only [Outcome.state?, Option.some.injEq] at h
      subst h
      have h2 : Stored q qa (q.enqueueStoreCalls msg false locks) :=
        enqueue_stored locks (by rw [he]; rfl)
      simpa using h2
    | ok r qa =>
      rw [he] at h
      have h2 : Stored q qa (q.enqueueStoreCalls msg false locks) :=
        enqueue_stored locks (by rw [he]; rfl)
      simp only at h ⊢
      cases hp : qa.push r.2 with
      | none => rw [hp] at h; exact absurd h (by simp [Outcome.state?])
      | some qb =>
        rw [hp] at h
        simp only [Outcome.state?, Option.some.injEq] at h
        subst h
        exact stored_trans h2 (push_stored locks hp)

theorem deliverStoreCalls_locks (q : Queue) (msg : Message) (locks : Nat) :
    ∀ io ∈ q.deliverStoreCalls msg locks, io.locks = locks := by
  intro io hio
  unfold deliverStoreCalls at hio
  split at hio
  · exact absurd hio (List.not_mem_nil io)
  · rcases List.mem_append.mp hio with h | h
    · exact enqueueStoreCalls_locks q msg false locks io h
    · split at h
      · exact pushStoreCalls_locks _ _ _ _ io h
      · exact absurd h (List.not_mem_nil io)

theorem forcePersistent_store (q : Queue) (msg : Message) :
    (q.forcePersistent msg).storeCalls = q.storeCalls := by
  unfold forcePersistent
  split <;> rfl

theorem requeueForce_stored {q q1 : Queue} {qm : QueuedMessage} (locks : Nat)
    (h : (q.requeueForce qm).state? = some q1) : Stored q q1 (q.requeueForceStoreCalls qm locks) := by
  unfold requeueForce at h
  unfold requeueForceStoreCalls
  split at h
  · rename_i hc
    simp only [hc, if_true]
    simp only at h
    split at h
    · rename_i hf
      simp only [hf, if_true]
      have hs : Stored q (q.forcePersistent qm.payload) [] :=
        stored_of_eq (forcePersistent_store q qm.payload)
      cases he : (q.forcePersistent qm.payload).enqueue qm.payload with
      | aborted => rw [he] at h; exact absurd h (by simp [Outcome.state?])
      | raised e qa =>
        rw [he] at h
        simp only [Outcome.state?, Option.some.injEq] at h
        subst h
        have h2 : Stored (q.forcePersistent qm.payload) qa
            ((q.forcePersistent qm.payload).enqueueStoreCalls qm.payload false locks) :=
          enqueue_stored locks (by rw [he]; rfl)
        have h3 := stored_trans hs h2
        simpa using h3
      | ok r qa =>
        rw [he] at h
        simp only [Outcome.state?, Option.some.injEq] at h
        subst h
        have h2 : Stored (q.forcePersistent qm.payload) qa
            ((q.forcePersistent qm.payload).enqueueStoreCalls qm.payload false locks) :=
          enqueue_stored locks (by rw [he]; rfl)
        have h3 := stored_trans hs h2
        simpa using h3
    · rename_i hf
      simp only [hf, if_false]
      simp only [Outcome.state?, Option.some.injEq] at h
      subst h
      exact stored_of_eq (forcePersistent_store q qm.payload)
  · rename_i hc
    simp only [hc, if_false]
    simp only [Outcome.state?, Option.some.injEq] at h
    subst h
    exact stored_refl q

theorem requeueForceStoreCalls_locks (q : Queue) (qm : QueuedMessage) (locks : Nat) :
    ∀ io ∈ q.requeueForceStoreCalls qm locks, io.locks = locks := by
  intro io hio
  unfold requeueForceStoreCalls at hio
  split at hio
  · simp only at hio
    split at hio
    · exact enqueueStoreCalls_locks _ _ _ _ io hio
    · exact absurd hio (List.not_mem_nil io)
  · exact absurd hio (List.not_mem_nil io)

theorem requeue_stored {q q1 : Queue} {qm : QueuedMessage} (locks : Nat)
    (h : (q.requeue qm).state? = some q1) : Stored q q1 (q.requeueStoreCalls qm locks) := by
  unfold requeue at h
  unfold requeueStoreCalls
  split at h
  · rename_i hc
    simp only [hc, if_true]
    simp only [Outcome.state?, Option.some.injEq] at h
    subst h
    exact stored_refl q
  · rename_i hc
    simp only [hc, if_false]
    cases hr : requeueForce { q with messages := q.messages.reinsert qm, listeners := [] } qm with
    | aborted => rw [hr] at h; exact absurd h (by simp [Outcome.state?])
    | raised e qa =>
      rw [hr] at h
      simp only [Outcome.state?, Option.some.injEq] at h
      subst h
      have h2 : Stored { q with messages := q.messages.reinsert qm, listeners := [] } qa
          (requeueForceStoreCalls { q with messages := q.messages.reinsert qm, listeners := [] } qm
            (locks + 1)) :=
        requeueForce_stored (locks + 1) (by rw [hr]; rfl)
      exact h2
    | ok r qa =>
      rw [hr] at h
      have h2 : Stored { q with messages := q.messages.reinsert qm, listeners := [] } qa
          (requeueForceStoreCalls { q with messages := q.messages.reinsert qm, listeners := [] } qm
            (locks + 1)) :=
        requeueForce_stored (locks + 1) (by rw [hr]; rfl)
      simp only at h
      split at h
      · exact absurd h (by simp [Outcome.state?])
      · rename_i qb hb
        simp only [Outcome.state?, Option.some.injEq] at h
        subst h
        have hsb := (notifyObservers_store hb).2.2.2
        have h3 : Stored qa { qb with woken := qb.woken ++ q.listeners } [] :=
          stored_of_eq hsb
        have h4 := stored_trans h2 h3
        simpa using h4

theorem requeueStoreCalls_locks (q : Queue) (qm : QueuedMessage) (locks : Nat) :
    ∀ io ∈ q.requeueStoreCalls qm locks, io.locks = locks + 1 := by
  intro io hio
  unfold requeueStoreCalls at hio
  split at hio
  · exact absurd hio (List.not_mem_nil io)
  · exact requeueForceStoreCalls_locks _ _ _ io hio

theorem acquire_store {q q1 : Queue} {pos : Nat} {r : Option QueuedMessage}
    (h : q.acquire pos = some (r, q1)) : q1.storeCalls = q.storeCalls := by
  unfold acquire at h
  split at h
  · simp only [Option.some.injEq, Prod.mk.injEq] at h
    rw [← h.2]
  · split at h
    · exact absurd h (by simp)
    · rename_i qa ha
      simp only [Option.some.injEq, Prod.mk.injEq] at h
      rw [← h.2]
      exact (notifyObservers_store ha).2.2.2

theorem consumeLoop_stored (locks : Nat) : ∀ (fuel : Nat) {q q1 : Queue} {c c1 : Consumer}
    {code : ConsumeCode} {m : Option QueuedMessage},
    q.consumeLoop fuel c = some (code, m, c1, q1) →
    Stored q q1 (consumeLoopStoreCalls fuel q c locks) := by
  intro fuel
  induction fuel with
  | zero =>
    intro q q1 c c1 code m h
    simp [consumeLoop] at h
  | succ n ih =>
    intro q q1 c c1 code m h
    unfold consumeLoop at h
    unfold consumeLoopStoreCalls
    cases hn : q.nextConsumableMessage c with
    | none => rw [hn] at h; exact absurd h (by simp)
    | some r =>
      obtain ⟨cand, qa⟩ := r
      have hsa : qa.storeCalls = q.storeCalls := by
        rw [nextConsumableMessage_rest hn]
      rw [hn] at h
      cases cand with
      | none =>
        simp only [Option.some.injEq, Prod.mk.injEq] at h ⊢
        obtain ⟨-, -, -, h4⟩ := h
        subst h4
        refine stored_of_eq ?_
        unfold addListener
        split
        · exact hsa
        · exact hsa
      | some msg =>
        simp only at h ⊢
        cases hexp : msg.payload.expired with
        | true =>
          simp only [hexp, if_true] at h ⊢
          cases hacq : qa.acquire msg.position with
          | none => rw [hacq] at h; exact absurd h (by simp)
          | some r2 =>
            obtain ⟨removed, qb⟩ := r2
            rw [hacq] at h
            have hsb : qb.storeCalls = q.storeCalls := (acquire_store hacq).trans hsa
            simp only at h ⊢
            cases hd : qb.dequeue false (removed.getD msg) with
            | none => rw [hd] at h; exact absurd h (by simp)
            | some r3 =>
              obtain ⟨b, qc⟩ := r3
              rw [hd] at h
              simp only at h ⊢
              have h3 := dequeue_stored (locks + 1) hd
              have h4 := stored_trans (stored_of_eq (q := q) hsb) h3
              have h5 := stored_trans h4 (ih h)
              simpa using h5
        | false =>
          simp only [hexp, Bool.false_eq_true, if_false] at h ⊢
          split at h
          · split at h
            · split at h
              · exact absurd h (by simp)
              · exact absurd h (by simp)
              · rename_i qb hb
                have hsb : qb.storeCalls = q.storeCalls := by
                  unfold allocatorAcquire at hb
                  split at hb
                  · simp only [Option.some.injEq, Prod.mk.injEq] at hb
                    rw [← hb.2]
                    exact hsa
                  · split at hb
                    · exact absurd hb (by simp)
                    · simp only [Option.some.injEq, Prod.mk.injEq] at hb
                      rw [← hb.2]
                      exact hsa
                split at h
                · exact absurd h (by simp)
                · exact absurd h (by simp)
                · rename_i x qc hc
                  simp only [Option.some.injEq, Prod.mk.injEq] at h
                  obtain ⟨-, -, -, h4⟩ := h
                  subst h4
                  exact stored_of_eq ((acquire_store hc).trans hsb)
            · simp only [Option.some.injEq, Prod.mk.injEq] at h
              obtain ⟨-, -, -, h4⟩ := h
              subst h4
              exact stored_of_eq hsa
          · simp only [Option.some.injEq, Prod.mk.injEq] at h
            obtain ⟨-, -, -, h4⟩ := h
            subst h4
            exact stored_of_eq hsa

theorem consumeLoopStoreCalls_locks (locks : Nat) : ∀ (fuel : Nat) (q : Queue) (c : Consumer),
    ∀ io ∈ consumeLoopStoreCalls fuel q c locks, io.locks = locks + 1 := by
  intro fuel
  induction fuel with
  | zero =>
    intro q c io hio
    exact absurd hio (List.not_mem_nil io)
  | succ n ih =>
    intro q c io hio
    unfold consumeLoopStoreCalls at hio
    split at hio
    · split at hio
      · split at hio
        · exact absurd hio (List.not_mem_nil io)
        · rcases List.mem_append.mp hio with h | h
          · exact dequeueStoreCalls_locks _ _ _ _ io h
          · split at h
            · exact absurd h (List.not_mem_nil io)
            · exact ih _ _ io h
      · exact absurd hio (List.not_mem_nil io)
    · exact absurd hio (List.not_mem_nil io)

theorem purgeLoop_stored (locks : Nat) :
    ∀ (l : List QueuedMessage) {q q1 : Queue}, purgeLoop q l = some q1 →
    Stored q q1 (purgeLoopStoreCalls q l locks) := by
  intro l
  induction l with
  | nil =>
    intro q q1 h
    simp only [purgeLoop, Option.some.injEq] at h
    subst h
    exact stored_refl q
  | cons qm rest ih =>
    intro q q1 h
    unfold purgeLoop at h
    unfold purgeLoopStoreCalls
    cases ha : q.acquired qm with
    | none => rw [ha] at h; exact absurd h (by simp)
    | some qa =>
      rw [ha] at h
      have hsa : qa.storeCalls = q.storeCalls := (notifyObservers_store ha).2.2.2
      simp only at h ⊢
      cases hd : qa.dequeue false qm with
      | none => rw [hd] at h; exact absurd h (by simp)
      | some r =>
        obtain ⟨b, qb⟩ := r
        rw [hd] at h
        simp only at h ⊢
        have h3 := stored_trans (stored_of_eq (q := q) hsa) (dequeue_stored locks hd)
        have h5 := stored_trans h3 (ih h)
        simpa using h5

theorem purgeLoopStoreCalls_locks (locks : Nat) :
    ∀ (l : List QueuedMessage) (q : Queue), ∀ io ∈ purgeLoopStoreCalls q l locks,
      io.locks = locks := by
  intro l
  induction l with
  | nil =>
    intro q io hio
    exact absurd hio (List.not_mem_nil io)
  | cons qm rest ih =>
    intro q io hio
    unfold purgeLoopStoreCalls at hio
    split at hio
    · exact absurd hio (List.not_mem_nil io)
    · rcases List.mem_append.mp hio with h | h
      · exact dequeueStoreCalls_locks _ _ _ _ io h
      · split at h
        · exact absurd h (List.not_mem_nil io)
        · exact ih _ io h

theorem routeWithAlternate_stored {q q1 : Queue} {ex : Exchange} {msg : Message} (locks : Nat)
    (h : (q.routeWithAlternate ex msg).state? = some q1) :
    Stored q q1 (q.routeWithAlternateStoreCalls ex msg locks) := by
  unfold routeWithAlternate at h
  unfold routeWithAlternateStoreCalls
  simp only at h
  cases hr : ex.routesHere msg with
  | true =>
    rw [hr] at h
    simp only [if_true] at h ⊢
    have h2 : Stored { q with rerouted := q.rerouted ++ [(ex.name, msg)] } q1
        (deliverStoreCalls { q with rerouted := q.rerouted ++ [(ex.name, msg)] } msg locks) :=
      deliver_stored locks h
    exact h2
  | false =>
    rw [hr] at h
    simp only [Bool.false_eq_true, if_false, Outcome.state?, Option.some.injEq] at h ⊢
    subst h
    exact stored_of_eq rfl

theorem routeWithAlternateStoreCalls_locks (q : Queue) (ex : Exchange) (msg : Message)
    (locks : Nat) : ∀ io ∈ q.routeWithAlternateStoreCalls ex msg locks, io.locks = locks := by
  intro io hio
  unfold routeWithAlternateStoreCalls at hio
  split at hio
  · exact deliverStoreCalls_locks _ _ _ io hio
  · exact absurd hio (List.not_mem_nil io)

theorem rerouteLoop_stored (dest : Option Exchange) (locks : Nat) :
    ∀ (l : List QueuedMessage) {q q1 : Queue}, (rerouteLoop dest q l).state? = some q1 →
    Stored q q1 (rerouteLoopStoreCalls dest q l locks) := by
  intro l
  induction l with
  | nil =>
    intro q q1 h
    simp only [rerouteLoop, Outcome.state?, Option.some.injEq] at h
    subst h
    exact stored_refl q
  | cons qm rest ih =>
    intro q q1 h
    unfold rerouteLoop at h
    unfold rerouteLoopStoreCalls
    cases ha : q.acquired qm with
    | none => rw [ha] at h; exact absurd h (by simp [Outcome.state?])
    | some qa =>
      rw [ha] at h
      have hsa : qa.storeCalls = q.storeCalls := (notifyObservers_store ha).2.2.2
      simp only at h ⊢
      cases hd : qa.dequeue false qm with
      | none => rw [hd] at h; exact absurd h (by simp [Outcome.state?])
      | some r =>
        obtain ⟨b, qb⟩ := r
        rw [hd] at h
        simp only at h ⊢
        have h3 := stored_trans (stored_of_eq (q := q) hsa) (dequeue_stored locks hd)
        cases dest with
        | none =>
          simp only at h ⊢
          have h5 := stored_trans h3 (ih h)
          simpa using h5
        | some ex =>
          simp only at h ⊢
          cases hdl : qb.routeWithAlternate ex qm.payload with
          | aborted => rw [hdl] at h; exact absurd h (by simp [Outcome.state?])
          | raised e qc =>
            rw [hdl] at h
            simp only [Outcome.state?, Option.some.injEq] at h
            subst h
            have h4 : Stored qb qc (qb.routeWithAlternateStoreCalls ex qm.payload locks) :=
              routeWithAlternate_stored locks (by rw [hdl]; rfl)
            have h5 := stored_trans h3 h4
            simpa using h5
          | ok v qc =>
            rw [hdl] at h
            simp only at h
            have h4 : Stored qb qc (qb.routeWithAlternateStoreCalls ex qm.payload locks) :=
              routeWithAlternate_stored locks (by rw [hdl]; rfl)
            have h5 := stored_trans (stored_trans h3 h4) (ih h)
            simpa using h5

theorem rerouteLoopStoreCalls_locks (dest : Option Exchange) (locks : Nat) :
    ∀ (l : List QueuedMessage) (q : Queue), ∀ io ∈ rerouteLoopStoreCalls dest q l locks,
      io.locks = locks := by
  intro l
  induction l with
  | nil =>
    intro q io hio
    exact absurd hio (List.not_mem_nil io)
  | cons qm rest ih =>
    intro q io hio
    unfold rerouteLoopStoreCalls at hio
    split at hio
    · exact absurd hio (List.not_mem_nil io)
    · rcases List.mem_append.mp hio with h | h
      · exact dequeueStoreCalls_locks _ _ _ _ io h
      · split at h
        · exact absurd h (List.not_mem_nil io)
        · split at h
          · exact ih _ io h
          · rcases List.mem_append.mp h with h2 | h2
            · exact routeWithAlternateStoreCalls_locks _ _ _ _ io h2
            · split at h2
              · exact ih _ io h2
              · exact absurd h2 (List.not_mem_nil io)

theorem purge_stored {q q1 : Queue} {n : Nat} {dest : Option Exchange}
    {filter : Option (List (String × Variant))} (locks : Nat)
    (h : (q.purge n dest filter).state? = some q1) :
    Stored q q1 (q.purgeStoreCalls n dest filter locks) := by
  unfold purge at h
  unfold purgeStoreCalls
  cases hf : MessageFilter.create filter with
  | none =>
    simp only [hf, Outcome.state?, Option.some.injEq] at h ⊢
    subst h
    exact stored_refl q
  | some mf =>
    simp only [hf] at h ⊢
    have key := @rerouteLoop_stored dest (locks + 1)
      (q.messages.removeIf Collector.call { maxMatches := n, filter := mf }).2.matched
      { q with messages :=
        (q.messages.removeIf Collector.call { maxMatches := n, filter := mf }).1 }
      q1
    apply key
    generalize rerouteLoop dest { q with messages :=
        (q.messages.removeIf Collector.call { maxMatches := n, filter := mf }).1 }
      (q.messages.removeIf Collector.call { maxMatches := n, filter := mf }).2.matched = res
      at h ⊢
    cases res with
    | aborted => exact absurd h (by simp [Outcome.state?])
    | raised e qa => exact h
    | ok v qa => exact h

theorem purgeStoreCalls_locks (q : Queue) (n : Nat) (dest : Option Exchange)
    (filter : Option (List (String × Variant))) (locks : Nat) :
    ∀ io ∈ q.purgeStoreCalls n dest filter locks, io.locks = locks + 1 := by
  intro io hio
  unfold purgeStoreCalls at hio
  split at hio
  · exact absurd hio (List.not_mem_nil io)
  · exact rerouteLoopStoreCalls_locks _ _ _ _ io hio

theorem purgeExpired_stored {q q1 : Queue} {lapse : Int} (locks : Nat)
    (h : q.purgeExpired lapse = some q1) : Stored q q1 (q.purgeExpiredStoreCalls lapse locks) := by
  unfold purgeExpired at h
  unfold purgeExpiredStoreCalls
  dsimp only at h ⊢
  split at h
  · exact absurd h (by simp)
  · rename_i hub
    rw [if_neg hub]
    split at h
    · rename_i hdue
      rw [if_pos hdue]
      have h2 := purgeLoop_stored locks _ h
      exact h2
    · rename_i hdue
      rw [if_neg hdue]
      have hq := Option.some.inj h
      subst hq
      exact stored_of_eq rfl

theorem purgeExpiredStoreCalls_locks (q : Queue) (lapse : Int) (locks : Nat) :
    ∀ io ∈ q.purgeExpiredStoreCalls lapse locks, io.locks = locks := by
  intro io hio
  unfold purgeExpiredStoreCalls at hio
  dsimp only at hio
  split at hio
  · exact absurd hio (List.not_mem_nil io)
  · split at hio
    · exact purgeLoopStoreCalls_locks _ _ _ io hio
    · exact absurd hio (List.not_mem_nil io)

theorem moveLoop_stored (locks : Nat) : ∀ (l : List QueuedMessage) {q q1 : Queue},
    (moveLoop q none l).1.state? = some q1 → Stored q q1 (moveLoopStoreCalls q none l locks) := by
  intro l
  induction l with
  | nil =>
    intro q q1 h
    simp only [moveLoop, Outcome.state?, Option.some.injEq] at h
    subst h
    exact stored_refl q
  | cons qm rest ih =>
    intro q q1 h
    unfold moveLoop at h
    unfold moveLoopStoreCalls
    cases ha : q.acquired qm with
    | none => rw [ha] at h; exact absurd h (by simp [Outcome.state?])
    | some qa =>
      rw [ha] at h
      have hsa : qa.storeCalls = q.storeCalls := (notifyObservers_store ha).2.2.2
      simp only at h ⊢
      cases hd : qa.dequeue false qm with
      | none => rw [hd] at h; exact absurd h (by simp [Outcome.state?])
      | some r =>
        obtain ⟨b, qb⟩ := r
        rw [hd] at h
        simp only at h ⊢
        have h3 := stored_trans (stored_of_eq (q := q) hsa) (dequeue_stored locks hd)
        cases hdl : qb.deliver qm.payload with
        | aborted => rw [hdl] at h; exact absurd h (by simp [Outcome.state?])
        | raised e qc =>
          rw [hdl] at h
          simp only [Outcome.state?, Option.some.injEq] at h
          subst h
          have h4 : Stored qb qc (qb.deliverStoreCalls qm.payload locks) :=
            deliver_stored locks (by rw [hdl]; rfl)
          have h5 := stored_trans h3 h4
          simpa using h5
        | ok v qc =>
          rw [hdl] at h
          simp only at h
          have h4 : Stored qb qc (qb.deliverStoreCalls qm.payload locks) :=
            deliver_stored locks (by rw [hdl]; rfl)
          have h5 := stored_trans (stored_trans h3 h4) (ih h)
          simpa using h5

theorem moveLoopStoreCalls_locks (locks : Nat) : ∀ (l : List QueuedMessage) (q : Queue)
    (destq : Option Queue), ∀ io ∈ moveLoopStoreCalls q destq l locks, io.locks = locks := by
  intro l
  induction l with
  | nil =>
    intro q destq io hio
    unfold moveLoopStoreCalls at hio
    exact absurd hio (List.not_mem_nil io)
  | cons qm rest ih =>
    intro q destq io hio
    unfold moveLoopStoreCalls at hio
    split at hio
    · exact absurd hio (List.not_mem_nil io)
    · rcases List.mem_append.mp hio with h | h
      · exact dequeueStoreCalls_locks _ _ _ _ io h
      · split at h
        · exact absurd h (List.not_mem_nil io)
        · split at h
          · rcases List.mem_append.mp h with h2 | h2
            · exact deliverStoreCalls_locks _ _ _ io h2
            · split at h2
              · exact ih _ _ io h2
              · exact absurd h2 (List.not_mem_nil io)
          · rcases List.mem_append.mp h with h2 | h2
            · exact deliverStoreCalls_locks _ _ _ io h2
            · split at h2
              · exact ih _ _ io h2
              · exact absurd h2 (List.not_mem_nil io)

theorem move_stored {q q1 : Queue} {qty : Nat} {filter : Option (List (String × Variant))}
    (locks : Nat) (h : (q.move none qty filter).1.state? = some q1) :
    Stored q q1 (q.moveStoreCalls none qty filter locks) := by
  unfold move at h
  unfold moveStoreCalls
  cases hf : MessageFilter.create filter with
  | none =>
    simp only [hf, Outcome.state?, Option.some.injEq] at h ⊢
    subst h
    exact stored_refl q
  | some mf =>
    simp only [hf] at h ⊢
    have key := @moveLoop_stored (locks + 1)
      (q.messages.removeIf Collector.call { maxMatches := qty, filter := mf }).2.matched
      { q with messages :=
        (q.messages.removeIf Collector.call { maxMatches := qty, filter := mf }).1 }
      q1
    apply key
    generalize moveLoop { q with messages :=
        (q.messages.removeIf Collector.call { maxMatches := qty, filter := mf }).1 } none
      (q.messages.removeIf Collector.call { maxMatches := qty, filter := mf }).2.matched = res
      at h ⊢
    obtain ⟨o, d⟩ := res
    cases o with
    | aborted => exact absurd h (by simp [Outcome.state?])
    | raised e qa => exact h
    | ok v qa => exact h

theorem moveStoreCalls_locks (q : Queue) (destq : Option Queue) (qty : Nat)
    (filter : Option (List (String × Variant))) (locks : Nat) :
    ∀ io ∈ q.moveStoreCalls destq qty filter locks, io.locks = locks + 1 := by
  intro io hio
  unfold moveStoreCalls at hio
  split at hio
  · exact absurd hio (List.not_mem_nil io)
  · exact moveLoopStoreCalls_locks _ _ _ _ io hio

theorem pop_store {q q1 : Queue} (h : q.pop = some q1) : q1.storeCalls = q.storeCalls := by
  unfold pop at h
  split at h
  · simp only [Option.some.injEq] at h
    rw [← h]
  · split at h
    · exact absurd h (by simp)
    · rename_i qa ha
      simp only [Option.some.injEq] at h
      rw [← h]
      exact (notifyObservers_store ha).2.2.2

theorem drainLoop_stored (locks : Nat) : ∀ (fuel : Nat) {q q1 : Queue},
    drainLoop fuel q = some q1 → Stored q q1 (drainLoopStoreCalls fuel q locks) := by
  intro fuel
  induction fuel with
  | zero =>
    intro q q1 h
    simp [drainLoop] at h
  | succ n ih =>
    intro q q1 h
    unfold drainLoop at h
    unfold drainLoopStoreCalls
    cases hf : q.messages.front with
    | none =>
      simp only [hf, Option.some.injEq] at h ⊢
      subst h
      exact stored_refl q
    | some msg =>
      simp only [hf] at h ⊢
      unfold popAndDequeue at h
      have hf2 : ({ q with routed := q.routed ++ [msg.payload] } : Queue).messages.front
          = some msg := hf
      simp only [hf2] at h
      cases hp : ({ q with routed := q.routed ++ [msg.payload] } : Queue).pop with
      | none => rw [hp] at h; exact absurd h (by simp)
      | some qa =>
        rw [hp] at h
        have hsa : qa.storeCalls = q.storeCalls := by
          have := pop_store hp
          exact this
        simp only at h ⊢
        cases hd : qa.dequeue false msg with
        | none => rw [hd] at h; exact absurd h (by simp)
        | some r =>
          obtain ⟨b, qb⟩ := r
          rw [hd] at h
          simp only [Option.map_some'] at h ⊢
          have h3 := stored_trans (stored_of_eq (q := q) hsa) (dequeue_stored locks hd)
          have h5 := stored_trans h3 (ih h)
          simpa using h5

theorem drainLoopStoreCalls_locks (locks : Nat) : ∀ (fuel : Nat) (q : Queue),
    ∀ io ∈ drainLoopStoreCalls fuel q locks,
      io.locks = locks ∧ ∃ id, io.call = StoreCall.dequeue id := by
  intro fuel
  induction fuel with
  | zero =>
    intro q io hio
    exact absurd hio (List.not_mem_nil io)
  | succ n ih =>
    intro q io hio
    unfold drainLoopStoreCalls at hio
    split at hio
    · exact absurd hio (List.not_mem_nil io)
    · split at hio
      · exact absurd hio (List.not_mem_nil io)
      · rcases List.mem_append.mp hio with h | h
        · unfold dequeueStoreCalls at h
          split at h
          · simp only [List.mem_singleton] at h
            rw [h]
            exact ⟨rfl, _, rfl⟩
          · exact absurd h (List.not_mem_nil io)
        · split at h
          · exact absurd h (List.not_mem_nil io)
          · exact ih _ io h

theorem destroyed_stored {q q1 : Queue} (locks : Nat) (h : q.destroyed = some q1) :
    Stored q q1 (q.destroyedStoreCalls locks) := by
  unfold destroyed at h
  unfold destroyedStoreCalls
  split at h
  · exact absurd h (by simp)
  · rename_i hb
    simp only [hb, if_false]
    simp only at h
    by_cases halt : q.hasAlternateExchange = true
    · simp only [if_pos halt] at h ⊢
      cases hdr : drainLoop (q.messages.size + 1) { q with unbound := true } with
      | none => rw [hdr] at h; exact absurd h (by simp)
      | some qa =>
        rw [hdr] at h
        simp only [Option.map_some'] at h ⊢
        have hq := Option.some.inj h
        subst hq
        have h3 : qa.storeCalls = q.storeCalls ++ (drainLoopStoreCalls (q.messages.size + 1)
            { q with unbound := true } (locks + 1)).map StoreAccess.call :=
          drainLoop_stored (locks + 1) _ hdr
        by_cases hs : qa.hasStore = true
        · simp only [if_pos hs]
          unfold Stored notifyDeleted
          simp [h3]
        · simp only [if_neg hs]
          unfold Stored notifyDeleted
          simp [h3]
    · simp only [if_neg halt] at h ⊢
      have hq := Option.some.inj h
      subst hq
      by_cases hs : q.hasStore = true
      · simp only [if_pos hs]
        unfold Stored notifyDeleted
        simp
      · simp only [if_neg hs]
        unfold Stored notifyDeleted
        simp

theorem destroyedStoreCalls_locks (q : Queue) (locks : Nat) :
    ∀ io ∈ q.destroyedStoreCalls locks,
      (io.locks = locks + 1 ∧ ∃ id, io.call = StoreCall.dequeue id) ∨
      (io.locks = locks ∧ (io.call = StoreCall.flush ∨ io.call = StoreCall.destroy)) := by
  intro io hio
  unfold destroyedStoreCalls at hio
  split at hio
  · exact absurd hio (List.not_mem_nil io)
  · simp only at hio
    rcases List.mem_append.mp hio with h | h
    · split at h
      · exact Or.inl (drainLoopStoreCalls_locks _ _ _ io h)
      · exact absurd h (List.not_mem_nil io)
    · split at h
      · exact absurd h (List.not_mem_nil io)
      · split at h
        · simp only [List.mem_cons, List.mem_singleton, List.not_mem_nil, or_false] at h
          rcases h with h | h
          · rw [h]
            exact Or.inr ⟨rfl, Or.inl rfl⟩
          · rw [h]
            exact Or.inr ⟨rfl, Or.inr rfl⟩
        · exact absurd h (List.not_mem_nil io)

/-- C26 as stated fails: on a queue with a store, the store is called while the calling
operation holds `messageLock` (a lock count of 1 for a caller that holds no lock).
(1) `purge` of a durable message calls `store->dequeue` through `dequeue(0, msg)` inside its
lock scope.  (2) `requeue` in last-node failure calls `store->enqueue` through
`enqueue(0, payload)` inside its lock block.  (3) `consumeNextMessage` discards an expired
durable message with `dequeue(0, msg)` under the lock of the iteration.  (4) `move`, here
to the queue itself, calls `store->dequeue` and `store->enqueue` inside its lock scope.
(5) `destroyed` drains to the alternate exchange under the lock; only `flush` and `destroy`
are called outside it. -/
theorem store_called_under_message_lock :
    purgeStoreCalls
        { hasStore := true,
          messages := { items := [⟨{ id := 1, durable := true }, 1⟩] },
          sequence := 1 } 0 none none 0
      = [⟨.dequeue 1, 1⟩] ∧
    requeueStoreCalls
        { hasStore := true, inLastNodeFailure := true, persistLastNode := true,
          sequence := 1 } ⟨{ id := 1 }, 1⟩ 0
      = [⟨.enqueue 1, 1⟩] ∧
    consumeNextMessageStoreCalls
        { hasStore := true,
          messages := { items := [⟨{ id := 1, durable := true, expired := true }, 1⟩] },
          sequence := 1 } { name := "c" } 0
      = [⟨.dequeue 1, 1⟩] ∧
    moveStoreCalls
        { hasStore := true,
          messages := { items := [⟨{ id := 1, durable := true }, 1⟩] },
          sequence := 1 } none 0 none 0
      = [⟨.dequeue 1, 1⟩, ⟨.enqueue 1, 1⟩] ∧
    destroyedStoreCalls
        { hasStore := true, hasAlternateExchange := true,
          messages := { items := [⟨{ id := 1, durable := true }, 1⟩] },
          sequence := 1 } 0
      = [⟨.dequeue 1, 1⟩, ⟨.flush, 0⟩, ⟨.destroy, 0⟩] := by
  decide

/-- C26, amended: the calls on the store and `messageLock`, for a caller that holds the lock
`locks` times (0 for a caller outside any critical section).  (1) `enqueue`, `dequeue`,
`push` and `purgeExpired` call the store with the lock held `locks` times: their own lock
blocks are closed before `store->enqueue` and `store->dequeue`, and the dequeues of the
policy, of a displaced message and of the expired messages are made after the block.
(2) `requeue`, `consumeNextMessage`, `purge` and `move` call the store with the lock held
once more, by the operation itself; `destroyed` calls `store->dequeue` with the lock held
once more, and `flush` and `destroy` with the lock held `locks` times.  (3) The calls so
listed are exactly the calls each operation makes on the store, in order (`move` being
taken to the queue itself). -/
theorem store_calls_and_message_lock (q : Queue) (locks : Nat) :
    ((∀ msg s, ∀ io ∈ q.enqueueStoreCalls msg s locks, io.locks = locks) ∧
     (∀ ctxt qm, ∀ io ∈ q.dequeueStoreCalls ctxt qm locks, io.locks = locks) ∧
     (∀ msg isRecovery, ∀ io ∈ q.pushStoreCalls msg isRecovery locks, io.locks = locks) ∧
     (∀ lapse, ∀ io ∈ q.purgeExpiredStoreCalls lapse locks, io.locks = locks)) ∧
    ((∀ qm, ∀ io ∈ q.requeueStoreCalls qm locks, io.locks = locks + 1) ∧
     (∀ c, ∀ io ∈ q.consumeNextMessageStoreCalls c locks, io.locks = locks + 1) ∧
     (∀ n dest filter, ∀ io ∈ q.purgeStoreCalls n dest filter locks, io.locks = locks + 1) ∧
     (∀ destq qty filter, ∀ io ∈ q.moveStoreCalls destq qty filter locks, io.locks = locks + 1) ∧
     (∀ io ∈ q.destroyedStoreCalls locks,
        (io.locks = locks + 1 ∧ ∃ id, io.call = StoreCall.dequeue id) ∨
        (io.locks = locks ∧ (io.call = StoreCall.flush ∨ io.call = StoreCall.destroy)))) ∧
    ((∀ msg s q1, (q.enqueue msg s).state? = some q1 → Stored q q1 (q.enqueueStoreCalls msg s locks)) ∧
     (∀ ctxt qm b q1, q.dequeue ctxt qm = some (b, q1) →
        Stored q q1 (q.dequeueStoreCalls ctxt qm locks)) ∧
     (∀ msg isRecovery q1, q.push msg isRecovery = some q1 →
        Stored q q1 (q.pushStoreCalls msg isRecovery locks)) ∧
     (∀ lapse q1, q.purgeExpired lapse = some q1 → Stored q q1 (q.purgeExpiredStoreCalls lapse locks)) ∧
     (∀ qm q1, (q.requeue qm).state? = some q1 → Stored q q1 (q.requeueStoreCalls qm locks)) ∧
     (∀ c code m c1 q1, q.consumeNextMessage c = some (code, m, c1, q1) →
        Stored q q1 (q.consumeNextMessageStoreCalls c locks)) ∧
     (∀ n dest filter q1, (q.purge n dest filter).state? = some q1 →
        Stored q q1 (q.purgeStoreCalls n dest filter locks)) ∧
     (∀ qty filter q1, (q.move none qty filter).1.state? = some q1 →
        Stored q q1 (q.moveStoreCalls none qty filter locks)) ∧
     (∀ q1, q.destroyed = some q1 → Stored q q1 (q.destroyedStoreCalls locks))) := by
  refine ⟨⟨?_, ?_, ?_, ?_⟩, ⟨?_, ?_, ?_, ?_, ?_⟩, ⟨?_, ?_, ?_, ?_, ?_, ?_, ?_, ?_, ?_⟩⟩
  · exact fun msg s => enqueueStoreCalls_locks q msg s locks
  · exact fun ctxt qm => dequeueStoreCalls_locks q ctxt qm locks
  · exact fun msg r => pushStoreCalls_locks q msg r locks
  · exact fun lapse => purgeExpiredStoreCalls_locks q lapse locks
  · exact fun qm => requeueStoreCalls_locks q qm locks
  · exact fun c => consumeLoopStoreCalls_locks locks _ q c
  · exact fun n dest filter => purgeStoreCalls_locks q n dest filter locks
  · exact fun destq qty filter => moveStoreCalls_locks q destq qty filter locks
  · exact destroyedStoreCalls_locks q locks
  · exact fun msg s q1 h => enqueue_stored locks h
  · exact fun ctxt qm b q1 h => dequeue_stored locks h
  · exact fun msg r q1 h => push_stored locks h
  · exact fun lapse q1 h => purgeExpired_stored locks h
  · exact fun qm q1 h => requeue_stored locks h
  · exact fun c code m c1 q1 h => consumeLoop_stored locks _ h
  · exact fun n dest filter q1 h => purge_stored locks h
  · exact fun qty filter q1 h => move_stored locks h
  · exact fun q1 h => destroyed_stored locks h

/-- C26, amended, at a concrete queue: `dequeue(0, msg)` of a durable message on a queue with
a store, called outside any lock, calls `store->dequeue` with the lock not held, and that
is the call recorded on the store. -/
theorem store_calls_and_message_lock_witness :
    Stored { hasStore := true } { hasStore := true, storeCalls := [.dequeue 1] }
      (dequeueStoreCalls { hasStore := true } false ⟨{ id := 1, durable := true }, 1⟩ 0) ∧
    dequeueStoreCalls { hasStore := true } false ⟨{ id := 1, durable := true }, 1⟩ 0
      = [⟨.dequeue 1, 0⟩] :=
  ⟨(store_calls_and_message_lock { hasStore := true } 0).2.2.2.1 false
      ⟨{ id := 1, durable := true }, 1⟩ true _ rfl, by decide⟩

end Queue

namespace SenderContext

/-! ## setCapacity (C21) -/

/-- C21: `setCapacity(c)` raises SenderError and leaves the context as it was, capacity
included, when `c` is less than the number of deliveries held in the FIFO (those not yet
taken out by `processUnsettled`); otherwise it sets the capacity to `c`, which `getCapacity`
then returns.  The FIFO is the same in both cases. -/
theorem setCapacity_contract (s : SenderContext) (c : Nat) :
    (c < s.deliveries.length → s.setCapacity c = .raised .SenderError s) ∧
    (¬ c < s.deliveries.length →
      ∃ s1, s.setCapacity c = .ok () s1 ∧ s1.getCapacity = c ∧
        s1.deliveries = s.deliveries ∧ s1 = { s with capacity := c }) := by
  constructor
  · intro h
    unfold setCapacity
    rw [if_pos h]
  · intro h
    refine ⟨{ s with capacity := c }, ?_, rfl, rfl, rfl⟩
    unfold setCapacity
    rw [if_neg h]

/-- C21 at a concrete context: two deliveries are held and a capacity of 1 is asked for. -/
theorem setCapacity_contract_witness :
    setCapacity { name := "s", address := { name := "q" }, nextId := 2,
                  deliveries := [{ id := 0, token := some {} }, { id := 1, token := some {} }] } 1
      = .raised .SenderError
          { name := "s", address := { name := "q" }, nextId := 2,
            deliveries := [{ id := 0, token := some {} }, { id := 1, token := some {} }] } :=
  (setCapacity_contract _ 1).1 (by decide)

/-! ## send (C22) -/

theorem processUnsettledLoop_suffix : ∀ (l : List Delivery) (sender : Link)
    (rest : List Delivery) (sender1 : Link),
    processUnsettledLoop l sender = some (rest, sender1) →
    ∃ taken, l = taken ++ rest := by
  intro l
  induction l with
  | nil =>
    intro sender rest sender1 h
    simp only [processUnsettledLoop, Option.some.injEq, Prod.mk.injEq] at h
    exact ⟨[], by rw [← h.1]; rfl⟩
  | cons d tl ih =>
    intro sender rest sender1 h
    unfold processUnsettledLoop at h
    split at h
    · exact absurd h (by simp)
    · obtain ⟨taken, ht⟩ := ih _ _ _ h
      exact ⟨d :: taken, by rw [ht]; rfl⟩
    · simp only [Option.some.injEq, Prod.mk.injEq] at h
      exact ⟨[], by rw [← h.1]; rfl⟩

theorem processUnsettled_effect {s s1 : SenderContext} {n : Nat}
    (h : s.processUnsettled = some (n, s1)) :
    n = s1.deliveries.length % UINT32_SIZE ∧ (∃ taken, s.deliveries = taken ++ s1.deliveries) ∧
    s1.capacity = s.capacity ∧ s1.nextId = s.nextId ∧ s1.address = s.address ∧
    s1.name = s.name := by
  unfold processUnsettled at h
  split at h
  · exact absurd h (by simp)
  · rename_i deliveries sender hl
    simp only [Option.some.injEq, Prod.mk.injEq] at h
    obtain ⟨h1, h2⟩ := h
    subst h1 h2
    exact ⟨rfl, processUnsettledLoop_suffix _ _ _ _ hl, rfl, rfl, rfl, rfl⟩

theorem resize_length (junk : List Nat) (n : Nat) : (resize junk n).length = n := by
  unfold resize
  simp

theorem writeAt_whole (buffer bytes : List Nat) (h : buffer.length = bytes.length) :
    writeAt buffer 0 bytes = bytes := by
  unfold writeAt
  simp only [List.take_zero, List.nil_append, Nat.zero_add]
  rw [List.drop_of_length_le (by omega)]
  simp

theorem writeAt_header_then_rest (buffer header rest : List Nat) :
    writeAt (writeAt buffer 0 header) header.length rest
      = header ++ rest ++ buffer.drop (header.length + rest.length) := by
  unfold writeAt
  simp only [List.take_zero, List.nil_append, Nat.zero_add]
  rw [List.take_left' rfl, List.drop_append_eq_append_drop]
  have h1 : List.drop (header.length + rest.length) header = [] :=
    List.drop_of_length_le (by omega)
  rw [h1, List.nil_append, List.drop_drop]
  congr 2
  omega

/-- C23: `Delivery::encode` on the unmodified-forward path: the message has its original
encoded form and the address does not change the subject.  (1) When the header has not
changed, the buffer holds the original bytes, and nothing else.  (2) When the header has
changed and the encoder writes it in `header`, of at most 16 bytes, the buffer holds
`header`, then the bare message as received, then `16 - header.length` more bytes: it was
sized for a header of 16 bytes and is not trimmed to what was written.  So the buffer is
the header followed by the bare message, with no other bytes, only for a header of exactly
16 bytes. -/
theorem encode_forward_keeps_buffer_tail (enc : MessageEncoder) (junk : List Nat)
    (msg : MessageImpl) (address : Address) (original : EncodedMessage)
    (horig : msg.encoded = some original) (hsubj : changedSubject msg address = false) :
    (msg.headerChanged = false → Delivery.encode enc junk msg address = .ok original.data) ∧
    (msg.headerChanged = true → ∀ header, enc.writeHeader msg = some header →
      header.length ≤ 16 →
      ∃ tail, Delivery.encode enc junk msg address
          = .ok (header ++ original.bareMessage ++ tail) ∧
        tail.length = 16 - header.length ∧
        (Delivery.encode enc junk msg address = .ok (header ++ original.bareMessage)
          ↔ header.length = 16)) := by
  constructor
  · intro hh
    unfold Delivery.encode
    simp only [horig, hsubj, hh, Bool.not_false, if_true, Bool.false_eq_true, if_false]
    rw [writeAt_whole _ _ (resize_length _ _)]
  · intro hh header hw hle
    have hlen := resize_length junk (16 + original.bareMessage.length)
    have henc : Delivery.encode enc junk msg address
        = .ok (header ++ original.bareMessage
            ++ (resize junk (16 + original.bareMessage.length)).drop
                (header.length + original.bareMessage.length)) := by
      unfold Delivery.encode
      simp only [horig, hsubj, hh, Bool.not_false, if_true, hw, hlen]
      rw [if_neg (by omega), if_neg (by omega)]
      rw [writeAt_header_then_rest]
    have htail : ((resize junk (16 + original.bareMessage.length)).drop
        (header.length + original.bareMessage.length)).length = 16 - header.length := by
      rw [List.length_drop, hlen]
      omega
    refine ⟨_, henc, htail, ?_⟩
    rw [henc]
    constructor
    · intro h
      simp only [Encoded.ok.injEq, List.append_right_eq_self] at h
      have h2 := htail
      rw [h] at h2
      simp only [List.length_nil] at h2
      omega
    · intro h
      have h0 : ((resize junk (16 + original.bareMessage.length)).drop
          (header.length + original.bareMessage.length)) = [] := by
        apply List.eq_nil_of_length_eq_zero
        rw [htail, h]
      rw [h0, List.append_nil]

/-- C23 at its failing input: a message forwarded with a changed header that the encoder
writes in 5 bytes, its bare message being 3 bytes long: the buffer handed to the link has
19 bytes, the last 11 of which are neither header nor message. -/
theorem encode_forward_keeps_buffer_tail_witness :
    ∃ tail,
      Delivery.encode
          { writeHeader := fun _ => some [0, 83, 112, 192, 2], writeProperties := fun _ _ => none,
            writeApplicationProperties := fun _ => [], writeBinary := fun b => b,
            getEncodedSize := fun _ _ _ _ => none } []
          { encoded := some { data := [0, 83, 112, 69, 7, 8, 9], bareMessage := [7, 8, 9] },
            headerChanged := true } { name := "q" }
        = .ok ([0, 83, 112, 192, 2] ++ [7, 8, 9] ++ tail) ∧
      tail.length = 16 - 5 ∧
      (Delivery.encode
          { writeHeader := fun _ => some [0, 83, 112, 192, 2], writeProperties := fun _ _ => none,
            writeApplicationProperties := fun _ => [], writeBinary := fun b => b,
            getEncodedSize := fun _ _ _ _ => none } []
          { encoded := some { data := [0, 83, 112, 69, 7, 8, 9], bareMessage := [7, 8, 9] },
            headerChanged := true } { name := "q" }
        = .ok ([0, 83, 112, 192, 2] ++ [7, 8, 9]) ↔ 5 = 16) :=
  (encode_forward_keeps_buffer_tail
    { writeHeader := fun _ => some [0, 83, 112, 192, 2], writeProperties := fun _ _ => none,
      writeApplicationProperties := fun _ => [], writeBinary := fun b => b,
      getEncodedSize := fun _ _ _ _ => none } []
    { encoded := some { data := [0, 83, 112, 69, 7, 8, 9], bareMessage := [7, 8, 9] },
      headerChanged := true } { name := "q" }
    { data := [0, 83, 112, 69, 7, 8, 9], bareMessage := [7, 8, 9] } rfl rfl).2 rfl
    [0, 83, 112, 192, 2] rfl (by decide)

/-! ## ApplicationPropertiesAdapter.handle (C24) -/

theorem startsWithLoop_eq : ∀ (pattern input : List Char),
    startsWithLoop pattern input = pattern.isPrefixOf input := by
  intro pattern
  induction pattern with
  | nil =>
    intro input
    cases input <;> rfl
  | cons b bs ih =>
    intro input
    cases input with
    | nil => rfl
    | cons a as =>
      unfold startsWithLoop
      rw [List.isPrefixOf_cons₂, ih]
      by_cases hab : a = b
      · subst hab
        simp
      · have hba : ¬ b = a := fun h => hab h.symm
        simp [hab, hba]

theorem startsWith_eq (input pattern : String) :
    startsWith input pattern = pattern.data.isPrefixOf input.data := by
  unfold startsWith
  split
  · rename_i hlt
    symm
    rw [Bool.eq_false_iff]
    intro hp
    have hpre : pattern.data <+: input.data := List.isPrefixOf_iff_prefix.mp hp
    have hle := hpre.length_le
    simp only [String.length] at hlt
    omega
  · exact startsWithLoop_eq _ _

theorem handleEntry_emitted (key : String) (value : Variant) :
    ((match value with
      | .scalar .VAR_UUID _ => false
      | .scalar _ _ => true
      | _ => false) = true →
      ∃ c, handleEntry key value = [c] ∧ c.key = key ∧
        ∃ text, value = .scalar c.tag text ∧ (c.value? = some text ∨ c.tag = .VAR_VOID)) ∧
    ((match value with
      | .scalar .VAR_UUID _ => false
      | .scalar _ _ => true
      | _ => false) = false → handleEntry key value = []) := by
  cases value with
  | scalar type text =>
    cases type <;> refine ⟨fun h => ?_, fun h => ?_⟩ <;>
      first
      | rfl
      | exact ⟨_, rfl, rfl, text, rfl, Or.inl rfl⟩
      | exact ⟨_, rfl, rfl, text, rfl, Or.inr rfl⟩
      | (simp at h)
  | list items => exact ⟨fun h => absurd h (by simp), fun _ => rfl⟩
  | map entries => exact ⟨fun h => absurd h (by simp), fun _ => rfl⟩

theorem handle_eq_flatMap : ∀ (headers : List (String × Variant)),
    ApplicationPropertiesAdapter.handle headers
      = (headers.filter emitted).flatMap (fun e => handleEntry e.1 e.2) := by
  intro headers
  induction headers with
  | nil => rfl
  | cons e rest ih =>
    obtain ⟨key, value⟩ := e
    unfold ApplicationPropertiesAdapter.handle
    rw [ih, startsWith_eq]
    cases hp : X_AMQP.data.isPrefixOf key.data with
    | true =>
      have hem : emitted (key, value) = false := by
        unfold emitted
        simp [hp]
      simp [List.filter_cons, hem]
    | false =>
      cases hv : (match value with
          | .scalar .VAR_UUID _ => false
          | .scalar _ _ => true
          | _ => false) with
      | true =>
        have hem : emitted (key, value) = true := by
          unfold emitted
          simp only [hp, Bool.not_false, Bool.true_and]
          exact hv
        simp [List.filter_cons, hem, List.flatMap_cons]
      | false =>
        have hem : emitted (key, value) = false := by
          unfold emitted
          simp only [hp, Bool.not_false, Bool.true_and]
          exact hv
        have h0 := (handleEntry_emitted key value).2 hv
        simp [List.filter_cons, hem, h0]

theorem emitted_entry (e : String × Variant) (h : emitted e = true) :
    ∃ c, handleEntry e.1 e.2 = [c] ∧ c.key = e.1 ∧
      ∃ text, e.2 = .scalar c.tag text ∧ (c.value? = some text ∨ c.tag = .VAR_VOID) := by
  unfold emitted at h
  simp only [Bool.and_eq_true] at h
  exact (handleEntry_emitted e.1 e.2).1 h.2

/-- C24: `ApplicationPropertiesAdapter::handle`, for every header map (its entries in key
order).  (1) `startsWith(input, pattern)` holds exactly when `pattern` is a prefix of
`input`.  (2) The handler calls made are those of the entries whose key does not begin with
`x-amqp-` and whose value is a scalar other than a UUID, in the order of the map; the
other entries make no call.  (3) Each such entry makes one call, with its key, through the
handler of the type tag of its value and with its value.  (4) So the keys the handler is
called with are the keys of those entries, each once, in the order of the map. -/
theorem handle_contract (headers : List (String × Variant)) :
    (∀ input pattern, startsWith input pattern = true ↔ pattern.data <+: input.data) ∧
    ApplicationPropertiesAdapter.handle headers
      = (headers.filter emitted).flatMap (fun e => handleEntry e.1 e.2) ∧
    (∀ e ∈ headers, emitted e = true →
      ∃ c, handleEntry e.1 e.2 = [c] ∧ c.key = e.1 ∧
        ∃ text, e.2 = .scalar c.tag text ∧ (c.value? = some text ∨ c.tag = .VAR_VOID)) ∧
    (ApplicationPropertiesAdapter.handle headers).map MapCall.key
      = (headers.filter emitted).map Prod.fst := by
  refine ⟨fun input pattern => ?_, handle_eq_flatMap headers, fun e _ h => emitted_entry e h, ?_⟩
  · rw [startsWith_eq]
    exact List.isPrefixOf_iff_prefix
  · rw [handle_eq_flatMap]
    have hall : ∀ e ∈ headers.filter emitted, emitted e = true :=
      fun e he => (List.mem_filter.mp he).2
    generalize headers.filter emitted = l at hall
    induction l with
    | nil => rfl
    | cons e rest ih =>
      obtain ⟨c, hc, hk, -⟩ := emitted_entry e (hall e (List.mem_cons_self _ _))
      rw [List.flatMap_cons, List.map_append, hc, ih (fun x hx => hall x (List.mem_cons_of_mem _ hx))]
      simp [hk]

/-- C24 at a concrete header map: of five entries, the one with the reserved prefix, the
UUID and the nested map make no call. -/
theorem handle_contract_witness :
    (ApplicationPropertiesAdapter.handle
        [("a", .scalar .VAR_INT32 "1"), ("m", .map []), ("s", .scalar .VAR_STRING "x"),
         ("u", .scalar .VAR_UUID "0"), ("x-amqp-to", .scalar .VAR_STRING "q")]).map MapCall.key
      = ["a", "s"] :=
  (handle_contract
    [("a", .scalar .VAR_INT32 "1"), ("m", .map []), ("s", .scalar .VAR_STRING "x"),
     ("u", .scalar .VAR_UUID "0"), ("x-amqp-to", .scalar .VAR_STRING "q")]).2.2.2

end SenderContext

namespace Queue

/-! ## Expired candidates of consumeNextMessage (C31) -/

theorem consumeLoop_retry {q q1 : Queue} {c : Consumer} {msg : QueuedMessage}
    (ha : q.nextConsumableMessage c = some (some msg, q1))
    (hexp : msg.payload.expired = true) (fuel : Nat) :
    q.consumeLoop (fuel + 1) c = none ∨
    ∃ q2 flag q3 dd, q1.acquire msg.position = some (some msg, q2) ∧
      q2.dequeue false msg = some (flag, q3) ∧
      msg ∈ q.messages.items ∧
      q3.messages.items = q.messages.items.erase msg ∧
      q3.observers = q.observers.map (fun o => o.deliver (.acquired msg :: dd)) ∧
      (dd = [] ∨ dd = [.dequeued msg]) ∧
      (q.deleted = false → KeepsEnqueued q → dd = [.dequeued msg]) ∧
      q3.deleted = q.deleted ∧ Kept q q3 ∧
      q.consumeLoop (fuel + 1) c = q3.consumeLoop fuel { c with position := msg.position } := by
  obtain ⟨⟨a1, a2, -, -, -, a6, -⟩, hfind⟩ := nextConsumableMessage_effect ha
  have ka := nextConsumableMessage_kept ha
  have hfirst : q1.messages.find msg.position = some msg := by
    rw [a2]
    exact hfind msg rfl
  have hmem : msg ∈ q.messages.items := (Messages.find_mem (hfind msg rfl)).1
  have hloop : q.consumeLoop (fuel + 1) c
      = match q1.acquire msg.position with
        | none => none
        | some (removed, q2) =>
          match q2.dequeue false (removed.getD msg) with
          | none => none
          | some (_, q3) => consumeLoop fuel q3 { c with position := msg.position } := by
    rw [consumeLoop]
    simp only [ha, hexp, if_true]
    try rfl
  cases hb : q1.acquire msg.position with
  | none =>
    left
    rw [hloop, hb]
  | some pb =>
    obtain ⟨removed, q2⟩ := pb
    obtain ⟨hnone, hsome⟩ := acquire_effect hb
    have kb := acquire_kept hb
    cases removed with
    | none =>
      have := (hnone rfl).2
      rw [hfirst] at this
      exact absurd this (by simp)
    | some taken =>
      obtain ⟨b0, b1, b2, -, b4⟩ := hsome taken rfl
      rw [hfirst] at b0
      simp only [Option.some.injEq] at b0
      subst b0
      cases hc : q2.dequeue false msg with
      | none =>
        left
        rw [hloop, hb]
        simp only [Option.getD_some, hc]
      | some pc =>
        obtain ⟨flag, q3⟩ := pc
        right
        have kc := dequeue_kept hc
        have hkept : Kept q q3 := kept_trans (kept_trans ka kb) kc
        have hdel2 : q2.deleted = q.deleted := by rw [b4, a6]
        have hobs2 : q2.observers = q.observers.map (fun o => o.deliver [.acquired msg]) := by
          rw [b2, a1, map_deliver_deliver]
          rfl
        have hlast : q.consumeLoop (fuel + 1) c
            = q3.consumeLoop fuel { c with position := msg.position } := by
          rw [hloop, hb]
          simp only [Option.getD_some, hc]
        by_cases hcond : q.deleted = false ∧ KeepsEnqueued q
        · have hk2 : KeepsEnqueued q2 := keepsEnqueued_of_kept (kept_trans ka kb) hcond.2
          obtain ⟨c1f, c2f, -, -, -, c6, -⟩ := dequeue_fires (hdel2.trans hcond.1) hk2 hc
          refine ⟨q2, flag, q3, [.dequeued msg], rfl, hc, hmem, ?_, ?_, Or.inr rfl,
            fun _ _ => rfl, c6.trans hdel2, hkept, hlast⟩
          · rw [c2f, b1, a2]
          · rw [c1f, hobs2, map_deliver_deliver]
            rfl
        · obtain ⟨dd, ⟨c1f, c2f, -, -, -, c6, -⟩, hdd⟩ := dequeue_frame hc
          refine ⟨q2, flag, q3, dd, rfl, hc, hmem, ?_, ?_, hdd,
            fun h1 h2 => absurd ⟨h1, h2⟩ hcond, c6.trans hdel2, hkept, hlast⟩
          · rw [c2f, b1, a2]
          · rw [c1f, hobs2, map_deliver_deliver]
            rfl

theorem consumeLoop_last {q qa : Queue} {c : Consumer} {cand : Option QueuedMessage}
    (ha : q.nextConsumableMessage c = some (cand, qa))
    (hexp : ∀ x, cand = some x → x.payload.expired = false) (fuel : Nat) :
    q.consumeLoop (fuel + 1) c = q.consumeLoop 1 c := by
  cases cand with
  | none =>
    rw [consumeLoop, consumeLoop]
    simp only [ha]
  | some msg =>
    have h := hexp msg rfl
    rw [consumeLoop, consumeLoop]
    simp only [ha, h, Bool.false_eq_true, if_false]

theorem consumeLoop_discards : ∀ (fuel : Nat) (q : Queue) (c : Consumer) (code : ConsumeCode)
    (m : Option QueuedMessage) (c1 : Consumer) (q1 : Queue),
    q.consumeLoop fuel c = some (code, m, c1, q1) →
    ∃ (discarded : List QueuedMessage) (qf : Queue) (delta : List Notification),
      (∀ x ∈ discarded, x.payload.expired = true ∧ x ∈ q.messages.items) ∧
      qf.messages.items = q.messages.items.diff discarded ∧
      qf.observers = q.observers.map (fun o => o.deliver delta) ∧
      acquiredMessages delta = discarded ∧
      (q.deleted = false → KeepsEnqueued q →
        delta = discarded.flatMap (fun x => [Notification.acquired x, Notification.dequeued x])) ∧
      (∃ cand qa,
        qf.nextConsumableMessage
            { c with position := (discarded.getLast?.map QueuedMessage.position).getD c.position }
          = some (cand, qa) ∧
        ∀ x, cand = some x → x.payload.expired = false) ∧
      qf.consumeLoop 1
          { c with position := (discarded.getLast?.map QueuedMessage.position).getD c.position }
        = some (code, m, c1, q1) := by
  intro fuel
  induction fuel with
  | zero =>
    intro q c code m c1 q1 h
    simp [consumeLoop] at h
  | succ n ih =>
    intro q c code m c1 q1 h
    cases ha : q.nextConsumableMessage c with
    | none =>
      rw [consumeLoop] at h
      simp [ha] at h
    | some p =>
      obtain ⟨cand, qa⟩ := p
      by_cases hexp : ∃ msg, cand = some msg ∧ msg.payload.expired = true
      · obtain ⟨msg, hm, hexp⟩ := hexp
        subst hm
        rcases consumeLoop_retry ha hexp n with hnone | ⟨q2, flag, q3, dd, -, -, r3, r4, r5, r6,
          r7, r8, r9, r10⟩
        · rw [hnone] at h
          exact absurd h (by simp)
        · rw [r10] at h
          obtain ⟨discarded, qf, delta, d1, d2, d3, d4, d5, d6, d7⟩ :=
            ih q3 _ code m c1 q1 h
          have hpos : ((((msg :: discarded).getLast?).map QueuedMessage.position).getD
              c.position)
              = ((discarded.getLast?).map QueuedMessage.position).getD msg.position := by
            cases discarded with
            | nil => rfl
            | cons y rest =>
              rw [List.getLast?_cons_cons]
              cases hl : (y :: rest).getLast? with
              | none => simp at hl
              | some z => rfl
          refine ⟨msg :: discarded, qf, .acquired msg :: dd ++ delta, ?_, ?_, ?_, ?_, ?_, ?_, ?_⟩
          · intro x hx
            rcases List.mem_cons.mp hx with hx | hx
            · subst hx
              exact ⟨hexp, r3⟩
            · obtain ⟨e1, e2⟩ := d1 x hx
              rw [r4] at e2
              exact ⟨e1, List.mem_of_mem_erase e2⟩
          · rw [d2, r4, List.diff_cons]
          · rw [d3, r5, map_deliver_deliver]
            try rfl
          · have hdd : acquiredMessages dd = [] := by
              rcases r6 with h6 | h6 <;> subst h6 <;> rfl
            have : Notification.acquired msg :: dd ++ delta
                = [Notification.acquired msg] ++ (dd ++ delta) := rfl
            rw [this, acquiredMessages_append, acquiredMessages_append, hdd, d4]
            try rfl
          · intro hdel hk
            have hdd := r7 hdel hk
            have hdelta := d5 (r8.trans hdel) (keepsEnqueued_of_kept r9 hk)
            rw [hdd, hdelta]
            simp [List.flatMap_cons]
          · rw [hpos]
            exact d6
          · rw [hpos]
            exact d7
      · have hne : ∀ x, cand = some x → x.payload.expired = false := by
          intro x hx
          cases hb : x.payload.expired with
          | false => rfl
          | true => exact absurd ⟨x, hx, hb⟩ hexp
        rw [consumeLoop_last ha hne n] at h
        exact ⟨[], q, [], fun x hx => absurd hx (List.not_mem_nil x), rfl,
          (map_deliver_nil _).symm, rfl, fun _ _ => rfl, ⟨cand, qa, ha, hne⟩, h⟩

theorem consumeLoop_one {q q1 : Queue} {c c1 : Consumer} {code : ConsumeCode}
    {m : Option QueuedMessage} (h : q.consumeLoop 1 c = some (code, m, c1, q1)) :
    ∃ cand qa, q.nextConsumableMessage c = some (cand, qa) ∧
      (∀ x, cand = some x → x.payload.expired = false) ∧
      (cand = none ↔ code = .NO_MESSAGES) ∧
      (∀ qm, m = some qm → cand = some qm ∧ code = .CONSUMED) := by
  rw [consumeLoop] at h
  cases ha : q.nextConsumableMessage c with
  | none => simp [ha] at h
  | some p =>
    obtain ⟨cand, qa⟩ := p
    refine ⟨cand, qa, rfl, ?_⟩
    cases cand with
    | none =>
      simp only [ha, Option.some.injEq, Prod.mk.injEq] at h
      obtain ⟨h1, h2, -⟩ := h
      subst h1 h2
      exact ⟨fun x hx => absurd hx (by simp), ⟨fun _ => rfl, fun _ => rfl⟩,
        fun qm hq => absurd hq (by simp)⟩
    | some msg =>
      simp only [ha] at h
      by_cases hexp : msg.payload.expired = true
      · simp only [hexp, if_true] at h
        split at h
        · exact absurd h (by simp)
        · split at h
          · exact absurd h (by simp)
          · simp [consumeLoop] at h
      · simp only [Bool.not_eq_true] at hexp
        simp only [hexp, Bool.false_eq_true, if_false] at h
        refine ⟨fun x hx => ?_, ?_⟩
        · simp only [Option.some.injEq] at hx
          rw [← hx]
          exact hexp
        · split at h
          · split at h
            · split at h
              · exact absurd h (by simp)
              · exact absurd h (by simp)
              · rename_i qb hb
                split at h
                · exact absurd h (by simp)
                · exact absurd h (by simp)
                · rename_i taken qc hc
                  simp only [Option.some.injEq, Prod.mk.injEq] at h
                  obtain ⟨h1, h2, -⟩ := h
                  subst h1 h2
                  obtain ⟨-, hsome⟩ := acquire_effect hc
                  obtain ⟨c0, -⟩ := hsome taken rfl
                  obtain ⟨⟨-, a2, -⟩, hfind⟩ := nextConsumableMessage_effect ha
                  obtain ⟨-, b2, -⟩ := allocatorAcquire_frame hb
                  rw [b2, a2, hfind msg rfl] at c0
                  simp only [Option.some.injEq] at c0
                  subst c0
                  exact ⟨⟨fun hx => absurd hx (by simp), fun hx => absurd hx (by simp)⟩,
                    fun qm hq => ⟨hq, rfl⟩⟩
            · simp only [Option.some.injEq, Prod.mk.injEq] at h
              obtain ⟨h1, h2, -⟩ := h
              subst h1 h2
              exact ⟨⟨fun hx => absurd hx (by simp), fun hx => absurd hx (by simp)⟩,
                fun qm hq => absurd hq (by simp)⟩
          · simp only [Option.some.injEq, Prod.mk.injEq] at h
            obtain ⟨h1, h2, -⟩ := h
            subst h1 h2
            exact ⟨⟨fun hx => absurd hx (by simp), fun hx => absurd hx (by simp)⟩,
              fun qm hq => absurd hq (by simp)⟩

/-- C31: `consumeNextMessage(m, c)` and the expired candidates.  (1) An iteration that is
offered an expired candidate `msg` either fails an assertion or takes `msg` out of the
container with `acquire(msg.position, msg)`, which fires `acquired(msg)`, calls
`dequeue(0, msg)`, which fires `dequeued(msg)` (always so on a queue that is not deleted and
whose policy holds the messages as enqueued), and starts the search again with `c.position`
at the position of `msg`.  (2) When the call returns, it has so discarded the expired
messages `discarded`, one after the other, and has returned from the iteration that
followed, in which the allocator had no message to offer (NO_MESSAGES) or offered one that
is not expired; a message handed out is that candidate: it is not expired.  (3) With the
default allocator the call returns. -/
theorem consumeNextMessage_discards_expired (q : Queue) (c : Consumer) :
    (∀ msg q1 fuel, q.nextConsumableMessage c = some (some msg, q1) →
      msg.payload.expired = true →
      q.consumeLoop (fuel + 1) c = none ∨
      ∃ q2 flag q3 dd, q1.acquire msg.position = some (some msg, q2) ∧
        q2.dequeue false msg = some (flag, q3) ∧
        msg ∈ q.messages.items ∧
        q3.messages.items = q.messages.items.erase msg ∧
        q3.observers = q.observers.map (fun o => o.deliver (.acquired msg :: dd)) ∧
        (dd = [] ∨ dd = [.dequeued msg]) ∧
        (q.deleted = false → KeepsEnqueued q → dd = [.dequeued msg]) ∧
        q.consumeLoop (fuel + 1) c
          = q3.consumeLoop fuel { c with position := msg.position }) ∧
    (∀ code m c1 q1, q.consumeNextMessage c = some (code, m, c1, q1) →
      ∃ (discarded : List QueuedMessage) (qf : Queue) (delta : List Notification),
        (∀ x ∈ discarded, x.payload.expired = true ∧ x ∈ q.messages.items) ∧
        qf.messages.items = q.messages.items.diff discarded ∧
        qf.observers = q.observers.map (fun o => o.deliver delta) ∧
        acquiredMessages delta = discarded ∧
        (q.deleted = false → KeepsEnqueued q →
          delta = discarded.flatMap
            (fun x => [Notification.acquired x, Notification.dequeued x])) ∧
        (∃ cand qa,
          qf.nextConsumableMessage
              { c with
                position := (discarded.getLast?.map QueuedMessage.position).getD c.position }
            = some (cand, qa) ∧
          (∀ x, cand = some x → x.payload.expired = false) ∧
          (cand = none ↔ code = .NO_MESSAGES) ∧
          (∀ qm, m = some qm → cand = some qm ∧ code = .CONSUMED)) ∧
        qf.consumeLoop 1
            { c with
              position := (discarded.getLast?.map QueuedMessage.position).getD c.position }
          = some (code, m, c1, q1) ∧
        (∀ qm, m = some qm → qm.payload.expired = false)) ∧
    (q.allocator = none → ∃ r, q.consumeNextMessage c = some r) := by
  refine ⟨fun msg q1 fuel ha hexp => ?_, fun code m c1 q1 h => ?_, fun halloc => ?_⟩
  · rcases consumeLoop_retry ha hexp fuel with hnone | ⟨q2, flag, q3, dd, r1, r2, r3, r4, r5,
      r6, r7, -, -, r10⟩
    · exact Or.inl hnone
    · exact Or.inr ⟨q2, flag, q3, dd, r1, r2, r3, r4, r5, r6, r7, r10⟩
  · obtain ⟨discarded, qf, delta, d1, d2, d3, d4, d5, -, d7⟩ :=
      consumeLoop_discards _ q c code m c1 q1 h
    obtain ⟨cand, qa, e1, e2, e3, e4⟩ := consumeLoop_one d7
    exact ⟨discarded, qf, delta, d1, d2, d3, d4, d5, ⟨cand, qa, e1, e2, e3, e4⟩, d7,
      fun qm hq => e2 qm (e4 qm hq).1⟩
  · exact consumeLoop_total _ q c halloc (Nat.lt_succ_self _)

/-- C31 at a concrete queue: two expired messages in front of a third.  The call returns,
the observer has seen `acquired` then `dequeued` for each of the two, the third message is
handed out and the container is left empty. -/
theorem consumeNextMessage_discards_expired_witness :
    (∃ r, consumeNextMessage
        { observers := [{}],
          messages := { items := [⟨{ id := 1, expired := true }, 1⟩,
            ⟨{ id := 2, expired := true }, 2⟩, ⟨{ id := 3 }, 3⟩] }, sequence := 3 }
        { name := "c" } = some r) ∧
    (consumeNextMessage
        { observers := [{}],
          messages := { items := [⟨{ id := 1, expired := true }, 1⟩,
            ⟨{ id := 2, expired := true }, 2⟩, ⟨{ id := 3 }, 3⟩] }, sequence := 3 }
        { name := "c" }).map
      (fun r => (r.1, r.2.1, r.2.2.1.position, r.2.2.2.messages.items, r.2.2.2.observers))
      = some (.CONSUMED, some ⟨{ id := 3 }, 3⟩, 3, [],
          [{ seen := [.acquired ⟨{ id := 1, expired := true }, 1⟩,
                      .dequeued ⟨{ id := 1, expired := true }, 1⟩,
                      .acquired ⟨{ id := 2, expired := true }, 2⟩,
                      .dequeued ⟨{ id := 2, expired := true }, 2⟩,
                      .acquired ⟨{ id := 3 }, 3⟩] }]) :=
  ⟨(consumeNextMessage_discards_expired
      { observers := [{}],
        messages := { items := [⟨{ id := 1, expired := true }, 1⟩,
          ⟨{ id := 2, expired := true }, 2⟩, ⟨{ id := 3 }, 3⟩] }, sequence := 3 }
      { name := "c" }).2.2 rfl,
   by decide⟩

end Queue

namespace Queue

/-! ## push and a displaced message (C32) -/

theorem notifyObservers_pending {q q1 : Queue} {n : Notification}
    (h : q.notifyObservers n = some q1) : q1.pendingDequeues = q.pendingDequeues := by
  unfold notifyObservers at h
  simp only at h
  split at h
  · simp only [Option.some.injEq] at h
    subst h
    rfl
  · split at h
    · exact absurd h (by simp)
    · simp only [Option.some.injEq] at h
      subst h
      rfl

theorem enqueued_pending {q q1 : Queue} {qm : QueuedMessage} (h : q.enqueued qm = some q1) :
    q1.pendingDequeues = q.pendingDequeues := by
  unfold enqueued at h
  split at h
  · exact absurd h (by simp)
  · rename_i qa ha
    simp only [Option.some.injEq] at h
    subst h
    have := notifyObservers_pending ha
    exact this

theorem dequeue_pending {q q1 : Queue} {ctxt r : Bool} {qm : QueuedMessage}
    (h : q.dequeue ctxt qm = some (r, q1)) : q1.pendingDequeues = q.pendingDequeues := by
  unfold dequeue at h
  split at h
  · simp only [Option.some.injEq, Prod.mk.injEq] at h
    rw [← h.2]
  · split at h
    · simp only [Option.some.injEq, Prod.mk.injEq] at h
      rw [← h.2]
    · split at h
      · exact absurd h (by simp)
      · rename_i qa ha
        have hqa : qa.pendingDequeues = q.pendingDequeues := by
          split at ha
          · simp only [Option.some.injEq] at ha
            rw [← ha]
          · unfold dequeued at ha
            have := notifyObservers_pending ha
            exact this
        simp only at h
        split at h
        · simp only [Option.some.injEq, Prod.mk.injEq] at h
          rw [← h.2]
          exact hqa
        · simp only [Option.some.injEq, Prod.mk.injEq] at h
          rw [← h.2]
          exact hqa

theorem dequeueAll_fires : ∀ (l : List QueuedMessage) {q q1 : Queue},
    q.dequeueAll l = some q1 →
    q1.pendingDequeues = q.pendingDequeues ∧ Kept q q1 ∧
    ∃ delta, Frame q q1 delta ∧ OnlyDequeued delta ∧
      (q.deleted = false → KeepsEnqueued q → delta = l.map Notification.dequeued) := by
  intro l
  induction l with
  | nil =>
    intro q q1 h
    simp only [dequeueAll, Option.some.injEq] at h
    subst h
    exact ⟨rfl, kept_refl q, [], frame_refl q, onlyDequeued_nil, fun _ _ => rfl⟩
  | cons qm rest ih =>
    intro q q1 h
    unfold dequeueAll at h
    cases hd : q.dequeue false qm with
    | none => simp [hd] at h
    | some p =>
      obtain ⟨flag, qa⟩ := p
      simp only [hd] at h
      obtain ⟨e1, e2, delta, e3, e4, e5⟩ := ih h
      have hp := dequeue_pending hd
      have hk := dequeue_kept hd
      by_cases hcond : q.deleted = false ∧ KeepsEnqueued q
      · have hf := dequeue_fires hcond.1 hcond.2 hd
        refine ⟨e1.trans hp, kept_trans hk e2, [.dequeued qm] ++ delta, frame_trans hf e3,
          ?_, fun _ _ => ?_⟩
        · intro n hn
          rcases List.mem_append.mp hn with hn | hn
          · exact ⟨qm, by simpa using hn⟩
          · exact e4 n hn
        · rw [e5 (hf.2.2.2.2.2.1.trans hcond.1) (keepsEnqueued_of_kept hk hcond.2)]
          rfl
      · obtain ⟨dd, hf, hdd⟩ := dequeue_frame hd
        refine ⟨e1.trans hp, kept_trans hk e2, dd ++ delta, frame_trans hf e3, ?_,
          fun h1 h2 => absurd ⟨h1, h2⟩ hcond⟩
        intro n hn
        rcases List.mem_append.mp hn with hn | hn
        · rcases hdd with hdd | hdd
          · subst hdd
            exact absurd hn (List.not_mem_nil n)
          · subst hdd
            exact ⟨qm, by simpa using hn⟩
        · exact e4 n hn

theorem recoveryComplete_effect {q q2 : Queue} {exchanges : List String}
    (h : q.recoveryComplete exchanges = some q2) :
    q2.pendingDequeues = [] ∧
    ∃ delta, q2.observers = q.observers.map (fun o => o.deliver delta) ∧ OnlyDequeued delta ∧
      (q.deleted = false → KeepsEnqueued q →
        delta = q.pendingDequeues.map Notification.dequeued) := by
  unfold recoveryComplete at h
  simp only at h
  split at h
  · rename_i hc
    cases hd : dequeueAll { q with hasAlternateExchange := true } q.pendingDequeues with
    | none => simp [hd] at h
    | some qa =>
      simp only [hd, Option.map_some', Option.some.injEq] at h
      subst h
      obtain ⟨-, -, delta, e3, e4, e5⟩ := dequeueAll_fires _ hd
      exact ⟨rfl, delta, e3.1, e4, fun h1 h2 => e5 h1 h2⟩
  · cases hd : dequeueAll q q.pendingDequeues with
    | none => simp [hd] at h
    | some qa =>
      simp only [hd, Option.map_some', Option.some.injEq] at h
      subst h
      obtain ⟨-, -, delta, e3, e4, e5⟩ := dequeueAll_fires _ hd
      exact ⟨rfl, delta, e3.1, e4, e5⟩

theorem pushQueued_displaced {q q1 : Queue} {qm : QueuedMessage} {isRecovery : Bool}
    (h : q.pushQueued qm isRecovery = some q1) :
    ((q.messages.push qm).2 = none →
      q1.observers = q.observers.map (fun o => o.deliver [.enqueued qm]) ∧
      q1.pendingDequeues = q.pendingDequeues ∧ q1.storeCalls = q.storeCalls) ∧
    (∀ r, (q.messages.push qm).2 = some r →
      (isRecovery = true →
        q1.observers = q.observers.map (fun o => o.deliver [.enqueued qm, .acquired r]) ∧
        q1.pendingDequeues = q.pendingDequeues ++ [r] ∧ q1.storeCalls = q.storeCalls) ∧
      (isRecovery = false →
        ∃ (q3 : Queue) (flag : Bool) (dd : List Notification),
          q3.dequeue false r = some (flag, q1) ∧
          q3.observers = q.observers.map (fun o => o.deliver [.enqueued qm, .acquired r]) ∧
          q1.observers
            = q.observers.map (fun o => o.deliver ([.enqueued qm, .acquired r] ++ dd)) ∧
          (dd = [] ∨ dd = [.dequeued r]) ∧
          (q.deleted = false → KeepsEnqueued q → dd = [.dequeued r]) ∧
          q1.pendingDequeues = q.pendingDequeues)) := by
  unfold pushQueued at h
  simp only at h
  cases ha : enqueued
      { q with sequence := qm.position, messages := (q.messages.push qm).1, listeners := [] }
      qm with
  | none => simp [ha] at h
  | some qa =>
    simp only [ha] at h
    obtain ⟨a1, -, -, -, -, a6, -⟩ := enqueued_frame ha
    have ap := enqueued_pending ha
    have as := enqueued_store ha
    have ak : Kept q qa := by
      unfold enqueued at ha
      split at ha
      · exact absurd ha (by simp)
      · rename_i qn hn
        simp only [Option.some.injEq] at ha
        subst ha
        have hk := notifyObservers_kept hn
        obtain ⟨⟨extra, hk1⟩, hk2⟩ := hk
        refine ⟨⟨extra ++ [.enqueued qm], ?_⟩, hk2⟩
        simp only [hk1]
        cases q.policy <;> simp [QueuePolicy.record]
    simp only at a1 a6 ap as
    cases hr : (q.messages.push qm).2 with
    | none =>
      simp only [hr, Option.some.injEq] at h
      subst h
      exact ⟨fun _ => ⟨a1, ap, as⟩, fun r hr2 => absurd hr2 (by simp)⟩
    | some removed =>
      simp only [hr] at h
      refine ⟨fun hn => absurd hn (by simp), fun r hr2 => ?_⟩
      simp only [Option.some.injEq] at hr2
      subst hr2
      cases hb : acquired { qa with woken := qa.woken ++ q.listeners } removed with
      | none => simp [hb] at h
      | some qb =>
        simp only [hb] at h
        obtain ⟨b1, -, -, -, -, b6, -⟩ := acquired_frame hb
        have bp : qb.pendingDequeues = qa.pendingDequeues := by
          unfold acquired at hb
          have := notifyObservers_pending hb
          exact this
        have bs : qb.storeCalls = qa.storeCalls := by
          unfold acquired at hb
          have := (notifyObservers_store hb).2.2.2
          exact this
        have bk : Kept qa qb := by
          unfold acquired at hb
          have := notifyObservers_kept hb
          exact this
        simp only at b1 b6
        have hobs : qb.observers
            = q.observers.map (fun o => o.deliver [.enqueued qm, .acquired removed]) := by
          rw [b1, a1, map_deliver_deliver]
          rfl
        refine ⟨fun hrec => ?_, fun hrec => ?_⟩
        · simp only [hrec, if_true, Option.some.injEq] at h
          subst h
          simp only
          exact ⟨hobs, by rw [bp, ap], by rw [bs, as]⟩
        · simp only [hrec, Bool.false_eq_true, if_false] at h
          cases hd : qb.dequeue false removed with
          | none => simp [hd] at h
          | some pd =>
            obtain ⟨flag, qc⟩ := pd
            simp only [hd, Option.map_some', Option.some.injEq] at h
            subst h
            have hp := dequeue_pending hd
            by_cases hcond : q.deleted = false ∧ KeepsEnqueued q
            · have hdel : qb.deleted = false := by rw [b6, a6]; exact hcond.1
              have hkq : KeepsEnqueued qb :=
                keepsEnqueued_of_kept (kept_trans ak bk) hcond.2
              obtain ⟨c1, -⟩ := dequeue_fires hdel hkq hd
              refine ⟨qb, flag, [.dequeued removed], hd, hobs, ?_, Or.inr rfl,
                fun _ _ => rfl, by rw [hp, bp, ap]⟩
              rw [c1, hobs, map_deliver_deliver]
            · obtain ⟨dd, ⟨c1, -⟩, hdd⟩ := dequeue_frame hd
              refine ⟨qb, flag, dd, hd, hobs, ?_, hdd,
                fun h1 h2 => absurd ⟨h1, h2⟩ hcond, by rw [hp, bp, ap]⟩
              rw [c1, hobs, map_deliver_deliver]

/-- C32: `push(msg, isRecovery)`, `qm` being the message built with the next sequence number
(and the sequence header, when the queue inserts it).  When the call returns: (1) if
`messages.push` displaces nothing, the observers get `enqueued(qm)` and nothing else, no
call is made on the store and `pendingDequeues` is as it was.  (2) If it displaces `r`, the
observers get `enqueued(qm)` and then `acquired(r)`; then, in recovery, `r` is appended to
`pendingDequeues`, the observers get no `dequeued` and no call is made on the store;
otherwise `dequeue(0, r)` is called, by which the observers get `dequeued(r)` (always so on
a queue that is not deleted and whose policy holds the messages as enqueued), and
`pendingDequeues` is as it was.  (3) Without a group manager the call returns.
(4) `recoveryComplete` calls `dequeue(0, r)` for the messages of `pendingDequeues`, in
order, by which the observers get `dequeued` for each, and clears the list. -/
theorem push_displaced (q : Queue) (msg : Message) (isRecovery : Bool) :
    (∃ qm : QueuedMessage,
      qm = { payload := (if q.insertSeqNo then setInt64 msg q.seqNoKey (q.sequence + 1 : Nat)
                         else msg),
             position := q.sequence + 1 } ∧
      ∀ q1, q.push msg isRecovery = some q1 →
        ((q.messages.push qm).2 = none →
          q1.observers = q.observers.map (fun o => o.deliver [.enqueued qm]) ∧
          q1.pendingDequeues = q.pendingDequeues ∧ q1.storeCalls = q.storeCalls) ∧
        (∀ r, (q.messages.push qm).2 = some r →
          (isRecovery = true →
            q1.observers = q.observers.map (fun o => o.deliver [.enqueued qm, .acquired r]) ∧
            q1.pendingDequeues = q.pendingDequeues ++ [r] ∧ q1.storeCalls = q.storeCalls) ∧
          (isRecovery = false →
            ∃ (q3 : Queue) (flag : Bool) (dd : List Notification),
              q3.dequeue false r = some (flag, q1) ∧
              q3.observers
                = q.observers.map (fun o => o.deliver [.enqueued qm, .acquired r]) ∧
              q1.observers
                = q.observers.map (fun o => o.deliver ([.enqueued qm, .acquired r] ++ dd)) ∧
              (dd = [] ∨ dd = [.dequeued r]) ∧
              (q.deleted = false → KeepsEnqueued q → dd = [.dequeued r]) ∧
              q1.pendingDequeues = q.pendingDequeues))) ∧
    (q.allocator = none → ∃ q1, q.push msg isRecovery = some q1) ∧
    (∀ (qr q2 : Queue) (exchanges : List String), qr.recoveryComplete exchanges = some q2 →
      q2.pendingDequeues = [] ∧
      ∃ delta, q2.observers = qr.observers.map (fun o => o.deliver delta) ∧
        OnlyDequeued delta ∧
        (qr.deleted = false → KeepsEnqueued qr →
          delta = qr.pendingDequeues.map Notification.dequeued)) := by
  refine ⟨⟨_, rfl, fun q1 h => ?_⟩, fun halloc => ?_, fun qr q2 exchanges h => ?_⟩
  · unfold push at h
    exact pushQueued_displaced h
  · obtain ⟨q1, h1, -⟩ := push_total msg isRecovery halloc
    exact ⟨q1, h1⟩
  · exact recoveryComplete_effect h

/-- C32 at a concrete queue, a last-value queue keyed by header `k` that holds message 1
under the key `a`: a message with the same key is pushed in recovery.  Message 1 is
displaced: the observer sees `enqueued` for the new message and `acquired` for message 1,
which is left in `pendingDequeues`; `recoveryComplete` then fires `dequeued` for it. -/
theorem push_displaced_witness :
    ((push
        { observers := [{}], sequence := 1,
          messages := { key := some "k",
                        items := [⟨{ id := 1, headers := some [("k", .str "a")] }, 1⟩] } }
        { id := 2, headers := some [("k", .str "a")] } true).bind (fun q1 =>
      (q1.recoveryComplete []).map (fun q2 =>
        (q1.messages.items.map QueuedMessage.position,
         q1.pendingDequeues.map QueuedMessage.position,
         q1.observers.map (fun o => o.seen.length),
         q2.pendingDequeues, q2.observers.map (fun o => o.seen.length)))))
      = some ([2], [1], [2], [], [3]) ∧
    ∃ q1, push
        { observers := [{}], sequence := 1,
          messages := { key := some "k",
                        items := [⟨{ id := 1, headers := some [("k", .str "a")] }, 1⟩] } }
        { id := 2, headers := some [("k", .str "a")] } true = some q1 :=
  ⟨by decide,
   (push_displaced
      { observers := [{}], sequence := 1,
        messages := { key := some "k",
                      items := [⟨{ id := 1, headers := some [("k", .str "a")] }, 1⟩] } }
      { id := 2, headers := some [("k", .str "a")] } true).2.1 rfl⟩

end Queue

namespace Queue

/-! ## The exclusive consumer (C33) -/

theorem registerConsumer_effect (q : Queue) (c : Consumer) (requestExclusive : Bool) :
    (q.registerConsumer c requestExclusive).consumerCount
      = (q.consumerCount + 1) % UINT32_SIZE ∧
    (q.registerConsumer c requestExclusive).exclusive
      = (if requestExclusive then c.session else q.exclusive) := by
  unfold registerConsumer
  cases requestExclusive <;> simp only [Bool.false_eq_true, if_false, if_true] <;>
    split <;> exact ⟨rfl, rfl⟩

theorem consume_effect (q : Queue) (c : Consumer) (requestExclusive : Bool) :
    (∀ e q1, q.consume c requestExclusive = .raised e q1 → q1 = q) ∧
    (∀ v q1, q.consume c requestExclusive = .ok v q1 →
      q.exclusive = none ∧ (requestExclusive = true → q.consumerCount = 0) ∧
      q1.consumerCount = (q.consumerCount + 1) % UINT32_SIZE ∧
      q1.exclusive = (if requestExclusive then c.session else none)) := by
  unfold consume
  cases hex : q.exclusive with
  | some t =>
    simp only [Option.isSome_some, if_true]
    exact ⟨fun e q1 h => (by cases h; rfl), fun v q1 h => (by cases h)⟩
  | none =>
    simp only [Option.isSome_none, Bool.false_eq_true, if_false]
    by_cases hreq : (requestExclusive && decide (q.consumerCount ≠ 0)) = true
    · simp only [hreq, if_true]
      exact ⟨fun e q1 h => (by cases h; rfl), fun v q1 h => (by cases h)⟩
    · simp only [hreq, if_false]
      cases hn : (q.registerConsumer c requestExclusive).notifyObservers
          (.consumerAdded c.name) with
      | none =>
        simp only
        exact ⟨fun e q1 h => (by cases h), fun v q1 h => (by cases h)⟩
      | some q4 =>
        simp only
        refine ⟨fun e q1 h => (by cases h), fun v q1 h => ?_⟩
        cases h
        obtain ⟨-, -, -, f4, f5, -⟩ := notifyObservers_frame hn
        obtain ⟨r1, r2⟩ := registerConsumer_effect q c requestExclusive
        refine ⟨(by first | rfl | trivial), fun hr => ?_, by rw [f4, r1], ?_⟩
        · simp only [hr, Bool.true_and, decide_eq_true_eq, ne_eq, Decidable.not_not] at hreq
          exact hreq
        · rw [f5, r2, hex]

theorem cancel_effect {q q1 : Queue} {c : Consumer} (h : q.cancel c = some q1) :
    q1.consumerCount = (q.consumerCount + (UINT32_SIZE - 1)) % UINT32_SIZE ∧
    q1.exclusive = none := by
  unfold cancel at h
  simp only at h
  obtain ⟨-, -, -, f4, f5, -⟩ := notifyObservers_frame h
  have hr : (q.removeListener c).consumerCount = q.consumerCount := by
    unfold removeListener notifyListener
    split <;> rfl
  simp only at f4 f5
  exact ⟨by rw [f4, hr], f5⟩


theorem consumerCall_agrees {s s1 : ConsumerLog} {call : ConsumerCall}
    (h : consumerCall s call = some s1) (hinv : Agrees s)
    (hlen : s.active.length + 1 < UINT32_SIZE) :
    Agrees s1 ∧ s1.active.length ≤ s.active.length + 1 := by
  obtain ⟨i1, i2, i3⟩ := hinv
  cases call with
  | consume c requestExclusive =>
    simp only [consumerCall] at h
    obtain ⟨e1, e2⟩ := consume_effect s.queue c requestExclusive
    cases hc : s.queue.consume c requestExclusive with
    | aborted => simp [hc] at h
    | raised e q1 =>
      simp only [hc, Option.some.injEq] at h
      subst h
      have := e1 e q1 hc
      subst this
      exact ⟨⟨i1, i2, i3⟩, Nat.le_succ _⟩
    | ok v q1 =>
      simp only [hc, Option.some.injEq] at h
      subst h
      obtain ⟨a1, a2, a3, a4⟩ := e2 v q1 hc
      refine ⟨⟨?_, ?_, ?_⟩, Nat.le_refl _⟩
      · simp only [List.length_cons]
        rw [a3, i1]
        exact Nat.mod_eq_of_lt hlen
      · simp only [List.length_cons]
        omega
      · intro hex
        simp only [List.length_cons]
        simp only at hex
        cases hr : requestExclusive with
        | false =>
          rw [a4, hr] at hex
          simp at hex
        | true =>
          have := a2 hr
          omega
  | cancel c =>
    simp only [consumerCall] at h
    by_cases hmem : c.name ∈ s.active
    · simp only [hmem, if_true] at h
      cases hc : s.queue.cancel c with
      | none => simp [hc] at h
      | some q1 =>
        simp only [hc, Option.some.injEq] at h
        subst h
        obtain ⟨a1, a2⟩ := cancel_effect hc
        have hpos : 0 < s.active.length := List.length_pos_of_mem hmem
        have hlen2 : (s.active.erase c.name).length = s.active.length - 1 :=
          List.length_erase_of_mem hmem
        refine ⟨⟨?_, ?_, ?_⟩, ?_⟩
        · simp only
          rw [a1, i1, hlen2]
          unfold UINT32_SIZE at hlen ⊢
          omega
        · simp only
          omega
        · intro hex
          simp only at hex
          rw [a2] at hex
          simp at hex
        · simp only
          omega
    · simp only [hmem, if_false] at h
      exact absurd h (by simp)

theorem consumerCalls_agrees : ∀ (l : List ConsumerCall) (s s1 : ConsumerLog),
    consumerCalls s l = some s1 → Agrees s → s.active.length + l.length < UINT32_SIZE →
    Agrees s1 := by
  intro l
  induction l with
  | nil =>
    intro s s1 h hinv _
    simp only [consumerCalls, Option.some.injEq] at h
    subst h
    exact hinv
  | cons call rest ih =>
    intro s s1 h hinv hlen
    simp only [List.length_cons] at hlen
    unfold consumerCalls at h
    cases hc : consumerCall s call with
    | none => simp [hc] at h
    | some sa =>
      simp only [hc] at h
      obtain ⟨ha, hb⟩ := consumerCall_agrees hc hinv (by omega)
      exact ih sa s1 h ha (by omega)

/-- C33: the exclusive consumer.  On a queue without consumer and without exclusive session,
after every sequence of fewer than 2^32 calls of `consume` and `cancel` in which each
`cancel` is for a consumer registered by a `consume` that returned and not cancelled since:
`consumerCount` is the number of calls of `consume` that returned less the number of calls
of `cancel`, which is the number of consumers registered; and when an exclusive session is
set, `consumerCount` is 1: the session has one consumer and none beside it.  A `cancel`
always leaves `exclusive` cleared. -/
theorem exclusive_consumer_invariant (q : Queue) (l : List ConsumerCall) (s : ConsumerLog)
    (hcount : q.consumerCount = 0) (hexcl : q.exclusive = none)
    (hlen : l.length < UINT32_SIZE)
    (h : consumerCalls { queue := q } l = some s) :
    s.queue.consumerCount = s.consumed - s.cancelled ∧
    s.cancelled ≤ s.consumed ∧
    s.queue.consumerCount = s.active.length ∧
    (s.queue.exclusive.isSome = true → s.queue.consumerCount = 1 ∧ s.active.length = 1) ∧
    (∀ (qa qb : Queue) (c : Consumer), qa.cancel c = some qb → qb.exclusive = none) := by
  have hinit : Agrees { queue := q } := by
    refine ⟨hcount, rfl, fun hex => ?_⟩
    simp only [hexcl, Option.isSome_none] at hex
    exact absurd hex (by simp)
  obtain ⟨i1, i2, i3⟩ := consumerCalls_agrees l _ s h hinit
    (by simp only [List.length_nil, Nat.zero_add]; exact hlen)
  refine ⟨by omega, by omega, i1, fun hex => ⟨by rw [i1]; exact i3 hex, i3 hex⟩,
    fun qa qb c hc => (cancel_effect hc).2⟩

/-- C33 at a concrete queue: `c1` is registered with exclusive access for session 7, `c2` is
refused, `c1` is cancelled and `c2` is then registered: two calls of `consume` returned, one
consumer was cancelled, and `consumerCount` is 1 with no exclusive session. -/
theorem exclusive_consumer_invariant_witness :
    ∃ s, consumerCalls { queue := {} }
        [.consume { name := "c1", session := some 7 } true,
         .consume { name := "c2" } false,
         .cancel { name := "c1", session := some 7 },
         .consume { name := "c2" } false] = some s ∧
      (s.consumed, s.cancelled, s.active, s.queue.exclusive) = (2, 1, ["c2"], none) ∧
      s.queue.consumerCount = s.consumed - s.cancelled := by
  have hsome : (consumerCalls { queue := {} }
        [.consume { name := "c1", session := some 7 } true,
         .consume { name := "c2" } false,
         .cancel { name := "c1", session := some 7 },
         .consume { name := "c2" } false]).map
        (fun s => (s.consumed, s.cancelled, s.active, s.queue.exclusive))
      = some (2, 1, ["c2"], none) := by
    decide
  cases hs : consumerCalls { queue := {} }
        [.consume { name := "c1", session := some 7 } true,
         .consume { name := "c2" } false,
         .cancel { name := "c1", session := some 7 },
         .consume { name := "c2" } false] with
  | none => rw [hs] at hsome; exact absurd hsome (by simp)
  | some s =>
    rw [hs] at hsome
    simp only [Option.map_some', Option.some.injEq] at hsome
    exact ⟨s, rfl, hsome,
      (exclusive_consumer_invariant {} _ s rfl rfl (by decide) hs).1⟩

end Queue

namespace SenderContext

/-! ## The capacity of a sender (C34) -/

theorem processUnsettled_within {s s1 : SenderContext} {n : Nat}
    (h : s.processUnsettled = some (n, s1))
    (hinv : s.deliveries.length ≤ s.capacity ∧ s.capacity < UINT32_SIZE) :
    (s1.deliveries.length ≤ s1.capacity ∧ s1.capacity < UINT32_SIZE) ∧
    n = s1.deliveries.length := by
  obtain ⟨h1, ⟨taken, h2⟩, h3, -⟩ := processUnsettled_effect h
  have hlen : s1.deliveries.length ≤ s.deliveries.length := by
    rw [h2, List.length_append]
    omega
  rw [h3]
  refine ⟨⟨by omega, hinv.2⟩, ?_⟩
  rw [h1]
  exact Nat.mod_eq_of_lt (by omega)

theorem senderCall_within {s s1 : SenderContext} {c : SenderCall}
    (h : s.senderCall c = some s1)
    (hinv : s.deliveries.length ≤ s.capacity ∧ s.capacity < UINT32_SIZE) :
    s1.deliveries.length ≤ s1.capacity ∧ s1.capacity < UINT32_SIZE := by
  cases c with
  | send enc junk message =>
    simp only [senderCall] at h
    unfold send at h
    cases hp : s.processUnsettled with
    | none => simp [hp] at h
    | some r =>
      obtain ⟨n, sa⟩ := r
      obtain ⟨⟨i1, i2⟩, hn⟩ := processUnsettled_within hp hinv
      simp only [hp] at h
      by_cases hc : (decide (n < sa.capacity)
          && decide (sa.sender.creditAfter sa.sender.calls ≠ 0)) = true
      · simp only [hc, if_true] at h
        have hlt : n < sa.capacity := by
          simp only [Bool.and_eq_true, decide_eq_true_eq] at hc
          exact hc.1
        cases he : Delivery.encode enc junk message sa.address with
        | undefined => simp [he] at h
        | raised =>
          simp only [he, Option.some.injEq] at h
          subst h
          simp only [List.length_append, List.length_singleton]
          exact ⟨by omega, i2⟩
        | ok encoded =>
          simp only [he, Option.some.injEq] at h
          subst h
          simp only [List.length_append, List.length_singleton]
          exact ⟨by omega, i2⟩
      · simp only [hc, Bool.false_eq_true, if_false, Option.some.injEq] at h
        subst h
        exact ⟨i1, i2⟩
  | setCapacity c =>
    simp only [senderCall] at h
    unfold setCapacity at h
    by_cases hc : c % UINT32_SIZE < s.deliveries.length
    · simp only [hc, if_true, Option.some.injEq] at h
      subst h
      exact hinv
    · simp only [hc, if_false, Option.some.injEq] at h
      subst h
      simp only
      exact ⟨by omega, Nat.mod_lt _ (by decide)⟩
  | getUnsettled =>
    simp only [senderCall, getUnsettled] at h
    cases hp : s.processUnsettled with
    | none => simp [hp] at h
    | some r =>
      obtain ⟨n, sa⟩ := r
      simp only [hp, Option.map_some', Option.some.injEq] at h
      subst h
      exact (processUnsettled_within hp hinv).1
  | settled =>
    simp only [senderCall, settled] at h
    cases hp : s.processUnsettled with
    | none => simp [hp] at h
    | some r =>
      obtain ⟨n, sa⟩ := r
      simp only [hp, Option.map_some', Option.some.injEq] at h
      subst h
      exact (processUnsettled_within hp hinv).1
  | processUnsettled =>
    simp only [senderCall] at h
    cases hp : s.processUnsettled with
    | none => simp [hp] at h
    | some r =>
      obtain ⟨n, sa⟩ := r
      simp only [hp, Option.map_some', Option.some.injEq] at h
      subst h
      exact (processUnsettled_within hp hinv).1
  | remote id token =>
    simp only [senderCall, Option.some.injEq] at h
    subst h
    simp only [List.length_map]
    exact hinv

theorem senderCalls_within : ∀ (l : List SenderCall) (s s1 : SenderContext),
    s.senderCalls l = some s1 →
    (s.deliveries.length ≤ s.capacity ∧ s.capacity < UINT32_SIZE) →
    s1.deliveries.length ≤ s1.capacity ∧ s1.capacity < UINT32_SIZE := by
  intro l
  induction l with
  | nil =>
    intro s s1 h hinv
    simp only [senderCalls, Option.some.injEq] at h
    subst h
    exact hinv
  | cons c rest ih =>
    intro s s1 h hinv
    unfold senderCalls at h
    cases hc : s.senderCall c with
    | none => simp [hc] at h
    | some sa =>
      simp only [hc] at h
      exact ih sa s1 h (senderCall_within hc hinv)

/-- C34: a sender as its constructor leaves it has a capacity of 1000 and no delivery.
After every sequence of calls of `send`, `setCapacity`, `getUnsettled`, `settled` and
`processUnsettled`, whether they return or raise, and whatever the peer does to the
deliveries in between, the FIFO holds at most `capacity` deliveries (and `capacity` is a
`uint32_t`). -/
theorem sender_capacity_invariant (n : String) (a : Address) (sender : Link) (nextId : Int)
    (l : List SenderCall) (s : SenderContext)
    (h : (construct n a sender nextId).senderCalls l = some s) :
    ((construct n a sender nextId).capacity = 1000 ∧
      (construct n a sender nextId).deliveries = []) ∧
    s.deliveries.length ≤ s.capacity ∧ s.capacity < UINT32_SIZE :=
  ⟨⟨rfl, rfl⟩, senderCalls_within l _ s h ⟨Nat.zero_le _, (by decide : 1000 < UINT32_SIZE)⟩⟩

/-- C34 at a concrete sender: the capacity is set to 1, a first message is sent, a second
one is refused for want of capacity; once the peer has settled the first, the second goes
out: one delivery is held, for a capacity of 1. -/
theorem sender_capacity_invariant_witness :
    ∃ s, (construct "s" { name := "q" } { creditAfter := fun _ => 10 } 0).senderCalls
        [.setCapacity 1,
         .send ⟨fun _ => some [0], fun _ _ => some [1], fun _ => [], fun b => b,
                fun _ _ _ _ => some 16⟩ [] {},
         .send ⟨fun _ => some [0], fun _ _ => some [1], fun _ => [], fun b => b,
                fun _ _ _ _ => some 16⟩ [] {},
         .remote 0 { settled := true },
         .send ⟨fun _ => some [0], fun _ _ => some [1], fun _ => [], fun b => b,
                fun _ _ _ _ => some 16⟩ [] {}] = some s ∧
      s.deliveries.map (fun d => d.id) = [1] ∧ s.capacity = 1 ∧
      s.deliveries.length ≤ s.capacity := by
  have hsome : ((construct "s" { name := "q" } { creditAfter := fun _ => 10 } 0).senderCalls
        [.setCapacity 1,
         .send ⟨fun _ => some [0], fun _ _ => some [1], fun _ => [], fun b => b,
                fun _ _ _ _ => some 16⟩ [] {},
         .send ⟨fun _ => some [0], fun _ _ => some [1], fun _ => [], fun b => b,
                fun _ _ _ _ => some 16⟩ [] {},
         .remote 0 { settled := true },
         .send ⟨fun _ => some [0], fun _ _ => some [1], fun _ => [], fun b => b,
                fun _ _ _ _ => some 16⟩ [] {}]).map
        (fun s => (s.deliveries.map (fun d => d.id), s.capacity)) = some ([1], 1) := by
    decide
  cases hs : (construct "s" { name := "q" } { creditAfter := fun _ => 10 } 0).senderCalls
        [.setCapacity 1,
         .send ⟨fun _ => some [0], fun _ _ => some [1], fun _ => [], fun b => b,
                fun _ _ _ _ => some 16⟩ [] {},
         .send ⟨fun _ => some [0], fun _ _ => some [1], fun _ => [], fun b => b,
                fun _ _ _ _ => some 16⟩ [] {},
         .remote 0 { settled := true },
         .send ⟨fun _ => some [0], fun _ _ => some [1], fun _ => [], fun b => b,
                fun _ _ _ _ => some 16⟩ [] {}] with
  | none => rw [hs] at hsome; exact absurd hsome (by simp)
  | some s =>
    rw [hs] at hsome
    simp only [Option.map_some', Option.some.injEq, Prod.mk.injEq] at hsome
    exact ⟨s, rfl, hsome.1, hsome.2,
      (sender_capacity_invariant "s" { name := "q" } { creditAfter := fun _ => 10 } 0
        _ s hs).2.1⟩

end SenderContext

namespace Queue

/-! ## Termination of the dispatch loops (C35) -/

end Queue

namespace Queue

/-! ## Head-of-line blocking with the default allocator (C36) -/

theorem consumeNextMessage_front_rejected {q : Queue} {c : Consumer} {msg : QueuedMessage}
    (halloc : q.allocator = none) (hfront : q.messages.front = some msg)
    (hexp : msg.payload.expired = false) (hf : c.filter msg.payload = false) :
    q.consumeNextMessage c
      = some (.CANT_CONSUME, none, { c with position := msg.position }, q) := by
  have hnext : q.nextConsumableMessage c = some (some msg, q) := by
    unfold nextConsumableMessage
    simp only [halloc, hfront]
  unfold consumeNextMessage consumeLoop
  simp only [hnext, hexp, hf, Bool.false_eq_true, if_false]

theorem consumeRepeatedly_front_rejected {q : Queue} {msg : QueuedMessage}
    (halloc : q.allocator = none) (hfront : q.messages.front = some msg)
    (hexp : msg.payload.expired = false) :
    ∀ (n : Nat) (c : Consumer), c.filter msg.payload = false →
      q.consumeRepeatedly n c
        = some (List.replicate n (ConsumeCode.CANT_CONSUME, none),
            (if n = 0 then c else { c with position := msg.position }), q) := by
  intro n
  induction n with
  | zero =>
    intro c _
    rfl
  | succ k ih =>
    intro c hf
    unfold consumeRepeatedly
    rw [consumeNextMessage_front_rejected halloc hfront hexp hf]
    simp only
    rw [ih { c with position := msg.position } hf]
    simp only [Option.map_some', List.replicate_succ, Nat.add_one_ne_zero, if_false]
    by_cases hk : k = 0
    · simp only [hk, if_true]
    · simp only [hk, if_false]

/-- C36: head-of-line blocking with the default allocator.  The candidate offered to a
consumer is the front message of the container, whatever the position of the consumer.  So
while the front message `msg` is not expired and the filter of `c` rejects it, a call of
`consumeNextMessage` for `c` returns CANT_CONSUME with no message, leaves the queue as it
was and `c` at the position of `msg`; every further call does the same, so `c` is given
none of the messages behind `msg`, whatever its filter makes of them. -/
theorem head_of_line_blocking (q : Queue) (msg : QueuedMessage) (halloc : q.allocator = none)
    (hfront : q.messages.front = some msg) :
    (∀ c : Consumer, q.nextConsumableMessage c = some (some msg, q)) ∧
    (msg.payload.expired = false → ∀ c : Consumer, c.filter msg.payload = false →
      q.consumeNextMessage c
        = some (.CANT_CONSUME, none, { c with position := msg.position }, q) ∧
      ∀ n, q.consumeRepeatedly n c
        = some (List.replicate n (ConsumeCode.CANT_CONSUME, none),
            (if n = 0 then c else { c with position := msg.position }), q)) := by
  refine ⟨fun c => ?_, fun hexp c hf =>
    ⟨consumeNextMessage_front_rejected halloc hfront hexp hf,
     fun n => consumeRepeatedly_front_rejected halloc hfront hexp n c hf⟩⟩
  unfold nextConsumableMessage
  simp only [halloc, hfront]

/-- C36 at a concrete queue: the filter of the consumer rejects message 1, at the front, and
accepts message 2 behind it: three calls in a row return CANT_CONSUME and hand out
nothing. -/
theorem head_of_line_blocking_witness :
    consumeRepeatedly 3
        { messages := { items := [⟨{ id := 1 }, 1⟩, ⟨{ id := 2 }, 2⟩] }, sequence := 2 }
        { name := "c", filter := fun m => decide (m.id = 2) }
      = some ([(.CANT_CONSUME, none), (.CANT_CONSUME, none), (.CANT_CONSUME, none)],
          { name := "c", filter := fun m => decide (m.id = 2), position := 1 },
          { messages := { items := [⟨{ id := 1 }, 1⟩, ⟨{ id := 2 }, 2⟩] }, sequence := 2 }) :=
  ((head_of_line_blocking
      { messages := { items := [⟨{ id := 1 }, 1⟩, ⟨{ id := 2 }, 2⟩] }, sequence := 2 }
      ⟨{ id := 1 }, 1⟩ rfl rfl).2 rfl
    { name := "c", filter := fun m => decide (m.id = 2) } rfl).2 3

end Queue

namespace Queue

/-! ## The heuristic of purgeExpired (C37) -/

theorem toInt32_of_range {i : Int} (h1 : -2147483648 ≤ i) (h2 : i < 2147483648) :
    toInt32 i = i := by
  unfold toInt32
  omega

theorem expiryPassDue_iff {q : Queue} {lapse : Int}
    (hcount : q.dequeueSincePurge < 2147483648)
    (hlapse : -2147483648 ≤ Int.tdiv lapse TIME_SEC ∧ Int.tdiv lapse TIME_SEC < 2147483648) :
    q.expiryPassDue lapse = false
      ↔ ((TIME_SEC : Int) ≤ lapse ∧ 1 ≤ q.dequeueSincePurge / (lapse / TIME_SEC).toNat) := by
  unfold expiryPassDue
  simp only
  rw [toInt32_of_range (i := (q.dequeueSincePurge : Int)) (by omega) (by omega),
    toInt32_of_range hlapse.1 hlapse.2]
  simp only [Bool.or_eq_false_iff, decide_eq_false_iff_not, Int.not_lt]
  by_cases hneg : 0 ≤ lapse
  · have hsec : Int.tdiv lapse TIME_SEC = lapse / TIME_SEC :=
      Int.tdiv_eq_ediv hneg (by decide)
    rw [hsec]
    have hk : ((lapse / (TIME_SEC : Int)).toNat : Int) = lapse / TIME_SEC :=
      Int.toNat_of_nonneg (Int.ediv_nonneg hneg (by decide))
    constructor
    · rintro ⟨h0, h1⟩
      have hge : (TIME_SEC : Int) ≤ lapse := by
        by_contra hlt
        apply h0
        exact Int.ediv_eq_zero_of_lt hneg (by omega)
      refine ⟨hge, ?_⟩
      rw [← hk, ← Int.ofNat_tdiv] at h1
      exact_mod_cast h1
    · rintro ⟨hge, h1⟩
      have hpos : 1 ≤ lapse / (TIME_SEC : Int) :=
        Int.le_ediv_of_mul_le (by decide) (by rw [Int.one_mul]; exact hge)
      refine ⟨by omega, ?_⟩
      rw [← hk, ← Int.ofNat_tdiv]
      exact_mod_cast h1
  · have hlt : lapse < 0 := by omega
    have hsec : Int.tdiv lapse TIME_SEC ≤ 0 := by
      have h := Int.neg_tdiv (-lapse) TIME_SEC
      rw [Int.neg_neg] at h
      rw [h]
      have := Int.tdiv_nonneg (a := -lapse) (b := TIME_SEC) (by omega) (by decide)
      omega
    constructor
    · rintro ⟨h0, h1⟩
      have := Int.tdiv_nonpos (a := (q.dequeueSincePurge : Int)) (b := Int.tdiv lapse TIME_SEC)
        (by omega) hsec
      omega
    · rintro ⟨hge, -⟩
      have : (0 : Int) ≤ TIME_SEC := by decide
      omega

theorem notifyObservers_counter {q q1 : Queue} {n : Notification}
    (h : q.notifyObservers n = some q1) : q1.dequeueSincePurge = q.dequeueSincePurge := by
  unfold notifyObservers at h
  simp only at h
  split at h
  · simp only [Option.some.injEq] at h
    subst h
    rfl
  · split at h
    · exact absurd h (by simp)
    · simp only [Option.some.injEq] at h
      subst h
      rfl

theorem dequeue_counter {q q1 : Queue} {ctxt r : Bool} {qm : QueuedMessage}
    (h : q.dequeue ctxt qm = some (r, q1)) : q1.dequeueSincePurge = q.dequeueSincePurge := by
  unfold dequeue at h
  split at h
  · simp only [Option.some.injEq, Prod.mk.injEq] at h
    rw [← h.2]
  · split at h
    · simp only [Option.some.injEq, Prod.mk.injEq] at h
      rw [← h.2]
    · split at h
      · exact absurd h (by simp)
      · rename_i qa ha
        have hqa : qa.dequeueSincePurge = q.dequeueSincePurge := by
          split at ha
          · simp only [Option.some.injEq] at ha
            rw [← ha]
          · unfold dequeued at ha
            have := notifyObservers_counter ha
            exact this
        simp only at h
        split at h
        · simp only [Option.some.injEq, Prod.mk.injEq] at h
          rw [← h.2]
          exact hqa
        · simp only [Option.some.injEq, Prod.mk.injEq] at h
          rw [← h.2]
          exact hqa

theorem purgeLoop_counter : ∀ (l : List QueuedMessage) {q q1 : Queue},
    purgeLoop q l = some q1 → q1.dequeueSincePurge = q.dequeueSincePurge := by
  intro l
  induction l with
  | nil =>
    intro q q1 h
    simp only [purgeLoop, Option.some.injEq] at h
    rw [← h]
  | cons qm rest ih =>
    intro q q1 h
    unfold purgeLoop at h
    split at h
    · exact absurd h (by simp)
    · rename_i qa ha
      have h1 : qa.dequeueSincePurge = q.dequeueSincePurge := by
        unfold acquired at ha
        exact notifyObservers_counter ha
      split at h
      · exact absurd h (by simp)
      · rename_i flag qb hb
        have h2 := dequeue_counter hb
        rw [ih h, h2, h1]

theorem purgeExpired_counter_zero (q : Queue) :
    (((q.dequeueSincePurge : Int) - toInt32 q.dequeueSincePurge) % UINT32_SIZE).toNat = 0 := by
  have h : ((q.dequeueSincePurge : Int) - toInt32 q.dequeueSincePurge) % UINT32_SIZE = 0 := by
    unfold toInt32
    unfold UINT32_SIZE
    push_cast
    omega
  rw [h]
  rfl

theorem expiryPassDue_wrapped {q : Queue} {lapse : Int}
    (hlow : 2147483648 ≤ q.dequeueSincePurge) (hq : q.dequeueSincePurge < UINT32_SIZE)
    (hsec : (TIME_SEC : Int) ≤ lapse) (hlapse : Int.tdiv lapse TIME_SEC < 2147483648) :
    q.expiryPassDue lapse = true ∧
    (decide (toInt32 (Int.tdiv lapse TIME_SEC) = -1)
        && decide (toInt32 (q.dequeueSincePurge : Int) = -2147483648)) = false ∧
    1 ≤ q.dequeueSincePurge / (lapse / TIME_SEC).toNat := by
  have hpos : (0 : Int) ≤ lapse := le_trans (by decide) hsec
  have hs1 : 1 ≤ Int.tdiv lapse TIME_SEC := by
    rw [Int.tdiv_eq_ediv hpos (by decide)]
    exact Int.le_ediv_of_mul_le (by decide) (by simpa using hsec)
  have hs32 : toInt32 (Int.tdiv lapse TIME_SEC) = Int.tdiv lapse TIME_SEC :=
    toInt32_of_range (by omega) hlapse
  have hc32 : toInt32 (q.dequeueSincePurge : Int) = (q.dequeueSincePurge : Int) - 4294967296 := by
    unfold toInt32
    unfold UINT32_SIZE at hq
    omega
  refine ⟨?_, ?_, ?_⟩
  · unfold expiryPassDue
    simp only [hs32, hc32, Bool.or_eq_true, decide_eq_true_eq]
    right
    have hneg : (0 : Int) ≤ -((q.dequeueSincePurge : Int) - 4294967296) := by
      unfold UINT32_SIZE at hq
      omega
    have hs0 : (0 : Int) ≤ Int.tdiv lapse TIME_SEC := by omega
    have h5 := Int.tdiv_nonneg hneg hs0
    rw [Int.neg_tdiv] at h5
    omega
  · rw [hs32]
    have hne : decide (Int.tdiv lapse TIME_SEC = -1) = false := decide_eq_false (by omega)
    rw [hne, Bool.false_and]
  · have hsec2 : Int.tdiv lapse TIME_SEC = lapse / TIME_SEC :=
      Int.tdiv_eq_ediv hpos (by decide)
    have hk : ((lapse / (TIME_SEC : Int)).toNat : Int) = lapse / TIME_SEC :=
      Int.toNat_of_nonneg (Int.ediv_nonneg hpos (by decide))
    have hk1 : 0 < (lapse / (TIME_SEC : Int)).toNat := by
      have : (0 : Int) < ((lapse / (TIME_SEC : Int)).toNat : Int) := by
        rw [hk, ← hsec2]
        omega
      exact_mod_cast this
    have hk2 : (lapse / (TIME_SEC : Int)).toNat ≤ q.dequeueSincePurge := by
      have : ((lapse / (TIME_SEC : Int)).toNat : Int) ≤ (q.dequeueSincePurge : Int) := by
        rw [hk, ← hsec2]
        omega
      exact_mod_cast this
    exact (Nat.one_le_div_iff hk1).mpr hk2

/-- C37: `purgeExpired(lapse)`, the counter of dequeues being a `uint32_t`.
(1) For a counter below 2^31 and a lapse whose whole seconds fit in an `int`, the code does
what the claim says: when `lapse` is at least one whole second and the counter divided by
the whole seconds of `lapse` (integer division) is at least 1, the pass is skipped, the
queue being as it was but for the counter; in every other case, a lapse shorter than one
second included, the pass is made: the expired messages are taken out of the container and
`acquired` and `dequeue(0, msg)` are called for each.
(2) For a counter of 2^31 or more, and a lapse of at least one second whose whole seconds
fit in an `int`, the condition of the claim for skipping holds, and yet the code makes the
pass: the counter is read into an `int`, where it is negative.
(3) In every case, the count read being the whole counter, the counter is left at 0. -/
theorem purgeExpired_heuristic (q : Queue) (lapse : Int) :
    (q.dequeueSincePurge < 2147483648 →
      -2147483648 ≤ Int.tdiv lapse TIME_SEC → Int.tdiv lapse TIME_SEC < 2147483648 →
      (((TIME_SEC : Int) ≤ lapse ∧ 1 ≤ q.dequeueSincePurge / (lapse / TIME_SEC).toNat) →
        q.purgeExpired lapse = some { q with dequeueSincePurge := 0 }) ∧
      (¬ ((TIME_SEC : Int) ≤ lapse ∧ 1 ≤ q.dequeueSincePurge / (lapse / TIME_SEC).toNat) →
        q.purgeExpired lapse
          = purgeLoop
              { q with
                dequeueSincePurge := 0,
                messages :=
                  { q.messages with
                    items := q.messages.items.filter (fun x => !x.payload.expired) } }
              (q.messages.items.filter (fun x => x.payload.expired))) ∧
      (lapse < TIME_SEC →
        ¬ ((TIME_SEC : Int) ≤ lapse ∧ 1 ≤ q.dequeueSincePurge / (lapse / TIME_SEC).toNat))) ∧
    (2147483648 ≤ q.dequeueSincePurge → q.dequeueSincePurge < UINT32_SIZE →
      (TIME_SEC : Int) ≤ lapse → Int.tdiv lapse TIME_SEC < 2147483648 →
      ((TIME_SEC : Int) ≤ lapse ∧ 1 ≤ q.dequeueSincePurge / (lapse / TIME_SEC).toNat) ∧
      q.purgeExpired lapse
        = purgeLoop
            { q with
              dequeueSincePurge := 0,
              messages :=
                { q.messages with
                  items := q.messages.items.filter (fun x => !x.payload.expired) } }
            (q.messages.items.filter (fun x => x.payload.expired))) ∧
    (∀ q1, q.purgeExpired lapse = some q1 → q1.dequeueSincePurge = 0) := by
  have hzero := purgeExpired_counter_zero q
  refine ⟨fun hcount hl1 hl2 => ?_, fun hlow hq hsec hl2 => ?_, fun q1 h => ?_⟩
  · have hlapse : -2147483648 ≤ Int.tdiv lapse TIME_SEC ∧ Int.tdiv lapse TIME_SEC < 2147483648 :=
      ⟨hl1, hl2⟩
    have hc32 : toInt32 (q.dequeueSincePurge : Int) = q.dequeueSincePurge :=
      toInt32_of_range (by omega) (by omega)
    refine ⟨fun hs => ?_, fun hs => ?_, fun hlt hs => ?_⟩
    · have hdue := (expiryPassDue_iff hcount hlapse).mpr hs
      have hub : (decide (toInt32 (Int.tdiv lapse TIME_SEC) = -1)
          && decide (toInt32 (q.dequeueSincePurge : Int) = -2147483648)) = false := by
        have hne : decide (toInt32 (q.dequeueSincePurge : Int) = -2147483648) = false := by
          rw [hc32]
          exact decide_eq_false (by omega)
        rw [hne, Bool.and_false]
      unfold purgeExpired
      dsimp only
      rw [hub, hdue, hzero]
      rfl
    · have hdue : q.expiryPassDue lapse = true := by
        cases hd : q.expiryPassDue lapse with
        | true => rfl
        | false => exact absurd ((expiryPassDue_iff hcount hlapse).mp hd) hs
      rw [purgeExpired_pass hdue, hzero]
    · omega
  · obtain ⟨hdue, -, hskip⟩ := expiryPassDue_wrapped hlow hq hsec hl2
    refine ⟨⟨hsec, hskip⟩, ?_⟩
    rw [purgeExpired_pass hdue, hzero]
  · unfold purgeExpired at h
    dsimp only at h
    rw [hzero] at h
    split at h
    · exact absurd h (by simp)
    · split at h
      · rw [purgeLoop_counter _ h]
      · simp only [Option.some.injEq] at h
        rw [← h]

/-- C37 at concrete queues.  With 5 dequeues counted, a lapse of 3 s skips the pass: the
expired message stays.  With 2^31 dequeues counted, a lapse of 1 s meets the condition for
skipping, and the pass is made: the expired message is taken out. -/
theorem purgeExpired_heuristic_witness :
    purgeExpired
        { dequeueSincePurge := 5, sequence := 1,
          messages := { items := [⟨{ id := 1, expired := true }, 1⟩] } } 3000000000
      = some { dequeueSincePurge := 0, sequence := 1,
               messages := { items := [⟨{ id := 1, expired := true }, 1⟩] } } ∧
    (((TIME_SEC : Int) ≤ 1000000000 ∧ 1 ≤ 2147483648 / ((1000000000 : Int) / TIME_SEC).toNat) ∧
      (purgeExpired
          { dequeueSincePurge := 2147483648, sequence := 1,
            messages := { items := [⟨{ id := 1, expired := true }, 1⟩] } } 1000000000).map
        (fun q1 => (q1.messages.items, q1.dequeueSincePurge)) = some ([], 0)) := by
  refine ⟨((purgeExpired_heuristic
      { dequeueSincePurge := 5, sequence := 1,
        messages := { items := [⟨{ id := 1, expired := true }, 1⟩] } } 3000000000).1
      (by decide) (by decide) (by decide)).1 (by decide), ?_⟩
  have h := (purgeExpired_heuristic
      { dequeueSincePurge := 2147483648, sequence := 1,
        messages := { items := [⟨{ id := 1, expired := true }, 1⟩] } } 1000000000).2.1
      (by decide) (by decide) (by decide) (by decide)
  refine ⟨h.1, ?_⟩
  rw [h.2]
  rfl

end Queue

namespace UsageBarrier

/-! ## UsageBarrier (C38) -/

theorem release_count {b : UsageBarrier} (h0 : b.count ≠ 0) (hlt : b.count < UINT32_SIZE) :
    b.release.1 = { b with count := b.count - 1 } := by
  unfold release
  simp only
  have h : (b.count + (UINT32_SIZE - 1)) % UINT32_SIZE = b.count - 1 := by
    unfold UINT32_SIZE at hlt ⊢
    omega
  rw [h]

theorem acquire_count {b : UsageBarrier} (hd : b.deleted = false)
    (hlt : b.count + 1 < UINT32_SIZE) :
    b.acquire = (true, { b with count := b.count + 1 }) := by
  unfold acquire
  simp only [hd, Bool.false_eq_true, if_false]
  rw [Nat.mod_eq_of_lt hlt]

theorem barrierCalls_count : ∀ (l : List BarrierCall) (b b1 : UsageBarrier) (held held1 : Nat),
    b.count = held → held + l.length < UINT32_SIZE →
    b.barrierCalls held l = some (b1, held1) →
    b1.count = held1 := by
  intro l
  induction l with
  | nil =>
    intro b b1 held held1 hc _ h
    simp only [barrierCalls, Option.some.injEq, Prod.mk.injEq] at h
    rw [← h.1, ← h.2]
    exact hc
  | cons c rest ih =>
    intro b b1 held held1 hc hlen h
    simp only [List.length_cons] at hlen
    unfold barrierCalls at h
    cases c with
    | acquire =>
      simp only [barrierCall] at h
      cases hd : b.deleted with
      | true =>
        have ha : b.acquire = (false, b) := by
          unfold acquire
          simp only [hd, if_true]
        rw [ha] at h
        simp only [Bool.false_eq_true, if_false] at h
        exact ih b b1 held held1 hc (by omega) h
      | false =>
        have ha := acquire_count hd (by omega : b.count + 1 < UINT32_SIZE)
        rw [ha] at h
        simp only [if_true] at h
        exact ih _ b1 (held + 1) held1 (by simp only [hc]) (by omega) h
    | release =>
      simp only [barrierCall] at h
      by_cases h0 : held = 0
      · simp only [h0, if_true] at h
        exact absurd h (by simp)
      · simp only [h0, if_false] at h
        have hr := release_count (b := b) (by omega) (by omega)
        rw [hr] at h
        exact ih _ b1 (held - 1) held1 (by simp only [hc]) (by omega) h
    | destroy =>
      simp only [barrierCall] at h
      exact ih _ b1 held held1 (by simp only [destroy, hc]) (by omega) h

theorem barrierCalls_deleted : ∀ (l : List BarrierCall) (b b1 : UsageBarrier) (held held1 : Nat),
    b.deleted = true → b.count = held → held < UINT32_SIZE →
    b.barrierCalls held l = some (b1, held1) →
    b1.deleted = true ∧ b1.count ≤ b.count ∧ b1.count = held1 ∧
    ∀ r ∈ b.acquireResults held l, r = false := by
  intro l
  induction l with
  | nil =>
    intro b b1 held held1 hd hc _ h
    simp only [barrierCalls, Option.some.injEq, Prod.mk.injEq] at h
    rw [← h.1, ← h.2]
    exact ⟨hd, Nat.le_refl _, hc, fun r hr => by simp [acquireResults] at hr⟩
  | cons c rest ih =>
    intro b b1 held held1 hd hc hlt h
    unfold barrierCalls at h
    unfold acquireResults
    have ha : b.acquire = (false, b) := by
      unfold acquire
      simp only [hd, if_true]
    cases c with
    | acquire =>
      simp only [barrierCall, ha, Bool.false_eq_true, if_false] at h ⊢
      obtain ⟨e1, e2, e3, e4⟩ := ih b b1 held held1 hd hc hlt h
      refine ⟨e1, e2, e3, fun r hr => ?_⟩
      simp only [if_true, List.singleton_append, List.mem_cons] at hr
      rcases hr with hr | hr
      · exact hr
      · exact e4 r hr
    | release =>
      simp only [barrierCall] at h ⊢
      by_cases h0 : held = 0
      · simp only [h0, if_true] at h
        exact absurd h (by simp)
      · simp only [h0, if_false] at h ⊢
        have hr := release_count (b := b) (by omega) (by omega)
        rw [hr] at h ⊢
        obtain ⟨e1, e2, e3, e4⟩ := ih { b with count := b.count - 1 } b1 (held - 1) held1 hd
          (by simp only [hc]) (by omega) h
        have e5 : b1.count ≤ b.count - 1 := e2
        refine ⟨e1, by omega, e3, fun r hr2 => ?_⟩
        simp only [reduceCtorEq, if_false, List.nil_append] at hr2
        exact e4 r hr2
    | destroy =>
      simp only [barrierCall] at h ⊢
      have hdd : b.destroy = b := by
        unfold destroy
        cases b
        simp only at hd
        simp only [hd]
      rw [hdd] at h ⊢
      obtain ⟨e1, e2, e3, e4⟩ := ih b b1 held held1 hd hc hlt h
      refine ⟨e1, e2, e3, fun r hr2 => ?_⟩
      simp only [reduceCtorEq, if_false, List.nil_append] at hr2
      exact e4 r hr2

/-- C38: `Queue::UsageBarrier`.  (1) `acquire` returns false, leaving the barrier as it was,
if and only if `deleted` is set; otherwise it increments `count` and returns true.
(2) `release` decrements `count` and `destroy` sets `deleted`, leaving `count` as it is.
(3) In every sequence of calls in which each `release` follows an `acquire` that returned
true and was not released yet, the counter not running over 2^32, `count` is the number of
such calls of `acquire` not released yet.  (4) Once `deleted` is set, as `destroy` sets it,
it stays set, every call of `acquire` returns false and `count` does not increase. -/
theorem usageBarrier_contract (b : UsageBarrier) :
    ((b.acquire.1 = false ↔ b.deleted = true) ∧
     (b.deleted = true → b.acquire = (false, b)) ∧
     (b.deleted = false →
        b.acquire = (true, { b with count := (b.count + 1) % UINT32_SIZE }))) ∧
    ((b.count ≠ 0 → b.count < UINT32_SIZE → b.release.1 = { b with count := b.count - 1 }) ∧
     b.destroy = { b with deleted := true }) ∧
    (∀ l held b1 held1, b.count = held → held + l.length < UINT32_SIZE →
      b.barrierCalls held l = some (b1, held1) → b1.count = held1) ∧
    (∀ l held b1 held1, b.count = held → held < UINT32_SIZE →
      b.destroy.barrierCalls held l = some (b1, held1) →
      b1.deleted = true ∧ b1.count ≤ b.count ∧ b1.count = held1 ∧
      ∀ r ∈ b.destroy.acquireResults held l, r = false) := by
  refine ⟨⟨?_, ?_, ?_⟩, ⟨fun h0 hlt => release_count h0 hlt, rfl⟩,
    fun l held b1 held1 => barrierCalls_count l b b1 held held1,
    fun l held b1 held1 hc hlt h =>
      barrierCalls_deleted l b.destroy b1 held held1 rfl hc hlt h⟩
  · unfold acquire
    cases b.deleted <;> simp
  · intro hd
    unfold acquire
    simp only [hd, if_true]
  · intro hd
    unfold acquire
    simp only [hd, Bool.false_eq_true, if_false]

/-- C38 at a concrete barrier: two uses are taken and one is given back, the barrier is
destroyed, a third use is refused and the last use is given back: `count` is 0 and every
`acquire` after `destroy` returned false. -/
theorem usageBarrier_contract_witness :
    barrierCalls {} 0 [.acquire, .acquire, .release] = some ({ count := 1 }, 1) ∧
    ({ count := 1 } : UsageBarrier).destroy.barrierCalls 1 [.acquire, .release]
        = some ({ count := 0, deleted := true }, 0) ∧
    ∀ r ∈ ({ count := 1 } : UsageBarrier).destroy.acquireResults 1 [.acquire, .release],
      r = false :=
  ⟨by decide, by decide,
   ((usageBarrier_contract { count := 1 }).2.2.2 [.acquire, .release] 1
      { count := 0, deleted := true } 0 rfl (by decide) (by decide)).2.2.2⟩

end UsageBarrier

namespace SenderContext

/-! ## processUnsettled (C39) -/

theorem processUnsettledLoop_eq : ∀ (l : List Delivery) (sender : Link),
    (∀ d ∈ l, d.token.isSome = true) →
    processUnsettledLoop l sender
      = some (l.dropWhile (fun d => d.delivered == some true),
          { sender with
            calls := sender.calls ++ (l.takeWhile (fun d => d.delivered == some true)).map
              (fun d => LinkCall.settle d.id) }) := by
  intro l
  induction l with
  | nil =>
    intro sender _
    simp [processUnsettledLoop]
  | cons d rest ih =>
    intro sender htok
    have hd : d.token.isSome = true := htok d (List.mem_cons_self _ _)
    have hrest : ∀ x ∈ rest, x.token.isSome = true :=
      fun x hx => htok x (List.mem_cons_of_mem _ hx)
    unfold processUnsettledLoop
    cases hdel : d.delivered with
    | none =>
      unfold Delivery.delivered at hdel
      cases ht : d.token with
      | none => rw [ht] at hd; exact absurd hd (by simp)
      | some t => rw [ht] at hdel; exact absurd hdel (by simp)
    | some b =>
      cases b with
      | true =>
        simp only
        rw [ih (d.settle sender) hrest]
        simp [List.dropWhile_cons, List.takeWhile_cons, hdel, Delivery.settle]
      | false =>
        simp [List.dropWhile_cons, List.takeWhile_cons, hdel]

/-- C39: `processUnsettled()` on a FIFO in which every delivery has its token (null tokens
are not to be handed to proton).  The call returns.  It takes from the FIFO the longest
prefix of deliveries for which `delivered()` holds (the remote state is set, or the delivery
is settled), calls `settle` for each of them, in order, and leaves the other deliveries in
their order; it returns their number (as a `uint32_t`).  Afterwards the FIFO is empty or its
front delivery is not delivered.  `settled()` returns true if and only if that number is 0,
which, for a FIFO of fewer than 2^32 deliveries, is to say that the FIFO is left empty. -/
theorem processUnsettled_contract (s : SenderContext)
    (htok : ∀ d ∈ s.deliveries, d.token.isSome = true) :
    ∃ n s1, s.processUnsettled = some (n, s1) ∧
      s1.deliveries = s.deliveries.dropWhile (fun d => d.delivered == some true) ∧
      s.deliveries
        = s.deliveries.takeWhile (fun d => d.delivered == some true) ++ s1.deliveries ∧
      (∀ d ∈ s.deliveries.takeWhile (fun d => d.delivered == some true),
        d.delivered = some true) ∧
      s1.sender.calls = s.sender.calls
        ++ (s.deliveries.takeWhile (fun d => d.delivered == some true)).map
            (fun d => LinkCall.settle d.id) ∧
      s1 = { s with deliveries := s1.deliveries, sender := s1.sender } ∧
      n = s1.deliveries.length % UINT32_SIZE ∧
      (s1.deliveries = [] ∨
        ∃ d rest, s1.deliveries = d :: rest ∧ d.delivered = some false) ∧
      s.settled = some (n == 0, s1) ∧
      (s.deliveries.length < UINT32_SIZE →
        n = s1.deliveries.length ∧
        (s.settled.map Prod.fst = some true ↔ s1.deliveries = [])) := by
  have hloop := processUnsettledLoop_eq s.deliveries s.sender htok
  have hp : s.processUnsettled
      = some ((s.deliveries.dropWhile (fun d => d.delivered == some true)).length % UINT32_SIZE,
          { s with
            deliveries := s.deliveries.dropWhile (fun d => d.delivered == some true),
            sender :=
              { s.sender with
                calls := s.sender.calls
                  ++ (s.deliveries.takeWhile (fun d => d.delivered == some true)).map
                    (fun d => LinkCall.settle d.id) } }) := by
    unfold processUnsettled
    rw [hloop]
  have hsettled : s.settled
      = some ((s.deliveries.dropWhile
            (fun d => d.delivered == some true)).length % UINT32_SIZE == 0,
          { s with
            deliveries := s.deliveries.dropWhile (fun d => d.delivered == some true),
            sender :=
              { s.sender with
                calls := s.sender.calls
                  ++ (s.deliveries.takeWhile (fun d => d.delivered == some true)).map
                    (fun d => LinkCall.settle d.id) } }) := by
    unfold settled
    rw [hp]
    simp
  refine ⟨_, _, hp, rfl, (List.takeWhile_append_dropWhile _ _).symm, ?_, rfl, rfl, rfl, ?_,
    hsettled, ?_⟩
  · intro d hd
    have := List.mem_takeWhile_imp hd
    simpa using this
  · cases hdw : s.deliveries.dropWhile (fun d => d.delivered == some true) with
    | nil => exact Or.inl rfl
    | cons d rest =>
      refine Or.inr ⟨d, rest, rfl, ?_⟩
      have hne := List.head_dropWhile_not (fun d => d.delivered == some true) s.deliveries
        (by rw [hdw]; simp)
      simp only [hdw, List.head_cons] at hne
      have hmem : d ∈ s.deliveries :=
        (List.dropWhile_sublist _).subset (by rw [hdw]; exact List.mem_cons_self _ _)
      have ht := htok d hmem
      cases hdel : d.delivered with
      | none =>
        unfold Delivery.delivered at hdel
        cases htk : d.token with
        | none => rw [htk] at ht; exact absurd ht (by simp)
        | some t => rw [htk] at hdel; exact absurd hdel (by simp)
      | some b =>
        cases b with
        | true => rw [hdel] at hne; exact absurd hne (by simp)
        | false => rfl
  · intro hlen
    have hle : (s.deliveries.dropWhile (fun d => d.delivered == some true)).length
        < UINT32_SIZE :=
      Nat.lt_of_le_of_lt (List.dropWhile_sublist _).length_le hlen
    refine ⟨Nat.mod_eq_of_lt hle, ?_⟩
    rw [hsettled, Nat.mod_eq_of_lt hle]
    simp [List.length_eq_zero]

/-- C39 at a concrete sender: of three deliveries the first is settled, the second has a
remote state and the third has neither: two are taken and settled, one is left. -/
theorem processUnsettled_contract_witness :
    ∃ n s1,
      processUnsettled
        { name := "s", address := { name := "q" }, nextId := 3,
          deliveries := [{ id := 0, token := some { settled := true } },
                         { id := 1, token := some { remoteState := 36 } },
                         { id := 2, token := some {} }] } = some (n, s1) ∧
      s1.deliveries = [{ id := 2, token := some {} }] ∧
      s1.sender.calls = [.settle 0, .settle 1] ∧ n = 1 := by
  obtain ⟨n, s1, h1, h2, -, -, h5, -, h7, -⟩ := processUnsettled_contract
    { name := "s", address := { name := "q" }, nextId := 3,
      deliveries := [{ id := 0, token := some { settled := true } },
                     { id := 1, token := some { remoteState := 36 } },
                     { id := 2, token := some {} }] } (by decide)
  refine ⟨n, s1, h1, ?_, ?_, ?_⟩
  · rw [h2]
    decide
  · rw [h5]
    decide
  · have h8 : s1.deliveries = [{ id := 2, token := some {} }] := by
      rw [h2]
      decide
    rw [h7, h8]
    decide

end SenderContext

namespace MessageFilter


/-! ## MessageFilter::create (C40) -/

end MessageFilter

namespace Queue

/-! ## purge, with and without re-routing to the queue purged (C12) -/

theorem routeWithAlternate_away {q : Queue} {ex : Exchange} {msg : Message}
    (h : ex.routesHere msg = false) :
    q.routeWithAlternate ex msg
      = .ok () { q with rerouted := q.rerouted ++ [(ex.name, msg)] } := by
  unfold routeWithAlternate
  simp only [h, Bool.false_eq_true, if_false]

theorem rerouteLoop_away (dest : Option Exchange) : ∀ (l : List QueuedMessage) {q : Queue},
    (∀ ex, dest = some ex → ∀ x ∈ l, ex.routesHere x.payload = false) →
    (∀ q1, (rerouteLoop dest q l).state? = some q1 →
      rerouteLoop dest q l = .ok () q1 ∧
      Kept q q1 ∧ (∃ delta, Frame q q1 delta ∧ acquiredMessages delta = l) ∧
      (q.deleted = false → KeepsEnqueued q →
        Frame q q1 (l.flatMap (fun x => [Notification.acquired x, Notification.dequeued x])))) ∧
    (q.allocator = none → ∃ q1, rerouteLoop dest q l = .ok () q1) := by
  intro l
  induction l with
  | nil =>
    intro q _
    refine ⟨fun q1 h => ?_, fun _ => ⟨q, rfl⟩⟩
    simp only [rerouteLoop, Outcome.state?, Option.some.injEq] at h
    subst h
    exact ⟨rfl, kept_refl q, ⟨[], frame_refl q, rfl⟩, fun _ _ => frame_refl q⟩
  | cons qm rest ih =>
    intro q haway
    have haway2 : ∀ ex, dest = some ex → ∀ x ∈ rest, ex.routesHere x.payload = false :=
      fun ex he x hx => haway ex he x (List.mem_cons_of_mem _ hx)
    have haway1 : ∀ ex, dest = some ex → ex.routesHere qm.payload = false :=
      fun ex he => haway ex he qm (List.mem_cons_self _ _)
    refine ⟨fun q1 h => ?_, fun halloc => ?_⟩
    · unfold rerouteLoop at h ⊢
      cases ha : q.acquired qm with
      | none =>
        rw [ha] at h
        exact absurd h (by simp [Outcome.state?])
      | some qa =>
        rw [ha] at h
        simp only at h ⊢
        cases hb : qa.dequeue false qm with
        | none =>
          rw [hb] at h
          exact absurd h (by simp [Outcome.state?])
        | some rb =>
          obtain ⟨r, qb⟩ := rb
          rw [hb] at h
          simp only at h ⊢
          have fa := acquired_frame ha
          have ka := acquired_kept ha
          obtain ⟨db, fb, hdb⟩ := dequeue_frame hb
          have kb := dequeue_kept hb
          have key : ∀ qc, Frame qb qc [] → Kept qb qc →
              (rerouteLoop dest qc rest).state? = some q1 →
              rerouteLoop dest qc rest = .ok () q1 ∧ Kept q q1 ∧
              (∃ delta, Frame q q1 delta ∧ acquiredMessages delta = qm :: rest) ∧
              (q.deleted = false → KeepsEnqueued q →
                Frame q q1 ((qm :: rest).flatMap
                  (fun x => [Notification.acquired x, Notification.dequeued x]))) := by
            intro qc fc kc hc
            obtain ⟨hok, kd, ⟨dd, fd, had⟩, hdd⟩ := (ih haway2).1 q1 hc
            refine ⟨hok, kept_trans ka (kept_trans kb (kept_trans kc kd)),
              ⟨[.acquired qm] ++ (db ++ ([] ++ dd)),
                frame_trans fa (frame_trans fb (frame_trans fc fd)), ?_⟩, ?_⟩
            · rw [acquiredMessages_append, acquiredMessages_append, acquiredMessages_append, had]
              rcases hdb with hdb | hdb <;> subst hdb <;> simp [acquiredMessages]
            · intro hdel hkeep
              have hdela : qa.deleted = false := fa.2.2.2.2.2.1.trans hdel
              have hkeepa := keepsEnqueued_of_kept ka hkeep
              have fb2 := dequeue_fires hdela hkeepa hb
              have hdelc : qc.deleted = false :=
                fc.2.2.2.2.2.1.trans (fb.2.2.2.2.2.1.trans hdela)
              have hkeepc := keepsEnqueued_of_kept kc (keepsEnqueued_of_kept kb hkeepa)
              have hall := frame_trans fa (frame_trans fb2 (frame_trans fc (hdd hdelc hkeepc)))
              simpa using hall
          cases dest with
          | none =>
            simp only at h ⊢
            exact key qb (frame_refl qb) (kept_refl qb) h
          | some ex =>
            simp only at h ⊢
            rw [routeWithAlternate_away (haway1 ex rfl)] at h ⊢
            simp only at h ⊢
            exact key _ (frame_of_eq rfl rfl rfl rfl rfl rfl rfl rfl) (kept_of_eq rfl rfl) h
    · obtain ⟨qa, ha, ha2⟩ := acquired_total qm halloc
      obtain ⟨r, qb, hb, hb2⟩ := dequeue_total false qm ha2
      unfold rerouteLoop
      rw [ha]
      simp only [hb]
      have key : ∀ qc : Queue, qc.allocator = none →
          ∃ q1, rerouteLoop dest qc rest = .ok () q1 := fun qc hc => (ih haway2).2 hc
      cases dest with
      | none => exact key qb hb2
      | some ex =>
        simp only
        rw [routeWithAlternate_away (haway1 ex rfl)]
        exact key _ hb2

theorem routeWithAlternate_pushFrame {q q1 : Queue} {ex : Exchange} {msg : Message}
    (h : (q.routeWithAlternate ex msg).state? = some q1) :
    ∃ delta, q1.observers = q.observers.map (fun o => o.deliver delta) := by
  unfold routeWithAlternate at h
  simp only at h
  split at h
  · obtain ⟨delta, hd, -⟩ := deliver_pushFrame h
    exact ⟨delta, hd⟩
  · simp only [Outcome.state?, Option.some.injEq] at h
    subst h
    exact ⟨[], by simp [deliver_nil]⟩

theorem rerouteLoop_acquired (dest : Option Exchange) : ∀ (l : List QueuedMessage)
    {q q1 : Queue}, rerouteLoop dest q l = .ok () q1 →
    ∃ delta, q1.observers = q.observers.map (fun o => o.deliver delta) ∧
      l.Sublist (acquiredMessages delta) := by
  intro l
  induction l with
  | nil =>
    intro q q1 h
    simp only [rerouteLoop, Outcome.ok.injEq, true_and] at h
    subst h
    exact ⟨[], by simp [deliver_nil], List.Sublist.refl _⟩
  | cons qm rest ih =>
    intro q q1 h
    unfold rerouteLoop at h
    cases ha : q.acquired qm with
    | none =>
      rw [ha] at h
      cases h
    | some qa =>
      rw [ha] at h
      simp only at h
      cases hb : qa.dequeue false qm with
      | none =>
        rw [hb] at h
        cases h
      | some rb =>
        obtain ⟨r, qb⟩ := rb
        rw [hb] at h
        simp only at h
        have fa := acquired_frame ha
        obtain ⟨db, fb, hdb⟩ := dequeue_frame hb
        have hdb0 : acquiredMessages db = [] := by
          rcases hdb with hdb | hdb <;> subst hdb <;> rfl
        have hrest : ∃ qc dc, qc.observers = qb.observers.map (fun o => o.deliver dc) ∧
            rerouteLoop dest qc rest = .ok () q1 := by
          cases dest with
          | none => exact ⟨qb, [], by simp [deliver_nil], h⟩
          | some ex =>
            simp only at h
            cases hr : qb.routeWithAlternate ex qm.payload with
            | aborted =>
              rw [hr] at h
              cases h
            | raised e qc =>
              rw [hr] at h
              cases h
            | ok v qc =>
              rw [hr] at h
              obtain ⟨dc, hdc⟩ := routeWithAlternate_pushFrame
                (show (qb.routeWithAlternate ex qm.payload).state? = some qc by rw [hr]; rfl)
              exact ⟨qc, dc, hdc, h⟩
        obtain ⟨qc, dc, hdc, hc⟩ := hrest
        obtain ⟨dd, hdd, hsub⟩ := ih hc
        refine ⟨[.acquired qm] ++ (db ++ (dc ++ dd)), ?_, ?_⟩
        · rw [hdd, hdc, fb.1, fa.1, map_deliver_deliver, map_deliver_deliver,
            map_deliver_deliver]
        · rw [acquiredMessages_append, acquiredMessages_append, acquiredMessages_append, hdb0]
          simp only [acquiredMessages, List.nil_append, List.singleton_append]
          exact List.Sublist.cons₂ qm (hsub.trans (List.sublist_append_right _ _))

theorem routeWithAlternate_self_step {q : Queue} (hpol : q.policy = none)
    (halloc : q.allocator = none) (hkey : q.messages.key = none) (ex : Exchange)
    (msg : Message) :
    ∃ q1, q.routeWithAlternate ex msg = .ok () q1 ∧ SameSetup q q1 ∧
      ((ex.routesHere msg && !q.drops msg) = false →
        q1.messages = q.messages ∧ q1.sequence = q.sequence) ∧
      ((ex.routesHere msg && !q.drops msg) = true →
        ∃ payload, q1.messages.items = q.messages.items ++ [⟨payload, q.sequence + 1⟩] ∧
          q1.sequence = q.sequence + 1 ∧ SameContent msg payload ∧
          (q.traceId = "" → q.insertSeqNo = false → payload = msg)) := by
  unfold routeWithAlternate
  simp only
  cases hr : ex.routesHere msg with
  | false =>
    simp only [Bool.false_eq_true, if_false, Bool.false_and]
    exact ⟨_, rfl, ⟨rfl, rfl, rfl, rfl, rfl, rfl, rfl, rfl, rfl, rfl, rfl⟩,
      fun _ => ⟨rfl, rfl⟩, fun h => absurd h (by simp)⟩
  | true =>
    simp only [if_true, Bool.true_and]
    obtain ⟨q1, h1, s1, hdrop, hpass⟩ := deliver_self_step
      (q := { q with rerouted := q.rerouted ++ [(ex.name, msg)] }) hpol halloc hkey msg
    have hd : ({ q with rerouted := q.rerouted ++ [(ex.name, msg)] } : Queue).drops msg
        = q.drops msg := rfl
    rw [hd] at hdrop hpass
    refine ⟨q1, h1, ?_, fun h => ?_, fun h => ?_⟩
    · obtain ⟨a1, a2, a3, a4, a5, a6, a7, a8, a9, a10, a11⟩ := s1
      exact ⟨a1, a2, a3, a4, a5, a6, a7, a8, a9, a10, a11⟩
    · have h2 : q.drops msg = true := by simpa using h
      exact hdrop h2
    · have h2 : q.drops msg = false := by simpa using h
      exact hpass h2

theorem rerouteLoop_self (ex : Exchange) : ∀ (l : List QueuedMessage) (q : Queue),
    q.policy = none → q.allocator = none → q.messages.key = none →
    ∃ q1 pushed, rerouteLoop (some ex) q l = .ok () q1 ∧ SameSetup q q1 ∧
      q1.messages.items = q.messages.items ++ pushed ∧
      pushed.map QueuedMessage.position = List.range' (q.sequence + 1) pushed.length ∧
      q1.sequence = q.sequence + pushed.length ∧
      List.Forall₂ (fun x y => SameContent x.payload y.payload ∧
          (q.traceId = "" → q.insertSeqNo = false → y.payload = x.payload))
        (l.filter (fun x => ex.routesHere x.payload && !q.drops x.payload)) pushed := by
  intro l
  induction l with
  | nil =>
    intro q _ _ _
    exact ⟨q, [], rfl, sameSetup_refl q, by simp, rfl, rfl, List.Forall₂.nil⟩
  | cons qm rest ih =>
    intro q hpol halloc hkey
    unfold rerouteLoop
    obtain ⟨qa, ha, -⟩ := notifyObservers_total (.acquired qm) halloc
    obtain ⟨sa, ma, ea⟩ := notifyObservers_setup ha halloc
    have ha2 : q.acquired qm = some qa := ha
    rw [ha2]
    have hpola : qa.policy = none := sa.1.trans hpol
    have halloca : qa.allocator = none := sa.2.1.trans halloc
    obtain ⟨b, qb, hb, -⟩ := dequeue_total false qm halloca
    obtain ⟨sb, mb, eb⟩ := dequeue_setup hpola halloca hb
    simp only [hb]
    have sab := sameSetup_trans sa sb
    have hpolb : qb.policy = none := sab.1.trans hpol
    have hallocb : qb.allocator = none := sab.2.1.trans halloc
    have hmb : qb.messages = q.messages := mb.trans ma
    have heb : qb.sequence = q.sequence := eb.trans ea
    have hkeyb : qb.messages.key = none := by rw [hmb]; exact hkey
    obtain ⟨qc, hc, sc, hdrop, hpass⟩ :=
      routeWithAlternate_self_step hpolb hallocb hkeyb ex qm.payload
    simp only [hc]
    have sac := sameSetup_trans sab sc
    have hpolc : qc.policy = none := sac.1.trans hpol
    have hallocc : qc.allocator = none := sac.2.1.trans halloc
    have hkeyc : qc.messages.key = none := sac.2.2.2.2.2.2.2.2.2.2.trans hkey
    obtain ⟨q1, pushed, h1, s1, m1, p1, e1, f1⟩ := ih qc hpolc hallocc hkeyc
    have hd : qb.drops qm.payload = q.drops qm.payload := drops_congr sab qm.payload
    have hfilter : (rest.filter (fun x => ex.routesHere x.payload && !qc.drops x.payload))
        = rest.filter (fun x => ex.routesHere x.payload && !q.drops x.payload) := by
      apply List.filter_congr
      intro x _
      rw [drops_congr sac]
    have htr : qc.traceId = q.traceId := sac.2.2.2.2.2.2.2.2.1
    have hin : qc.insertSeqNo = q.insertSeqNo := sac.2.2.2.2.2.2.2.2.2.1
    rw [hfilter, htr, hin] at f1
    rw [hd] at hdrop hpass
    cases hdq : (ex.routesHere qm.payload && !q.drops qm.payload) with
    | false =>
      obtain ⟨hm, he⟩ := hdrop hdq
      refine ⟨q1, pushed, h1, sameSetup_trans sac s1, ?_, ?_, ?_, ?_⟩
      · rw [m1, hm, hmb]
      · rw [p1, he, heb]
      · rw [e1, he, heb]
      · simp only [List.filter_cons, hdq, Bool.false_eq_true, if_false]
        exact f1
    | true =>
      obtain ⟨payload, hm, he, hcont, hsame⟩ := hpass hdq
      refine ⟨q1, ⟨payload, q.sequence + 1⟩ :: pushed, h1, sameSetup_trans sac s1, ?_, ?_, ?_,
        ?_⟩
      · rw [m1, hm, hmb, heb]
        simp
      · rw [List.map_cons, p1, he, heb]
        simp [List.range'_succ]
      · rw [e1, he, heb]
        simp only [List.length_cons]
        omega
      · simp only [List.filter_cons, hdq, if_true]
        refine List.Forall₂.cons ⟨hcont, fun ht hi => hsame ?_ ?_⟩ f1
        · rw [sab.2.2.2.2.2.2.2.2.1]
          exact ht
        · rw [sab.2.2.2.2.2.2.2.2.2.1]
          exact hi

theorem purge_count {q : Queue} {purge_request : Nat} {mf : MessageFilter}
    (hsize : q.messages.size < UINT32_SIZE) :
    (q.messages.removeIf Collector.call
        { maxMatches := purge_request, filter := mf }).2.matched.length % UINT32_SIZE
      = (if purge_request = 0 then (q.messages.items.filter mf.isMatch).length
         else min purge_request (q.messages.items.filter mf.isMatch).length) := by
  rw [(collector_pass purge_request mf q.messages).1]
  have hle : (q.messages.items.filter mf.isMatch).length ≤ q.messages.items.length :=
    List.length_filter_le _ _
  have hlt : q.messages.items.length < UINT32_SIZE := hsize
  by_cases hn : purge_request = 0
  · simp only [hn, if_true]
    exact Nat.mod_eq_of_lt (by omega)
  · simp only [hn, if_false, List.length_take]
    exact Nat.mod_eq_of_lt (by omega)

theorem purge_of_loop {q : Queue} {purge_request : Nat} {dest : Option Exchange}
    {filter : Option (List (String × Variant))} {mf : MessageFilter}
    (hmf : MessageFilter.create filter = some mf) :
    q.purge purge_request dest filter
      = match rerouteLoop dest { q with messages :=
            (q.messages.removeIf Collector.call
              { maxMatches := purge_request, filter := mf }).1 }
          (q.messages.removeIf Collector.call
              { maxMatches := purge_request, filter := mf }).2.matched with
        | .aborted => .aborted
        | .raised e q1 => .raised e q1
        | .ok _ q1 => .ok ((q.messages.removeIf Collector.call
              { maxMatches := purge_request, filter := mf }).2.matched.length % UINT32_SIZE)
            q1 := by
  unfold purge
  simp only [hmf]
  try rfl

/-- C12 as stated fails.  A queue holds message 1 at position 1; it is purged with a
destination exchange whose bindings lead back to the queue.  (1) The purge returns 1, and
afterwards the container holds message 1 again, at position 2: the message was taken out,
`acquired` and `dequeued` were called for it, and `deliver` put it back at the back.
(2) When the policy of the queue rejects the message, the purge raises
ResourceLimitExceeded and returns no count. -/
theorem purge_reroutes_back :
    ((purge { observers := [{}], messages := { items := [⟨{ id := 1 }, 1⟩] }, sequence := 1 }
        0 (some { name := "ex", routesHere := fun _ => true }) none).value? = some 1) ∧
    ((purge { observers := [{}], messages := { items := [⟨{ id := 1 }, 1⟩] }, sequence := 1 }
        0 (some { name := "ex", routesHere := fun _ => true }) none).state?.map
      (fun q1 => (q1.messages.items.map (fun x => (x.payload.id, x.position)), q1.sequence,
        q1.observers.map (fun o => o.seen)))
      = some ([(1, 2)], 2,
          [[.acquired ⟨{ id := 1 }, 1⟩, .dequeued ⟨{ id := 1 }, 1⟩,
            .enqueued ⟨{ id := 1 }, 2⟩]])) ∧
    ((purge { policy := some { rejectsAfter := fun _ _ => true },
              messages := { items := [⟨{ id := 1 }, 1⟩] }, sequence := 1 }
        0 (some { name := "ex", routesHere := fun _ => true }) none).error?
      = some .ResourceLimitExceeded) ∧
    ((purge { policy := some { rejectsAfter := fun _ _ => true },
              messages := { items := [⟨{ id := 1 }, 1⟩] }, sequence := 1 }
        0 (some { name := "ex", routesHere := fun _ => true }) none).value? = none) := by
  decide

/-- C12, amended: `purge(purge_request, dest, filter)` with the filter `mf` that
`MessageFilter::create` builds from the filter map, on a queue holding fewer than 2^32
messages.  Let `removed` be every message that `mf` matches, in container order, when
`purge_request` is 0, and the first `purge_request` of them otherwise.
(1) Whatever the destination, when the call returns, the count returned is the number of
matching messages when `purge_request` is 0 and the smaller of `purge_request` and that
number otherwise, and every observer has got new callbacks among which the `acquired` ones
hold those of `removed`, in order.
(2) When no destination is given, or the destination routes no message of `removed` back to
this queue: the call raises nothing; when it returns, the messages left are the old ones
without `removed`, in their order (a sublist of the old container which, with `removed`,
makes up the old messages); the `acquired` callbacks are exactly those of `removed`, in
order; on a queue that is not deleted and whose policy holds the messages as enqueued, the
new callbacks are exactly `acquired` then `dequeued` for each message of `removed` in turn;
without a group manager no assertion can fail and the call returns.
(3) When the destination routes messages back to this queue, on a queue with the default
allocator, no policy and the Deque container: the call returns the count; the container
holds afterwards the messages that were not removed, in their order, followed by the
messages `pushed`, one for each message of `removed` that the exchange routes back and
`deliver` does not drop, in the same order: each is the message removed (but for the trace
identity and the sequence header, when the queue writes them), at the sequence numbers that
follow `q.sequence`. -/
theorem purge_contract (q : Queue) (purge_request : Nat) (dest : Option Exchange)
    (filter : Option (List (String × Variant))) (mf : MessageFilter)
    (hmf : MessageFilter.create filter = some mf) (hsize : q.messages.size < UINT32_SIZE) :
    (∀ k q1, q.purge purge_request dest filter = .ok k q1 →
      k = (if purge_request = 0 then (q.messages.items.filter mf.isMatch).length
           else min purge_request (q.messages.items.filter mf.isMatch).length) ∧
      ∃ delta, q1.observers = q.observers.map (fun o => o.deliver delta) ∧
        (if purge_request = 0 then q.messages.items.filter mf.isMatch
         else (q.messages.items.filter mf.isMatch).take purge_request).Sublist
          (acquiredMessages delta)) ∧
    ((∀ ex, dest = some ex →
        ∀ x ∈ (if purge_request = 0 then q.messages.items.filter mf.isMatch
               else (q.messages.items.filter mf.isMatch).take purge_request),
          ex.routesHere x.payload = false) →
      (q.purge purge_request dest filter).error? = none ∧
      (∀ k q1, q.purge purge_request dest filter = .ok k q1 →
        q1.messages.items.Sublist q.messages.items ∧
        (q1.messages.items ++
          (if purge_request = 0 then q.messages.items.filter mf.isMatch
           else (q.messages.items.filter mf.isMatch).take purge_request)).Perm
          q.messages.items ∧
        (∃ delta, q1.observers = q.observers.map (fun o => o.deliver delta) ∧
          acquiredMessages delta
            = (if purge_request = 0 then q.messages.items.filter mf.isMatch
               else (q.messages.items.filter mf.isMatch).take purge_request)) ∧
        (q.deleted = false → KeepsEnqueued q →
          q1.observers = q.observers.map (fun o => o.deliver
            ((if purge_request = 0 then q.messages.items.filter mf.isMatch
              else (q.messages.items.filter mf.isMatch).take purge_request).flatMap
              (fun x => [Notification.acquired x, Notification.dequeued x]))))) ∧
      (q.allocator = none → ∃ k q1, q.purge purge_request dest filter = .ok k q1)) ∧
    (∀ ex, dest = some ex → q.policy = none → q.allocator = none → q.messages.key = none →
      ∃ q1 pushed,
        q.purge purge_request dest filter
          = .ok (if purge_request = 0 then (q.messages.items.filter mf.isMatch).length
                 else min purge_request (q.messages.items.filter mf.isMatch).length) q1 ∧
        q1.messages.items
          = (q.messages.removeIf Collector.call
              { maxMatches := purge_request, filter := mf }).1.items ++ pushed ∧
        (q.messages.removeIf Collector.call
            { maxMatches := purge_request, filter := mf }).1.items.Sublist q.messages.items ∧
        ((q.messages.removeIf Collector.call
            { maxMatches := purge_request, filter := mf }).1.items
          ++ (if purge_request = 0 then q.messages.items.filter mf.isMatch
              else (q.messages.items.filter mf.isMatch).take purge_request)).Perm
          q.messages.items ∧
        pushed.map QueuedMessage.position = List.range' (q.sequence + 1) pushed.length ∧
        (∀ y ∈ pushed, q.sequence < y.position) ∧
        q1.sequence = q.sequence + pushed.length ∧
        List.Forall₂ (fun x y => SameContent x.payload y.payload ∧
            (q.traceId = "" → q.insertSeqNo = false → y.payload = x.payload))
          ((if purge_request = 0 then q.messages.items.filter mf.isMatch
            else (q.messages.items.filter mf.isMatch).take purge_request).filter
              (fun x => ex.routesHere x.payload && !q.drops x.payload)) pushed) := by
  obtain ⟨h1, h2, h3⟩ := collector_pass purge_request mf q.messages
  have hp := @purge_of_loop q purge_request dest filter mf hmf
  have hcount := @purge_count q purge_request mf hsize
  refine ⟨fun k q1 h => ?_, fun haway => ?_, fun ex hdest hpol halloc hkey => ?_⟩
  · rw [hp] at h
    cases hl : rerouteLoop dest { q with messages :=
          (q.messages.removeIf Collector.call
            { maxMatches := purge_request, filter := mf }).1 }
        (q.messages.removeIf Collector.call
            { maxMatches := purge_request, filter := mf }).2.matched with
    | aborted =>
      rw [hl] at h
      cases h
    | raised e qa =>
      rw [hl] at h
      cases h
    | ok v qa =>
      rw [hl] at h
      simp only [Outcome.ok.injEq] at h
      obtain ⟨hk, hq⟩ := h
      subst hq
      obtain ⟨delta, hobs, hsub⟩ := rerouteLoop_acquired dest _ hl
      rw [h1] at hsub
      exact ⟨by rw [← hk, hcount], delta, hobs, hsub⟩
  · have haway2 : ∀ ex, dest = some ex →
        ∀ x ∈ (q.messages.removeIf Collector.call
            { maxMatches := purge_request, filter := mf }).2.matched,
          ex.routesHere x.payload = false := by
      rw [h1]
      exact haway
    obtain ⟨hret, htot⟩ := rerouteLoop_away dest
      (q.messages.removeIf Collector.call { maxMatches := purge_request, filter := mf }).2.matched
      (q := { q with messages :=
        (q.messages.removeIf Collector.call { maxMatches := purge_request, filter := mf }).1 })
      haway2
    refine ⟨?_, fun k q1 h => ?_, fun halloc => ?_⟩
    · rw [hp]
      cases hl : rerouteLoop dest { q with messages :=
            (q.messages.removeIf Collector.call
              { maxMatches := purge_request, filter := mf }).1 }
          (q.messages.removeIf Collector.call
              { maxMatches := purge_request, filter := mf }).2.matched with
      | aborted => rfl
      | raised e qa =>
        have h5 := (hret qa (by rw [hl]; rfl)).1
        rw [hl] at h5
        cases h5
      | ok v qa => rfl
    · rw [hp] at h
      cases hl : rerouteLoop dest { q with messages :=
            (q.messages.removeIf Collector.call
              { maxMatches := purge_request, filter := mf }).1 }
          (q.messages.removeIf Collector.call
              { maxMatches := purge_request, filter := mf }).2.matched with
      | aborted =>
        rw [hl] at h
        cases h
      | raised e qa =>
        rw [hl] at h
        cases h
      | ok v qa =>
        rw [hl] at h
        simp only [Outcome.ok.injEq] at h
        obtain ⟨-, hq⟩ := h
        subst hq
        obtain ⟨-, -, ⟨delta, fd, had⟩, hfire⟩ := hret qa (by rw [hl]; rfl)
        rw [h1] at had hfire
        refine ⟨?_, ?_, ⟨delta, fd.1, had⟩, fun hdel hkeep => (hfire hdel hkeep).1⟩
        · rw [fd.2.1]
          exact h2
        · rw [fd.2.1]
          exact h3
    · obtain ⟨qa, ha⟩ := htot halloc
      rw [hp, ha]
      exact ⟨_, _, rfl⟩
  · subst hdest
    obtain ⟨q1, pushed, hl, -, hm, hpos, he, hf⟩ := rerouteLoop_self ex
      (q.messages.removeIf Collector.call { maxMatches := purge_request, filter := mf }).2.matched
      { q with messages :=
          (q.messages.removeIf Collector.call { maxMatches := purge_request, filter := mf }).1 }
      hpol halloc hkey
    have hdrops : ∀ msg, ({ q with messages :=
        (q.messages.removeIf Collector.call
          { maxMatches := purge_request, filter := mf }).1 } : Queue).drops msg
        = q.drops msg := fun _ => rfl
    simp only [hdrops] at hf
    rw [h1] at hf
    refine ⟨q1, pushed, ?_, hm, h2, h3, hpos, ?_, he, hf⟩
    · rw [hp, hl]
      simp only [hcount]
    · intro y hy
      have hy2 : y.position ∈ pushed.map QueuedMessage.position := List.mem_map_of_mem _ hy
      rw [hpos] at hy2
      have hy3 := (List.mem_range'_1.mp hy2).1
      have hs : ({ q with messages :=
        (q.messages.removeIf Collector.call
          { maxMatches := purge_request, filter := mf }).1 } : Queue).sequence
        = q.sequence := rfl
      omega

/-- C12, amended, at concrete queues.  Of four messages of which three carry the header
`k = "x"`, a purge of at most two messages with that header, without destination, returns
and leaves a sublist of the old container.  A purge of the two messages of a queue through
an exchange that routes them back returns 2 and leaves them in the container at positions
3 and 4. -/
theorem purge_contract_witness :
    (∃ k q1, purge { observers := [{}], messages := { items :=
          [⟨{ id := 1, headers := some [("k", FieldValue.str "x")] }, 1⟩,
           ⟨{ id := 2, headers := some [("k", FieldValue.str "y")] }, 2⟩,
           ⟨{ id := 3, headers := some [("k", FieldValue.str "x")] }, 3⟩,
           ⟨{ id := 4, headers := some [("k", FieldValue.str "x")] }, 4⟩] }, sequence := 4 }
        2 none (some [("filter_params", Variant.map
            [("header_key", Variant.scalar .VAR_STRING "k"),
             ("header_value", Variant.scalar .VAR_STRING "x")]),
          ("filter_type", Variant.scalar .VAR_STRING "header_match_str")]) = .ok k q1) ∧
    (∃ q1 pushed,
      purge { messages := { items := [⟨{ id := 1 }, 1⟩, ⟨{ id := 2 }, 2⟩] }, sequence := 2 }
        0 (some { name := "ex", routesHere := fun _ => true }) none = .ok 2 q1 ∧
      q1.messages.items = pushed ∧
      pushed.map QueuedMessage.position = List.range' 3 pushed.length ∧
      pushed.map QueuedMessage.payload = [{ id := 1 }, { id := 2 }]) := by
  refine ⟨?_, ?_⟩
  · refine ((purge_contract _ 2 none _ (.headerMatch "k" "x") ?_ ?_).2.1 ?_).2.2 rfl
    · decide
    · decide
    · intro ex hex
      cases hex
  · obtain ⟨q1, pushed, h1, h2, -, -, h5, -, -, h8⟩ := (purge_contract
      { messages := { items := [⟨{ id := 1 }, 1⟩, ⟨{ id := 2 }, 2⟩] }, sequence := 2 }
      0 (some { name := "ex", routesHere := fun _ => true }) none .all rfl (by decide)).2.2
      { name := "ex", routesHere := fun _ => true } rfl rfl rfl rfl
    refine ⟨q1, pushed, h1, h2, h5, ?_⟩
    have h9 : List.Forall₂ (fun (x y : QueuedMessage) => y.payload = x.payload)
        [⟨{ id := 1 }, 1⟩, ⟨{ id := 2 }, 2⟩] pushed :=
      List.Forall₂.imp (fun _ _ h => h.2 rfl rfl) h8
    cases h9 with
    | cons ha hr =>
      cases hr with
      | cons hb hn =>
        cases hn
        simp only [List.map_cons, List.map_nil, ha, hb]

end Queue

end Qpid
